import Mathlib

/-!
# A shallow embedding of `src/bigint/bigint.c`

The library stores an integer as a sign and a little-endian array of base-10^9
segments.  Every C function that mutates its argument through a pointer is a
function from the old object to the new one; a function that may mutate two of its
arguments returns both.  Conventions of the embedding:

* `bigint.data` holds the live segments `p_data[0 .. data_len)`, so `data_len` is
  the length of that list.  Slots between `data_len` and `mem_size` are never read
  by the library before it has written them, and are not represented.
* `int` and `long long` values are mathematical integers.  On well-formed operands
  every intermediate value of the arithmetic below stays under 2^31 (respectively
  2^63); where a value can leave the 32-bit range it is reduced with `wrap_int`: the
  negation in `bigint_from_int`, the accumulation in `bigint_to_int`, and the
  exponent `atoi` returns in `bigint_from_string`.  Positions in a text, digit
  counts and the sum `approx_len` of the exponent and a digit count are taken to fit
  an `int`; C leaves their overflow undefined.
* An `assert` that only restates what holds of well-formed operands is not part of
  the behaviour.  Two assertions of `bigint_divmod` can fail on well-formed operands
  and are part of the embedding, a failing assertion being the result `none`:
  `assert(try_count < 20)`, which bounds the correction loop, and
  `assert(bigint_divmod_check(a, b, q, r))`, which stands before every return but the
  one for a zero divisor and recomputes `b * q + r` with the library's own
  arithmetic.
* Code that computes in `double` is not embedded.  `bigint_newton_inversion` is
  represented by a parameter of `bigint_divmod` that stands for its two outputs.
* A C string is the list of its characters up to the first NUL.
-/

namespace Bigint

/-! ## Constants and data model -/

/-- The radix of one segment (`BIGINT_RADIX`). -/
abbrev BIGINT_RADIX : Int := 1000000000

/-- Decimal width of one segment (`BIGINT_RADIX_LOG10`). -/
abbrev BIGINT_RADIX_LOG10 : Nat := 9

/-- Initial capacity (`BIGINT_INIT_MEM_SIZE`). -/
abbrev BIGINT_INIT_MEM_SIZE : Nat := 4

/-- Maximum number of decimal digits of an `int` (`BIGINT_INT_MAX_DIGITS`). -/
abbrev BIGINT_INT_MAX_DIGITS : Nat := 10

/-- Length threshold of the schoolbook multiplication (`BIGINT_MUL_THRESHOLD`). -/
abbrev BIGINT_MUL_THRESHOLD : Nat := 100

/-- Modelled from the spec: the error codes of `bigint.h`, which is not among the
sources: success, InvalidArgument and Overflow. -/
inductive bigint_errno where
  | BIGINT_NOERR
  | BIGINT_ILLEGAL_PARAM
  | BIGINT_OVERFLOW
  deriving DecidableEq, Repr

/-- Modelled from the spec: the `bigint` record of `bigint.h` (sign, segment
array, length, capacity), with the live part of the array as a list. -/
structure bigint where
  sign : Int
  data : List Int
  mem_size : Nat
  deriving DecidableEq, Repr

/-- The field `data_len`. -/
def bigint.data_len (p : bigint) : Nat := p.data.length

/-- Two's-complement wrap of a 32-bit `int`. -/
def wrap_int (v : Int) : Int := (v + 2147483648) % 4294967296 - 2147483648

/-- The terminating character of a C string. -/
def NUL : Char := Char.ofNat 0

/-! ## Digit-vector core -/

/-- `bigint_check_sign`: a one-segment zero gets sign 0. -/
def bigint_check_sign (p : bigint) : bigint :=
  if p.data = [0] then { p with sign := 0 } else p

/-- `bigint_assure_memory`: grow the capacity to `2 * min_size + 2` when it is below
`min_size`. -/
def bigint_assure_memory (p : bigint) (min_size : Nat) : bigint :=
  if min_size > p.mem_size then { p with mem_size := min_size * 2 + 2 } else p

/-- Removes the zero segments at the most-significant end of a list. -/
def strip_zeros : List Int → List Int
  | [] => []
  | x :: xs =>
    match strip_zeros xs with
    | [] => if x = 0 then [] else [x]
    | y :: ys => x :: y :: ys

/-- The loop of `bigint_pack_memory`: while `index > 0` and the top segment is zero,
shorten the number.  Segment 0 is never removed. -/
def pack_trim : List Int → List Int
  | [] => []
  | x :: xs => x :: strip_zeros xs

/-- `bigint_pack_memory`: trim, shrink the capacity to twice the length when less
than a quarter is used, then `bigint_check_sign`. -/
def bigint_pack_memory (p : bigint) : bigint :=
  let data := pack_trim p.data
  let mem := if data.length * 4 < p.mem_size then data.length * 2 else p.mem_size
  bigint_check_sign { sign := p.sign, data := data, mem_size := mem }

/-- `bigint_init`. -/
def bigint_init : bigint := { sign := 0, data := [0], mem_size := BIGINT_INIT_MEM_SIZE }

/-- `bigint_set_zero`. -/
def bigint_set_zero (p : bigint) : bigint :=
  bigint_pack_memory { sign := 0, data := [0], mem_size := p.mem_size }

/-- `bigint_set_one`. -/
def bigint_set_one (p : bigint) : bigint :=
  bigint_pack_memory { sign := 1, data := [1], mem_size := p.mem_size }

/-- `bigint_change_sign`. -/
def bigint_change_sign (p : bigint) : bigint :=
  bigint_check_sign { p with sign := -p.sign }

/-- `bigint_copy`: the destination receives the segments and the sign of the
source and is packed. -/
def bigint_copy (dst src : bigint) : bigint :=
  let d := bigint_assure_memory dst src.data_len
  bigint_pack_memory { sign := src.sign, data := src.data, mem_size := d.mem_size }

/-- The loop of `bigint_from_int`: peel base-10^9 segments off a positive value,
growing the capacity for each one.  The fuel bounds the number of iterations. -/
def from_int_loop : Nat → Int → bigint → bigint
  | 0, _, p => p
  | fuel + 1, value, p =>
    if value > 0 then
      let p1 := bigint_assure_memory p (p.data_len + 1)
      from_int_loop fuel (value / BIGINT_RADIX)
        { p1 with data := p1.data ++ [value % BIGINT_RADIX] }
    else p

/-- `bigint_from_int`.  The negation of a negative argument wraps at 32 bits. -/
def bigint_from_int (p : bigint) (value : Int) : bigint :=
  let sign : Int := if value < 0 then -1 else if value > 0 then 1 else 0
  let value := if value < 0 then wrap_int (-value) else value
  if value = 0 then
    bigint_pack_memory { sign := sign, data := [0], mem_size := p.mem_size }
  else
    bigint_pack_memory
      (from_int_loop value.toNat value { sign := sign, data := [], mem_size := p.mem_size })

/-! ## Values and well-formedness -/

/-- The number denoted by a list of segments, least significant first. -/
def seg_value : List Int → Int
  | [] => 0
  | x :: xs => x + BIGINT_RADIX * seg_value xs

/-- The integer a bigint denotes: sign times the sum of `segment_i * 10^(9 i)`. -/
def value (p : bigint) : Int := p.sign * seg_value p.data

/-- The representation invariant of the data model. -/
def well_formed (p : bigint) : Prop :=
  (p.sign = -1 ∨ p.sign = 0 ∨ p.sign = 1) ∧
  1 ≤ p.data.length ∧
  (∀ s ∈ p.data, 0 ≤ s ∧ s < BIGINT_RADIX) ∧
  (1 < p.data.length → p.data.getLast? ≠ some 0) ∧
  (p.sign = 0 ↔ p.data = [0]) ∧
  p.data.length ≤ p.mem_size

instance (p : bigint) : Decidable (well_formed p) := by
  unfold well_formed; infer_instance

/-! ## Decimal text: parsing -/

/-- The characters of a C string: everything before the first NUL. -/
def c_string (str : List Char) : List Char := str.takeWhile (fun c => c ≠ NUL)

/-- The character `str[pos]`; NUL outside the text. -/
def str_at (s : List Char) (pos : Int) : Char :=
  if pos < 0 then NUL else s.getD pos.toNat NUL

/-- The variables of the parser of `bigint_from_string`. -/
structure fsm_vars where
  state : Nat
  has_neg_sign : Bool
  fixed_begin : Int
  fixed_end : Int
  fraction_begin : Int
  fraction_end : Int
  mantissa_begin : Int
  mantissa_end : Int
  deriving DecidableEq, Repr

/-- The initial values of the parser variables. -/
def fsm_init : fsm_vars :=
  { state := 0, has_neg_sign := false, fixed_begin := -1, fixed_end := -1,
    fraction_begin := -1, fraction_end := -1, mantissa_begin := -1, mantissa_end := -1 }

/-- One iteration of the parsing loop: the `switch (state)` applied to the character
`ch` at position `index`; `none` is `return -BIGINT_ILLEGAL_PARAM`. -/
def fsm_step (v : fsm_vars) (index : Int) (ch : Char) : Option fsm_vars :=
  match v.state with
  | 0 =>
    if ch = '+' then some { v with state := 1 }
    else if ch = '-' then some { v with has_neg_sign := true, state := 1 }
    else if ch.isDigit then some { v with fixed_begin := index, state := 2 }
    else none
  | 1 =>
    if ch.isDigit then some { v with fixed_begin := index, state := 2 } else none
  | 2 =>
    if ch.isDigit then some { v with fixed_end := index }
    else if ch = '.' then some { v with fixed_end := index, state := 3 }
    else if ch = 'E' ∨ ch = 'e' then
      some { v with fixed_end := index, mantissa_begin := index, state := 5 }
    else none
  | 3 =>
    if ch.isDigit then some { v with fraction_begin := index, state := 4 } else none
  | 4 =>
    if ch.isDigit then some { v with fraction_end := index }
    else if ch = 'E' ∨ ch = 'e' then some { v with fraction_end := index, state := 5 }
    else none
  | 5 =>
    if ch.isDigit then some { v with mantissa_begin := index, state := 7 }
    else if ch = '+' ∨ ch = '-' then some { v with mantissa_begin := index, state := 6 }
    else none
  | 6 =>
    if ch.isDigit then some { v with mantissa_end := index + 1, state := 7 } else none
  | 7 =>
    if ch.isDigit then some { v with mantissa_end := index + 1 } else none
  | _ => some v

/-- The parsing loop over the characters from position `index` on. -/
def fsm_loop : fsm_vars → Int → List Char → Option fsm_vars
  | v, _, [] => some v
  | v, index, ch :: rest =>
    match fsm_step v index ch with
    | none => none
    | some v1 => fsm_loop v1 (index + 1) rest

/-- The test after the loop: only the states 2, 4 and 7 accept, and each records
the end of its part. -/
def fsm_finish (v : fsm_vars) (index : Int) : Option fsm_vars :=
  if v.state = 2 then some { v with fixed_end := index }
  else if v.state = 4 then some { v with fraction_end := index }
  else if v.state = 7 then some { v with mantissa_end := index }
  else none

/-- The digits read by `atoi`. -/
def atoi_digits : Int → List Char → Int
  | acc, [] => acc
  | acc, c :: cs => if c.isDigit then atoi_digits (acc * 10 + ((c.toNat : Int) - 48)) cs else acc

/-- The value `strtol` returns for a decimal text that denotes `v`: `v` itself,
saturated at `LONG_MIN` and `LONG_MAX` (64 bits). -/
def strtol_clamp (v : Int) : Int :=
  if v < -9223372036854775808 then -9223372036854775808
  else if v > 9223372036854775807 then 9223372036854775807
  else v

/-- The conversion `(int) strtol(...)` that `atoi` performs on a text that denotes
`v`: the `long` is reduced modulo 2^32 to an `int`. -/
def strtol_to_int (v : Int) : Int := wrap_int (strtol_clamp v)

/-- The C library function `atoi` at a position that holds an optional sign followed
by digits (the only way `bigint_from_string` calls it).  The result is an `int`, and
`bigint_from_string` stores it in the `int mantissa_value`.  The C standard leaves
`atoi` undefined when the number does not fit; the embedding follows the GNU C
library with a 64-bit `long`, where `atoi(s)` is `(int) strtol(s, NULL, 10)`, so an
exponent outside the 32-bit range does not keep its value. -/
def atoi (s : List Char) : Int :=
  match s with
  | [] => 0
  | c :: cs =>
    if c = '-' then strtol_to_int (-(atoi_digits 0 cs))
    else if c = '+' then strtol_to_int (atoi_digits 0 cs)
    else strtol_to_int (atoi_digits 0 (c :: cs))

/-- The loop that drops `drop` low-order digits, remembering in `carry` whether the
last digit dropped is at least 5.  Returns the new `pos` and `carry`. -/
def drop_loop (s : List Char) : Nat → Int → Int → Int × Int
  | 0, pos, carry => (pos, carry)
  | drop + 1, pos, _ =>
    let pos1 := if str_at s pos = '.' then pos - 1 else pos
    let carry1 : Int := if str_at s pos1 ≥ '5' then 1 else 0
    drop_loop s drop (pos1 - 1) carry1

/-- The loop `while (index * 9 + i < mantissa_value) weight *= 10`, as the number of
its iterations. -/
def weight_loop : Nat → Int → Int
  | 0, weight => weight
  | n + 1, weight => weight_loop n (weight * 10)

/-- The variables of the loop that writes the digits into the segments. -/
structure write_vars where
  p_data : List Int
  index : Nat
  weight : Int
  carry : Int
  is_zero : Bool
  pos : Int
  deriving DecidableEq, Repr

/-- One iteration of the writing loop of `bigint_from_string`. -/
def write_step (s : List Char) (w : write_vars) : write_vars :=
  let pos := if str_at s w.pos = '.' then w.pos - 1 else w.pos
  let ch := str_at s pos
  let is_zero := if ('1' ≤ ch ∧ ch ≤ '9') ∨ w.carry ≠ 0 then false else w.is_zero
  let seg := w.p_data.getD w.index 0 + w.weight * (((ch.toNat : Int) - 48) + w.carry)
  let seg1 := if seg ≥ BIGINT_RADIX then seg % BIGINT_RADIX else seg
  let carry : Int := if seg ≥ BIGINT_RADIX then 1 else 0
  let p_data := w.p_data.set w.index seg1
  let weight := w.weight * 10
  if weight ≥ BIGINT_RADIX then
    { p_data := p_data.set (w.index + 1) 0, index := w.index + 1, weight := 1,
      carry := carry, is_zero := is_zero, pos := pos - 1 }
  else
    { p_data := p_data, index := w.index, weight := weight,
      carry := carry, is_zero := is_zero, pos := pos - 1 }

/-- The writing loop `while (pos >= fixed_begin)`.  Every iteration lowers `pos`, so
`pos - fixed_begin + 1` iterations are enough, and this is the fuel it is run with. -/
def write_loop (s : List Char) (fixed_begin : Int) : Nat → write_vars → write_vars
  | 0, w => w
  | fuel + 1, w =>
    if w.pos ≥ fixed_begin then write_loop s fixed_begin fuel (write_step s w) else w

/-- The normal case (`approx_len > 0`) of `bigint_from_string`. -/
def from_string_normal (p : bigint) (s : List Char) (v : fsm_vars)
    (mantissa_value fraction_len approx_len : Int) : bigint :=
  let p1 := bigint_assure_memory p (approx_len / 9 + 2).toNat
  let zeros : List Int := List.replicate p1.mem_size 0
  let mantissa_value := mantissa_value - fraction_len
  let pos := if fraction_len > 0 then v.fraction_end - 1 else v.fixed_end - 1
  let dropped := if mantissa_value < 0 then drop_loop s (-mantissa_value).toNat pos 0 else (pos, 0)
  let mantissa_value := if mantissa_value < 0 then 0 else mantissa_value
  let index := (mantissa_value / 9).toNat
  let weight := weight_loop (mantissa_value - index * 9).toNat 1
  let w0 : write_vars :=
    { p_data := zeros, index := index, weight := weight, carry := dropped.2,
      is_zero := true, pos := dropped.1 }
  let w := write_loop s v.fixed_begin (w0.pos - v.fixed_begin + 1).toNat w0
  if w.is_zero then bigint_set_zero p1
  else if v.has_neg_sign then
    bigint_pack_memory { sign := -1, data := w.p_data.take (w.index + 1), mem_size := p1.mem_size }
  else
    bigint_pack_memory { sign := 1, data := w.p_data.take (w.index + 1), mem_size := p1.mem_size }

/-- `bigint_from_string`: the error code and the new state of the destination. -/
def bigint_from_string (p : bigint) (str : List Char) : bigint_errno × bigint :=
  let s := c_string str
  match fsm_loop fsm_init 0 s with
  | none => (bigint_errno.BIGINT_ILLEGAL_PARAM, p)
  | some v0 =>
    match fsm_finish v0 s.length with
    | none => (bigint_errno.BIGINT_ILLEGAL_PARAM, p)
    | some v =>
      let mantissa_value := if v.mantissa_begin ≠ -1 then atoi (s.drop v.mantissa_begin.toNat) else 0
      let fixed_len := v.fixed_end - v.fixed_begin
      let fraction_len := v.fraction_end - v.fraction_begin
      let approx_len := mantissa_value + fixed_len
      if approx_len < 0 then (bigint_errno.BIGINT_NOERR, bigint_set_zero p)
      else if approx_len = 0 then
        if str_at s v.fixed_begin ≥ '5' then
          let one := bigint_set_one p
          (bigint_errno.BIGINT_NOERR, if v.has_neg_sign then bigint_change_sign one else one)
        else (bigint_errno.BIGINT_NOERR, bigint_set_zero p)
      else
        (bigint_errno.BIGINT_NOERR,
          from_string_normal p s v mantissa_value fraction_len approx_len)

/-! ## Decimal text: formatting -/

/-- The character `(char) (r + '0')`. -/
def digit_char (r : Int) : Char := Char.ofNat (r + 48).toNat

/-- The loop that writes the most-significant segment without padding:
`while (value > 0)` the digit `value % 10` is stored in front of the digits already
written. -/
def first_segment_chars : Nat → Int → List Char → List Char
  | 0, _, acc => acc
  | fuel + 1, value, acc =>
    if value > 0 then first_segment_chars fuel (value / 10) (digit_char (value % 10) :: acc)
    else acc

/-- The loop that writes one lower segment: exactly `counter` digits, zero padded. -/
def padded_segment_chars : Nat → Int → List Char → List Char
  | 0, _, acc => acc
  | counter + 1, value, acc =>
    padded_segment_chars counter (Int.tdiv value 10) (digit_char (Int.tmod value 10) :: acc)

/-- `bigint_to_string`: the characters written to the buffer, the terminating NUL
included. -/
def bigint_to_string (p : bigint) : List Char :=
  let p := bigint_check_sign p
  let neg : List Char := if p.sign < 0 then ['-'] else []
  if p.sign = 0 then neg ++ ['0'] ++ [NUL]
  else
    match p.data.reverse with
    | [] => neg ++ [NUL]
    | top :: rest =>
      neg ++ first_segment_chars top.toNat top [] ++
        (rest.map (fun seg => padded_segment_chars BIGINT_RADIX_LOG10 seg [])).flatten ++ [NUL]

/-! ## Addition -/

/-- The loop `p_dst->p_data[index] += p_src->p_data[index]` over the segments of the
source.  The destination has been extended beyond the length of the source. -/
def add_segments : List Int → List Int → List Int
  | d :: ds, s :: ss => (d + s) :: add_segments ds ss
  | ds, [] => ds
  | [], _ :: _ => []

/-- The loop `p_dst->p_data[index] -= p_src->p_data[index]` over the segments of the
source. -/
def sub_segments : List Int → List Int → List Int
  | d :: ds, s :: ss => (d - s) :: sub_segments ds ss
  | ds, [] => ds
  | [], _ :: _ => []

/-- The loop that finds the sign of the sum: the sign of the first nonzero segment
from the most-significant end (the argument lists the segments in that order);
0 when there is none. -/
def sign_scan : List Int → Int
  | [] => 0
  | x :: rest => if x < 0 then -1 else if x > 0 then 1 else sign_scan rest

/-- The single low-to-high borrow/carry pass.  `carry_pass c l` runs over the
segments `l` after the segment below them has passed `c` (-1, 0 or 1) into the
first one.  What the last segment passes on goes to the slot after the number and is
not part of the result. -/
def carry_pass : Int → List Int → List Int
  | _, [] => []
  | c, x :: rest =>
    if x + c < 0 then (x + c + BIGINT_RADIX) :: carry_pass (-1) rest
    else if x + c ≥ BIGINT_RADIX then (x + c - BIGINT_RADIX) :: carry_pass 1 rest
    else (x + c) :: carry_pass 0 rest

/-- The normal case of `bigint_add_by`: both operands nonzero, the source of more
than one segment and distinct from the destination. -/
def add_by_normal (dst src : bigint) : bigint :=
  let result_mem_size_bound := max dst.data_len src.data_len + 1
  let d := bigint_assure_memory dst result_mem_size_bound
  let data0 := d.data ++ List.replicate (result_mem_size_bound - d.data_len) 0
  let data1 := if d.sign < 0 then data0.map (fun x => -x) else data0
  let data2 := if src.sign < 0 then sub_segments data1 src.data else add_segments data1 src.data
  let sign := sign_scan data2.reverse
  let data3 := if sign < 0 then data2.map (fun x => -x) else data2
  bigint_pack_memory { sign := sign, data := carry_pass 0 data3, mem_size := d.mem_size }

/-- The addition loop of `bigint_add_by_int`: `while (value != 0)` add `value` to
the segment and carry 1 when the segment exceeds the radix.  The loop is entered
with a zero segment appended at the top, where it stops at the latest. -/
def add_int_loop : Int → List Int → List Int
  | _, [] => []
  | value, x :: rest =>
    if value ≠ 0 then
      if x + value > BIGINT_RADIX then (x + value - BIGINT_RADIX) :: add_int_loop 1 rest
      else (x + value) :: rest
    else x :: rest

/-- The subtraction loop of `bigint_add_by_int`: `while (value != 0)` subtract
`value` from the segment and borrow 1 when the segment becomes negative. -/
def sub_int_loop : Int → List Int → List Int
  | _, [] => []
  | value, x :: rest =>
    if value ≠ 0 then
      if x - value < 0 then (x - value + BIGINT_RADIX) :: sub_int_loop 1 rest
      else (x - value) :: rest
    else x :: rest

/-- The case of `bigint_add_by_int` for a small value and a destination of more than
one segment. -/
def add_by_int_large (dst : bigint) (value : Int) : bigint :=
  let max_segment_incr := BIGINT_INT_MAX_DIGITS / BIGINT_RADIX_LOG10 + 1
  let value_sign : Int := if value < 0 then -1 else 1
  let value := if value < 0 then -value else value
  let d := bigint_assure_memory dst (dst.data_len + max_segment_incr)
  let data := d.data ++ [0]
  let data1 := if value_sign = d.sign then add_int_loop value data else sub_int_loop value data
  bigint_pack_memory { sign := d.sign, data := data1, mem_size := d.mem_size }

mutual

/-- `bigint_add_by` on two distinct instances; the result is the new destination
and the source (which `bigint_is_zero` may have touched).  `bigint_add_by` and
`bigint_add_by_int` call each other; the first argument bounds the nesting of these
calls, which never exceeds three: add_by, add_by_int, add_by on a temporary of two
segments. -/
def add_by_aux : Nat → bigint → bigint → bigint × bigint
  | 0, dst, src => (dst, src)
  | depth + 1, dst, src =>
    let dst := bigint_check_sign dst
    if dst.sign = 0 then (bigint_copy dst src, src)
    else
      let src := bigint_check_sign src
      if src.sign = 0 then (dst, src)
      else if src.data_len = 1 then
        if src.sign < 0 then (add_by_int_aux depth dst (-(src.data.headD 0)), src)
        else if src.sign > 0 then (add_by_int_aux depth dst (src.data.headD 0), src)
        else (dst, src)
      else (add_by_normal dst src, src)

/-- `bigint_add_by_int`, with the same bound on the nesting of calls. -/
def add_by_int_aux : Nat → bigint → Int → bigint
  | 0, dst, _ => dst
  | depth + 1, dst, value =>
    let dst := bigint_check_sign dst
    if dst.sign = 0 then bigint_from_int dst value
    else if value = 0 then dst
    else if -BIGINT_RADIX < value ∧ value < BIGINT_RADIX then
      if dst.data_len = 1 then
        if dst.sign < 0 then bigint_from_int dst (-(dst.data.headD 0) + value)
        else bigint_from_int dst (dst.data.headD 0 + value)
      else add_by_int_large dst value
    else (add_by_aux depth dst (bigint_from_int bigint_init value)).1

end

/-- `bigint_add_by(p_dst, p_src)` for `p_dst != p_src`: the new destination and
source. -/
def bigint_add_by (dst src : bigint) : bigint × bigint := add_by_aux 3 dst src

/-- `bigint_add_by_int`. -/
def bigint_add_by_int (dst : bigint) (value : Int) : bigint := add_by_int_aux 3 dst value

/-- `bigint_sub_by_int`. -/
def bigint_sub_by_int (dst : bigint) (value : Int) : bigint := bigint_add_by_int dst (-value)

/-- `bigint_sub_by(p_dst, p_src)` for `p_dst != p_src`: add the negated source, then
restore its sign. -/
def bigint_sub_by (dst src : bigint) : bigint × bigint :=
  let r := bigint_add_by dst (bigint_change_sign src)
  (r.1, bigint_change_sign r.2)

/-! ## Multiplication and division by an `int`, powers of ten -/

/-- The loops `while (helper_var > 0) prod *= 10` and `for (i = 0; i < n; i++)
div_int *= 10` that compute a power of ten. -/
def pow10_loop : Nat → Int → Int
  | 0, prod => prod
  | n + 1, prod => pow10_loop n (prod * 10)

/-- The part of the loop of `bigint_mul_by_int` that runs past the old length while
`carry != 0`: each new segment starts at 0. -/
def mul_int_extend : Nat → Int → List Int
  | 0, _ => []
  | fuel + 1, carry =>
    if carry ≠ 0 then Int.tmod carry BIGINT_RADIX :: mul_int_extend fuel (Int.tdiv carry BIGINT_RADIX)
    else []

/-- The loop of `bigint_mul_by_int`: `prod = segment * value + carry`, the segment
becomes `prod % RADIX` and the carry `prod / RADIX`. -/
def mul_int_loop (value : Int) : Int → List Int → List Int
  | carry, [] => mul_int_extend carry.natAbs carry
  | carry, x :: rest =>
    Int.tmod (x * value + carry) BIGINT_RADIX ::
      mul_int_loop value (Int.tdiv (x * value + carry) BIGINT_RADIX) rest

/-- `bigint_mul_by_int`. -/
def bigint_mul_by_int (p : bigint) (value : Int) : bigint :=
  if value = 0 then bigint_set_zero p
  else if value = 1 then p
  else if value = -1 then bigint_change_sign p
  else
    let max_segment_incr := BIGINT_INT_MAX_DIGITS / BIGINT_RADIX_LOG10 + 1
    let p1 := bigint_assure_memory p (p.data_len + max_segment_incr)
    let p2 := if value < 0 then bigint_change_sign p1 else p1
    let value := if value < 0 then -value else value
    { sign := p2.sign, data := mul_int_loop value 0 p2.data, mem_size := p2.mem_size }

/-- The long division loop of `bigint_div_by_int`, from the most-significant segment
down (the list holds the segments in that order): the quotient segments in the same
order, and the last remainder. -/
def div_int_loop (div : Int) : Int → Int → List Int → List Int × Int
  | _, r, [] => ([], r)
  | val, _, x :: rest =>
    let r := Int.tmod (val + x) div
    let next := div_int_loop div (r * BIGINT_RADIX) r rest
    (Int.tdiv (val + x) div :: next.1, next.2)

/-- `bigint_div_by_int`. -/
def bigint_div_by_int (p : bigint) (div : Int) : bigint_errno × bigint :=
  if div = 0 then (bigint_errno.BIGINT_ILLEGAL_PARAM, p)
  else
    let p1 := if div < 0 then bigint_change_sign p else p
    let d := if div < 0 then -div else div
    if d ≠ 1 then
      let qr := div_int_loop d 0 0 p1.data.reverse
      let p2 := bigint_pack_memory { sign := p1.sign, data := qr.1.reverse, mem_size := p1.mem_size }
      if qr.2 ≠ 0 ∧ ((div < 0 ∧ p.sign > 0) ∨ (¬ div < 0 ∧ p.sign < 0)) then
        (bigint_errno.BIGINT_NOERR, bigint_sub_by_int p2 1)
      else (bigint_errno.BIGINT_NOERR, p2)
    else (bigint_errno.BIGINT_NOERR, p1)

/-- The case `pow > 0` of `bigint_div_by_pow_10`: drop whole segments, then divide by
the remaining power of ten. -/
def div_by_pow_10_pos (p : bigint) (pow : Int) : bigint :=
  let throw_segments := (pow / 9).toNat
  let throw_offset := (pow % 9).toNat
  if p.data_len ≤ throw_segments then bigint_set_zero p
  else
    let p1 : bigint :=
      { sign := p.sign, data := p.data.drop throw_segments, mem_size := p.data_len - throw_segments }
    (bigint_div_by_int p1 (pow10_loop throw_offset 1)).2

/-- The case `pow > 0` of `bigint_mul_by_pow_10`: insert whole zero segments at the
low end, then multiply by the remaining power of ten. -/
def mul_by_pow_10_pos (p : bigint) (pow : Int) : bigint :=
  let approx_segments := (pow / 9 + 2).toNat + p.data_len
  let helper_var := (pow / 9).toNat
  let p1 : bigint :=
    { sign := p.sign, data := List.replicate helper_var 0 ++ p.data, mem_size := approx_segments }
  bigint_mul_by_int p1 (pow10_loop (pow % 9).toNat 1)

/-- `bigint_mul_by_pow_10`.  A negative `pow` is passed on, negated, to
`bigint_div_by_pow_10`, which then takes its `pow > 0` case. -/
def bigint_mul_by_pow_10 (p : bigint) (pow : Int) : bigint :=
  if pow < 0 then div_by_pow_10_pos p (-pow)
  else if pow > 0 then mul_by_pow_10_pos p pow
  else p

/-- `bigint_div_by_pow_10`.  A negative `pow` is passed on, negated, to
`bigint_mul_by_pow_10`, which then takes its `pow > 0` case. -/
def bigint_div_by_pow_10 (p : bigint) (pow : Int) : bigint :=
  if pow < 0 then mul_by_pow_10_pos p (-pow)
  else if pow > 0 then div_by_pow_10_pos p pow
  else p

/-! ## Multiplication -/

/-- The loop of `bigint_mul_by_trad` from segment `i` of the source on: `bi_add`
becomes the destination times the segment, shifted by `i` segments, and is added to
`bi`. -/
def mul_trad_loop (dst : bigint) : Nat → List Int → bigint → bigint → bigint
  | _, [], bi, _ => bi
  | i, seg :: rest, bi, bi_add =>
    let a1 := bigint_copy bi_add dst
    let a2 := bigint_mul_by_int a1 seg
    let a3 := bigint_mul_by_pow_10 a2 ((i : Int) * BIGINT_RADIX_LOG10)
    let r := bigint_add_by bi a3
    mul_trad_loop dst (i + 1) rest r.1 r.2

/-- `bigint_mul_by_trad(p_dst, p_src)` for `p_dst != p_src`: the new destination and
source. -/
def bigint_mul_by_trad (dst src : bigint) : bigint × bigint :=
  let src1 := bigint_check_sign src
  let dst1 := if src1.sign < 0 then bigint_change_sign dst else dst
  let bi := mul_trad_loop dst1 0 src1.data (bigint_set_zero bigint_init) bigint_init
  (bigint_copy dst1 bi, src1)

/-- `bigint_split_number`: the high and the low part of `p` at `low_len` segments
(stored in `high` and `low`). -/
def bigint_split_number (p high low : bigint) (low_len : Nat) : bigint × bigint :=
  if low_len ≥ p.data_len then (bigint_set_zero high, bigint_copy low p)
  else
    let h1 := bigint_assure_memory high (p.data_len - low_len)
    let h2 := bigint_pack_memory
      { sign := p.sign, data := p.data.drop low_len, mem_size := h1.mem_size }
    let l1 := bigint_assure_memory low low_len
    let l2 := bigint_pack_memory
      { sign := p.sign, data := p.data.take low_len, mem_size := l1.mem_size }
    (h2, l2)

/-- `bigint_mul_by(p_dst, p_src)` for `p_dst != p_src`, with a bound on the depth
of the recursion: the new destination and source. -/
def mul_by_aux : Nat → bigint → bigint → bigint × bigint
  | 0, dst, src => (dst, src)
  | fuel + 1, dst, src =>
    let dst := bigint_check_sign dst
    if dst.sign = 0 then (bigint_set_zero dst, src)
    else
      let src := bigint_check_sign src
      if src.sign = 0 then (bigint_set_zero dst, src)
      else if dst.data_len < BIGINT_MUL_THRESHOLD ∧ src.data_len < BIGINT_MUL_THRESHOLD then
        bigint_mul_by_trad dst src
      else if dst.data_len ≤ BIGINT_MUL_THRESHOLD ∧ src.data_len > BIGINT_MUL_THRESHOLD then
        let low_len := src.data_len / 2
        let bi := bigint_copy bigint_init dst
        let hl := bigint_split_number src bigint_init bigint_init low_len
        let bi := (mul_by_aux fuel bi hl.1).1
        let bi := bigint_mul_by_pow_10 bi ((low_len : Int) * BIGINT_RADIX_LOG10)
        let dst := (mul_by_aux fuel dst hl.2).1
        ((bigint_add_by dst bi).1, src)
      else if dst.data_len > BIGINT_MUL_THRESHOLD ∧ src.data_len ≤ BIGINT_MUL_THRESHOLD then
        let low_len := dst.data_len / 2
        let hl := bigint_split_number dst bigint_init bigint_init low_len
        let r1 := mul_by_aux fuel hl.1 src
        let bi_high := bigint_mul_by_pow_10 r1.1 ((low_len : Int) * BIGINT_RADIX_LOG10)
        let r2 := mul_by_aux fuel hl.2 r1.2
        let dst := bigint_copy dst bi_high
        ((bigint_add_by dst r2.1).1, r2.2)
      else
        let low_len := (dst.data_len + src.data_len) / 4
        let shl := bigint_split_number src bigint_init bigint_init low_len
        let dhl := bigint_split_number dst bigint_init bigint_init low_len
        let bi := bigint_copy bigint_init dhl.1
        let r1 := mul_by_aux fuel bi shl.2
        let dst := bigint_copy dst r1.1
        let bi := bigint_copy r1.1 shl.1
        let r2 := mul_by_aux fuel bi dhl.2
        let dst := (bigint_add_by dst r2.1).1
        let dst := bigint_mul_by_pow_10 dst ((low_len : Int) * BIGINT_RADIX_LOG10)
        let r3 := mul_by_aux fuel r2.2 r1.2
        let dst := (bigint_add_by dst r3.1).1
        let r4 := mul_by_aux fuel dhl.1 shl.1
        let bi_dst_high := bigint_mul_by_pow_10 r4.1 ((low_len : Int) * BIGINT_RADIX_LOG10 * 2)
        ((bigint_add_by dst bi_dst_high).1, src)

/-- `bigint_mul_by(p_dst, p_src)` for `p_dst != p_src`.  Every recursive call is on
operands whose lengths add up to less, or on a zero operand, so the sum of the
lengths bounds the depth. -/
def bigint_mul_by (dst src : bigint) : bigint × bigint :=
  mul_by_aux (dst.data_len + src.data_len + 1) dst src

/-! ## Lengths and conversion to `int` -/

/-- The loop `while (value > 0) { len++; value /= 10; }` of `bigint_digit_count`. -/
def digit_count_loop : Nat → Int → Int → Int
  | 0, _, len => len
  | fuel + 1, value, len =>
    if value > 0 then digit_count_loop fuel (value / 10) (len + 1) else len

/-- `bigint_digit_count`: 1 for zero; otherwise 9 for every segment but the
most-significant one, plus the digits of that one. -/
def bigint_digit_count (p : bigint) : Int :=
  let p := bigint_check_sign p
  if p.sign = 0 then 1
  else
    let len : Int := (BIGINT_RADIX_LOG10 : Int) * ((p.data_len : Int) - 1)
    let value := p.data.getLastD 0
    digit_count_loop value.toNat value len

/-- `bigint_string_length`. -/
def bigint_string_length (p : bigint) : Int :=
  let p := bigint_check_sign p
  if p.sign < 0 then 1 + bigint_digit_count p else bigint_digit_count p

/-- The overflow test of `bigint_to_int` on a positive number, from the
most-significant segment down (the list holds the segments in that order): whether
`overflow_tester >= 2147483648` at some step. -/
def to_int_overflow_pos : Int → List Int → Bool
  | _, [] => false
  | t, x :: rest =>
    if t * BIGINT_RADIX + x ≥ 2147483648 then true
    else to_int_overflow_pos (t * BIGINT_RADIX + x) rest

/-- The overflow test of `bigint_to_int` on a negative number: whether
`overflow_tester > 2147483648` at some step. -/
def to_int_overflow_neg : Int → List Int → Bool
  | _, [] => false
  | t, x :: rest =>
    if t * BIGINT_RADIX + x > 2147483648 then true
    else to_int_overflow_neg (t * BIGINT_RADIX + x) rest

/-- The loop `*p_int *= BIGINT_RADIX; *p_int += segment` in 32-bit arithmetic. -/
def to_int_accum_pos : Int → List Int → Int
  | acc, [] => acc
  | acc, x :: rest => to_int_accum_pos (wrap_int (wrap_int (acc * BIGINT_RADIX) + x)) rest

/-- The loop `*p_int *= BIGINT_RADIX; *p_int -= segment` in 32-bit arithmetic. -/
def to_int_accum_neg : Int → List Int → Int
  | acc, [] => acc
  | acc, x :: rest => to_int_accum_neg (wrap_int (wrap_int (acc * BIGINT_RADIX) - x)) rest

/-- `bigint_to_int`: the return value and the content of `*p_int` afterwards (`old`
is its content before the call, which an overflow leaves in place). -/
def bigint_to_int (p : bigint) (old : Int) : bigint_errno × Int :=
  let p := bigint_check_sign p
  if p.sign > 0 ∧ to_int_overflow_pos 0 p.data.reverse = true then
    (bigint_errno.BIGINT_OVERFLOW, old)
  else if ¬ p.sign > 0 ∧ p.sign < 0 ∧ to_int_overflow_neg 0 p.data.reverse = true then
    (bigint_errno.BIGINT_OVERFLOW, old)
  else if p.sign > 0 then (bigint_errno.BIGINT_NOERR, to_int_accum_pos 0 p.data.reverse)
  else if p.sign < 0 then (bigint_errno.BIGINT_NOERR, to_int_accum_neg 0 p.data.reverse)
  else (bigint_errno.BIGINT_NOERR, 0)

/-! ## Powers -/

/-- `bigint_is_one`, on a number `bigint_check_sign` has been applied to. -/
def bigint_is_one (p : bigint) : Bool :=
  decide (p.sign > 0 ∧ p.data_len = 1 ∧ p.data.headD 0 = 1)

/-- `bigint_is_neg_one`, on a number `bigint_check_sign` has been applied to. -/
def bigint_is_neg_one (p : bigint) : Bool :=
  decide (p.sign < 0 ∧ p.data_len = 1 ∧ p.data.headD 0 = 1)

/-- `bigint_mul_by(p, p)`: the source is copied into a fresh instance, and the number
is multiplied by the copy. -/
def bigint_mul_by_self (p : bigint) : bigint :=
  (bigint_mul_by p (bigint_copy bigint_init p)).1

/-- `bigint_pow_by_int`, with a bound on the depth of the recursion.  The return
value of the recursive call is not looked at. -/
def pow_by_int_aux : Nat → bigint → Int → bigint_errno × bigint
  | 0, p, _ => (bigint_errno.BIGINT_NOERR, p)
  | fuel + 1, p, pow =>
    if pow < 0 then (bigint_errno.BIGINT_ILLEGAL_PARAM, p)
    else if pow = 0 then (bigint_errno.BIGINT_NOERR, bigint_set_one p)
    else if pow > 1 then
      let p := bigint_check_sign p
      if p.sign = 0 ∨ bigint_is_one p = true then (bigint_errno.BIGINT_NOERR, p)
      else if bigint_is_neg_one p = true then
        if pow % 2 = 0 then (bigint_errno.BIGINT_NOERR, bigint_set_one p)
        else (bigint_errno.BIGINT_NOERR, p)
      else if pow % 2 = 1 then
        let bi := bigint_copy bigint_init p
        let p := (pow_by_int_aux fuel p (pow / 2)).2
        let p := bigint_mul_by_self p
        let p := (bigint_mul_by p bi).1
        (bigint_errno.BIGINT_NOERR, p)
      else
        let p := (pow_by_int_aux fuel p (pow / 2)).2
        (bigint_errno.BIGINT_NOERR, bigint_mul_by_self p)
    else (bigint_errno.BIGINT_NOERR, p)

/-- `bigint_pow_by_int`.  The exponent is at least halved by each recursive call, so
its value bounds the depth. -/
def bigint_pow_by_int (p : bigint) (pow : Int) : bigint_errno × bigint :=
  pow_by_int_aux (pow.toNat + 1) p pow

/-! ## Comparison -/

/-- The loop of `bigint_compare` over two numbers of the same length, from the
most-significant segment down (the lists hold the segments in that order). -/
def compare_segments : List Int → List Int → Int
  | x :: xs, y :: ys =>
    if x > y then 1 else if x < y then -1 else compare_segments xs ys
  | _, _ => 0

/-- `bigint_compare` on two distinct instances: the return value and the two
operands afterwards.  For two negative numbers the function negates both, calls
itself with the operands exchanged and negates them back; the first argument bounds
the nesting of calls, which is two at most. -/
def compare_aux : Nat → bigint → bigint → Int × bigint × bigint
  | 0, p1, p2 => (0, p1, p2)
  | depth + 1, p1, p2 =>
    let p1 := bigint_check_sign p1
    let p2 := bigint_check_sign p2
    if p1.sign < p2.sign then (-1, p1, p2)
    else if p1.sign > p2.sign then (1, p1, p2)
    else if p1.sign = 0 then (0, p1, p2)
    else if p1.sign < 0 then
      let q1 := bigint_change_sign p1
      let q2 := bigint_change_sign p2
      let r := compare_aux depth q2 q1
      (r.1, bigint_change_sign r.2.2, bigint_change_sign r.2.1)
    else if p1.data_len > p2.data_len then (1, p1, p2)
    else if p1.data_len < p2.data_len then (-1, p1, p2)
    else (compare_segments p1.data.reverse p2.data.reverse, p1, p2)

/-- `bigint_compare(p1, p2)` for `p1 != p2`. -/
def bigint_compare (p1 p2 : bigint) : Int × bigint × bigint := compare_aux 2 p1 p2

/-- `bigint_equal(p1, p2)` for `p1 != p2`: 1 when `bigint_compare` returns 0, else 0. -/
def bigint_equal (p1 p2 : bigint) : Int :=
  if (bigint_compare p1 p2).1 = 0 then 1 else 0

/-- `bigint_sub_by(p, p)`: the self subtraction sets the number to zero. -/
def bigint_sub_by_self (p : bigint) : bigint := bigint_set_zero p

/-! ## Division with remainder

`bigint_newton_inversion` computes in `double` (the start value `1.0 / base` is
printed with `sprintf` and parsed back, the iteration bound is `k >= n * 3.4`), which
this embedding does not represent.  Its two outputs, the reciprocal estimate `z` and
the exponent `m`, enter `bigint_divmod` as the parameter `newton`: `newton v n` stands
for the pair the call `bigint_newton_inversion(v, n, &z, &m)` leaves.  A theorem
about `bigint_divmod` is stated for every `newton`.

`bigint_divmod` returns through `assert(bigint_divmod_check(a, b, q, r))` on every
path but the one for a zero divisor, and once more after the nested call for a
negative divisor.  The result of `bigint_divmod` is an `Option`: `none` stands for a
failed assertion, which ends the program. -/

/-- The loop of `bigint_mod_by_int`, from the most-significant segment down (the
list holds the segments in that order): `r = (r * RADIX + segment) % value`. -/
def mod_int_loop (value : Int) : Int → List Int → Int
  | r, [] => r
  | r, x :: rest => mod_int_loop value (Int.tmod (r * BIGINT_RADIX + x) value) rest

/-- `bigint_mod_by_int`: the return value, the content of `*p_result` afterwards
(`old` before the call) and the number. -/
def bigint_mod_by_int (p : bigint) (value : Int) (old : Int) : bigint_errno × Int × bigint :=
  if value = 0 then (bigint_errno.BIGINT_ILLEGAL_PARAM, old, p)
  else
    let r := mod_int_loop value 0 p.data.reverse
    let p := bigint_check_sign p
    let r := if p.sign < 0 then -r else r
    let r := if value < 0 ∧ r > 0 then r + value
      else if value > 0 ∧ r < 0 then r + value else r
    (bigint_errno.BIGINT_NOERR, r, p)

/-- The correction loop at the end of `bigint_divmod`: while the remainder is
negative, or not below the divisor, the quotient is moved by one.  The first argument
is the number of corrections after which `assert(try_count < 20)` still holds; the
result is `none` when the assertion fails.  Otherwise: q, r, b. -/
def divmod_loop : Nat → bigint → bigint → bigint → Option (bigint × bigint × bigint)
  | 0, q, r, b =>
    let r := bigint_check_sign r
    if r.sign < 0 then none
    else
      let c := bigint_compare r b
      if c.1 ≥ 0 then none else some (q, c.2.1, c.2.2)
  | tries + 1, q, r, b =>
    let r := bigint_check_sign r
    if r.sign < 0 then
      let q := bigint_sub_by_int q 1
      let rb := bigint_add_by r b
      divmod_loop tries q rb.1 rb.2
    else
      let c := bigint_compare r b
      if c.1 ≥ 0 then
        let q := bigint_add_by_int q 1
        let rb := bigint_sub_by c.2.1 c.2.2
        divmod_loop tries q rb.1 rb.2
      else some (q, c.2.1, c.2.2)

/-- `bigint_divmod_check(a, b, q, r)`, the argument of the assertions of
`bigint_divmod`: a temporary receives `b`, is multiplied by `q`, and `r` is added to
it; `assert(bigint_equal(&t, a))`; then `bigint_check_sign` on `b` and on `r`, and
`assert(b->sign == r->sign || r->sign == 0)`.  The result is `none` when one of the
two assertions fails, otherwise the four numbers as the calls leave them. -/
def bigint_divmod_check (a b q r : bigint) : Option (bigint × bigint × bigint × bigint) :=
  let t := bigint_copy bigint_init b
  let tq := bigint_mul_by t q
  let tr := bigint_add_by tq.1 r
  let c := bigint_compare tr.1 a
  if c.1 ≠ 0 then none
  else
    let b := bigint_check_sign b
    let r := bigint_check_sign tr.2
    if b.sign = r.sign ∨ r.sign = 0 then some (c.2.2, b, tq.2, r) else none

/-- The statement `assert(bigint_divmod_check(a, b, q, r))` followed by
`return ret`. -/
def divmod_assert_return (ret : bigint_errno) (a b q r : bigint) :
    Option (bigint_errno × bigint × bigint × bigint × bigint) :=
  match bigint_divmod_check a b q r with
  | none => none
  | some (a, b, q, r) => some (ret, a, b, q, r)

/-- The last part of `bigint_divmod`, "the division of really big numbers": the
quotient is estimated as `a * z * 10^m`, the remainder is `a - q * b`, the correction
loop follows, and the result is checked.  The result: return value, a, b, q, r. -/
def divmod_large (newton : bigint → Int → bigint × Int) (a b q r : bigint) :
    Option (bigint_errno × bigint × bigint × bigint × bigint) :=
  let n := bigint_string_length a + bigint_string_length b + 2
  let a := bigint_check_sign a
  let b := bigint_check_sign b
  let nw := newton b n
  let q := bigint_copy q a
  let q := (bigint_mul_by q nw.1).1
  let q := bigint_mul_by_pow_10 q nw.2
  let r := bigint_copy r q
  let rb := bigint_mul_by r b
  let r := bigint_change_sign rb.1
  let ra := bigint_add_by r a
  match divmod_loop 19 q ra.1 rb.2 with
  | none => none
  | some (q, r, b) => divmod_assert_return bigint_errno.BIGINT_NOERR ra.2 b q r

/-- `bigint_divmod(a, b, q, r)` on four distinct instances: return value, a, b, q,
r, or `none` when an assertion fails.  For a negative divisor the function negates
it and calls itself; the first argument bounds the nesting of calls, which is two at
most. -/
def divmod_aux (newton : bigint → Int → bigint × Int) :
    Nat → bigint → bigint → bigint → bigint →
      Option (bigint_errno × bigint × bigint × bigint × bigint)
  | 0, _, _, _, _ => none
  | depth + 1, a, b, q, r =>
    let b := bigint_check_sign b
    if b.sign = 0 then some (bigint_errno.BIGINT_ILLEGAL_PARAM, a, b, q, r)
    else if b.sign < 0 then
      let b := bigint_change_sign b
      match divmod_aux newton depth a b q r with
      | none => none
      | some (ret, a, b, q, r) =>
        match bigint_divmod_check a b q r with
        | none => none
        | some (a, b, q, r) =>
          let b := bigint_change_sign b
          let q := bigint_change_sign q
          let r := bigint_check_sign r
          if r.sign ≠ 0 then
            let r := bigint_change_sign r
            let rb := bigint_sub_by r b
            let r := bigint_change_sign rb.1
            let q := bigint_sub_by_int q 1
            divmod_assert_return ret a rb.2 q r
          else divmod_assert_return ret a b q r
    else if b.data_len = 1 then
      let b_small := b.data.headD 0
      let q := bigint_copy q a
      let q := (bigint_div_by_int q b_small).2
      let m := bigint_mod_by_int a b_small 0
      if m.2.1 < 0 then
        divmod_assert_return bigint_errno.BIGINT_NOERR m.2.2 b (bigint_sub_by_int q 1)
          (bigint_from_int r (m.2.1 + b_small))
      else
        divmod_assert_return bigint_errno.BIGINT_NOERR m.2.2 b q (bigint_from_int r m.2.1)
    else
      let a := bigint_check_sign a
      if a.sign < 0 then
        let a := bigint_change_sign a
        let c := bigint_compare a b
        if c.1 = -1 then
          let q := bigint_from_int q (-1)
          let r := bigint_change_sign (bigint_copy r c.2.1)
          let rb := bigint_add_by r c.2.2
          divmod_assert_return bigint_errno.BIGINT_NOERR (bigint_change_sign c.2.1) rb.2 q rb.1
        else if c.1 = 0 then
          divmod_assert_return bigint_errno.BIGINT_NOERR (bigint_change_sign c.2.1) c.2.2
            (bigint_from_int q (-1)) (bigint_set_zero r)
        else if c.1 = 1 then divmod_large newton (bigint_change_sign c.2.1) c.2.2 q r
        else none
      else
        let c := bigint_compare a b
        if c.1 = -1 then
          divmod_assert_return bigint_errno.BIGINT_NOERR c.2.1 c.2.2 (bigint_set_zero q)
            (bigint_copy r c.2.1)
        else if c.1 = 0 then
          divmod_assert_return bigint_errno.BIGINT_NOERR c.2.1 c.2.2 (bigint_set_one q)
            (bigint_set_zero r)
        else if c.1 = 1 then divmod_large newton c.2.1 c.2.2 q r
        else none

/-- `bigint_divmod`. -/
def bigint_divmod (newton : bigint → Int → bigint × Int) (a b q r : bigint) :
    Option (bigint_errno × bigint × bigint × bigint × bigint) :=
  divmod_aux newton 2 a b q r

/-- `bigint_div_by(p_dst, p_src)` for `p_dst != p_src`: return value, destination and
source. -/
def bigint_div_by (newton : bigint → Int → bigint × Int) (dst src : bigint) :
    Option (bigint_errno × bigint × bigint) :=
  let src := bigint_check_sign src
  if src.sign = 0 then some (bigint_errno.BIGINT_ILLEGAL_PARAM, dst, src)
  else
    match bigint_divmod newton dst src bigint_init bigint_init with
    | none => none
    | some (ret, a, b, q, _) => some (ret, bigint_copy a q, b)

/-- `bigint_mod_by(p_dst, p_src)` for `p_dst != p_src`: return value, destination and
source. -/
def bigint_mod_by (newton : bigint → Int → bigint × Int) (dst src : bigint) :
    Option (bigint_errno × bigint × bigint) :=
  let src := bigint_check_sign src
  if src.sign = 0 then some (bigint_errno.BIGINT_ILLEGAL_PARAM, dst, src)
  else
    match bigint_divmod newton dst src bigint_init bigint_init with
    | none => none
    | some (ret, a, b, _, r) => some (ret, bigint_copy a r, b)

/-! ## Remainder by a power of ten -/

/-- `bigint_mod_by_pow_10`: for `pow >= 0` the number keeps its `pow / 9` low
segments and, of the next one, the remainder by `10^(pow % 9)`. -/
def bigint_mod_by_pow_10 (p : bigint) (pow : Int) : bigint_errno × bigint :=
  if pow < 0 then (bigint_errno.BIGINT_ILLEGAL_PARAM, p)
  else
    let keep_segments := (pow / 9).toNat
    let keep_digits := (pow % 9).toNat
    if keep_segments < p.data_len then
      let r := pow10_loop keep_digits 1
      let data := p.data.take (keep_segments + 1)
      let data := data.set keep_segments (Int.tmod (data.getD keep_segments 0) r)
      (bigint_errno.BIGINT_NOERR,
        bigint_pack_memory { sign := p.sign, data := data, mem_size := p.mem_size })
    else (bigint_errno.BIGINT_NOERR, p)

/-! ## Calls with the same instance as destination and source -/

/-- `bigint_add_by(p, p)`: destination and source are the same instance.  A zero is
copied onto itself, a number of one segment goes through `bigint_add_by_int` with its
own segment (read before the call), and a longer number is multiplied by 2. -/
def bigint_add_by_self (p : bigint) : bigint :=
  let p := bigint_check_sign p
  if p.sign = 0 then bigint_copy p p
  else
    let p := bigint_check_sign p
    if p.sign = 0 then p
    else if p.data_len = 1 then
      let p := bigint_check_sign p
      if p.sign < 0 then bigint_add_by_int p (-(p.data.headD 0))
      else if p.sign > 0 then bigint_add_by_int p (p.data.headD 0)
      else p
    else bigint_mul_by_int p 2

/-- `bigint_compare(p, p)`: both parameters point to the same instance, so a write
through one is seen through the other: the return value and the instance
afterwards.  In the branch for two negative numbers the function calls itself; the
first argument bounds the nesting of calls, and `none` means that the bound is
reached before a call returns. -/
def compare_self_aux : Nat → bigint → Option (Int × bigint)
  | 0, _ => none
  | depth + 1, p =>
    let p := bigint_check_sign p
    let p := bigint_check_sign p
    if p.sign < p.sign then some (-1, p)
    else if p.sign > p.sign then some (1, p)
    else if p.sign = 0 then some (0, p)
    else if p.sign < 0 then
      let p := bigint_change_sign p
      let p := bigint_change_sign p
      match compare_self_aux depth p with
      | none => none
      | some (result, p) =>
        let p := bigint_change_sign p
        let p := bigint_change_sign p
        some (result, p)
    else if p.data_len > p.data_len then some (1, p)
    else if p.data_len < p.data_len then some (-1, p)
    else some (compare_segments p.data.reverse p.data.reverse, p)

/-! ## The decimal grammar of the specification -/

/-- A non-empty run of decimal digits. -/
def is_digits (l : List Char) : Prop := l ≠ [] ∧ ∀ c ∈ l, c.isDigit = true

/-- An optional sign. -/
def is_opt_sign (l : List Char) : Prop := l = [] ∨ l = ['+'] ∨ l = ['-']

/-- An optional fraction: a period followed by digits. -/
def is_opt_fraction (l : List Char) : Prop := l = [] ∨ ∃ fd, is_digits fd ∧ l = '.' :: fd

/-- An optional exponent: `e` or `E`, an optional sign, digits. -/
def is_opt_exponent (l : List Char) : Prop :=
  l = [] ∨ ∃ e sg ed, (e = 'e' ∨ e = 'E') ∧ is_opt_sign sg ∧ is_digits ed ∧ l = e :: (sg ++ ed)

/-- The grammar `sign? digits ('.' digits)? ([eE] sign? digits)?` of the
specification. -/
def grammatical (s : List Char) : Prop :=
  ∃ sg ip fp ep, is_opt_sign sg ∧ is_digits ip ∧ is_opt_fraction fp ∧ is_opt_exponent ep ∧
    s = sg ++ ip ++ fp ++ ep

/-- The number a run of decimal digits denotes. -/
def digits_value : List Char → Nat
  | [] => 0
  | c :: cs => (c.toNat - 48) * 10 ^ cs.length + digits_value cs

/-- The exponent an optional exponent part denotes (0 when absent). -/
def exponent_value (ep : List Char) : Int :=
  match ep with
  | [] => 0
  | _ :: rest =>
    match rest with
    | [] => 0
    | c :: cs =>
      if c = '-' then -(digits_value cs : Int)
      else if c = '+' then (digits_value cs : Int)
      else (digits_value (c :: cs) : Int)

/-- The number of digits of an optional fraction part (0 when absent). -/
def fraction_length (fp : List Char) : Nat := fp.length - 1

/-- The values the parser variables have after a grammatical text
`sg ++ ip ++ fp ++ ep` (sign, integer digits, fraction, exponent). -/
def parsed_vars (sg ip fp ep : List Char) : fsm_vars :=
  { state := if ep ≠ [] then 7 else if fp ≠ [] then 4 else 2,
    has_neg_sign := decide (sg = ['-']),
    fixed_begin := sg.length,
    fixed_end := sg.length + ip.length,
    fraction_begin := if fp = [] then -1 else sg.length + ip.length + 1,
    fraction_end := if fp = [] then -1 else sg.length + ip.length + fp.length,
    mantissa_begin := if ep = [] then -1 else sg.length + ip.length + fp.length + 1,
    mantissa_end := if ep = [] then -1 else sg.length + ip.length + fp.length + ep.length }

/-- The state the parser moves to, as a function of its state and the character
read (the control part of `fsm_step`). -/
def fsm_next (st : Nat) (ch : Char) : Option Nat :=
  (fsm_step ⟨st, false, 0, 0, 0, 0, 0, 0⟩ 0 ch).map (fun v => v.state)

/-- The state the parser ends in on a text, if it does not reject. -/
def fsm_run : Nat → List Char → Option Nat
  | st, [] => some st
  | st, ch :: rest =>
    match fsm_next st ch with
    | none => none
    | some st1 => fsm_run st1 rest

/-! ## Canonical decimal numerals -/

/-- The decimal digits of a natural number, most significant first, without leading
zero; the empty list for 0. -/
def nat_numeral (n : Nat) : List Char := (Nat.digits 10 n).reverse.map Nat.digitChar

/-- The canonical decimal numeral of an integer: "0" for zero, otherwise the digits
of the magnitude without leading zero, after a single '-' when negative. -/
def decimal_numeral (v : Int) : List Char :=
  if v = 0 then ['0'] else (if v < 0 then ['-'] else []) ++ nat_numeral v.natAbs

/-- The `k` low-order decimal digits of `n`, least significant first. -/
def padded_digits : Nat → Nat → List Nat
  | 0, _ => []
  | k + 1, n => n % 10 :: padded_digits k (n / 10)

/-- The numeral of `n` zero-padded to exactly `k` digits. -/
def padded_numeral (k n : Nat) : List Char := (padded_digits k n).reverse.map Nat.digitChar

/-- The digits written for the segments of a number, most significant segment first:
that segment without padding, every other segment as exactly 9 zero-padded digits. -/
def segments_numeral (desc : List Int) : List Char :=
  match desc with
  | [] => []
  | top :: rest =>
    nat_numeral top.toNat ++ (rest.map (fun seg => padded_numeral 9 seg.toNat)).flatten

/-! ## Invariant of the digit-writing loop -/

/-- The decimal value of a character taken as a digit. -/
def digit_value (c : Char) : Nat := c.toNat - 48

/-- The state of the writing loop of `bigint_from_string` after `k` digits whose
value is `D` have been written without rounding carry into an array of `M` slots. -/
structure write_inv (M : Nat) (w : write_vars) (k : Nat) (D : Int) : Prop where
  index : w.index = k / 9
  weight : w.weight = 10 ^ (k % 9)
  carry : w.carry = 0
  len : w.p_data.length = M
  val : seg_value w.p_data = D
  range : ∀ x ∈ w.p_data, 0 ≤ x ∧ x < BIGINT_RADIX
  cur : w.p_data.getD w.index 0 < w.weight
  high : ∀ j, w.index < j → w.p_data.getD j 0 = 0

/-- A canonical decimal string: "0", or an optional '-' followed by digits of which
the first is not '0'. -/
def canonical_decimal (s : List Char) : Prop :=
  s = ['0'] ∨ ∃ sg d ds, (sg = [] ∨ sg = ['-']) ∧ d.isDigit = true ∧ d ≠ '0' ∧
    (∀ c ∈ ds, c.isDigit = true) ∧ s = sg ++ d :: ds

/-! ## The states between the steps of a multiplication -/

/-- As `well_formed`, with two relaxations that the steps of `bigint_mul_by` go
through: a segment below index `k` may be equal to the radix (the carry test of
`bigint_add_by_int` is `>`), and a number of sign 0 may have several zero segments
(`bigint_mul_by_pow_10` does not pack). -/
def loose (k : Nat) (p : bigint) : Prop :=
  (p.sign = -1 ∨ p.sign = 0 ∨ p.sign = 1) ∧ p.data ≠ [] ∧
  (∀ s ∈ p.data, 0 ≤ s ∧ s ≤ BIGINT_RADIX) ∧
  (∀ s ∈ p.data.drop k, s < BIGINT_RADIX) ∧
  (p.sign = 0 → ∀ s ∈ p.data, s = 0) ∧
  (p.sign ≠ 0 → p.data.getLast? ≠ some 0) ∧
  p.data.length ≤ p.mem_size

/-! # Theorems -/

/-! ## Segment lists and packing -/

theorem seg_value_append (a b : List Int) :
    seg_value (a ++ b) = seg_value a + BIGINT_RADIX ^ a.length * seg_value b := by
  induction a with
  | nil => simp [seg_value]
  | cons x xs ih =>
    show seg_value (x :: (xs ++ b)) = _
    rw [seg_value, ih, seg_value, List.length_cons, pow_succ]
    ring

theorem seg_value_replicate_zero (n : Nat) : seg_value (List.replicate n 0) = 0 := by
  induction n with
  | zero => rfl
  | succ n ih => simp [List.replicate_succ, seg_value, ih]

theorem seg_value_of_all_zero (l : List Int) (h : ∀ x ∈ l, x = 0) : seg_value l = 0 := by
  induction l with
  | nil => rfl
  | cons x xs ih =>
    simp only [seg_value, h x (List.mem_cons_self _ _),
      ih (fun y hy => h y (List.mem_cons_of_mem _ hy))]
    simp

theorem seg_value_lt_pow (l : List Int) (h : ∀ s ∈ l, 0 ≤ s ∧ s < BIGINT_RADIX) :
    0 ≤ seg_value l ∧ seg_value l < BIGINT_RADIX ^ l.length := by
  induction l with
  | nil => simp [seg_value]
  | cons x xs ih =>
    obtain ⟨h1, h2⟩ := ih (fun s hs => h s (List.mem_cons_of_mem _ hs))
    obtain ⟨h3, h4⟩ := h x (List.mem_cons_self _ _)
    simp only [seg_value, List.length_cons, pow_succ]
    constructor
    · positivity
    · nlinarith

theorem strip_zeros_value (l : List Int) : seg_value (strip_zeros l) = seg_value l := by
  induction l with
  | nil => rfl
  | cons x xs ih =>
    rw [strip_zeros]
    cases hs : strip_zeros xs with
    | nil =>
      rw [hs] at ih
      simp only [seg_value] at ih
      by_cases hx : x = 0
      · simp [hx, seg_value, ← ih]
      · simp [hx, seg_value, ← ih]
    | cons y ys =>
      rw [hs] at ih
      simp only [seg_value] at ih ⊢
      rw [← ih]

theorem strip_zeros_mem (l : List Int) : ∀ s ∈ strip_zeros l, s ∈ l := by
  induction l with
  | nil => intro s hs; simp [strip_zeros] at hs
  | cons x xs ih =>
    intro s hs
    rw [strip_zeros] at hs
    cases hz : strip_zeros xs with
    | nil =>
      rw [hz] at hs
      by_cases hx : x = 0
      · simp [hx] at hs
      · simp [hx] at hs; rw [hs]; exact List.mem_cons_self _ _
    | cons y ys =>
      rw [hz] at hs ih
      simp only at hs
      rcases List.mem_cons.1 hs with h | h
      · rw [h]; exact List.mem_cons_self _ _
      · exact List.mem_cons_of_mem _ (ih s h)

theorem strip_zeros_length (l : List Int) : (strip_zeros l).length ≤ l.length := by
  induction l with
  | nil => simp [strip_zeros]
  | cons x xs ih =>
    rw [strip_zeros]
    cases hz : strip_zeros xs with
    | nil => by_cases hx : x = 0 <;> simp [hx]
    | cons y ys => rw [hz] at ih; simp at ih ⊢; omega

theorem strip_zeros_last (l : List Int) : (strip_zeros l).getLast? ≠ some 0 := by
  induction l with
  | nil => simp [strip_zeros]
  | cons x xs ih =>
    rw [strip_zeros]
    cases hz : strip_zeros xs with
    | nil => by_cases hx : x = 0 <;> simp [hx]
    | cons y ys => rw [hz] at ih; simp only [List.getLast?_cons_cons]; exact ih

theorem strip_zeros_eq_nil (l : List Int) (h : strip_zeros l = []) : ∀ s ∈ l, s = 0 := by
  induction l with
  | nil => simp
  | cons x xs ih =>
    rw [strip_zeros] at h
    cases hz : strip_zeros xs with
    | nil =>
      rw [hz] at h
      by_cases hx : x = 0
      · intro s hs
        rcases List.mem_cons.1 hs with h1 | h1
        · rw [h1]; exact hx
        · exact ih hz s h1
      · simp [hx] at h
    | cons y ys => rw [hz] at h; simp at h

theorem pack_trim_value (l : List Int) : seg_value (pack_trim l) = seg_value l := by
  cases l with
  | nil => rfl
  | cons x xs => simp [pack_trim, seg_value, strip_zeros_value]

theorem pack_trim_mem (l : List Int) : ∀ s ∈ pack_trim l, s ∈ l := by
  cases l with
  | nil => simp [pack_trim]
  | cons x xs =>
    intro s hs
    rcases List.mem_cons.1 hs with h | h
    · rw [h]; exact List.mem_cons_self _ _
    · exact List.mem_cons_of_mem _ (strip_zeros_mem xs s h)

theorem pack_trim_length (l : List Int) :
    (pack_trim l).length ≤ l.length ∧ (l ≠ [] → 1 ≤ (pack_trim l).length) := by
  cases l with
  | nil => simp [pack_trim]
  | cons x xs =>
    have := strip_zeros_length xs
    simp [pack_trim]
    omega

theorem pack_trim_last (l : List Int) (h : 1 < (pack_trim l).length) :
    (pack_trim l).getLast? ≠ some 0 := by
  cases l with
  | nil => simp [pack_trim] at h
  | cons x xs =>
    simp only [pack_trim] at h ⊢
    cases hz : strip_zeros xs with
    | nil => rw [hz] at h; simp at h
    | cons y ys =>
      have := strip_zeros_last xs
      rw [hz] at this
      simp only [List.getLast?_cons_cons]
      exact this

theorem pack_memory_data (p : bigint) : (bigint_pack_memory p).data = pack_trim p.data := by
  unfold bigint_pack_memory bigint_check_sign
  simp only
  split_ifs <;> rfl

theorem pack_memory_sign (p : bigint) :
    (bigint_pack_memory p).sign = if pack_trim p.data = [0] then 0 else p.sign := by
  unfold bigint_pack_memory bigint_check_sign
  simp only
  split_ifs <;> rfl

/-- `bigint_pack_memory` does not change the value. -/
theorem pack_memory_value (p : bigint) : value (bigint_pack_memory p) = value p := by
  unfold value
  rw [pack_memory_data, pack_memory_sign, pack_trim_value]
  split_ifs with h
  · have hv := pack_trim_value p.data
    rw [h] at hv
    simp only [seg_value, mul_zero, add_zero] at hv
    rw [← hv]; simp
  · rfl

/-- `bigint_pack_memory` establishes the representation invariant on a number whose
segments are in range and whose sign is 0 only if all its segments are 0. -/
theorem pack_memory_well_formed (p : bigint) (hs : p.sign = -1 ∨ p.sign = 0 ∨ p.sign = 1)
    (hne : p.data ≠ []) (hr : ∀ s ∈ p.data, 0 ≤ s ∧ s < BIGINT_RADIX)
    (hz : p.sign = 0 → ∀ s ∈ p.data, s = 0) (hm : p.data.length ≤ p.mem_size) :
    well_formed (bigint_pack_memory p) := by
  have hlen := pack_trim_length p.data
  have hd := pack_memory_data p
  have hsg := pack_memory_sign p
  refine ⟨?_, ?_, ?_, ?_, ?_, ?_⟩
  · rw [hsg]; split_ifs
    · exact Or.inr (Or.inl rfl)
    · exact hs
  · rw [hd]; exact hlen.2 hne
  · rw [hd]; intro s h; exact hr s (pack_trim_mem _ s h)
  · rw [hd]; exact pack_trim_last _
  · rw [hd, hsg]
    constructor
    · intro h
      split_ifs at h with h0
      · exact h0
      · obtain ⟨x, xs, hx⟩ := List.exists_cons_of_ne_nil hne
        have hall := hz h
        rw [hx] at hall ⊢
        have hx0 : x = 0 := hall x (List.mem_cons_self _ _)
        have hxs : strip_zeros xs = [] := by
          cases hst : strip_zeros xs with
          | nil => rfl
          | cons y ys =>
            exfalso
            have hl := strip_zeros_last xs
            have hmem := strip_zeros_mem xs
            rw [hst] at hl hmem
            have hlast : (y :: ys).getLast? = some ((y :: ys).getLast (by simp)) :=
              List.getLast?_eq_getLast _ _
            have hin : (y :: ys).getLast (by simp) ∈ y :: ys := List.getLast_mem _
            have := hall _ (List.mem_cons_of_mem _ (hmem _ hin))
            rw [this] at hlast
            exact hl hlast
        simp [pack_trim, hxs, hx0]
    · intro h; rw [if_pos h]
  · unfold bigint_pack_memory bigint_check_sign
    simp only
    split_ifs <;> simp only <;> omega

/-! ## The parser -/

theorem digit_not_special (c : Char) (h : c.isDigit = true) :
    c ≠ '+' ∧ c ≠ '-' ∧ c ≠ '.' ∧ c ≠ 'e' ∧ c ≠ 'E' := by
  refine ⟨?_, ?_, ?_, ?_, ?_⟩ <;> (intro hc; subst hc; revert h; decide)

theorem fsm_step_digit (c : Char) (hc : c.isDigit = true) (neg : Bool)
    (fb fe frb fre mb me i : Int) :
    fsm_step ⟨0, neg, fb, fe, frb, fre, mb, me⟩ i c = some ⟨2, neg, i, fe, frb, fre, mb, me⟩ ∧
    fsm_step ⟨1, neg, fb, fe, frb, fre, mb, me⟩ i c = some ⟨2, neg, i, fe, frb, fre, mb, me⟩ ∧
    fsm_step ⟨2, neg, fb, fe, frb, fre, mb, me⟩ i c = some ⟨2, neg, fb, i, frb, fre, mb, me⟩ ∧
    fsm_step ⟨3, neg, fb, fe, frb, fre, mb, me⟩ i c = some ⟨4, neg, fb, fe, i, fre, mb, me⟩ ∧
    fsm_step ⟨4, neg, fb, fe, frb, fre, mb, me⟩ i c = some ⟨4, neg, fb, fe, frb, i, mb, me⟩ ∧
    fsm_step ⟨5, neg, fb, fe, frb, fre, mb, me⟩ i c = some ⟨7, neg, fb, fe, frb, fre, i, me⟩ ∧
    fsm_step ⟨6, neg, fb, fe, frb, fre, mb, me⟩ i c = some ⟨7, neg, fb, fe, frb, fre, mb, i + 1⟩ ∧
    fsm_step ⟨7, neg, fb, fe, frb, fre, mb, me⟩ i c = some ⟨7, neg, fb, fe, frb, fre, mb, i + 1⟩ := by
  obtain ⟨h1, h2, -, -, -⟩ := digit_not_special c hc
  simp [fsm_step, hc, h1, h2]

theorem fsm_step_e (e : Char) (he : e = 'e' ∨ e = 'E') (neg : Bool)
    (fb fe frb fre mb me i : Int) :
    fsm_step ⟨2, neg, fb, fe, frb, fre, mb, me⟩ i e = some ⟨5, neg, fb, i, frb, fre, i, me⟩ ∧
    fsm_step ⟨4, neg, fb, fe, frb, fre, mb, me⟩ i e = some ⟨5, neg, fb, fe, frb, i, mb, me⟩ := by
  rcases he with rfl | rfl <;> simp [fsm_step]

theorem fsm_step_sign (neg : Bool) (fb fe frb fre mb me i : Int) :
    fsm_step ⟨0, neg, fb, fe, frb, fre, mb, me⟩ i '+' = some ⟨1, neg, fb, fe, frb, fre, mb, me⟩ ∧
    fsm_step ⟨0, neg, fb, fe, frb, fre, mb, me⟩ i '-' = some ⟨1, true, fb, fe, frb, fre, mb, me⟩ ∧
    fsm_step ⟨5, neg, fb, fe, frb, fre, mb, me⟩ i '+' = some ⟨6, neg, fb, fe, frb, fre, i, me⟩ ∧
    fsm_step ⟨5, neg, fb, fe, frb, fre, mb, me⟩ i '-' = some ⟨6, neg, fb, fe, frb, fre, i, me⟩ ∧
    fsm_step ⟨2, neg, fb, fe, frb, fre, mb, me⟩ i '.' = some ⟨3, neg, fb, i, frb, fre, mb, me⟩ := by
  simp [fsm_step]

theorem fsm_loop_digits2 (ds : List Char) (hd : ∀ c ∈ ds, c.isDigit = true) (neg : Bool)
    (fb frb fre mb me : Int) (rest : List Char) :
    ∀ (fe i : Int), ∃ fe1, fsm_loop ⟨2, neg, fb, fe, frb, fre, mb, me⟩ i (ds ++ rest) =
      fsm_loop ⟨2, neg, fb, fe1, frb, fre, mb, me⟩ (i + ds.length) rest := by
  induction ds with
  | nil => intro fe i; exact ⟨fe, by simp⟩
  | cons c ds ih =>
    intro fe i
    have hc : c.isDigit = true := hd c (List.mem_cons_self _ _)
    obtain ⟨fe1, hfe⟩ := ih (fun x hx => hd x (List.mem_cons_of_mem _ hx)) i (i + 1)
    refine ⟨fe1, ?_⟩
    rw [List.cons_append, fsm_loop, (fsm_step_digit c hc neg fb fe frb fre mb me i).2.2.1]
    simp only
    rw [hfe]
    simp only [List.length_cons, Nat.cast_add, Nat.cast_one]
    congr 1
    omega

theorem fsm_loop_digits4 (ds : List Char) (hd : ∀ c ∈ ds, c.isDigit = true) (neg : Bool)
    (fb fe frb mb me : Int) (rest : List Char) :
    ∀ (fre i : Int), ∃ fre1, fsm_loop ⟨4, neg, fb, fe, frb, fre, mb, me⟩ i (ds ++ rest) =
      fsm_loop ⟨4, neg, fb, fe, frb, fre1, mb, me⟩ (i + ds.length) rest := by
  induction ds with
  | nil => intro fre i; exact ⟨fre, by simp⟩
  | cons c ds ih =>
    intro fre i
    have hc : c.isDigit = true := hd c (List.mem_cons_self _ _)
    obtain ⟨fre1, hfe⟩ := ih (fun x hx => hd x (List.mem_cons_of_mem _ hx)) i (i + 1)
    refine ⟨fre1, ?_⟩
    rw [List.cons_append, fsm_loop, (fsm_step_digit c hc neg fb fe frb fre mb me i).2.2.2.2.1]
    simp only
    rw [hfe]
    simp only [List.length_cons, Nat.cast_add, Nat.cast_one]
    congr 1
    omega

theorem fsm_loop_digits7 (ds : List Char) (hd : ∀ c ∈ ds, c.isDigit = true) (neg : Bool)
    (fb fe frb fre mb : Int) :
    ∀ (me i : Int), ∃ me1, fsm_loop ⟨7, neg, fb, fe, frb, fre, mb, me⟩ i ds =
      some ⟨7, neg, fb, fe, frb, fre, mb, me1⟩ := by
  induction ds with
  | nil => intro me i; exact ⟨me, by simp [fsm_loop]⟩
  | cons c ds ih =>
    intro me i
    have hc : c.isDigit = true := hd c (List.mem_cons_self _ _)
    obtain ⟨me1, hme⟩ := ih (fun x hx => hd x (List.mem_cons_of_mem _ hx)) (i + 1) (i + 1)
    refine ⟨me1, ?_⟩
    rw [fsm_loop, (fsm_step_digit c hc neg fb fe frb fre mb me i).2.2.2.2.2.2.2]
    simp only
    rw [hme]

/-- The exponent part, read in state 2 or 4 at position `i`, up to the end of the
text. -/
theorem fsm_loop_exponent (e : Char) (sg ed : List Char) (he : e = 'e' ∨ e = 'E')
    (hs : is_opt_sign sg) (hed : is_digits ed) (neg : Bool) (fb fe frb fre mb me i : Int) :
    (∃ v0, fsm_loop ⟨2, neg, fb, fe, frb, fre, mb, me⟩ i (e :: (sg ++ ed)) = some v0 ∧
      fsm_finish v0 (i + (e :: (sg ++ ed)).length) =
        some ⟨7, neg, fb, i, frb, fre, i + 1, i + (e :: (sg ++ ed)).length⟩) ∧
    (∃ v0, fsm_loop ⟨4, neg, fb, fe, frb, fre, mb, me⟩ i (e :: (sg ++ ed)) = some v0 ∧
      fsm_finish v0 (i + (e :: (sg ++ ed)).length) =
        some ⟨7, neg, fb, fe, frb, i, i + 1, i + (e :: (sg ++ ed)).length⟩) := by
  obtain ⟨hne, hdig⟩ := hed
  obtain ⟨d, ds, rfl⟩ := List.exists_cons_of_ne_nil hne
  have hd : d.isDigit = true := hdig d (List.mem_cons_self _ _)
  have hds : ∀ c ∈ ds, c.isDigit = true := fun x hx => hdig x (List.mem_cons_of_mem _ hx)
  have key : ∀ (fe1 fre1 mb0 : Int), ∃ v0,
      fsm_loop ⟨5, neg, fb, fe1, frb, fre1, mb0, me⟩ (i + 1) (sg ++ d :: ds) = some v0 ∧
      fsm_finish v0 (i + (e :: (sg ++ d :: ds)).length) =
        some ⟨7, neg, fb, fe1, frb, fre1, i + 1, i + (e :: (sg ++ d :: ds)).length⟩ := by
    intro fe1 fre1 mb0
    rcases hs with rfl | rfl | rfl
    · obtain ⟨m, hm⟩ := fsm_loop_digits7 ds hds neg fb fe1 frb fre1 (i + 1) me (i + 1 + 1)
      refine ⟨⟨7, neg, fb, fe1, frb, fre1, i + 1, m⟩, ?_, ?_⟩
      · rw [List.nil_append, fsm_loop, (fsm_step_digit d hd neg fb fe1 frb fre1 mb0 me (i + 1)).2.2.2.2.2.1]
        exact hm
      · simp [fsm_finish]
    · obtain ⟨m, hm⟩ := fsm_loop_digits7 ds hds neg fb fe1 frb fre1 (i + 1) (i + 1 + 1 + 1) (i + 1 + 1 + 1)
      refine ⟨⟨7, neg, fb, fe1, frb, fre1, i + 1, m⟩, ?_, ?_⟩
      · rw [List.singleton_append, fsm_loop, (fsm_step_sign neg fb fe1 frb fre1 mb0 me (i + 1)).2.2.1]
        simp only
        rw [fsm_loop, (fsm_step_digit d hd neg fb fe1 frb fre1 (i + 1) me (i + 1 + 1)).2.2.2.2.2.2.1]
        exact hm
      · simp [fsm_finish]
    · obtain ⟨m, hm⟩ := fsm_loop_digits7 ds hds neg fb fe1 frb fre1 (i + 1) (i + 1 + 1 + 1) (i + 1 + 1 + 1)
      refine ⟨⟨7, neg, fb, fe1, frb, fre1, i + 1, m⟩, ?_, ?_⟩
      · rw [List.singleton_append, fsm_loop, (fsm_step_sign neg fb fe1 frb fre1 mb0 me (i + 1)).2.2.2.1]
        simp only
        rw [fsm_loop, (fsm_step_digit d hd neg fb fe1 frb fre1 (i + 1) me (i + 1 + 1)).2.2.2.2.2.2.1]
        exact hm
      · simp [fsm_finish]
  constructor
  · obtain ⟨v0, h1, h2⟩ := key i fre i
    refine ⟨v0, ?_, h2⟩
    rw [fsm_loop, (fsm_step_e e he neg fb fe frb fre mb me i).1]
    exact h1
  · obtain ⟨v0, h1, h2⟩ := key fe i mb
    refine ⟨v0, ?_, h2⟩
    rw [fsm_loop, (fsm_step_e e he neg fb fe frb fre mb me i).2]
    exact h1

/-- The fraction and the exponent, read in state 2 at position `i` (the end of the
integer digits), up to the end of the text. -/
theorem fsm_loop_after_int (fp ep : List Char) (hf : is_opt_fraction fp)
    (he : is_opt_exponent ep) (neg : Bool) (fb fe i : Int) :
    ∃ v0, fsm_loop ⟨2, neg, fb, fe, -1, -1, -1, -1⟩ i (fp ++ ep) = some v0 ∧
      fsm_finish v0 (i + fp.length + ep.length) =
        some ⟨if ep ≠ [] then 7 else if fp ≠ [] then 4 else 2, neg, fb, i,
          if fp = [] then -1 else i + 1, if fp = [] then -1 else i + fp.length,
          if ep = [] then -1 else i + fp.length + 1,
          if ep = [] then -1 else i + fp.length + ep.length⟩ := by
  rcases hf with rfl | ⟨fd, ⟨hne, hdig⟩, rfl⟩
  · rcases he with rfl | ⟨e, sg, ed, he, hs, hed, rfl⟩
    · exact ⟨_, rfl, by simp [fsm_finish]⟩
    · obtain ⟨v0, h1, h2⟩ := (fsm_loop_exponent e sg ed he hs hed neg fb fe (-1) (-1) (-1) (-1) i).1
      refine ⟨v0, by simpa using h1, ?_⟩
      simp only [List.length_nil, Nat.cast_zero, add_zero]
      rw [h2]
      simp
  · obtain ⟨d, ds, rfl⟩ := List.exists_cons_of_ne_nil hne
    have hd : d.isDigit = true := hdig d (List.mem_cons_self _ _)
    have hds : ∀ c ∈ ds, c.isDigit = true := fun x hx => hdig x (List.mem_cons_of_mem _ hx)
    obtain ⟨fre1, hfre⟩ := fsm_loop_digits4 ds hds neg fb i (i + 1) (-1) (-1) ep (-1) (i + 1 + 1)
    have hstart : fsm_loop ⟨2, neg, fb, fe, -1, -1, -1, -1⟩ i (('.' :: d :: ds) ++ ep) =
        fsm_loop ⟨4, neg, fb, i, i + 1, fre1, -1, -1⟩ (i + 1 + 1 + ds.length) ep := by
      rw [List.cons_append, List.cons_append, fsm_loop,
        (fsm_step_sign neg fb fe (-1) (-1) (-1) (-1) i).2.2.2.2]
      simp only
      rw [fsm_loop, (fsm_step_digit d hd neg fb i (-1) (-1) (-1) (-1) (i + 1)).2.2.2.1]
      simp only
      exact hfre
    rw [hstart]
    have hlen : (i + 1 + 1 + (ds.length : Int)) = i + (('.' :: d :: ds).length : Int) := by
      simp only [List.length_cons, Nat.cast_add, Nat.cast_one]; omega
    rcases he with rfl | ⟨e, sg, ed, he, hs, hed, rfl⟩
    · refine ⟨_, rfl, ?_⟩
      simp [fsm_finish]
    · obtain ⟨v0, h1, h2⟩ :=
        (fsm_loop_exponent e sg ed he hs hed neg fb i (i + 1) fre1 (-1) (-1)
          (i + 1 + 1 + ds.length)).2
      refine ⟨v0, h1, ?_⟩
      rw [← hlen, h2]
      simp

/-- The parser on a grammatical text: it accepts, and its variables delimit the
integer digits, the fraction digits and the exponent. -/
theorem fsm_parse (sg ip fp ep : List Char) (hs : is_opt_sign sg) (hi : is_digits ip)
    (hf : is_opt_fraction fp) (he : is_opt_exponent ep) :
    ∃ v0, fsm_loop fsm_init 0 (sg ++ ip ++ fp ++ ep) = some v0 ∧
      fsm_finish v0 ((sg ++ ip ++ fp ++ ep).length : Nat) = some (parsed_vars sg ip fp ep) := by
  obtain ⟨hne, hdig⟩ := hi
  obtain ⟨d, ds, rfl⟩ := List.exists_cons_of_ne_nil hne
  have hd : d.isDigit = true := hdig d (List.mem_cons_self _ _)
  have hds : ∀ c ∈ ds, c.isDigit = true := fun x hx => hdig x (List.mem_cons_of_mem _ hx)
  have key : ∀ (neg : Bool) (i : Int), ∃ v0,
      fsm_loop ⟨2, neg, i, -1, -1, -1, -1, -1⟩ (i + 1) (ds ++ (fp ++ ep)) = some v0 ∧
      fsm_finish v0 (i + 1 + ds.length + fp.length + ep.length) =
        some ⟨if ep ≠ [] then 7 else if fp ≠ [] then 4 else 2, neg, i, i + 1 + ds.length,
          if fp = [] then -1 else i + 1 + ds.length + 1,
          if fp = [] then -1 else i + 1 + ds.length + fp.length,
          if ep = [] then -1 else i + 1 + ds.length + fp.length + 1,
          if ep = [] then -1 else i + 1 + ds.length + fp.length + ep.length⟩ := by
    intro neg i
    obtain ⟨fe1, hfe⟩ := fsm_loop_digits2 ds hds neg i (-1) (-1) (-1) (-1) (fp ++ ep) (-1) (i + 1)
    obtain ⟨v0, h1, h2⟩ := fsm_loop_after_int fp ep hf he neg i fe1 (i + 1 + ds.length)
    exact ⟨v0, by rw [hfe]; exact h1, h2⟩
  rcases hs with rfl | rfl | rfl
  · obtain ⟨v0, h1, h2⟩ := key false 0
    refine ⟨v0, ?_, ?_⟩
    · have e0 : ([] : List Char) ++ d :: ds ++ fp ++ ep = d :: (ds ++ (fp ++ ep)) := by simp
      rw [e0, fsm_loop, fsm_init, (fsm_step_digit d hd false (-1) (-1) (-1) (-1) (-1) (-1) 0).1]
      exact h1
    · have : (((([] : List Char) ++ d :: ds ++ fp ++ ep).length : Nat) : Int) =
          0 + 1 + ds.length + fp.length + ep.length := by
        simp only [List.nil_append, List.length_append, List.length_cons, Nat.cast_add,
          Nat.cast_one]; omega
      rw [this, h2]
      by_cases hfp : fp = [] <;> by_cases hep : ep = [] <;>
        simp [parsed_vars, hfp, hep] <;> omega
  · obtain ⟨v0, h1, h2⟩ := key false 1
    refine ⟨v0, ?_, ?_⟩
    · have e0 : ['+'] ++ d :: ds ++ fp ++ ep = '+' :: d :: (ds ++ (fp ++ ep)) := by simp
      rw [e0, fsm_loop, fsm_init, (fsm_step_sign false (-1) (-1) (-1) (-1) (-1) (-1) 0).1]
      simp only
      rw [fsm_loop, (fsm_step_digit d hd false (-1) (-1) (-1) (-1) (-1) (-1) (0 + 1)).2.1]
      exact h1
    · have : (((['+'] ++ d :: ds ++ fp ++ ep).length : Nat) : Int) =
          1 + 1 + ds.length + fp.length + ep.length := by
        simp only [List.singleton_append, List.length_append, List.length_cons, Nat.cast_add,
          Nat.cast_one]; omega
      rw [this, h2]
      by_cases hfp : fp = [] <;> by_cases hep : ep = [] <;>
        simp [parsed_vars, hfp, hep] <;> omega
  · obtain ⟨v0, h1, h2⟩ := key true 1
    refine ⟨v0, ?_, ?_⟩
    · have e0 : ['-'] ++ d :: ds ++ fp ++ ep = '-' :: d :: (ds ++ (fp ++ ep)) := by simp
      rw [e0, fsm_loop, fsm_init, (fsm_step_sign false (-1) (-1) (-1) (-1) (-1) (-1) 0).2.1]
      simp only
      rw [fsm_loop, (fsm_step_digit d hd true (-1) (-1) (-1) (-1) (-1) (-1) (0 + 1)).2.1]
      exact h1
    · have : (((['-'] ++ d :: ds ++ fp ++ ep).length : Nat) : Int) =
          1 + 1 + ds.length + fp.length + ep.length := by
        simp only [List.singleton_append, List.length_append, List.length_cons, Nat.cast_add,
          Nat.cast_one]; omega
      rw [this, h2]
      by_cases hfp : fp = [] <;> by_cases hep : ep = [] <;>
        simp [parsed_vars, hfp, hep] <;> omega

theorem fsm_step_state (v : fsm_vars) (i : Int) (c : Char) :
    (fsm_step v i c).map (fun v => v.state) = fsm_next v.state c := by
  obtain ⟨st, neg, fb, fe, frb, fre, mb, me⟩ := v
  unfold fsm_next fsm_step
  simp only
  split <;> (repeat' split) <;> simp_all

theorem fsm_loop_state (s : List Char) : ∀ (v : fsm_vars) (i : Int),
    (fsm_loop v i s).map (fun v => v.state) = fsm_run v.state s := by
  induction s with
  | nil => intro v i; simp [fsm_loop, fsm_run]
  | cons c s ih =>
    intro v i
    have h := fsm_step_state v i c
    rw [fsm_loop, fsm_run]
    cases hs : fsm_step v i c with
    | none => rw [hs] at h; simp at h; rw [← h]; rfl
    | some v1 =>
      rw [hs] at h
      simp only [Option.map_some'] at h
      rw [← h]
      exact ih v1 (i + 1)

theorem fsm_next_digit (c : Char) (hc : c.isDigit = true) :
    fsm_next 0 c = some 2 ∧ fsm_next 1 c = some 2 ∧ fsm_next 2 c = some 2 ∧
    fsm_next 3 c = some 4 ∧ fsm_next 4 c = some 4 ∧ fsm_next 5 c = some 7 ∧
    fsm_next 6 c = some 7 ∧ fsm_next 7 c = some 7 := by
  obtain ⟨h1, h2, -, -, -⟩ := digit_not_special c hc
  simp [fsm_next, fsm_step, hc, h1, h2]

theorem fsm_next_nondigit (c : Char) (hc : c.isDigit = false) :
    fsm_next 0 c = (if c = '+' ∨ c = '-' then some 1 else none) ∧
    fsm_next 1 c = none ∧
    fsm_next 2 c = (if c = '.' then some 3 else if c = 'E' ∨ c = 'e' then some 5 else none) ∧
    fsm_next 3 c = none ∧
    fsm_next 4 c = (if c = 'E' ∨ c = 'e' then some 5 else none) ∧
    fsm_next 5 c = (if c = '+' ∨ c = '-' then some 6 else none) ∧
    fsm_next 6 c = none ∧ fsm_next 7 c = none := by
  simp only [fsm_next, fsm_step, hc]
  refine ⟨?_, ?_, ?_, ?_, ?_, ?_, ?_, ?_⟩ <;> (repeat' split) <;> simp_all

theorem fsm_run7 (s : List Char) (q : Nat) (h : fsm_run 7 s = some q) :
    q = 7 ∧ ∀ c ∈ s, c.isDigit = true := by
  induction s with
  | nil => simp [fsm_run] at h; exact ⟨h.symm, by simp⟩
  | cons c s ih =>
    rw [fsm_run] at h
    cases hc : c.isDigit with
    | false => rw [(fsm_next_nondigit c hc).2.2.2.2.2.2.2] at h; simp at h
    | true =>
      rw [(fsm_next_digit c hc).2.2.2.2.2.2.2] at h
      obtain ⟨h1, h2⟩ := ih h
      exact ⟨h1, by intro x hx; rcases List.mem_cons.1 hx with rfl | hx; exact hc; exact h2 x hx⟩

theorem fsm_run5 (s : List Char) (q : Nat) (h : fsm_run 5 s = some q)
    (hq : q = 2 ∨ q = 4 ∨ q = 7) :
    ∃ sg ed, is_opt_sign sg ∧ is_digits ed ∧ s = sg ++ ed := by
  cases s with
  | nil => simp [fsm_run] at h; omega
  | cons c s =>
    rw [fsm_run] at h
    cases hc : c.isDigit with
    | true =>
      rw [(fsm_next_digit c hc).2.2.2.2.2.1] at h
      obtain ⟨-, h2⟩ := fsm_run7 s q h
      refine ⟨[], c :: s, Or.inl rfl, ⟨by simp, ?_⟩, rfl⟩
      intro x hx; rcases List.mem_cons.1 hx with rfl | hx; exact hc; exact h2 x hx
    | false =>
      rw [(fsm_next_nondigit c hc).2.2.2.2.2.1] at h
      split_ifs at h with hsg
      · simp only at h
        cases s with
        | nil => simp [fsm_run] at h; omega
        | cons d s =>
          rw [fsm_run] at h
          cases hd : d.isDigit with
          | false => rw [(fsm_next_nondigit d hd).2.2.2.2.2.2.1] at h; simp at h
          | true =>
            rw [(fsm_next_digit d hd).2.2.2.2.2.2.1] at h
            obtain ⟨-, h2⟩ := fsm_run7 s q h
            refine ⟨[c], d :: s, ?_, ⟨by simp, ?_⟩, rfl⟩
            · rcases hsg with rfl | rfl
              · exact Or.inr (Or.inl rfl)
              · exact Or.inr (Or.inr rfl)
            · intro x hx; rcases List.mem_cons.1 hx with rfl | hx; exact hd; exact h2 x hx

theorem fsm_run_exponent (c : Char) (s : List Char) (q : Nat) (hc : c = 'E' ∨ c = 'e')
    (h : fsm_run 5 s = some q) (hq : q = 2 ∨ q = 4 ∨ q = 7) : is_opt_exponent (c :: s) := by
  obtain ⟨sg, ed, h1, h2, rfl⟩ := fsm_run5 s q h hq
  exact Or.inr ⟨c, sg, ed, hc.symm, h1, h2, rfl⟩

theorem fsm_run4 (s : List Char) (q : Nat) (h : fsm_run 4 s = some q)
    (hq : q = 2 ∨ q = 4 ∨ q = 7) :
    ∃ ds ep, (∀ c ∈ ds, c.isDigit = true) ∧ is_opt_exponent ep ∧ s = ds ++ ep := by
  induction s with
  | nil => exact ⟨[], [], by simp, Or.inl rfl, rfl⟩
  | cons c s ih =>
    rw [fsm_run] at h
    cases hc : c.isDigit with
    | true =>
      rw [(fsm_next_digit c hc).2.2.2.2.1] at h
      obtain ⟨ds, ep, h1, h2, rfl⟩ := ih h
      refine ⟨c :: ds, ep, ?_, h2, rfl⟩
      intro x hx; rcases List.mem_cons.1 hx with rfl | hx; exact hc; exact h1 x hx
    | false =>
      rw [(fsm_next_nondigit c hc).2.2.2.2.1] at h
      split_ifs at h with he
      · exact ⟨[], c :: s, by simp, fsm_run_exponent c s q he h hq, rfl⟩

theorem fsm_run2 (s : List Char) (q : Nat) (h : fsm_run 2 s = some q)
    (hq : q = 2 ∨ q = 4 ∨ q = 7) :
    ∃ ds fp ep, (∀ c ∈ ds, c.isDigit = true) ∧ is_opt_fraction fp ∧ is_opt_exponent ep ∧
      s = ds ++ fp ++ ep := by
  induction s with
  | nil => exact ⟨[], [], [], by simp, Or.inl rfl, Or.inl rfl, rfl⟩
  | cons c s ih =>
    rw [fsm_run] at h
    cases hc : c.isDigit with
    | true =>
      rw [(fsm_next_digit c hc).2.2.1] at h
      obtain ⟨ds, fp, ep, h1, h2, h3, rfl⟩ := ih h
      refine ⟨c :: ds, fp, ep, ?_, h2, h3, rfl⟩
      intro x hx; rcases List.mem_cons.1 hx with rfl | hx; exact hc; exact h1 x hx
    | false =>
      rw [(fsm_next_nondigit c hc).2.2.1] at h
      split_ifs at h with hdot he
      · subst hdot
        simp only at h
        cases s with
        | nil => simp [fsm_run] at h; omega
        | cons d s =>
          rw [fsm_run] at h
          cases hd : d.isDigit with
          | false => rw [(fsm_next_nondigit d hd).2.2.2.1] at h; simp at h
          | true =>
            rw [(fsm_next_digit d hd).2.2.2.1] at h
            obtain ⟨ds, ep, h1, h2, rfl⟩ := fsm_run4 s q h hq
            refine ⟨[], '.' :: d :: ds, ep, by simp, Or.inr ⟨d :: ds, ⟨by simp, ?_⟩, rfl⟩, h2, rfl⟩
            intro x hx; rcases List.mem_cons.1 hx with rfl | hx; exact hd; exact h1 x hx
      · exact ⟨[], [], c :: s, by simp, Or.inl rfl, fsm_run_exponent c s q he h hq, rfl⟩

theorem fsm_run1 (s : List Char) (q : Nat) (h : fsm_run 1 s = some q)
    (hq : q = 2 ∨ q = 4 ∨ q = 7) :
    ∃ ip fp ep, is_digits ip ∧ is_opt_fraction fp ∧ is_opt_exponent ep ∧ s = ip ++ fp ++ ep := by
  cases s with
  | nil => simp [fsm_run] at h; omega
  | cons c s =>
    rw [fsm_run] at h
    cases hc : c.isDigit with
    | false => rw [(fsm_next_nondigit c hc).2.1] at h; simp at h
    | true =>
      rw [(fsm_next_digit c hc).2.1] at h
      obtain ⟨ds, fp, ep, h1, h2, h3, rfl⟩ := fsm_run2 s q h hq
      refine ⟨c :: ds, fp, ep, ⟨by simp, ?_⟩, h2, h3, rfl⟩
      intro x hx; rcases List.mem_cons.1 hx with rfl | hx; exact hc; exact h1 x hx

/-- Every text the parser accepts is grammatical. -/
theorem fsm_run0 (s : List Char) (q : Nat) (h : fsm_run 0 s = some q)
    (hq : q = 2 ∨ q = 4 ∨ q = 7) : grammatical s := by
  cases s with
  | nil => simp [fsm_run] at h; omega
  | cons c s =>
    have h0 := h
    rw [fsm_run] at h
    cases hc : c.isDigit with
    | true =>
      have h1 : fsm_run 1 (c :: s) = some q := by
        rw [fsm_run, (fsm_next_digit c hc).2.1]
        rw [(fsm_next_digit c hc).1] at h
        exact h
      obtain ⟨ip, fp, ep, hi, hf, he, e⟩ := fsm_run1 (c :: s) q h1 hq
      exact ⟨[], ip, fp, ep, Or.inl rfl, hi, hf, he, by simpa using e⟩
    | false =>
      rw [(fsm_next_nondigit c hc).1] at h
      split_ifs at h with hsg
      · obtain ⟨ip, fp, ep, hi, hf, he, rfl⟩ := fsm_run1 s q h hq
        refine ⟨[c], ip, fp, ep, ?_, hi, hf, he, by simp⟩
        rcases hsg with rfl | rfl
        · exact Or.inr (Or.inl rfl)
        · exact Or.inr (Or.inr rfl)

theorem fsm_finish_some (v0 v : fsm_vars) (n : Int) (h : fsm_finish v0 n = some v) :
    v0.state = 2 ∨ v0.state = 4 ∨ v0.state = 7 := by
  unfold fsm_finish at h
  split_ifs at h with h2 h4 h7
  · exact Or.inl h2
  · exact Or.inr (Or.inl h4)
  · exact Or.inr (Or.inr h7)

/-- The error code of `bigint_from_string` is decided by the parser alone. -/
theorem from_string_errno (p : bigint) (str : List Char) :
    ((bigint_from_string p str).1 = bigint_errno.BIGINT_NOERR ↔
      ∃ v0 v, fsm_loop fsm_init 0 (c_string str) = some v0 ∧
        fsm_finish v0 ((c_string str).length : Nat) = some v) ∧
    ((bigint_from_string p str).1 = bigint_errno.BIGINT_NOERR ∨
      (bigint_from_string p str).1 = bigint_errno.BIGINT_ILLEGAL_PARAM) := by
  unfold bigint_from_string
  simp only
  cases h1 : fsm_loop fsm_init 0 (c_string str) with
  | none => simp
  | some v0 =>
    cases h2 : fsm_finish v0 ((c_string str).length : Nat) with
    | none => simp [h2]
    | some v =>
      simp only [h2]
      constructor
      · constructor
        · intro _; exact ⟨v0, v, rfl, h2⟩
        · intro _; split_ifs <;> rfl
      · left; split_ifs <;> rfl

/-- C5: `bigint_from_string` returns success exactly on the texts of the grammar
`sign? digits ('.' digits)? ([eE] sign? digits)?`, and the illegal-parameter error
on every other text. -/
theorem from_string_accepts_iff_grammatical (p : bigint) (str : List Char) :
    ((bigint_from_string p str).1 = bigint_errno.BIGINT_NOERR ↔ grammatical (c_string str)) ∧
    ((bigint_from_string p str).1 = bigint_errno.BIGINT_NOERR ∨
      (bigint_from_string p str).1 = bigint_errno.BIGINT_ILLEGAL_PARAM) := by
  obtain ⟨hiff, hor⟩ := from_string_errno p str
  refine ⟨?_, hor⟩
  rw [hiff]
  constructor
  · rintro ⟨v0, v, h1, h2⟩
    have hs := fsm_loop_state (c_string str) fsm_init 0
    rw [h1] at hs
    exact fsm_run0 (c_string str) v0.state hs.symm (fsm_finish_some v0 v _ h2)
  · rintro ⟨sg, ip, fp, ep, hs, hi, hf, he, e⟩
    obtain ⟨v0, h1, h2⟩ := fsm_parse sg ip fp ep hs hi hf he
    rw [e]
    exact ⟨v0, _, h1, h2⟩

/-! ## `bigint_from_string` on a grammatical text -/

theorem isDigit_bounds (c : Char) (h : c.isDigit = true) : 48 ≤ c.toNat ∧ c.toNat ≤ 57 := by
  simp only [Char.isDigit, Bool.and_eq_true, decide_eq_true_eq, ge_iff_le] at h
  obtain ⟨h1, h2⟩ := h
  rw [UInt32.le_def] at h1 h2
  exact ⟨h1, h2⟩

theorem isDigit_ne_nul (c : Char) (h : c.isDigit = true) : c ≠ NUL := by
  intro hc; subst hc; revert h; decide

theorem opt_sign_ne_nul (sg : List Char) (hs : is_opt_sign sg) : ∀ c ∈ sg, c ≠ NUL := by
  rcases hs with rfl | rfl | rfl <;> simp <;> decide

theorem grammatical_ne_nul (sg ip fp ep : List Char) (hs : is_opt_sign sg) (hi : is_digits ip)
    (hf : is_opt_fraction fp) (he : is_opt_exponent ep) :
    ∀ c ∈ sg ++ ip ++ fp ++ ep, c ≠ NUL := by
  intro c hc
  simp only [List.mem_append] at hc
  rcases hc with ((hc | hc) | hc) | hc
  · exact opt_sign_ne_nul sg hs c hc
  · exact isDigit_ne_nul c (hi.2 c hc)
  · rcases hf with rfl | ⟨fd, hfd, rfl⟩
    · simp at hc
    · rcases List.mem_cons.1 hc with rfl | hc
      · decide
      · exact isDigit_ne_nul c (hfd.2 c hc)
  · rcases he with rfl | ⟨e, sg2, ed, he, hs2, hed, rfl⟩
    · simp at hc
    · rcases List.mem_cons.1 hc with rfl | hc
      · rcases he with rfl | rfl <;> decide
      · rcases List.mem_append.1 hc with hc | hc
        · exact opt_sign_ne_nul sg2 hs2 c hc
        · exact isDigit_ne_nul c (hed.2 c hc)

theorem c_string_of_ne_nul (s : List Char) (h : ∀ c ∈ s, c ≠ NUL) : c_string s = s := by
  unfold c_string
  rw [List.takeWhile_eq_self_iff]
  intro c hc
  simpa using h c hc

theorem atoi_digits_eq (ds : List Char) (hd : ∀ c ∈ ds, c.isDigit = true) :
    ∀ acc : Int, atoi_digits acc ds = acc * 10 ^ ds.length + digits_value ds := by
  induction ds with
  | nil => intro acc; simp [atoi_digits, digits_value]
  | cons c ds ih =>
    intro acc
    have hc := hd c (List.mem_cons_self _ _)
    obtain ⟨h1, h2⟩ := isDigit_bounds c hc
    rw [atoi_digits, if_pos hc, ih (fun x hx => hd x (List.mem_cons_of_mem _ hx))]
    simp only [digits_value, List.length_cons, pow_succ, Nat.cast_add, Nat.cast_mul, Nat.cast_pow,
      Nat.cast_ofNat]
    rw [Nat.cast_sub h1]
    push_cast
    ring

/-- An exponent that is an `int` is the value `atoi` returns. -/
theorem strtol_to_int_of_range (v : Int) (h1 : -2147483648 ≤ v) (h2 : v < 2147483648) :
    strtol_to_int v = v := by
  unfold strtol_to_int strtol_clamp
  rw [if_neg (by omega), if_neg (by omega)]
  unfold wrap_int
  omega

theorem atoi_exponent (e : Char) (sg ed : List Char) (hs : is_opt_sign sg) (hed : is_digits ed) :
    atoi (sg ++ ed) = strtol_to_int (exponent_value (e :: (sg ++ ed))) := by
  obtain ⟨hne, hdig⟩ := hed
  obtain ⟨d, ds, rfl⟩ := List.exists_cons_of_ne_nil hne
  have hd := hdig d (List.mem_cons_self _ _)
  obtain ⟨h1, h2, -, -, -⟩ := digit_not_special d hd
  have hds : ∀ c ∈ ds, c.isDigit = true := fun x hx => hdig x (List.mem_cons_of_mem _ hx)
  rcases hs with rfl | rfl | rfl
  · simp only [List.nil_append, atoi, exponent_value, if_neg h1, if_neg h2]
    rw [atoi_digits_eq (d :: ds) hdig]; simp
  · simp only [List.singleton_append, atoi, exponent_value]
    rw [atoi_digits_eq (d :: ds) hdig]; simp
  · simp only [List.singleton_append, atoi, exponent_value]
    rw [atoi_digits_eq (d :: ds) hdig]; simp

theorem set_zero_eq (p : bigint) :
    bigint_set_zero p = { sign := 0, data := [0], mem_size := if 4 < p.mem_size then 2 else p.mem_size } := by
  simp [bigint_set_zero, bigint_pack_memory, pack_trim, strip_zeros, bigint_check_sign]

theorem set_one_eq (p : bigint) :
    bigint_set_one p = { sign := 1, data := [1], mem_size := if 4 < p.mem_size then 2 else p.mem_size } := by
  simp [bigint_set_one, bigint_pack_memory, pack_trim, strip_zeros, bigint_check_sign]

/-- The result of `bigint_from_string` on a grammatical text, in terms of the parts
of the text. -/
theorem from_string_eq (p : bigint) (sg ip fp ep : List Char) (hs : is_opt_sign sg)
    (hi : is_digits ip) (hf : is_opt_fraction fp) (he : is_opt_exponent ep) :
    bigint_from_string p (sg ++ ip ++ fp ++ ep) =
      (bigint_errno.BIGINT_NOERR,
        if strtol_to_int (exponent_value ep) + ip.length < 0 then bigint_set_zero p
        else if strtol_to_int (exponent_value ep) + ip.length = 0 then
          if str_at (sg ++ ip ++ fp ++ ep) sg.length ≥ '5' then
            if sg = ['-'] then bigint_change_sign (bigint_set_one p) else bigint_set_one p
          else bigint_set_zero p
        else
          from_string_normal p (sg ++ ip ++ fp ++ ep) (parsed_vars sg ip fp ep)
            (strtol_to_int (exponent_value ep)) (fraction_length fp)
            (strtol_to_int (exponent_value ep) + ip.length)) := by
  obtain ⟨v0, h1, h2⟩ := fsm_parse sg ip fp ep hs hi hf he
  have hc := c_string_of_ne_nul _ (grammatical_ne_nul sg ip fp ep hs hi hf he)
  have hm : (if (parsed_vars sg ip fp ep).mantissa_begin ≠ -1 then
      atoi ((sg ++ ip ++ fp ++ ep).drop (parsed_vars sg ip fp ep).mantissa_begin.toNat) else 0) =
      strtol_to_int (exponent_value ep) := by
    rcases he with rfl | ⟨e, sg2, ed, he, hs2, hed, rfl⟩
    · have h0 : strtol_to_int (exponent_value []) = 0 := by decide
      rw [h0]
      simp [parsed_vars]
    · have hne : (parsed_vars sg ip fp (e :: (sg2 ++ ed))).mantissa_begin ≠ -1 := by
        simp only [parsed_vars]; simp; omega
      rw [if_pos hne, ← atoi_exponent e sg2 ed hs2 hed]
      have hd : (parsed_vars sg ip fp (e :: (sg2 ++ ed))).mantissa_begin.toNat =
          (sg ++ ip ++ fp).length + 1 := by
        simp only [parsed_vars]; simp; omega
      rw [hd, ← List.drop_drop, List.drop_left]
      rfl
  have hfl : (parsed_vars sg ip fp ep).fraction_end - (parsed_vars sg ip fp ep).fraction_begin =
      (fraction_length fp : Int) := by
    rcases hf with rfl | ⟨fd, hfd, rfl⟩
    · simp [parsed_vars, fraction_length]
    · simp [parsed_vars, fraction_length]
  have hxl : (parsed_vars sg ip fp ep).fixed_end - (parsed_vars sg ip fp ep).fixed_begin =
      (ip.length : Int) := by
    simp [parsed_vars]
  have hneg : ((parsed_vars sg ip fp ep).has_neg_sign = true) = (sg = ['-']) := by
    simp [parsed_vars]
  unfold bigint_from_string
  simp only [hc, h1, h2, hm, hfl, hxl, hneg]
  have hfb : (parsed_vars sg ip fp ep).fixed_begin = (sg.length : Int) := rfl
  rw [hfb]
  split_ifs <;> rfl

theorem str_at_first_digit (sg : List Char) (d : Char) (rest : List Char) :
    str_at (sg ++ d :: rest) sg.length = d := by
  unfold str_at
  rw [if_neg (by omega), Int.toNat_ofNat, List.getD_eq_getElem?_getD,
    List.getElem?_append_right (le_refl _)]
  simp

/-- For exponents that are an `int`: a grammatical text whose integer-digit count plus exponent is at most 0
yields 0, except that it yields 1 (or -1 after a leading minus sign) when the sum is
exactly 0 and the first integer digit is at least 5. -/
theorem from_string_below_units (p : bigint) (sg : List Char) (d : Char) (ds fp ep : List Char)
    (hs : is_opt_sign sg) (hi : is_digits (d :: ds)) (hf : is_opt_fraction fp)
    (he : is_opt_exponent ep)
    (hsum : ((d :: ds).length : Int) + exponent_value ep ≤ 0)
    (hint : -2147483648 ≤ exponent_value ep) :
    (bigint_from_string p (sg ++ d :: ds ++ fp ++ ep)).1 = bigint_errno.BIGINT_NOERR ∧
    value (bigint_from_string p (sg ++ d :: ds ++ fp ++ ep)).2 =
      (if ((d :: ds).length : Int) + exponent_value ep = 0 ∧ '5' ≤ d then
        (if sg = ['-'] then -1 else 1) else 0) ∧
    (bigint_from_string p (sg ++ d :: ds ++ fp ++ ep)).2.sign =
      (if ((d :: ds).length : Int) + exponent_value ep = 0 ∧ '5' ≤ d then
        (if sg = ['-'] then -1 else 1) else 0) ∧
    (bigint_from_string p (sg ++ d :: ds ++ fp ++ ep)).2.data =
      (if ((d :: ds).length : Int) + exponent_value ep = 0 ∧ '5' ≤ d then [1] else [0]) := by
  rw [from_string_eq p sg (d :: ds) fp ep hs hi hf he,
    strtol_to_int_of_range (exponent_value ep) hint
      (by have : (0 : Int) ≤ ((d :: ds).length : Int) := Int.ofNat_nonneg _; omega)]
  have hat : str_at (sg ++ d :: ds ++ fp ++ ep) sg.length = d := by
    rw [List.append_assoc, List.append_assoc, List.cons_append]
    exact str_at_first_digit sg d _
  rw [hat]
  by_cases h0 : exponent_value ep + ((d :: ds).length : Int) < 0
  · have hne : ¬ (((d :: ds).length : Int) + exponent_value ep = 0 ∧ '5' ≤ d) := by
      intro h; omega
    simp only [if_pos h0, if_neg hne, set_zero_eq, value, seg_value]
    simp
  · have h1 : exponent_value ep + ((d :: ds).length : Int) = 0 := by omega
    have h1' : ((d :: ds).length : Int) + exponent_value ep = 0 := by omega
    simp only [if_neg h0, if_pos h1, h1', true_and, ge_iff_le]
    by_cases h5 : '5' ≤ d
    · simp only [if_pos h5, set_one_eq]
      by_cases hsg : sg = ['-']
      · simp [hsg, bigint_change_sign, bigint_check_sign, value, seg_value]
      · simp [hsg, value, seg_value]
    · simp only [if_neg h5, set_zero_eq, value, seg_value]
      simp

/-- The texts "5e-1" (gives 1) and "4e-1" (gives 0). -/
theorem from_string_below_units_witness :
    (((['5'].length : Int) + exponent_value ['e', '-', '1'] ≤ 0) ∧
      value (bigint_from_string bigint_init ([] ++ '5' :: [] ++ [] ++ ['e', '-', '1'])).2 = 1) ∧
    (((['4'].length : Int) + exponent_value ['e', '-', '1'] ≤ 0) ∧
      value (bigint_from_string bigint_init ([] ++ '4' :: [] ++ [] ++ ['e', '-', '1'])).2 = 0) := by
  have e1 : is_opt_exponent ['e', '-', '1'] :=
    Or.inr ⟨'e', ['-'], ['1'], Or.inl rfl, Or.inr (Or.inr rfl), ⟨by simp, by decide⟩, rfl⟩
  have hv : ((['5'].length : Int) + exponent_value ['e', '-', '1'] ≤ 0) := by decide
  have hv4 : ((['4'].length : Int) + exponent_value ['e', '-', '1'] ≤ 0) := by decide
  refine ⟨⟨hv, ?_⟩, ⟨hv4, ?_⟩⟩
  · have h := (from_string_below_units bigint_init [] '5' [] [] ['e', '-', '1'] (Or.inl rfl)
      ⟨by simp, by decide⟩ (Or.inl rfl) e1 hv (by decide)).2.1
    rw [h]; decide
  · have h := (from_string_below_units bigint_init [] '4' [] [] ['e', '-', '1'] (Or.inl rfl)
      ⟨by simp, by decide⟩ (Or.inl rfl) e1 hv4 (by decide)).2.1
    rw [h]; decide

/-! ## Concrete texts -/

theorem assure_memory_size (p : bigint) (k : Nat) :
    ∃ m, (bigint_assure_memory p k).mem_size = m + k := by
  unfold bigint_assure_memory
  split
  · exact ⟨k + 2, by simp only; omega⟩
  · exact ⟨p.mem_size - k, by omega⟩

theorem parse_123_456e2 :
    fsm_loop fsm_init 0 (c_string ['1', '2', '3', '.', '4', '5', '6', 'e', '2']) =
      some ⟨7, false, 0, 3, 4, 7, 8, -1⟩ ∧
    c_string ['1', '2', '3', '.', '4', '5', '6', 'e', '2'] =
      ['1', '2', '3', '.', '4', '5', '6', 'e', '2'] := by
  decide

/-- C7 as the code has it: the text "123.456e2" is parsed to 12346 (the dropped
digit 6 rounds the kept digits up) and formatted as "12346", whatever the
destination held before. -/
theorem from_string_123_456e2 (p : bigint) :
    (bigint_from_string p ['1', '2', '3', '.', '4', '5', '6', 'e', '2']).1 =
      bigint_errno.BIGINT_NOERR ∧
    value (bigint_from_string p ['1', '2', '3', '.', '4', '5', '6', 'e', '2']).2 = 12346 ∧
    bigint_to_string (bigint_from_string p ['1', '2', '3', '.', '4', '5', '6', 'e', '2']).2 =
      ['1', '2', '3', '4', '6', NUL] := by
  obtain ⟨hfsm, hc⟩ := parse_123_456e2
  obtain ⟨m, hm⟩ := assure_memory_size p 2
  have h2 : strtol_to_int 2 = 2 := by decide
  unfold bigint_from_string
  simp only [hfsm]
  rw [hc]
  simp [fsm_finish, atoi, atoi_digits, h2]
  simp [from_string_normal, hm, List.replicate_succ, drop_loop, str_at, weight_loop, write_loop,
    write_step, BIGINT_RADIX]
  simp [bigint_pack_memory, pack_trim, strip_zeros, bigint_check_sign, bigint_to_string, value,
    seg_value]
  decide

/-- C7 as the claim has it fails: the formatted result is not "12345". -/
theorem from_string_123_456e2_is_not_12345 :
    bigint_to_string (bigint_from_string bigint_init
      ['1', '2', '3', '.', '4', '5', '6', 'e', '2']).2 ≠ ['1', '2', '3', '4', '5', NUL] := by
  decide

theorem parse_999999999_5 :
    fsm_loop fsm_init 0
        (c_string ['9', '9', '9', '9', '9', '9', '9', '9', '9', '.', '5']) =
      some ⟨4, false, 0, 9, 10, -1, -1, -1⟩ ∧
    c_string ['9', '9', '9', '9', '9', '9', '9', '9', '9', '.', '5'] =
      ['9', '9', '9', '9', '9', '9', '9', '9', '9', '.', '5'] := by
  decide

/-- C6 at the text "999999999.5": the value the text denotes rounds half-up to
1000000000, but the carry out of the ninth kept digit is lost when the digits run
out at a segment boundary, and the result is 0. -/
theorem from_string_999999999_5 (p : bigint) :
    (bigint_from_string p ['9', '9', '9', '9', '9', '9', '9', '9', '9', '.', '5']).1 =
      bigint_errno.BIGINT_NOERR ∧
    value (bigint_from_string p ['9', '9', '9', '9', '9', '9', '9', '9', '9', '.', '5']).2 = 0 ∧
    bigint_to_string (bigint_from_string p
      ['9', '9', '9', '9', '9', '9', '9', '9', '9', '.', '5']).2 = ['0', NUL] := by
  obtain ⟨hfsm, hc⟩ := parse_999999999_5
  obtain ⟨m, hm⟩ := assure_memory_size p 3
  unfold bigint_from_string
  simp only [hfsm]
  rw [hc]
  simp [fsm_finish, atoi, atoi_digits]
  simp [from_string_normal, hm, List.replicate_succ, drop_loop, str_at, weight_loop, write_loop,
    write_step, BIGINT_RADIX]
  simp [bigint_pack_memory, pack_trim, strip_zeros, bigint_check_sign, bigint_to_string, value,
    seg_value]

theorem parse_5e_minus_4294967296 :
    fsm_loop fsm_init 0
        (c_string ['5', 'e', '-', '4', '2', '9', '4', '9', '6', '7', '2', '9', '6']) =
      some ⟨7, false, 0, 1, -1, -1, 2, 13⟩ ∧
    c_string ['5', 'e', '-', '4', '2', '9', '4', '9', '6', '7', '2', '9', '6'] =
      ['5', 'e', '-', '4', '2', '9', '4', '9', '6', '7', '2', '9', '6'] ∧
    atoi ['-', '4', '2', '9', '4', '9', '6', '7', '2', '9', '6'] = 0 := by
  decide

/-- C8 at the text "5e-4294967296": the text is grammatical and its integer-digit
count plus exponent is 1 - 4294967296, so the number it denotes lies far below the
units place; but `atoi` returns an `int`, the exponent -4294967296 = -2^32 becomes 0,
and the text is read as "5e0": the result is 5, whatever the destination held. -/
theorem from_string_5e_minus_4294967296 (p : bigint) :
    grammatical ['5', 'e', '-', '4', '2', '9', '4', '9', '6', '7', '2', '9', '6'] ∧
    ((['5'].length : Int) +
      exponent_value ['e', '-', '4', '2', '9', '4', '9', '6', '7', '2', '9', '6'] = -4294967295) ∧
    (bigint_from_string p ['5', 'e', '-', '4', '2', '9', '4', '9', '6', '7', '2', '9', '6']).1 =
      bigint_errno.BIGINT_NOERR ∧
    value (bigint_from_string p
      ['5', 'e', '-', '4', '2', '9', '4', '9', '6', '7', '2', '9', '6']).2 = 5 ∧
    bigint_to_string (bigint_from_string p
      ['5', 'e', '-', '4', '2', '9', '4', '9', '6', '7', '2', '9', '6']).2 = ['5', NUL] := by
  obtain ⟨hfsm, hc, hat⟩ := parse_5e_minus_4294967296
  obtain ⟨m, hm⟩ := assure_memory_size p 2
  refine ⟨⟨[], ['5'], [], ['e', '-', '4', '2', '9', '4', '9', '6', '7', '2', '9', '6'],
    Or.inl rfl, ⟨by simp, by decide⟩, Or.inl rfl,
    Or.inr ⟨'e', ['-'], ['4', '2', '9', '4', '9', '6', '7', '2', '9', '6'], Or.inl rfl,
      Or.inr (Or.inr rfl), ⟨by simp, by decide⟩, rfl⟩, rfl⟩, by decide, ?_⟩
  unfold bigint_from_string
  simp only [hfsm]
  rw [hc]
  simp [fsm_finish, hat]
  simp [from_string_normal, hm, List.replicate_succ, drop_loop, str_at, weight_loop, write_loop,
    write_step, BIGINT_RADIX]
  simp [bigint_pack_memory, pack_trim, strip_zeros, bigint_check_sign, bigint_to_string, value,
    seg_value]
  decide

/-! ## An all-zero digit run -/

theorem str_at_nonneg (s : List Char) (n : Nat) : str_at s (n : Int) = s.getD n NUL := by
  unfold str_at
  rw [if_neg (by omega), Int.toNat_ofNat]

theorem str_at_mem (s : List Char) (n : Nat) (h : n < s.length) : str_at s (n : Int) ∈ s := by
  rw [str_at_nonneg, List.getD_eq_getElem?_getD, List.getElem?_eq_getElem h]
  exact List.getElem_mem h

theorem str_at_append_left (a b : List Char) (n : Nat) (h : n < a.length) :
    str_at (a ++ b) (n : Int) = str_at a (n : Int) := by
  rw [str_at_nonneg, str_at_nonneg, List.getD_eq_getElem?_getD, List.getD_eq_getElem?_getD,
    List.getElem?_append_left h]

theorem str_at_append_right (a b : List Char) (n : Nat) (h : a.length ≤ n) :
    str_at (a ++ b) (n : Int) = str_at b ((n - a.length : Nat) : Int) := by
  rw [str_at_nonneg, str_at_nonneg, List.getD_eq_getElem?_getD, List.getD_eq_getElem?_getD,
    List.getElem?_append_right h]

/-- In a text whose integer digits `ip` and fraction `fp` consist of zeros, every
position of the digit run holds '0', or holds the period with '0' just before it. -/
theorem zero_run_chars (sg ip fp ep : List Char) (hi : is_digits ip)
    (hf : is_opt_fraction fp) (hz : ∀ c ∈ ip, c = '0') (hzf : ∀ c ∈ fp, c = '.' ∨ c = '0')
    (pos : Int) (h1 : (sg.length : Int) ≤ pos)
    (h2 : pos < sg.length + ip.length + fp.length) :
    str_at (sg ++ ip ++ fp ++ ep) pos = '0' ∨
    (str_at (sg ++ ip ++ fp ++ ep) pos = '.' ∧ (sg.length : Int) ≤ pos - 1 ∧
      str_at (sg ++ ip ++ fp ++ ep) (pos - 1) = '0') := by
  obtain ⟨n, rfl⟩ := Int.eq_ofNat_of_zero_le (by omega : 0 ≤ pos)
  have hipne : ip ≠ [] := hi.1
  have hlen : 0 < ip.length := List.length_pos.2 hipne
  have hin : ∀ m : Nat, sg.length ≤ m → m < sg.length + ip.length →
      str_at (sg ++ ip ++ fp ++ ep) (m : Int) = '0' := by
    intro m hm1 hm2
    rw [List.append_assoc, List.append_assoc, str_at_append_right sg _ m hm1,
      str_at_append_left ip _ _ (by omega)]
    exact hz _ (str_at_mem ip _ (by omega))
  by_cases hn : n < sg.length + ip.length
  · exact Or.inl (hin n (by omega) hn)
  · have hfpm : str_at (sg ++ ip ++ fp ++ ep) (n : Int) ∈ fp := by
      rw [List.append_assoc, str_at_append_right (sg ++ ip) _ n (by simp; omega),
        str_at_append_left fp _ _ (by simp; omega)]
      exact str_at_mem fp _ (by simp; omega)
    rcases hzf _ hfpm with hdot | hzero
    · right
      refine ⟨hdot, by omega, ?_⟩
      rcases hf with rfl | ⟨fd, hfd, rfl⟩
      · simp at hfpm
      · by_cases hn0 : n = sg.length + ip.length
        · have : ((n : Int) - 1) = ((n - 1 : Nat) : Int) := by omega
          rw [this]
          exact hin (n - 1) (by omega) (by omega)
        · exfalso
          have hfd0 : ∀ c ∈ fd, c ≠ '.' := by
            intro c hc h; subst h
            exact absurd (hfd.2 _ hc) (by decide)
          have hmem : str_at (sg ++ ip ++ ('.' :: fd) ++ ep) (n : Int) ∈ fd := by
            rw [List.append_assoc, str_at_append_right (sg ++ ip) _ n (by simp; omega),
              str_at_append_left ('.' :: fd) _ _ (by simp at h2 ⊢; omega)]
            have : (n - (sg ++ ip).length) = (n - (sg ++ ip).length - 1) + 1 := by
              simp; omega
            rw [this, str_at_nonneg, List.getD_eq_getElem?_getD, List.getElem?_cons_succ,
              ← List.getD_eq_getElem?_getD, ← str_at_nonneg]
            exact str_at_mem fd _ (by simp at h2 ⊢; omega)
          exact hfd0 _ hmem hdot
    · exact Or.inl hzero

theorem drop_loop_zero (s : List Char) (hi : Int)
    (hz : ∀ pos, pos ≤ hi → ¬ (str_at s pos ≥ '5')) :
    ∀ (n : Nat) (pos : Int), pos ≤ hi →
      (drop_loop s n pos 0).2 = 0 ∧ (drop_loop s n pos 0).1 ≤ hi := by
  intro n
  induction n with
  | zero => intro pos hp; exact ⟨rfl, hp⟩
  | succ n ih =>
    intro pos hp
    rw [drop_loop]
    have hp1 : (if str_at s pos = '.' then pos - 1 else pos) ≤ hi := by split_ifs <;> omega
    rw [if_neg (hz _ hp1)]
    exact ih _ (by omega)

theorem write_loop_zero (s : List Char) (fb hi : Int)
    (hz : ∀ pos, fb ≤ pos → pos ≤ hi → str_at s pos = '0' ∨
      (str_at s pos = '.' ∧ fb ≤ pos - 1 ∧ str_at s (pos - 1) = '0')) :
    ∀ (n : Nat) (w : write_vars), w.pos ≤ hi → w.is_zero = true → w.carry = 0 →
      (∀ x ∈ w.p_data, x = 0) → (write_loop s fb n w).is_zero = true := by
  intro n
  induction n with
  | zero => intro w _ h _ _; exact h
  | succ n ih =>
    intro w hp hzero hc hdata
    rw [write_loop]
    split_ifs with hge
    · have hch : str_at s (if str_at s w.pos = '.' then w.pos - 1 else w.pos) = '0' := by
        rcases hz w.pos hge hp with h0 | ⟨hdot, -, h0⟩
        · rw [if_neg (by rw [h0]; decide)]; exact h0
        · rw [if_pos hdot]; exact h0
      have hget : w.p_data.getD w.index 0 = 0 := by
        rw [List.getD_eq_getElem?_getD]
        cases hg : w.p_data[w.index]? with
        | none => rfl
        | some x => exact hdata x (List.getElem?_mem hg)
      have hset : ∀ (l : List Int) (k : Nat), (∀ x ∈ l, x = 0) → ∀ x ∈ l.set k 0, x = 0 := by
        intro l k hl x hx
        rcases List.mem_or_eq_of_mem_set hx with h | h
        · exact hl x h
        · exact h
      have hstep : (write_step s w).pos ≤ hi ∧ (write_step s w).is_zero = true ∧
          (write_step s w).carry = 0 ∧ ∀ x ∈ (write_step s w).p_data, x = 0 := by
        unfold write_step
        simp only [hch, hget, hc, hzero]
        have h48 : (('0' : Char).toNat : Int) - 48 = 0 := by decide
        rw [h48]
        simp only [add_zero, mul_zero, ge_iff_le]
        have hR : ¬ (BIGINT_RADIX ≤ 0) := by decide
        rw [if_neg hR, if_neg hR]
        have hnz : ¬ (('1' ≤ ('0' : Char) ∧ ('0' : Char) ≤ '9') ∨ (0 : Int) ≠ 0) := by decide
        rw [if_neg hnz]
        split_ifs <;> refine ⟨by simp only; omega, rfl, rfl, ?_⟩
        · exact hset _ _ (hset _ _ hdata)
        · exact hset _ _ (hset _ _ hdata)
        · exact hset _ _ hdata
        · exact hset _ _ hdata
      exact ih _ hstep.1 hstep.2.1 hstep.2.2.1 hstep.2.2.2
    · exact hzero

theorem zero_run_below_five (sg ip fp ep : List Char) (hs : is_opt_sign sg) (hi : is_digits ip)
    (hf : is_opt_fraction fp) (hz : ∀ c ∈ ip, c = '0') (hzf : ∀ c ∈ fp, c = '.' ∨ c = '0')
    (pos : Int) (h2 : pos < sg.length + ip.length + fp.length) :
    ¬ (str_at (sg ++ ip ++ fp ++ ep) pos ≥ '5') := by
  by_cases hneg : pos < 0
  · unfold str_at; rw [if_pos hneg]; decide
  · by_cases hsg : pos < sg.length
    · obtain ⟨n, rfl⟩ := Int.eq_ofNat_of_zero_le (by omega : 0 ≤ pos)
      rw [List.append_assoc, List.append_assoc, str_at_append_left sg _ n (by omega)]
      have hm := str_at_mem sg n (by omega)
      rcases hs with rfl | rfl | rfl
      · simp at hm
      · simp at hm; rw [hm]; decide
      · simp at hm; rw [hm]; decide
    · rcases zero_run_chars sg ip fp ep hi hf hz hzf pos (by omega) h2 with h | ⟨h, -, -⟩
      · rw [h]; decide
      · rw [h]; decide

/-- C9: a grammatical text whose integer and fraction digits are all '0' yields the
zero of one segment with sign 0, whatever its sign and exponent. -/
theorem from_string_all_zero (p : bigint) (sg ip fp ep : List Char) (hs : is_opt_sign sg)
    (hi : is_digits ip) (hf : is_opt_fraction fp) (he : is_opt_exponent ep)
    (hz : ∀ c ∈ ip, c = '0') (hzf : ∀ c ∈ fp, c = '.' ∨ c = '0') :
    (bigint_from_string p (sg ++ ip ++ fp ++ ep)).1 = bigint_errno.BIGINT_NOERR ∧
    (bigint_from_string p (sg ++ ip ++ fp ++ ep)).2.sign = 0 ∧
    (bigint_from_string p (sg ++ ip ++ fp ++ ep)).2.data = [0] ∧
    value (bigint_from_string p (sg ++ ip ++ fp ++ ep)).2 = 0 ∧
    (p.mem_size = 0 ∨ well_formed (bigint_from_string p (sg ++ ip ++ fp ++ ep)).2) := by
  have hzero : ∀ q : bigint, (bigint_set_zero q).sign = 0 ∧ (bigint_set_zero q).data = [0] ∧
      value (bigint_set_zero q) = 0 ∧ (q.mem_size = 0 ∨ well_formed (bigint_set_zero q)) := by
    intro q
    rw [set_zero_eq]
    refine ⟨rfl, rfl, by simp [value], ?_⟩
    by_cases hq : q.mem_size = 0
    · exact Or.inl hq
    · right
      refine ⟨Or.inr (Or.inl rfl), by simp, by simp, by simp, by simp, ?_⟩
      simp only [List.length_singleton]
      split_ifs <;> omega
  rw [from_string_eq p sg ip fp ep hs hi hf he]
  refine ⟨rfl, ?_⟩
  simp only
  obtain ⟨d, ds, rfl⟩ := List.exists_cons_of_ne_nil hi.1
  have hd0 : d = '0' := hz d (List.mem_cons_self _ _)
  have hat : str_at (sg ++ d :: ds ++ fp ++ ep) sg.length = d := by
    rw [List.append_assoc, List.append_assoc, List.cons_append]
    exact str_at_first_digit sg d _
  rw [hat]
  split_ifs with h1 h2 h3 h4
  · exact hzero p
  · exfalso; rw [hd0] at h3; revert h3; decide
  · exfalso; rw [hd0] at h3; revert h3; decide
  · exact hzero p
  · -- the normal case
    unfold from_string_normal
    simp only
    have hpos : (if (fraction_length fp : Int) > 0 then (parsed_vars sg (d :: ds) fp ep).fraction_end - 1
        else (parsed_vars sg (d :: ds) fp ep).fixed_end - 1) =
        (sg.length : Int) + (d :: ds).length + fp.length - 1 := by
      rcases hf with rfl | ⟨fd, hfd, rfl⟩
      · simp [fraction_length, parsed_vars]
      · have : 0 < fd.length := List.length_pos.2 hfd.1
        have hfl : (fraction_length ('.' :: fd) : Int) > 0 := by
          simp [fraction_length]; omega
        rw [if_pos hfl]
        simp [parsed_vars]
    rw [hpos]
    have hdrop := drop_loop_zero (sg ++ d :: ds ++ fp ++ ep)
      ((sg.length : Int) + (d :: ds).length + fp.length - 1)
      (fun pos hp => zero_run_below_five sg (d :: ds) fp ep hs hi hf hz hzf pos (by omega))
    have hw := write_loop_zero (sg ++ d :: ds ++ fp ++ ep) (sg.length : Int)
      ((sg.length : Int) + (d :: ds).length + fp.length - 1)
      (fun pos hp1 hp2 => zero_run_chars sg (d :: ds) fp ep hi hf hz hzf pos hp1 (by omega))
    have hfb : (parsed_vars sg (d :: ds) fp ep).fixed_begin = (sg.length : Int) := rfl
    rw [hfb]
    rw [if_pos]
    · obtain ⟨m, hm⟩ := assure_memory_size p
        (strtol_to_int (exponent_value ep) + ((d :: ds).length : Int)).toNat.succ.succ
      have hq := hzero (bigint_assure_memory p ((strtol_to_int (exponent_value ep) + ↑(d :: ds).length) / 9 + 2).toNat)
      refine ⟨hq.1, hq.2.1, hq.2.2.1, Or.inr ?_⟩
      rcases hq.2.2.2 with h0 | hwf
      · exfalso
        obtain ⟨m2, hm2⟩ := assure_memory_size p ((strtol_to_int (exponent_value ep) + ↑(d :: ds).length) / 9 + 2).toNat
        have : 2 ≤ ((strtol_to_int (exponent_value ep) + ↑(d :: ds).length) / 9 + 2).toNat := by
          have : 0 ≤ (strtol_to_int (exponent_value ep) + ↑(d :: ds).length) / 9 := by
            apply Int.ediv_nonneg <;> omega
          omega
        omega
      · exact hwf
    · apply hw
      · simp only
        split_ifs with hmv
        · exact (hdrop _ _ (le_refl _)).2
        · simp
      · rfl
      · simp only
        split_ifs with hmv
        · exact (hdrop _ _ (le_refl _)).1
        · rfl
      · intro x hx
        exact (List.mem_replicate.1 hx).2

/-- C9, at the text "0000e10". -/
theorem from_string_all_zero_witness :
    value (bigint_from_string bigint_init ([] ++ ['0', '0', '0', '0'] ++ [] ++ ['e', '1', '0'])).2
      = 0 :=
  (from_string_all_zero bigint_init [] ['0', '0', '0', '0'] [] ['e', '1', '0'] (Or.inl rfl)
    ⟨by simp, by decide⟩ (Or.inl rfl)
    (Or.inr ⟨'e', [], ['1', '0'], Or.inl rfl, Or.inl rfl, ⟨by simp, by decide⟩, rfl⟩)
    (by decide) (by simp)).2.2.2.1

/-! ## `bigint_to_string` -/

theorem digit_char_eq (n : Nat) (h : n < 10) : digit_char (n : Int) = Nat.digitChar n := by
  unfold digit_char
  have : ((n : Int) + 48).toNat = n + 48 := by omega
  rw [this]
  interval_cases n <;> rfl

theorem first_segment_chars_eq : ∀ (fuel : Nat) (v : Int) (acc : List Char), 0 ≤ v →
    v.toNat ≤ fuel → first_segment_chars fuel v acc = nat_numeral v.toNat ++ acc := by
  intro fuel
  induction fuel with
  | zero =>
    intro v acc h0 hf
    have : v.toNat = 0 := by omega
    simp [first_segment_chars, nat_numeral, this]
  | succ fuel ih =>
    intro v acc h0 hf
    rw [first_segment_chars]
    split_ifs with hv
    · obtain ⟨n, rfl⟩ := Int.eq_ofNat_of_zero_le h0
      have hn : 0 < n := by omega
      have hdiv : ((n : Int) / 10) = ((n / 10 : Nat) : Int) := by norm_cast
      have hmod : ((n : Int) % 10) = ((n % 10 : Nat) : Int) := by norm_cast
      rw [hdiv, hmod, ih _ _ (by omega) (by simp only [Int.toNat_ofNat]; simp at hf; omega),
        digit_char_eq _ (Nat.mod_lt _ (by omega))]
      simp only [Int.toNat_ofNat, nat_numeral]
      rw [Nat.digits_def' (by omega) hn]
      simp
    · have : v.toNat = 0 := by omega
      simp [nat_numeral, this]

theorem padded_segment_chars_eq : ∀ (k : Nat) (v : Int) (acc : List Char), 0 ≤ v →
    padded_segment_chars k v acc = padded_numeral k v.toNat ++ acc := by
  intro k
  induction k with
  | zero => intro v acc _; simp [padded_segment_chars, padded_numeral, padded_digits]
  | succ k ih =>
    intro v acc h0
    obtain ⟨n, rfl⟩ := Int.eq_ofNat_of_zero_le h0
    have hdiv : (Int.tdiv (n : Int) 10) = ((n / 10 : Nat) : Int) := by
      rw [Int.tdiv_eq_ediv (by omega) (by omega)]; norm_cast
    have hmod : (Int.tmod (n : Int) 10) = ((n % 10 : Nat) : Int) := by
      rw [Int.tmod_eq_emod (by omega) (by omega)]; norm_cast
    rw [padded_segment_chars, hdiv, hmod, ih _ _ (by omega),
      digit_char_eq _ (Nat.mod_lt _ (by omega))]
    simp only [Int.toNat_ofNat, padded_numeral, padded_digits, List.reverse_cons,
      List.map_append, List.map_cons, List.map_nil, List.append_assoc, List.singleton_append]

theorem digits_append_padded : ∀ (k lo hi : Nat), lo < 10 ^ k → 0 < hi →
    Nat.digits 10 (lo + 10 ^ k * hi) = padded_digits k lo ++ Nat.digits 10 hi := by
  intro k
  induction k with
  | zero => intro lo hi hlo _; simp at hlo; simp [hlo, padded_digits]
  | succ k ih =>
    intro lo hi hlo hhi
    have hpos : 0 < lo + 10 ^ (k + 1) * hi := by positivity
    rw [Nat.digits_def' (by omega) hpos, padded_digits]
    have hm : 10 ^ (k + 1) * hi = 10 * (10 ^ k * hi) := by ring
    have h1 : (lo + 10 ^ (k + 1) * hi) % 10 = lo % 10 := by
      rw [hm]; omega
    have h2 : (lo + 10 ^ (k + 1) * hi) / 10 = lo / 10 + 10 ^ k * hi := by
      rw [hm]; omega
    rw [h1, h2, ih (lo / 10) hi (by rw [pow_succ] at hlo; omega) hhi]
    rfl

theorem nat_numeral_append (lo hi : Nat) (hlo : lo < 10 ^ 9) (hhi : 0 < hi) :
    nat_numeral (lo + 10 ^ 9 * hi) = nat_numeral hi ++ padded_numeral 9 lo := by
  unfold nat_numeral padded_numeral
  rw [digits_append_padded 9 lo hi hlo hhi, List.reverse_append, List.map_append]

theorem segments_numeral_snoc (l : List Int) (s : Int) (hl : l ≠ []) :
    segments_numeral (l ++ [s]) = segments_numeral l ++ padded_numeral 9 s.toNat := by
  obtain ⟨top, rest, rfl⟩ := List.exists_cons_of_ne_nil hl
  simp [segments_numeral]

theorem seg_value_nonneg (data : List Int) (h : ∀ s ∈ data, 0 ≤ s) : 0 ≤ seg_value data := by
  induction data with
  | nil => simp [seg_value]
  | cons x xs ih =>
    have h1 := h x (List.mem_cons_self _ _)
    have h2 := ih (fun s hs => h s (List.mem_cons_of_mem _ hs))
    simp only [seg_value]
    positivity

/-- The digits written for a normalised segment list are the numeral of its
value. -/
theorem segments_numeral_eq (data : List Int) (hne : data ≠ [])
    (hr : ∀ s ∈ data, 0 ≤ s ∧ s < BIGINT_RADIX) (hl : data.getLast? ≠ some 0) :
    segments_numeral data.reverse = nat_numeral (seg_value data).toNat ∧ 0 < seg_value data := by
  induction data with
  | nil => exact absurd rfl hne
  | cons x xs ih =>
    have hx := hr x (List.mem_cons_self _ _)
    by_cases hxs : xs = []
    · subst hxs
      have hx0 : x ≠ 0 := by
        intro h; subst h; simp at hl
      simp only [List.reverse_cons, List.reverse_nil, List.nil_append, segments_numeral,
        List.map_nil, List.flatten_nil, List.append_nil, seg_value, mul_zero, add_zero]
      exact ⟨trivial, by omega⟩
    · have hl2 : xs.getLast? ≠ some 0 := by
        obtain ⟨y, ys, rfl⟩ := List.exists_cons_of_ne_nil hxs
        rw [List.getLast?_cons_cons] at hl
        exact hl
      obtain ⟨h1, h2⟩ := ih hxs (fun s hs => hr s (List.mem_cons_of_mem _ hs)) hl2
      have hrev : xs.reverse ≠ [] := by simpa using hxs
      rw [List.reverse_cons, segments_numeral_snoc _ _ hrev, h1]
      obtain ⟨n, hn⟩ := Int.eq_ofNat_of_zero_le hx.1
      obtain ⟨m, hm⟩ := Int.eq_ofNat_of_zero_le (le_of_lt h2)
      have hval : seg_value (x :: xs) = ((n + 10 ^ 9 * m : Nat) : Int) := by
        simp only [seg_value, hn, hm, BIGINT_RADIX]; push_cast; norm_num
      rw [hval, hn, hm]
      simp only [Int.toNat_ofNat]
      have hn9 : n < 10 ^ 9 := by
        have := hx.2; rw [hn] at this; simp only [BIGINT_RADIX] at this; omega
      have hm0 : 0 < m := by omega
      exact ⟨(nat_numeral_append n m hn9 hm0).symm, by positivity⟩

theorem check_sign_of_well_formed (x : bigint) (h : well_formed x) : bigint_check_sign x = x := by
  unfold bigint_check_sign
  split_ifs with h0
  · have := h.2.2.2.2.1.2 h0
    cases x; simp_all
  · rfl

/-- The characters `bigint_to_string` writes for a well-formed bigint, segment by
segment. -/
theorem to_string_shape (x : bigint) (h : well_formed x) :
    (x.sign = 0 ∧ x.data = [0] ∧ bigint_to_string x = ['0', NUL]) ∨
    (x.sign ≠ 0 ∧ x.data ≠ [] ∧ x.data.getLast? ≠ some 0 ∧ bigint_to_string x =
        (if x.sign < 0 then ['-'] else []) ++ segments_numeral x.data.reverse ++ [NUL]) := by
  have hcs := check_sign_of_well_formed x h
  obtain ⟨hsign, hlen, hr, hlast, hzero, -⟩ := h
  by_cases h0 : x.sign = 0
  · have hd := hzero.1 h0
    have hts : bigint_to_string x = ['0', NUL] := by
      unfold bigint_to_string
      simp only [hcs, h0]
      rfl
    exact Or.inl ⟨h0, hd, hts⟩
  · have hne : x.data ≠ [] := by
      intro he; rw [he] at hlen; simp at hlen
    have hl : x.data.getLast? ≠ some 0 := by
      by_cases h1 : 1 < x.data.length
      · exact hlast h1
      · obtain ⟨a, as, hcons⟩ := List.exists_cons_of_ne_nil hne
        have has : as = [] := by
          rw [hcons] at h1; simp at h1; exact h1
        subst has
        rw [hcons]
        intro hc
        simp at hc
        subst hc
        exact h0 (hzero.2 hcons)
    have hrev : x.data.reverse ≠ [] := by simpa using hne
    obtain ⟨top, rest, htr⟩ := List.exists_cons_of_ne_nil hrev
    have htop : 0 ≤ top := by
      have : top ∈ x.data := by
        rw [← List.mem_reverse, htr]; exact List.mem_cons_self _ _
      exact (hr top this).1
    have hrest : ∀ s ∈ rest, 0 ≤ s := by
      intro s hs
      have : s ∈ x.data := by
        rw [← List.mem_reverse, htr]; exact List.mem_cons_of_mem _ hs
      exact (hr s this).1
    have hmap : rest.map (fun seg => padded_segment_chars BIGINT_RADIX_LOG10 seg []) =
        rest.map (fun seg => padded_numeral 9 seg.toNat) := by
      apply List.map_congr_left
      intro s hs
      rw [padded_segment_chars_eq _ _ _ (hrest s hs), List.append_nil]
    have hts : bigint_to_string x =
        (if x.sign < 0 then ['-'] else []) ++ segments_numeral x.data.reverse ++ [NUL] := by
      unfold bigint_to_string
      simp only [hcs, if_neg h0, htr, segments_numeral]
      rw [first_segment_chars_eq _ _ _ htop (le_refl _), hmap]
      simp
    exact Or.inr ⟨h0, hne, hl, hts⟩

/-- The characters `bigint_to_string` writes for a well-formed bigint are the
canonical numeral of its value, then NUL. -/
theorem to_string_numeral (x : bigint) (h : well_formed x) :
    bigint_to_string x = decimal_numeral (value x) ++ [NUL] := by
  rcases to_string_shape x h with ⟨h0, hd, hts⟩ | ⟨h0, hne, hl, hts⟩
  · rw [hts]
    simp [value, h0, decimal_numeral]
  · obtain ⟨hsign, -, hr, -, -, -⟩ := h
    obtain ⟨hnum, hpos⟩ := segments_numeral_eq x.data hne hr hl
    rw [hts, hnum]
    have hv0 : value x ≠ 0 := by
      unfold value
      exact mul_ne_zero h0 (by omega)
    unfold decimal_numeral
    rw [if_neg hv0]
    rcases hsign with hs | hs | hs
    · have hv : value x = -(seg_value x.data) := by unfold value; rw [hs]; ring
      have hneg : value x < 0 := by omega
      rw [if_pos hneg, hs, if_pos (by decide), hv]
      congr 3
      omega
    · exact absurd hs h0
    · have hv : value x = seg_value x.data := by unfold value; rw [hs]; ring
      have hneg : ¬ value x < 0 := by omega
      rw [if_neg hneg, hs, if_neg (by decide), hv]
      congr 3
      omega

/-- C10: for a well-formed bigint, `bigint_to_string` writes the canonical decimal
numeral of its value followed by NUL: "0" for zero, and otherwise an optional '-',
the most-significant segment without padding and every other segment as 9 digits. -/
theorem to_string_canonical (x : bigint) (h : well_formed x) :
    bigint_to_string x = decimal_numeral (value x) ++ [NUL] ∧
    ((x.sign = 0 ∧ bigint_to_string x = ['0', NUL]) ∨
     (x.sign ≠ 0 ∧ bigint_to_string x =
        (if x.sign < 0 then ['-'] else []) ++ segments_numeral x.data.reverse ++ [NUL])) := by
  refine ⟨to_string_numeral x h, ?_⟩
  rcases to_string_shape x h with ⟨h0, -, hts⟩ | ⟨h0, -, -, hts⟩
  · exact Or.inl ⟨h0, hts⟩
  · exact Or.inr ⟨h0, hts⟩

/-- C10, at the well-formed bigint -(5 * 10^9 + 42), written "-5000000042". -/
theorem to_string_canonical_witness :
    well_formed ⟨-1, [42, 5], 4⟩ ∧
    bigint_to_string ⟨-1, [42, 5], 4⟩ = decimal_numeral (value ⟨-1, [42, 5], 4⟩) ++ [NUL] ∧
    bigint_to_string ⟨-1, [42, 5], 4⟩ = ['-', '5', '0', '0', '0', '0', '0', '0', '0', '4', '2', NUL] :=
  ⟨by decide, (to_string_canonical ⟨-1, [42, 5], 4⟩ (by decide)).1, by decide⟩

/-! ## Writing a digit run without rounding -/

theorem seg_value_set (l : List Int) : ∀ (i : Nat) (v : Int), i < l.length →
    seg_value (l.set i v) = seg_value l + (v - l.getD i 0) * BIGINT_RADIX ^ i := by
  induction l with
  | nil => intro i v h; simp at h
  | cons x xs ih =>
    intro i v h
    cases i with
    | zero => simp only [List.set_cons_zero, seg_value, List.getD_cons_zero, pow_zero]; ring
    | succ i =>
      simp only [List.set_cons_succ, seg_value, List.getD_cons_succ, pow_succ]
      rw [ih i v (by simpa using h)]
      ring

theorem getD_set (l : List Int) (i j : Nat) (v : Int) :
    (l.set i v).getD j 0 = if i = j ∧ i < l.length then v else l.getD j 0 := by
  rw [List.getD_eq_getElem?_getD, List.getD_eq_getElem?_getD, List.getElem?_set]
  by_cases hij : i = j
  · subst hij
    by_cases hl : i < l.length
    · simp [hl]
    · simp [hl, List.getElem?_eq_none (not_lt.1 hl)]
  · simp [hij]

theorem set_zero_of_getD (l : List Int) (j : Nat) (h : l.getD j 0 = 0) : l.set j 0 = l := by
  apply List.ext_getElem?
  intro n
  rw [List.getElem?_set]
  by_cases hjn : j = n
  · subst hjn
    by_cases hl : j < l.length
    · rw [List.getD_eq_getElem?_getD, List.getElem?_eq_getElem hl] at h
      simp only [Option.getD_some] at h
      simp [hl, List.getElem?_eq_getElem hl, h]
    · simp [hl, List.getElem?_eq_none (not_lt.1 hl)]
  · simp [hjn]

theorem seg_value_take (l : List Int) : ∀ n : Nat, (∀ j, n ≤ j → l.getD j 0 = 0) →
    seg_value (l.take n) = seg_value l := by
  induction l with
  | nil => intro n _; simp
  | cons x xs ih =>
    intro n h
    cases n with
    | zero =>
      have hall : ∀ y ∈ x :: xs, y = 0 := by
        intro y hy
        obtain ⟨i, hi⟩ := List.getElem?_of_mem hy
        have := h i (Nat.zero_le _)
        rw [List.getD_eq_getElem?_getD, hi] at this
        exact this
      rw [seg_value_of_all_zero _ hall]; rfl
    | succ n =>
      simp only [List.take_succ_cons, seg_value]
      rw [ih n (fun j hj => by simpa using h (j + 1) (by omega))]

theorem pow_split (k : Nat) : (10 : Int) ^ (k % 9) * BIGINT_RADIX ^ (k / 9) = 10 ^ k := by
  have h : BIGINT_RADIX = (10 : Int) ^ 9 := by norm_num
  rw [h, ← pow_mul, ← pow_add]
  congr 1
  omega

theorem digit_is_nonzero_iff (c : Char) (hc : c.isDigit = true) :
    (('1' ≤ c ∧ c ≤ '9') ↔ c ≠ '0') ∧ (c = '0' ↔ digit_value c = 0) := by
  obtain ⟨h1, h2⟩ := isDigit_bounds c hc
  have e0 : c = '0' ↔ c.toNat = 48 := by
    constructor
    · intro h; rw [h]; rfl
    · intro h
      have := Char.ofNat_toNat c
      rw [h] at this
      exact this.symm
  constructor
  · rw [Char.le_def, Char.le_def, UInt32.le_def, UInt32.le_def, Ne, e0]
    have : c.toNat = c.val.toNat := rfl
    constructor
    · intro ⟨ha, _⟩ hb
      have : (49 : Nat) ≤ c.val.toNat := ha
      omega
    · intro hb
      constructor
      · show (49 : Nat) ≤ c.val.toNat
        omega
      · show c.val.toNat ≤ (57 : Nat)
        omega
  · rw [e0]; unfold digit_value; omega

/-- One iteration of the writing loop on a digit, with no carry pending. -/
theorem write_step_inv (s : List Char) (M : Nat) (w : write_vars) (k : Nat) (D : Int)
    (hinv : write_inv M w k D) (hM : k / 9 < M)
    (hc : (str_at s w.pos).isDigit = true) :
    write_inv M (write_step s w) (k + 1) (D + digit_value (str_at s w.pos) * 10 ^ k) ∧
    (write_step s w).pos = w.pos - 1 ∧
    (write_step s w).is_zero = (w.is_zero && decide (str_at s w.pos = '0')) := by
  obtain ⟨hidx, hwt, hcar, hlen, hval, hrange, hcur, hhigh⟩ := hinv
  obtain ⟨hb1, hb2⟩ := isDigit_bounds _ hc
  have hdot : str_at s w.pos ≠ '.' := (digit_not_special _ hc).2.2.1
  have hdv : ((str_at s w.pos).toNat : Int) - 48 = (digit_value (str_at s w.pos) : Int) := by
    unfold digit_value; omega
  have hdv9 : digit_value (str_at s w.pos) ≤ 9 := by unfold digit_value; omega
  have hk9 : k % 9 < 9 := Nat.mod_lt _ (by omega)
  have hw1 : (1 : Int) ≤ w.weight := by rw [hwt]; exact one_le_pow₀ (by norm_num)
  have hw8 : w.weight ≤ 10 ^ 8 := by
    rw [hwt]; exact pow_le_pow_right₀ (by norm_num) (by omega)
  have hget0 : 0 ≤ w.p_data.getD w.index 0 := by
    rw [List.getD_eq_getElem?_getD]
    cases hg : w.p_data[w.index]? with
    | none => simp
    | some x => exact (hrange x (List.getElem?_mem hg)).1
  have hilt : w.index < w.p_data.length := by rw [hidx, hlen]; exact hM
  -- the new current segment
  have hseg_lt : w.p_data.getD w.index 0 + w.weight * (digit_value (str_at s w.pos) : Int)
      < w.weight * 10 := by
    have : w.weight * (digit_value (str_at s w.pos) : Int) ≤ w.weight * 9 := by
      apply mul_le_mul_of_nonneg_left _ (by omega)
      exact_mod_cast hdv9
    omega
  have hseg_nonneg : 0 ≤ w.p_data.getD w.index 0 + w.weight * (digit_value (str_at s w.pos) : Int) := by
    have : 0 ≤ w.weight * (digit_value (str_at s w.pos) : Int) := by positivity
    omega
  have hnocarry : ¬ (w.p_data.getD w.index 0 + w.weight * (digit_value (str_at s w.pos) : Int)
      ≥ BIGINT_RADIX) := by
    have : w.weight * 10 ≤ BIGINT_RADIX := by norm_num; omega
    omega
  have hzero := digit_is_nonzero_iff _ hc
  have hiz : (if ('1' ≤ str_at s w.pos ∧ str_at s w.pos ≤ '9') ∨ (0 : Int) ≠ 0 then false
      else w.is_zero) = (w.is_zero && decide (str_at s w.pos = '0')) := by
    by_cases h0 : str_at s w.pos = '0'
    · have hn : ¬ ('1' ≤ str_at s w.pos ∧ str_at s w.pos ≤ '9') := fun h => (hzero.1.1 h) h0
      simp [hn, h0]
    · have hn : ('1' ≤ str_at s w.pos ∧ str_at s w.pos ≤ '9') := hzero.1.2 h0
      simp [hn, h0]
  unfold write_step
  simp only [if_neg hdot, hdv, hcar, add_zero, if_neg hnocarry, hiz]
  have hval' : seg_value (w.p_data.set w.index
      (w.p_data.getD w.index 0 + w.weight * (digit_value (str_at s w.pos) : Int))) =
      D + digit_value (str_at s w.pos) * 10 ^ k := by
    rw [seg_value_set _ _ _ hilt, hval, hidx, hwt]
    have := pow_split k
    linear_combination (digit_value (str_at s w.pos) : Int) * this
  have hrange' : ∀ x ∈ w.p_data.set w.index
      (w.p_data.getD w.index 0 + w.weight * (digit_value (str_at s w.pos) : Int)),
      0 ≤ x ∧ x < BIGINT_RADIX := by
    intro x hx
    rcases List.mem_or_eq_of_mem_set hx with h | h
    · exact hrange x h
    · rw [h]; exact ⟨hseg_nonneg, by omega⟩
  by_cases hwrap : w.weight * 10 ≥ BIGINT_RADIX
  · -- the segment is full: move to the next one
    have hk8 : k % 9 = 8 := by
      by_contra hne
      have : k % 9 ≤ 7 := by omega
      have : w.weight ≤ 10 ^ 7 := by
        rw [hwt]; exact pow_le_pow_right₀ (by norm_num) this
      norm_num at hwrap; omega
    rw [if_pos hwrap]
    have hnext0 : (w.p_data.set w.index
        (w.p_data.getD w.index 0 + w.weight * (digit_value (str_at s w.pos) : Int))).getD
        (w.index + 1) 0 = 0 := by
      rw [getD_set, if_neg (by omega)]
      exact hhigh _ (by omega)
    rw [set_zero_of_getD _ _ hnext0]
    refine ⟨⟨?_, ?_, rfl, ?_, hval', hrange', ?_, ?_⟩, rfl, rfl⟩
    · simp only; omega
    · simp only; have : (k + 1) % 9 = 0 := by omega
      rw [this]; rfl
    · simp only [List.length_set]; exact hlen
    · simp only; rw [hnext0]; norm_num
    · intro j hj
      simp only at hj ⊢
      rw [getD_set, if_neg (by omega)]
      exact hhigh _ (by omega)
  · rw [if_neg hwrap]
    have hk8 : k % 9 < 8 := by
      by_contra hne
      have : k % 9 = 8 := by omega
      rw [hwt, this] at hwrap
      norm_num at hwrap
    refine ⟨⟨?_, ?_, rfl, ?_, hval', hrange', ?_, ?_⟩, rfl, rfl⟩
    · simp only; omega
    · simp only; have : (k + 1) % 9 = k % 9 + 1 := by omega
      rw [this, hwt, pow_succ]
    · simp only [List.length_set]; exact hlen
    · simp only
      rw [getD_set, if_pos ⟨rfl, hilt⟩]
      exact hseg_lt
    · intro j hj
      simp only at hj ⊢
      rw [getD_set, if_neg (by omega)]
      exact hhigh _ hj

/-- The writing loop on a run of digits `r` (in the order they are read, last digit
of the text first), with no carry pending: the digits are added above the `k` digits
already written. -/
theorem write_loop_inv (s : List Char) (fb : Int) (M : Nat) :
    ∀ (r : List Char) (w : write_vars) (k : Nat) (D : Int),
      (∀ c ∈ r, c.isDigit = true) →
      (∀ j : Nat, j < r.length → str_at s (w.pos - j) = r.getD j NUL) →
      w.pos - r.length + 1 = fb → write_inv M w k D → (k + r.length) / 9 < M →
      write_inv M (write_loop s fb r.length w) (k + r.length)
        (D + 10 ^ k * (Nat.ofDigits 10 (r.map digit_value) : Nat)) ∧
      (write_loop s fb r.length w).is_zero =
        (w.is_zero && r.all (fun c => decide (c = '0'))) := by
  intro r
  induction r with
  | nil =>
    intro w k D _ _ _ hinv _
    simp only [List.length_nil, write_loop, List.map_nil, Nat.ofDigits_nil, Nat.cast_zero,
      mul_zero, add_zero, List.all_nil, Bool.and_true]
    exact ⟨hinv, trivial⟩
  | cons c r ih =>
    intro w k D hdig hchars hpos hinv hM
    have hc0 : str_at s w.pos = c := by
      have := hchars 0 (by simp)
      simpa using this
    have hge : w.pos ≥ fb := by simp only [List.length_cons] at hpos; push_cast at hpos; omega
    obtain ⟨hinv1, hpos1, hz1⟩ := write_step_inv s M w k D hinv
      (by simp only [List.length_cons] at hM; omega)
      (by rw [hc0]; exact hdig c (List.mem_cons_self _ _))
    rw [hc0] at hinv1 hz1
    have hchars1 : ∀ j : Nat, j < r.length →
        str_at s ((write_step s w).pos - j) = r.getD j NUL := by
      intro j hj
      have := hchars (j + 1) (by simp; omega)
      rw [hpos1]
      simp only [List.getD_cons_succ] at this
      rw [← this]
      congr 1
      push_cast
      ring
    obtain ⟨h1, h2⟩ := ih (write_step s w) (k + 1) _
      (fun x hx => hdig x (List.mem_cons_of_mem _ hx)) hchars1
      (by rw [hpos1]; simp only [List.length_cons] at hpos; push_cast at hpos; omega)
      hinv1 (by simp only [List.length_cons] at hM; rw [show k + 1 + r.length = k + (r.length + 1) by ring]; exact hM)
    simp only [List.length_cons, write_loop, if_pos hge]
    constructor
    · have e1 : k + (r.length + 1) = k + 1 + r.length := by ring
      have e2 : D + 10 ^ k * ((Nat.ofDigits 10 ((c :: r).map digit_value) : Nat) : Int) =
          D + (digit_value c : Int) * 10 ^ k +
            10 ^ (k + 1) * ((Nat.ofDigits 10 (r.map digit_value) : Nat) : Int) := by
        simp only [List.map_cons, Nat.ofDigits_cons]
        push_cast
        ring
      rw [e1, e2]
      exact h1
    · rw [h2, hz1]
      simp only [List.all_cons, Bool.and_assoc]

theorem digitChar_digit_value (c : Char) (hc : c.isDigit = true) :
    Nat.digitChar (digit_value c) = c := by
  obtain ⟨h1, h2⟩ := isDigit_bounds c hc
  have hof := Char.ofNat_toNat c
  unfold digit_value
  generalize c.toNat = n at h1 h2 hof
  subst hof
  interval_cases n <;> rfl

/-- The numeral of the value of a digit run without leading zero is the run. -/
theorem nat_numeral_of_digits (d : Char) (ds : List Char) (hd : d.isDigit = true)
    (hds : ∀ c ∈ ds, c.isDigit = true) (hd0 : d ≠ '0') :
    nat_numeral (Nat.ofDigits 10 ((d :: ds).reverse.map digit_value)) = d :: ds ∧
    0 < Nat.ofDigits 10 ((d :: ds).reverse.map digit_value) := by
  have hall : ∀ c ∈ d :: ds, c.isDigit = true := by
    intro c hc
    rcases List.mem_cons.1 hc with h | h
    · rw [h]; exact hd
    · exact hds c h
  have hlt : ∀ l ∈ (d :: ds).reverse.map digit_value, l < 10 := by
    intro l hl
    obtain ⟨c, hc, rfl⟩ := List.mem_map.1 hl
    have := isDigit_bounds c (hall c (List.mem_reverse.1 hc))
    unfold digit_value; omega
  have hlast : ∀ h : (d :: ds).reverse.map digit_value ≠ [],
      ((d :: ds).reverse.map digit_value).getLast h ≠ 0 := by
    intro h
    have : ((d :: ds).reverse.map digit_value).getLast h = digit_value d := by
      simp [List.getLast_append]
    rw [this]
    intro h0
    exact hd0 ((digit_is_nonzero_iff d hd).2.2 h0)
  have hdig := Nat.digits_ofDigits 10 (by norm_num) _ hlt hlast
  constructor
  · unfold nat_numeral
    rw [hdig, ← List.map_reverse, List.reverse_reverse, List.map_map]
    conv_rhs => rw [← List.map_id (d :: ds)]
    apply List.map_congr_left
    intro c hc
    exact digitChar_digit_value c (hall c hc)
  · rcases Nat.eq_zero_or_pos (Nat.ofDigits 10 ((d :: ds).reverse.map digit_value)) with h | h
    · rw [h] at hdig
      simp at hdig
    · exact h

theorem str_at_reverse (sg ip : List Char) (j : Nat) (hj : j < ip.length) :
    str_at (sg ++ ip) (((sg.length : Int) + ip.length - 1) - j) = ip.reverse.getD j NUL := by
  have e : ((sg.length : Int) + ip.length - 1) - j = ((sg.length + (ip.length - 1 - j) : Nat) : Int) := by
    omega
  rw [e, str_at_append_right sg ip _ (by omega), str_at_nonneg,
    List.getD_eq_getElem?_getD, List.getD_eq_getElem?_getD,
    List.getElem?_reverse (by omega)]
  congr 2
  omega

/-- The normal case of `bigint_from_string` on a run of digits with neither
fraction nor exponent: the segments hold the value of the run. -/
theorem from_string_normal_digits (p : bigint) (sg ip : List Char) (hne : ip ≠ [])
    (hdig : ∀ c ∈ ip, c.isDigit = true) :
    ∃ w : write_vars, ∃ M : Nat,
      from_string_normal p (sg ++ ip ++ [] ++ []) (parsed_vars sg ip [] []) 0
          ((fraction_length [] : Nat) : Int) (ip.length : Int) =
        (if w.is_zero then bigint_set_zero (bigint_assure_memory p ((ip.length : Int) / 9 + 2).toNat)
         else if sg = ['-'] then
          bigint_pack_memory ⟨-1, w.p_data.take (w.index + 1), M⟩
         else bigint_pack_memory ⟨1, w.p_data.take (w.index + 1), M⟩) ∧
      write_inv M w ip.length ((Nat.ofDigits 10 (ip.reverse.map digit_value) : Nat) : Int) ∧
      w.is_zero = ip.all (fun c => decide (c = '0')) ∧ ip.length / 9 + 2 ≤ M := by
  obtain ⟨m, hm⟩ := assure_memory_size p ((ip.length : Int) / 9 + 2).toNat
  have hcap : ip.length / 9 + 2 ≤ (bigint_assure_memory p ((ip.length : Int) / 9 + 2).toNat).mem_size := by
    rw [hm]
    have : ((ip.length : Int) / 9 + 2).toNat = ip.length / 9 + 2 := by omega
    omega
  have hlenpos : 0 < ip.length := List.length_pos.2 hne
  let w0 : write_vars :=
    ⟨List.replicate (bigint_assure_memory p ((ip.length : Int) / 9 + 2).toNat).mem_size 0,
      0, 1, 0, true, (sg.length : Int) + ip.length - 1⟩
  have hinv0 : write_inv (bigint_assure_memory p ((ip.length : Int) / 9 + 2).toNat).mem_size
      w0 0 0 := by
    refine ⟨rfl, rfl, rfl, by simp [w0], seg_value_replicate_zero _, ?_, ?_, ?_⟩
    · intro x hx
      have := (List.mem_replicate.1 hx).2
      rw [this]; decide
    · simp only [w0]
      rw [List.getD_eq_getElem?_getD]
      cases hg : (List.replicate (bigint_assure_memory p ((ip.length : Int) / 9 + 2).toNat).mem_size (0 : Int))[0]? with
      | none => simp
      | some x =>
        have := (List.mem_replicate.1 (List.getElem?_mem hg)).2
        rw [this]; simp
    · intro j _
      simp only [w0]
      rw [List.getD_eq_getElem?_getD]
      cases hg : (List.replicate (bigint_assure_memory p ((ip.length : Int) / 9 + 2).toNat).mem_size (0 : Int))[j]? with
      | none => simp
      | some x =>
        have := (List.mem_replicate.1 (List.getElem?_mem hg)).2
        rw [this]; simp
  have hloop := write_loop_inv (sg ++ ip ++ [] ++ []) (sg.length : Int)
    (bigint_assure_memory p ((ip.length : Int) / 9 + 2).toNat).mem_size
    ip.reverse w0 0 0 (fun c hc => hdig c (List.mem_reverse.1 hc))
    (by
      intro j hj
      simp only [List.append_nil, w0]
      exact str_at_reverse sg ip j (by simpa using hj))
    (by simp only [List.length_reverse, w0]; omega) hinv0
    (by simp only [List.length_reverse, zero_add]; omega)
  refine ⟨write_loop (sg ++ ip ++ [] ++ []) (sg.length : Int) ip.reverse.length w0,
    (bigint_assure_memory p ((ip.length : Int) / 9 + 2).toNat).mem_size, ?_, ?_, ?_, hcap⟩
  · unfold from_string_normal
    have hfl : ¬ (((fraction_length [] : Nat) : Int) > 0) := by simp [fraction_length]
    have hmv : ¬ ((0 : Int) - ((fraction_length [] : Nat) : Int) < 0) := by simp [fraction_length]
    have hfe : (parsed_vars sg ip [] []).fixed_end - 1 = (sg.length : Int) + ip.length - 1 := by
      simp [parsed_vars]
    have hfb : (parsed_vars sg ip [] []).fixed_begin = (sg.length : Int) := rfl
    have hneg : ((parsed_vars sg ip [] []).has_neg_sign = true) = (sg = ['-']) := by
      simp [parsed_vars]
    simp only [if_neg hfl, if_neg hmv, hfe, hfb, hneg]
    have hfuel : ((sg.length : Int) + ip.length - 1 - sg.length + 1).toNat = ip.reverse.length := by
      simp only [List.length_reverse]; omega
    have hidx : (((0 : Int) - ((fraction_length [] : Nat) : Int)) / 9).toNat = 0 := by
      simp [fraction_length]
    have hwl : weight_loop (((0 : Int) - ((fraction_length [] : Nat) : Int)) -
        ((0 : Nat) : Int) * 9).toNat 1 = 1 := by
      simp [fraction_length, weight_loop]
    rw [hfuel, hidx, hwl]
  · have := hloop.1
    simp only [List.length_reverse, zero_add, pow_zero, one_mul] at this
    simpa using this
  · rw [hloop.2]
    simp [w0]

/-- C4: for a canonical decimal string `s`, `bigint_from_string` succeeds and
`bigint_to_string` of the result writes exactly `s` (and the terminating NUL). -/
theorem from_string_to_string_roundtrip (p : bigint) (s : List Char)
    (h : canonical_decimal s) :
    (bigint_from_string p s).1 = bigint_errno.BIGINT_NOERR ∧
    bigint_to_string (bigint_from_string p s).2 = s ++ [NUL] := by
  have hexp : strtol_to_int (exponent_value []) = 0 := by decide
  rcases h with rfl | ⟨sg, d, ds, hsg, hd, hd0, hds, rfl⟩
  · -- the text "0"
    have hi : is_digits ['0'] := ⟨by simp, by decide⟩
    have heq := from_string_eq p [] ['0'] [] [] (Or.inl rfl) hi (Or.inl rfl) (Or.inl rfl)
    simp only [List.nil_append, List.append_nil, hexp, zero_add, List.length_singleton,
      Nat.cast_one] at heq
    rw [if_neg (by decide), if_neg (by decide)] at heq
    obtain ⟨w, M, hw, -, hz, -⟩ := from_string_normal_digits p [] ['0'] (by simp) (by decide)
    simp only [List.nil_append, List.append_nil, List.length_singleton, Nat.cast_one] at hw
    rw [hw] at heq
    have hz1 : w.is_zero = true := by rw [hz]; decide
    rw [if_pos hz1, set_zero_eq] at heq
    rw [heq]
    exact ⟨rfl, rfl⟩
  · have hall : ∀ c ∈ d :: ds, c.isDigit = true := by
      intro c hc
      rcases List.mem_cons.1 hc with hc | hc
      · rw [hc]; exact hd
      · exact hds c hc
    have hi : is_digits (d :: ds) := ⟨by simp, hall⟩
    have hs : is_opt_sign sg := by
      rcases hsg with rfl | rfl
      · exact Or.inl rfl
      · exact Or.inr (Or.inr rfl)
    have heq := from_string_eq p sg (d :: ds) [] [] hs hi (Or.inl rfl) (Or.inl rfl)
    simp only [List.append_nil, hexp, zero_add] at heq
    have hlen : ¬ (((d :: ds).length : Int) < 0) := by omega
    have hlen0 : ¬ (((d :: ds).length : Int) = 0) := by simp only [List.length_cons]; omega
    rw [if_neg hlen, if_neg hlen0] at heq
    obtain ⟨w, M, hw, hinv, hz, hM⟩ := from_string_normal_digits p sg (d :: ds) (by simp) hall
    simp only [List.append_nil] at hw
    rw [hw] at heq
    have hz1 : ¬ (w.is_zero = true) := by
      rw [hz]; simp only [List.all_cons, Bool.and_eq_true, decide_eq_true_eq]; tauto
    rw [if_neg hz1] at heq
    obtain ⟨hnum, hpos⟩ := nat_numeral_of_digits d ds hd hds hd0
    -- the segments kept
    have hval : seg_value (w.p_data.take (w.index + 1)) =
        ((Nat.ofDigits 10 ((d :: ds).reverse.map digit_value) : Nat) : Int) := by
      rw [seg_value_take _ _ (fun j hj => hinv.high j (by omega))]
      exact hinv.val
    have hrange : ∀ x ∈ w.p_data.take (w.index + 1), 0 ≤ x ∧ x < BIGINT_RADIX :=
      fun x hx => hinv.range x (List.mem_of_mem_take hx)
    have hne : w.p_data.take (w.index + 1) ≠ [] := by
      intro he
      have := congrArg List.length he
      rw [List.length_take, hinv.len] at this
      simp at this
      omega
    have hcap : (w.p_data.take (w.index + 1)).length ≤ M := by
      rw [List.length_take, hinv.len]; omega
    have key : ∀ sgn : Int, (sgn = -1 ∨ sgn = 1) →
        well_formed (bigint_pack_memory ⟨sgn, w.p_data.take (w.index + 1), M⟩) ∧
        value (bigint_pack_memory ⟨sgn, w.p_data.take (w.index + 1), M⟩) =
          sgn * ((Nat.ofDigits 10 ((d :: ds).reverse.map digit_value) : Nat) : Int) := by
      intro sgn hsgn
      constructor
      · apply pack_memory_well_formed
        · rcases hsgn with h | h
          · exact Or.inl h
          · exact Or.inr (Or.inr h)
        · exact hne
        · exact hrange
        · intro h0; simp only at h0; omega
        · exact hcap
      · rw [pack_memory_value]; unfold value; simp only; rw [hval]
    rcases hsg with rfl | rfl
    · rw [if_neg (by simp)] at heq
      rw [heq]
      refine ⟨rfl, ?_⟩
      simp only
      obtain ⟨hwf, hv⟩ := key 1 (Or.inr rfl)
      rw [to_string_numeral _ hwf, hv, one_mul]
      unfold decimal_numeral
      rw [if_neg (by omega), if_neg (by omega), Int.natAbs_ofNat, hnum]
    · rw [if_pos rfl] at heq
      rw [heq]
      refine ⟨rfl, ?_⟩
      simp only
      obtain ⟨hwf, hv⟩ := key (-1) (Or.inl rfl)
      rw [to_string_numeral _ hwf, hv]
      unfold decimal_numeral
      rw [if_neg (by omega), if_pos (by omega)]
      have : (-1 * ((Nat.ofDigits 10 ((d :: ds).reverse.map digit_value) : Nat) : Int)).natAbs =
          Nat.ofDigits 10 ((d :: ds).reverse.map digit_value) := by omega
      rw [this, hnum]

/-- C4, at the canonical string "-1234567890123". -/
theorem from_string_to_string_roundtrip_witness :
    canonical_decimal ['-', '1', '2', '3', '4', '5', '6', '7', '8', '9', '0', '1', '2', '3'] ∧
    bigint_to_string (bigint_from_string bigint_init
      ['-', '1', '2', '3', '4', '5', '6', '7', '8', '9', '0', '1', '2', '3']).2 =
      ['-', '1', '2', '3', '4', '5', '6', '7', '8', '9', '0', '1', '2', '3'] ++ [NUL] :=
  have hc : canonical_decimal
      ['-', '1', '2', '3', '4', '5', '6', '7', '8', '9', '0', '1', '2', '3'] :=
    Or.inr ⟨['-'], '1', ['2', '3', '4', '5', '6', '7', '8', '9', '0', '1', '2', '3'],
      Or.inr rfl, by decide, by decide, by decide, rfl⟩
  ⟨hc, (from_string_to_string_roundtrip bigint_init _ hc).2⟩

/-! ## `bigint_from_int` -/

theorem from_int_loop_spec : ∀ (fuel : Nat) (v : Int) (p : bigint), 0 ≤ v → v.toNat ≤ fuel →
    p.data.length ≤ p.mem_size →
    ∃ ds : List Int, (from_int_loop fuel v p).data = p.data ++ ds ∧
      (from_int_loop fuel v p).sign = p.sign ∧ seg_value ds = v ∧
      (∀ s ∈ ds, 0 ≤ s ∧ s < BIGINT_RADIX) ∧ ds.getLast? ≠ some 0 ∧ (0 < v → ds ≠ []) ∧
      (from_int_loop fuel v p).data.length ≤ (from_int_loop fuel v p).mem_size := by
  intro fuel
  induction fuel with
  | zero =>
    intro v p h0 hf hm
    have hv : v = 0 := by omega
    exact ⟨[], by simp [from_int_loop], rfl, by simp [seg_value, hv], by simp, by simp,
      by omega, by simpa [from_int_loop] using hm⟩
  | succ fuel ih =>
    intro v p h0 hf hm
    rw [from_int_loop]
    split_ifs with hv
    · have hR : BIGINT_RADIX = 1000000000 := rfl
      have hdiv : 0 ≤ v / BIGINT_RADIX := by rw [hR]; omega
      have hlt : v / BIGINT_RADIX < v := by rw [hR]; omega
      have hmod : 0 ≤ v % BIGINT_RADIX := by rw [hR]; omega
      have hmod2 : v % BIGINT_RADIX < BIGINT_RADIX := by rw [hR]; omega
      have hdm : v % BIGINT_RADIX + BIGINT_RADIX * (v / BIGINT_RADIX) = v := by rw [hR]; omega
      have hm1 : ((bigint_assure_memory p (p.data_len + 1)).data ++ [v % BIGINT_RADIX]).length ≤
          (bigint_assure_memory p (p.data_len + 1)).mem_size := by
        unfold bigint_assure_memory bigint.data_len
        split_ifs <;> simp <;> omega
      have hfuel : (v / BIGINT_RADIX).toNat ≤ fuel := by
        have e : v.toNat ≤ fuel + 1 := hf
        rw [hR] at hlt hdiv ⊢
        omega
      obtain ⟨ds, h1, h2, h3, h4, h5, h6, h7⟩ := ih (v / BIGINT_RADIX)
        { bigint_assure_memory p (p.data_len + 1) with
          data := (bigint_assure_memory p (p.data_len + 1)).data ++ [v % BIGINT_RADIX] }
        hdiv hfuel hm1
      have hdata : (bigint_assure_memory p (p.data_len + 1)).data = p.data := by
        unfold bigint_assure_memory; split_ifs <;> rfl
      have hsign : (bigint_assure_memory p (p.data_len + 1)).sign = p.sign := by
        unfold bigint_assure_memory; split_ifs <;> rfl
      refine ⟨(v % BIGINT_RADIX) :: ds, ?_, ?_, ?_, ?_, ?_, by simp, h7⟩
      · rw [h1]; simp [hdata]
      · rw [h2]; exact hsign
      · simp only [seg_value, h3]; linarith
      · intro s hs
        rcases List.mem_cons.1 hs with h | h
        · rw [h]; exact ⟨hmod, hmod2⟩
        · exact h4 s h
      · cases ds with
        | nil =>
          simp only [List.getLast?_singleton, ne_eq, Option.some.injEq]
          intro h
          have h3z : v / BIGINT_RADIX = 0 := by simpa [seg_value] using h3.symm
          rw [hR] at hdm h h3z
          omega
        | cons y ys => rw [List.getLast?_cons_cons]; exact h5
    · have hv0 : v = 0 := by omega
      exact ⟨[], by simp, rfl, by simp [seg_value, hv0], by simp, by simp, by omega, hm⟩

theorem wrap_int_of_range (v : Int) (h1 : -2147483648 ≤ v) (h2 : v < 2147483648) :
    wrap_int v = v := by
  unfold wrap_int; omega

/-- `bigint_from_int` on an `int` other than INT_MIN: a well-formed bigint of that
value. -/
theorem from_int_spec (p : bigint) (v : Int) (h1 : -2147483648 < v) (h2 : v < 2147483648)
    (hp : 1 ≤ p.mem_size) :
    value (bigint_from_int p v) = v ∧ well_formed (bigint_from_int p v) := by
  unfold bigint_from_int
  simp only
  by_cases hneg : v < 0
  · rw [if_pos hneg, if_pos hneg, wrap_int_of_range (-v) (by omega) (by omega),
      if_neg (by omega)]
    obtain ⟨ds, hd, hs, hv, hr, hl, hne, hm⟩ := from_int_loop_spec (-v).toNat (-v)
      ⟨-1, [], p.mem_size⟩ (by omega) (le_refl _) (by simp)
    simp only [List.nil_append] at hd
    constructor
    · rw [pack_memory_value]; unfold value; rw [hd, hs, hv]; ring
    · apply pack_memory_well_formed
      · rw [hs]; exact Or.inl rfl
      · rw [hd]; exact hne (by omega)
      · rw [hd]; exact hr
      · intro h; rw [hs] at h; simp at h
      · exact hm
  · rw [if_neg hneg, if_neg hneg]
    by_cases h0 : v = 0
    · rw [if_pos h0, if_neg (by omega)]
      constructor
      · rw [pack_memory_value]; simp [value, h0]
      · apply pack_memory_well_formed
        · exact Or.inr (Or.inl rfl)
        · simp
        · simp
        · intro _ s hs; simpa using hs
        · simpa using hp
    · rw [if_neg h0, if_pos (by omega)]
      obtain ⟨ds, hd, hs, hv, hr, hl, hne, hm⟩ := from_int_loop_spec v.toNat v
        ⟨1, [], p.mem_size⟩ (by omega) (le_refl _) (by simp)
      simp only [List.nil_append] at hd
      constructor
      · rw [pack_memory_value]; unfold value; rw [hd, hs, hv]; ring
      · apply pack_memory_well_formed
        · rw [hs]; exact Or.inr (Or.inr rfl)
        · rw [hd]; exact hne (by omega)
        · rw [hd]; exact hr
        · intro h; rw [hs] at h; simp at h
        · exact hm

/-! ## `bigint_add_by_int` -/

theorem seg_value_ge_pow (l : List Int) (hne : l ≠ []) (hr : ∀ s ∈ l, 0 ≤ s)
    (hl : l.getLast? ≠ some 0) : BIGINT_RADIX ^ (l.length - 1) ≤ seg_value l := by
  induction l with
  | nil => exact absurd rfl hne
  | cons x xs ih =>
    have hx := hr x (List.mem_cons_self _ _)
    cases xs with
    | nil =>
      simp only [List.getLast?_singleton, ne_eq, Option.some.injEq] at hl
      simp only [List.length_singleton, Nat.sub_self, pow_zero, seg_value, mul_zero, add_zero]
      omega
    | cons y ys =>
      rw [List.getLast?_cons_cons] at hl
      have h := ih (by simp) (fun s hs => hr s (List.mem_cons_of_mem _ hs)) hl
      simp only [List.length_cons, Nat.add_sub_cancel] at h ⊢
      rw [seg_value, pow_succ, mul_comm]
      have := mul_le_mul_of_nonneg_left h (by norm_num : (0 : Int) ≤ BIGINT_RADIX)
      linarith

theorem add_int_loop_spec (l : List Int) : ∀ (v : Int), 0 ≤ v → v ≤ BIGINT_RADIX →
    (∀ x ∈ l, 0 ≤ x ∧ x ≤ BIGINT_RADIX) →
    seg_value (add_int_loop v (l ++ [0])) = seg_value (l ++ [0]) + v ∧
    (add_int_loop v (l ++ [0])).length = (l ++ [0]).length ∧
    ∀ x ∈ add_int_loop v (l ++ [0]), 0 ≤ x ∧ x ≤ BIGINT_RADIX := by
  induction l with
  | nil =>
    intro v h0 h1 _
    simp only [List.nil_append, add_int_loop]
    by_cases hv : v = 0
    · simp [hv, seg_value]
    · rw [if_pos hv, if_neg (by omega)]
      simp only [seg_value, zero_add, mul_zero, add_zero, List.length_singleton,
        List.mem_singleton, forall_eq, true_and]
      exact ⟨h0, h1⟩
  | cons x xs ih =>
    intro v h0 h1 hr
    have hx := hr x (List.mem_cons_self _ _)
    have hxs : ∀ y ∈ xs, 0 ≤ y ∧ y ≤ BIGINT_RADIX := fun y hy => hr y (List.mem_cons_of_mem _ hy)
    have hall : ∀ y ∈ xs ++ [0], 0 ≤ y ∧ y ≤ BIGINT_RADIX := by
      intro y hy
      rcases List.mem_append.1 hy with h | h
      · exact hxs y h
      · simp only [List.mem_singleton] at h; rw [h]; decide
    rw [List.cons_append, add_int_loop]
    by_cases hv : v = 0
    · rw [if_neg (by simpa using hv)]
      refine ⟨by rw [hv, add_zero], rfl, ?_⟩
      intro y hy
      rcases List.mem_cons.1 hy with h | h
      · rw [h]; exact hx
      · exact hall y h
    · rw [if_pos hv]
      by_cases hc : x + v > BIGINT_RADIX
      · rw [if_pos hc]
        obtain ⟨h2, h3, h4⟩ := ih 1 (by norm_num) (by norm_num) hxs
        refine ⟨?_, by simp [h3], ?_⟩
        · simp only [seg_value, h2]; ring
        · intro y hy
          rcases List.mem_cons.1 hy with h | h
          · rw [h]; constructor <;> omega
          · exact h4 y h
      · rw [if_neg hc]
        refine ⟨by simp only [seg_value]; ring, rfl, ?_⟩
        intro y hy
        rcases List.mem_cons.1 hy with h | h
        · rw [h]; constructor <;> omega
        · exact hall y h

theorem sub_int_loop_spec (l : List Int) : ∀ (v : Int), 0 ≤ v → v < BIGINT_RADIX →
    (∀ x ∈ l, 0 ≤ x ∧ x < BIGINT_RADIX) → v ≤ seg_value l →
    seg_value (sub_int_loop v l) = seg_value l - v ∧
    (sub_int_loop v l).length = l.length ∧
    ∀ x ∈ sub_int_loop v l, 0 ≤ x ∧ x < BIGINT_RADIX := by
  induction l with
  | nil =>
    intro v h0 _ _ hle
    simp only [seg_value] at hle
    have : v = 0 := by omega
    simp [sub_int_loop, seg_value, this]
  | cons x xs ih =>
    intro v h0 h1 hr hle
    have hx := hr x (List.mem_cons_self _ _)
    have hxs : ∀ y ∈ xs, 0 ≤ y ∧ y < BIGINT_RADIX := fun y hy => hr y (List.mem_cons_of_mem _ hy)
    have hnn := (seg_value_lt_pow xs hxs).1
    simp only [sub_int_loop]
    by_cases hv : v = 0
    · rw [if_neg (by simpa using hv)]
      exact ⟨by rw [hv, sub_zero], rfl, hr⟩
    · rw [if_pos hv]
      by_cases hc : x - v < 0
      · rw [if_pos hc]
        have h1le : (1 : Int) ≤ seg_value xs := by
          simp only [seg_value] at hle
          by_contra hcon
          have : seg_value xs = 0 := by omega
          rw [this] at hle
          omega
        obtain ⟨h2, h3, h4⟩ := ih 1 (by norm_num) (by norm_num) hxs h1le
        refine ⟨?_, by simp [h3], ?_⟩
        · simp only [seg_value, h2]; ring
        · intro y hy
          rcases List.mem_cons.1 hy with h | h
          · rw [h]; constructor <;> omega
          · exact h4 y h
      · rw [if_neg hc]
        refine ⟨by simp only [seg_value]; ring, rfl, ?_⟩
        intro y hy
        rcases List.mem_cons.1 hy with h | h
        · rw [h]; constructor <;> omega
        · exact hxs y h

theorem assure_memory_fields (p : bigint) (n : Nat) :
    (bigint_assure_memory p n).sign = p.sign ∧ (bigint_assure_memory p n).data = p.data ∧
    p.mem_size ≤ (bigint_assure_memory p n).mem_size ∧ n ≤ (bigint_assure_memory p n).mem_size := by
  unfold bigint_assure_memory
  split_ifs <;> simp <;> omega

/-- The case of `bigint_add_by_int` for a destination of several segments: the
value is the sum. -/
theorem add_by_int_large_value (dst : bigint) (v : Int) (hd : well_formed dst)
    (hlen : 1 < dst.data.length) (hv : -BIGINT_RADIX < v ∧ v < BIGINT_RADIX) :
    value (add_by_int_large dst v) = value dst + v := by
  obtain ⟨hsign, -, hr, hlast, hzero, -⟩ := hd
  obtain ⟨hs, hdat, -, -⟩ := assure_memory_fields dst
    (dst.data_len + (BIGINT_INT_MAX_DIGITS / BIGINT_RADIX_LOG10 + 1))
  have hne : dst.data ≠ [] := by intro h; rw [h] at hlen; simp at hlen
  have hs0 : dst.sign ≠ 0 := by
    intro h
    have := hzero.1 h
    rw [this] at hlen; simp at hlen
  have hge := seg_value_ge_pow dst.data hne (fun s h => (hr s h).1) (hlast hlen)
  have hR1 : BIGINT_RADIX ≤ BIGINT_RADIX ^ (dst.data.length - 1) := by
    have : BIGINT_RADIX ^ 1 ≤ BIGINT_RADIX ^ (dst.data.length - 1) :=
      pow_le_pow_right₀ (by norm_num) (by omega)
    simpa using this
  have happ : seg_value (dst.data ++ [0]) = seg_value dst.data := by
    rw [seg_value_append]; simp [seg_value]
  unfold add_by_int_large
  simp only [hs, hdat]
  rw [pack_memory_value]
  unfold value
  simp only
  by_cases hvn : v < 0
  · simp only [if_pos hvn]
    by_cases hsg : (-1 : Int) = dst.sign
    · rw [if_pos hsg]
      obtain ⟨h1, -, -⟩ := add_int_loop_spec dst.data (-v) (by omega) (by omega)
        (fun x hx => ⟨(hr x hx).1, le_of_lt (hr x hx).2⟩)
      rw [h1, happ, ← hsg]; ring
    · rw [if_neg hsg]
      have hsp : dst.sign = 1 := by omega
      have hall : ∀ x ∈ dst.data ++ [0], 0 ≤ x ∧ x < BIGINT_RADIX := by
        intro x hx
        rcases List.mem_append.1 hx with h | h
        · exact hr x h
        · simp only [List.mem_singleton] at h; rw [h]; decide
      obtain ⟨h1, -, -⟩ := sub_int_loop_spec (dst.data ++ [0]) (-v) (by omega) (by omega) hall
        (by rw [happ]; omega)
      rw [h1, happ, hsp]; ring
  · simp only [if_neg hvn]
    by_cases hsg : (1 : Int) = dst.sign
    · rw [if_pos hsg]
      obtain ⟨h1, -, -⟩ := add_int_loop_spec dst.data v (by omega) (by omega)
        (fun x hx => ⟨(hr x hx).1, le_of_lt (hr x hx).2⟩)
      rw [h1, happ, ← hsg]; ring
    · rw [if_neg hsg]
      have hsp : dst.sign = -1 := by omega
      have hall : ∀ x ∈ dst.data ++ [0], 0 ≤ x ∧ x < BIGINT_RADIX := by
        intro x hx
        rcases List.mem_append.1 hx with h | h
        · exact hr x h
        · simp only [List.mem_singleton] at h; rw [h]; decide
      obtain ⟨h1, -, -⟩ := sub_int_loop_spec (dst.data ++ [0]) v (by omega) (by omega) hall
        (by rw [happ]; omega)
      rw [h1, happ, hsp]; ring

/-- `bigint_add_by_int` with a value of less than one segment adds that value. -/
theorem add_by_int_small_value (n : Nat) (dst : bigint) (v : Int) (hd : well_formed dst)
    (hv : -BIGINT_RADIX < v ∧ v < BIGINT_RADIX) :
    value (add_by_int_aux (n + 1) dst v) = value dst + v := by
  have hcs := check_sign_of_well_formed dst hd
  have hd' := hd
  have hvl : -1000000000 < v ∧ v < 1000000000 := hv
  obtain ⟨hsign, hlen, hr, hlast, hzero, hmem⟩ := hd
  rw [add_by_int_aux]
  simp only [hcs]
  by_cases h0 : dst.sign = 0
  · rw [if_pos h0, (from_int_spec dst v (by omega) (by omega) (by omega)).1]
    simp [value, h0]
  · rw [if_neg h0]
    by_cases hv0 : v = 0
    · rw [if_pos hv0, hv0, add_zero]
    · rw [if_neg hv0, if_pos hv]
      by_cases h1 : dst.data_len = 1
      · rw [if_pos h1]
        obtain ⟨d0, hd0⟩ : ∃ d0, dst.data = [d0] := by
          unfold bigint.data_len at h1
          match hdd : dst.data, h1 with
          | [d0], _ => exact ⟨d0, rfl⟩
        have hr0 : 0 ≤ d0 ∧ d0 < 1000000000 := hr d0 (by rw [hd0]; exact List.mem_cons_self _ _)
        simp only [hd0, List.headD_cons]
        by_cases hneg : dst.sign < 0
        · rw [if_pos hneg, (from_int_spec dst _ (by omega) (by omega) (by omega)).1]
          have : dst.sign = -1 := by omega
          simp only [value, hd0, seg_value, this]; ring
        · rw [if_neg hneg, (from_int_spec dst _ (by omega) (by omega) (by omega)).1]
          have : dst.sign = 1 := by omega
          simp only [value, hd0, seg_value, this]; ring
      · rw [if_neg h1]
        exact add_by_int_large_value dst v hd' (by unfold bigint.data_len at h1; omega) hv

/-! ## The normal case of `bigint_add_by` -/

theorem add_segments_spec : ∀ (d s : List Int) (a b c e : Int), s.length ≤ d.length →
    c ≤ 0 → 0 ≤ e → (∀ x ∈ d, a ≤ x ∧ x ≤ b) → (∀ y ∈ s, c ≤ y ∧ y ≤ e) →
    seg_value (add_segments d s) = seg_value d + seg_value s ∧
    (add_segments d s).length = d.length ∧
    ∀ z ∈ add_segments d s, a + c ≤ z ∧ z ≤ b + e := by
  intro d
  induction d with
  | nil =>
    intro s a b c e hlen _ _ _ _
    have : s = [] := by simpa using hlen
    subst this
    simp [add_segments, seg_value]
  | cons x xs ih =>
    intro s a b c e hlen hc he hd hs
    have hx := hd x (List.mem_cons_self _ _)
    cases s with
    | nil =>
      simp only [add_segments, seg_value, add_zero, true_and]
      intro z hz
      have := hd z hz
      constructor <;> omega
    | cons y ys =>
      have hy := hs y (List.mem_cons_self _ _)
      obtain ⟨h1, h2, h3⟩ := ih ys a b c e (by simpa using hlen) hc he
        (fun z hz => hd z (List.mem_cons_of_mem _ hz))
        (fun z hz => hs z (List.mem_cons_of_mem _ hz))
      simp only [add_segments, seg_value, h1, List.length_cons, h2, true_and]
      refine ⟨by ring, ?_⟩
      intro z hz
      rcases List.mem_cons.1 hz with h | h
      · rw [h]; constructor <;> omega
      · exact h3 z h

theorem sub_segments_spec : ∀ (d s : List Int) (a b c e : Int), s.length ≤ d.length →
    c ≤ 0 → 0 ≤ e → (∀ x ∈ d, a ≤ x ∧ x ≤ b) → (∀ y ∈ s, c ≤ y ∧ y ≤ e) →
    seg_value (sub_segments d s) = seg_value d - seg_value s ∧
    (sub_segments d s).length = d.length ∧
    ∀ z ∈ sub_segments d s, a - e ≤ z ∧ z ≤ b - c := by
  intro d
  induction d with
  | nil =>
    intro s a b c e hlen _ _ _ _
    have : s = [] := by simpa using hlen
    subst this
    simp [sub_segments, seg_value]
  | cons x xs ih =>
    intro s a b c e hlen hc he hd hs
    have hx := hd x (List.mem_cons_self _ _)
    cases s with
    | nil =>
      simp only [sub_segments, seg_value, sub_zero, true_and]
      intro z hz
      have := hd z hz
      constructor <;> omega
    | cons y ys =>
      have hy := hs y (List.mem_cons_self _ _)
      obtain ⟨h1, h2, h3⟩ := ih ys a b c e (by simpa using hlen) hc he
        (fun z hz => hd z (List.mem_cons_of_mem _ hz))
        (fun z hz => hs z (List.mem_cons_of_mem _ hz))
      simp only [sub_segments, seg_value, h1, List.length_cons, h2, true_and]
      refine ⟨by ring, ?_⟩
      intro z hz
      rcases List.mem_cons.1 hz with h | h
      · rw [h]; constructor <;> omega
      · exact h3 z h

theorem seg_value_neg (l : List Int) : seg_value (l.map (fun x => -x)) = -seg_value l := by
  induction l with
  | nil => simp [seg_value]
  | cons x xs ih => simp only [List.map_cons, seg_value, ih]; ring

theorem sign_scan_append (a b : List Int) :
    sign_scan (a ++ b) = if sign_scan a ≠ 0 then sign_scan a else sign_scan b := by
  induction a with
  | nil => simp [sign_scan]
  | cons x xs ih =>
    simp only [List.cons_append, sign_scan]
    split_ifs at ih ⊢ <;> simp_all

theorem sign_scan_range (l : List Int) :
    sign_scan l = -1 ∨ sign_scan l = 0 ∨ sign_scan l = 1 := by
  induction l with
  | nil => simp [sign_scan]
  | cons x xs ih =>
    simp only [sign_scan]
    split_ifs
    · exact Or.inl rfl
    · exact Or.inr (Or.inr rfl)
    · exact ih

theorem sign_scan_eq_zero (l : List Int) (h : sign_scan l = 0) : ∀ x ∈ l, x = 0 := by
  induction l with
  | nil => simp
  | cons x xs ih =>
    simp only [sign_scan] at h
    split_ifs at h with h1 h2
    · exact absurd h (by decide)
    · intro y hy
      rcases List.mem_cons.1 hy with hh | hh
      · rw [hh]; omega
      · exact ih h y hh

theorem sign_scan_nonneg (l : List Int) (h : ∀ x ∈ l, 0 ≤ x) : 0 ≤ sign_scan l := by
  induction l with
  | nil => simp [sign_scan]
  | cons x xs ih =>
    have hx := h x (List.mem_cons_self _ _)
    simp only [sign_scan]
    split_ifs
    · omega
    · omega
    · exact ih (fun y hy => h y (List.mem_cons_of_mem _ hy))

theorem sign_scan_nonpos (l : List Int) (h : ∀ x ∈ l, x ≤ 0) : sign_scan l ≤ 0 := by
  induction l with
  | nil => simp [sign_scan]
  | cons x xs ih =>
    have hx := h x (List.mem_cons_self _ _)
    simp only [sign_scan]
    split_ifs
    · omega
    · omega
    · exact ih (fun y hy => h y (List.mem_cons_of_mem _ hy))

/-- When every segment is smaller than the radix in absolute value, the sign of the
most-significant nonzero segment is the sign of the value. -/
theorem sign_scan_mixed (l : List Int) (h : ∀ x ∈ l, -BIGINT_RADIX < x ∧ x < BIGINT_RADIX) :
    (sign_scan l.reverse < 0 → seg_value l < 0) ∧ (0 < sign_scan l.reverse → 0 < seg_value l) ∧
    -BIGINT_RADIX ^ l.length < seg_value l ∧ seg_value l < BIGINT_RADIX ^ l.length := by
  induction l with
  | nil => simp [sign_scan, seg_value]
  | cons x xs ih =>
    have hx : -1000000000 < x ∧ x < 1000000000 := h x (List.mem_cons_self _ _)
    obtain ⟨h1, h2, h3, h4⟩ := ih (fun y hy => h y (List.mem_cons_of_mem _ hy))
    have hz := sign_scan_eq_zero xs.reverse
    have hr := sign_scan_range xs.reverse
    rw [List.reverse_cons, sign_scan_append]
    simp only [seg_value, List.length_cons, pow_succ]
    have hsx : sign_scan [x] = if x < 0 then -1 else if x > 0 then 1 else 0 := by
      simp [sign_scan]
    have hR : BIGINT_RADIX = 1000000000 := rfl
    have hp : (0 : Int) < BIGINT_RADIX ^ xs.length := by positivity
    refine ⟨?_, ?_, ?_, ?_⟩
    · intro hneg
      split_ifs at hneg with h0
      · have := h1 hneg
        rw [hR]; omega
      · have hall : seg_value xs = 0 := by
          apply seg_value_of_all_zero
          intro y hy
          exact hz (by push_neg at h0; exact h0) y (List.mem_reverse.2 hy)
        rw [hsx] at hneg
        rw [hall]; split_ifs at hneg <;> omega
    · intro hpos
      split_ifs at hpos with h0
      · have := h2 hpos
        rw [hR]; omega
      · have hall : seg_value xs = 0 := by
          apply seg_value_of_all_zero
          intro y hy
          exact hz (by push_neg at h0; exact h0) y (List.mem_reverse.2 hy)
        rw [hsx] at hpos
        rw [hall]; split_ifs at hpos <;> omega
    · have : -BIGINT_RADIX ^ xs.length + 1 ≤ seg_value xs := by omega
      nlinarith
    · have : seg_value xs ≤ BIGINT_RADIX ^ xs.length - 1 := by omega
      nlinarith

/-- The borrow/carry pass: the value is kept up to what the last segment passes on,
and every segment ends up in range. -/
theorem carry_pass_spec (l : List Int) : ∀ c : Int, (c = -1 ∨ c = 0 ∨ c = 1) →
    (∀ x ∈ l, -BIGINT_RADIX < x ∧ x ≤ 2 * BIGINT_RADIX - 2) →
    ∃ cout : Int, (cout = -1 ∨ cout = 0 ∨ cout = 1) ∧
      seg_value (carry_pass c l) = seg_value l + c - cout * BIGINT_RADIX ^ l.length ∧
      (carry_pass c l).length = l.length ∧
      ∀ x ∈ carry_pass c l, 0 ≤ x ∧ x < BIGINT_RADIX := by
  induction l with
  | nil =>
    intro c hc _
    exact ⟨c, hc, by simp [carry_pass, seg_value], rfl, by simp [carry_pass]⟩
  | cons x xs ih =>
    intro c hc hr
    have hx : -1000000000 < x ∧ x ≤ 2 * 1000000000 - 2 := hr x (List.mem_cons_self _ _)
    have hxs := fun y hy => hr y (List.mem_cons_of_mem _ hy)
    have hR : BIGINT_RADIX = 1000000000 := rfl
    rw [carry_pass]
    by_cases h1 : x + c < 0
    · rw [if_pos h1]
      obtain ⟨cout, hco, hv, hl, hrr⟩ := ih (-1) (Or.inl rfl) hxs
      refine ⟨cout, hco, ?_, by simp [hl], ?_⟩
      · simp only [seg_value, hv, List.length_cons, pow_succ]; ring
      · intro y hy
        rcases List.mem_cons.1 hy with h | h
        · rw [h, hR]; constructor <;> omega
        · exact hrr y h
    · rw [if_neg h1]
      by_cases h2 : x + c ≥ BIGINT_RADIX
      · rw [if_pos h2]
        obtain ⟨cout, hco, hv, hl, hrr⟩ := ih 1 (Or.inr (Or.inr rfl)) hxs
        refine ⟨cout, hco, ?_, by simp [hl], ?_⟩
        · simp only [seg_value, hv, List.length_cons, pow_succ]; ring
        · intro y hy
          rcases List.mem_cons.1 hy with h | h
          · rw [h, hR]; rw [hR] at h2; constructor <;> omega
          · exact hrr y h
      · rw [if_neg h2]
        obtain ⟨cout, hco, hv, hl, hrr⟩ := ih 0 (Or.inr (Or.inl rfl)) hxs
        refine ⟨cout, hco, ?_, by simp [hl], ?_⟩
        · simp only [seg_value, hv, List.length_cons, pow_succ]; ring
        · intro y hy
          rcases List.mem_cons.1 hy with h | h
          · rw [h]; constructor <;> omega
          · exact hrr y h

theorem all_zero_of_seg_value_zero (l : List Int) (h : ∀ x ∈ l, 0 ≤ x) (hv : seg_value l = 0) :
    ∀ x ∈ l, x = 0 := by
  induction l with
  | nil => simp
  | cons x xs ih =>
    have hx := h x (List.mem_cons_self _ _)
    have hxs := fun y hy => h y (List.mem_cons_of_mem _ hy)
    have hnn := seg_value_nonneg xs hxs
    simp only [seg_value] at hv
    have hR : BIGINT_RADIX = 1000000000 := rfl
    rw [hR] at hv
    have h1 : x = 0 := by omega
    have h2 : seg_value xs = 0 := by omega
    intro y hy
    rcases List.mem_cons.1 hy with hh | hh
    · rw [hh]; exact h1
    · exact ih hxs h2 y hh

/-- Making the segments agree with the sign found by the scan. -/
theorem sign_normalize_spec (l : List Int)
    (hK : (∀ x ∈ l, -BIGINT_RADIX < x ∧ x < BIGINT_RADIX) ∨
          (∀ x ∈ l, 0 ≤ x ∧ x ≤ 2 * BIGINT_RADIX - 2) ∨
          (∀ x ∈ l, -(2 * BIGINT_RADIX - 2) ≤ x ∧ x ≤ 0)) :
    (∀ x ∈ (if sign_scan l.reverse < 0 then l.map (fun x => -x) else l),
      -BIGINT_RADIX < x ∧ x ≤ 2 * BIGINT_RADIX - 2) ∧
    0 ≤ seg_value (if sign_scan l.reverse < 0 then l.map (fun x => -x) else l) ∧
    sign_scan l.reverse *
      seg_value (if sign_scan l.reverse < 0 then l.map (fun x => -x) else l) = seg_value l := by
  have hrange := sign_scan_range l.reverse
  have hzero := sign_scan_eq_zero l.reverse
  have hR : BIGINT_RADIX = 1000000000 := rfl
  have hz0 : sign_scan l.reverse = 0 → seg_value l = 0 := by
    intro h0
    apply seg_value_of_all_zero
    intro y hy
    exact hzero h0 y (List.mem_reverse.2 hy)
  have hmapr : ∀ (a b : Int), (∀ x ∈ l, a ≤ x ∧ x ≤ b) →
      ∀ x ∈ l.map (fun x => -x), -b ≤ x ∧ x ≤ -a := by
    intro a b hab x hx
    obtain ⟨y, hy, rfl⟩ := List.mem_map.1 hx
    have := hab y hy
    constructor <;> omega
  by_cases hneg : sign_scan l.reverse < 0
  · have hs : sign_scan l.reverse = -1 := by omega
    simp only [if_pos hneg, seg_value_neg]
    rw [hs]
    rcases hK with hK | hK | hK
    · have := (sign_scan_mixed l hK).1 hneg
      refine ⟨?_, by omega, by ring⟩
      intro x hx
      have := hmapr (-BIGINT_RADIX + 1) (BIGINT_RADIX - 1)
        (fun y hy => by have := hK y hy; constructor <;> omega) x hx
      rw [hR] at this ⊢
      constructor <;> omega
    · exfalso
      have := sign_scan_nonneg l.reverse (fun y hy => (hK y (List.mem_reverse.1 hy)).1)
      omega
    · have hnp : seg_value l ≤ 0 := by
        have := seg_value_nonneg (l.map (fun x => -x))
          (fun x hx => by have := hmapr _ _ hK x hx; omega)
        rw [seg_value_neg] at this
        omega
      refine ⟨?_, by omega, by ring⟩
      intro x hx
      have := hmapr _ _ hK x hx
      rw [hR] at this ⊢
      constructor <;> omega
  · simp only [if_neg hneg]
    rcases hK with hK | hK | hK
    · refine ⟨fun x hx => by have := hK x hx; rw [hR] at this ⊢; constructor <;> omega, ?_, ?_⟩
      · rcases hrange with h | h | h
        · omega
        · rw [hz0 h]
        · have := (sign_scan_mixed l hK).2.1 (by omega)
          omega
      · rcases hrange with h | h | h
        · omega
        · rw [hz0 h, h]; ring
        · rw [h]; ring
    · refine ⟨fun x hx => by have := hK x hx; rw [hR] at this ⊢; constructor <;> omega,
        seg_value_nonneg l (fun x hx => (hK x hx).1), ?_⟩
      rcases hrange with h | h | h
      · omega
      · rw [hz0 h, h]; ring
      · rw [h]; ring
    · have h0 : sign_scan l.reverse = 0 := by
        have := sign_scan_nonpos l.reverse (fun y hy => (hK y (List.mem_reverse.1 hy)).2)
        omega
      have hall : ∀ x ∈ l, x = 0 := fun y hy => hzero h0 y (List.mem_reverse.2 hy)
      refine ⟨fun x hx => by rw [hall x hx, hR]; constructor <;> omega, ?_, ?_⟩
      · rw [hz0 h0]
      · rw [hz0 h0, h0]; ring

/-- The normal case of `bigint_add_by` on well-formed nonzero operands: the result
is well-formed and its value is the sum. -/
theorem add_by_normal_spec (dst src : bigint) (hd : well_formed dst) (hs : well_formed src)
    (hd0 : dst.sign ≠ 0) (hs0 : src.sign ≠ 0) :
    value (add_by_normal dst src) = value dst + value src ∧
    well_formed (add_by_normal dst src) := by
  obtain ⟨hdsign, hdlen, hdr, -, -, -⟩ := hd
  obtain ⟨hssign, hslen, hsr, -, -, -⟩ := hs
  have hR : BIGINT_RADIX = 1000000000 := rfl
  obtain ⟨hasg, hadat, -, hamem⟩ := assure_memory_fields dst (max dst.data_len src.data_len + 1)
  -- the extended destination
  have hlen0 : (dst.data ++ List.replicate (max dst.data_len src.data_len + 1 - dst.data_len) 0).length
      = max dst.data_len src.data_len + 1 := by
    simp only [List.length_append, List.length_replicate, bigint.data_len]; omega
  have hsv0 : seg_value (dst.data ++ List.replicate (max dst.data_len src.data_len + 1 - dst.data_len) 0)
      = seg_value dst.data := by
    rw [seg_value_append, seg_value_replicate_zero]; ring
  have hr0 : ∀ x ∈ dst.data ++ List.replicate (max dst.data_len src.data_len + 1 - dst.data_len) 0,
      0 ≤ x ∧ x ≤ BIGINT_RADIX - 1 := by
    intro x hx
    rcases List.mem_append.1 hx with h | h
    · have := hdr x h; rw [hR] at this ⊢; constructor <;> omega
    · rw [(List.mem_replicate.1 h).2, hR]; constructor <;> omega
  have hsr' : ∀ y ∈ src.data, 0 ≤ y ∧ y ≤ BIGINT_RADIX - 1 := by
    intro y hy; have := hsr y hy; rw [hR] at this ⊢; constructor <;> omega
  have hsl : src.data.length ≤
      (dst.data ++ List.replicate (max dst.data_len src.data_len + 1 - dst.data_len) 0).length := by
    rw [hlen0]; unfold bigint.data_len; omega
  have hdb := seg_value_lt_pow dst.data hdr
  have hsb := seg_value_lt_pow src.data hsr
  have hpd : BIGINT_RADIX ^ dst.data.length ≤ BIGINT_RADIX ^ (max dst.data_len src.data_len) :=
    pow_le_pow_right₀ (by norm_num) (by unfold bigint.data_len; omega)
  have hps : BIGINT_RADIX ^ src.data.length ≤ BIGINT_RADIX ^ (max dst.data_len src.data_len) :=
    pow_le_pow_right₀ (by norm_num) (by unfold bigint.data_len; omega)
  -- the segment-wise sum
  have key : ∃ data2 : List Int,
      (if src.sign < 0 then
        sub_segments (if dst.sign < 0 then
          (dst.data ++ List.replicate (max dst.data_len src.data_len + 1 - dst.data_len) 0).map
            (fun x => -x)
          else dst.data ++ List.replicate (max dst.data_len src.data_len + 1 - dst.data_len) 0)
          src.data
      else
        add_segments (if dst.sign < 0 then
          (dst.data ++ List.replicate (max dst.data_len src.data_len + 1 - dst.data_len) 0).map
            (fun x => -x)
          else dst.data ++ List.replicate (max dst.data_len src.data_len + 1 - dst.data_len) 0)
          src.data) = data2 ∧
      seg_value data2 = value dst + value src ∧
      data2.length = max dst.data_len src.data_len + 1 ∧
      ((∀ x ∈ data2, -BIGINT_RADIX < x ∧ x < BIGINT_RADIX) ∨
       (∀ x ∈ data2, 0 ≤ x ∧ x ≤ 2 * BIGINT_RADIX - 2) ∨
       (∀ x ∈ data2, -(2 * BIGINT_RADIX - 2) ≤ x ∧ x ≤ 0)) := by
    have hneg0 : ∀ x ∈ (dst.data ++ List.replicate
        (max dst.data_len src.data_len + 1 - dst.data_len) 0).map (fun x => -x),
        -(BIGINT_RADIX - 1) ≤ x ∧ x ≤ 0 := by
      intro x hx
      obtain ⟨y, hy, rfl⟩ := List.mem_map.1 hx
      have := hr0 y hy
      constructor <;> omega
    by_cases hdn : dst.sign < 0 <;> by_cases hsn : src.sign < 0
    · have hd1 : dst.sign = -1 := by omega
      have hs1 : src.sign = -1 := by omega
      obtain ⟨h1, h2, h3⟩ := sub_segments_spec _ src.data _ _ 0 _ (by simpa using hsl)
        (le_refl _) (by norm_num) hneg0 hsr'
      refine ⟨_, rfl, ?_, ?_, Or.inr (Or.inr ?_)⟩
      · rw [if_pos hsn, if_pos hdn, h1, seg_value_neg, hsv0]; unfold value; rw [hd1, hs1]; ring
      · rw [if_pos hsn, if_pos hdn, h2]; simpa using hlen0
      · rw [if_pos hsn, if_pos hdn]
        intro x hx; have := h3 x hx; rw [hR] at this ⊢; constructor <;> omega
    · have hd1 : dst.sign = -1 := by omega
      have hs1 : src.sign = 1 := by omega
      obtain ⟨h1, h2, h3⟩ := add_segments_spec _ src.data _ _ 0 _ (by simpa using hsl)
        (le_refl _) (by norm_num) hneg0 hsr'
      refine ⟨_, rfl, ?_, ?_, Or.inl ?_⟩
      · rw [if_neg hsn, if_pos hdn, h1, seg_value_neg, hsv0]; unfold value; rw [hd1, hs1]; ring
      · rw [if_neg hsn, if_pos hdn, h2]; simpa using hlen0
      · rw [if_neg hsn, if_pos hdn]
        intro x hx; have := h3 x hx; rw [hR] at this ⊢; constructor <;> omega
    · have hd1 : dst.sign = 1 := by omega
      have hs1 : src.sign = -1 := by omega
      obtain ⟨h1, h2, h3⟩ := sub_segments_spec _ src.data _ _ 0 _ hsl
        (le_refl _) (by norm_num) hr0 hsr'
      refine ⟨_, rfl, ?_, ?_, Or.inl ?_⟩
      · rw [if_pos hsn, if_neg hdn, h1, hsv0]; unfold value; rw [hd1, hs1]; ring
      · rw [if_pos hsn, if_neg hdn, h2]; exact hlen0
      · rw [if_pos hsn, if_neg hdn]
        intro x hx; have := h3 x hx; rw [hR] at this ⊢; constructor <;> omega
    · have hd1 : dst.sign = 1 := by omega
      have hs1 : src.sign = 1 := by omega
      obtain ⟨h1, h2, h3⟩ := add_segments_spec _ src.data _ _ 0 _ hsl
        (le_refl _) (by norm_num) hr0 hsr'
      refine ⟨_, rfl, ?_, ?_, Or.inr (Or.inl ?_)⟩
      · rw [if_neg hsn, if_neg hdn, h1, hsv0]; unfold value; rw [hd1, hs1]; ring
      · rw [if_neg hsn, if_neg hdn, h2]; exact hlen0
      · rw [if_neg hsn, if_neg hdn]
        intro x hx; have := h3 x hx; rw [hR] at this ⊢; constructor <;> omega
  obtain ⟨data2, hdata2, hv2, hl2, hK⟩ := key
  obtain ⟨hr3, hnn3, hsv3⟩ := sign_normalize_spec data2 hK
  have hl3 : (if sign_scan data2.reverse < 0 then data2.map (fun x => -x) else data2).length =
      max dst.data_len src.data_len + 1 := by
    split_ifs <;> simp [hl2]
  obtain ⟨cout, hco, hcv, hcl, hcr⟩ := carry_pass_spec _ 0 (Or.inr (Or.inl rfl)) hr3
  have hcb := seg_value_lt_pow _ hcr
  rw [hcl, hl3] at hcb
  rw [hl3] at hcv
  -- the magnitude of the sum fits
  have hbound : seg_value (if sign_scan data2.reverse < 0 then data2.map (fun x => -x) else data2)
      < BIGINT_RADIX ^ (max dst.data_len src.data_len + 1) := by
    have habs : seg_value (if sign_scan data2.reverse < 0 then data2.map (fun x => -x) else data2)
        ≤ seg_value dst.data + seg_value src.data := by
      have hvd : value dst = dst.sign * seg_value dst.data := rfl
      have hvs : value src = src.sign * seg_value src.data := rfl
      split_ifs
      · rw [seg_value_neg, hv2, hvd, hvs]
        rcases hdsign with h | h | h <;> rcases hssign with h' | h' | h' <;>
          rw [h, h'] <;> omega
      · rw [hv2, hvd, hvs]
        rcases hdsign with h | h | h <;> rcases hssign with h' | h' | h' <;>
          rw [h, h'] <;> omega
    have : BIGINT_RADIX ^ (max dst.data_len src.data_len + 1) =
        BIGINT_RADIX ^ (max dst.data_len src.data_len) * 1000000000 := by rw [pow_succ]
    rw [this]
    omega
  have hcout : cout = 0 := by
    have hp : (0 : Int) < BIGINT_RADIX ^ (max dst.data_len src.data_len + 1) := by positivity
    rcases hco with h | h | h
    · rw [h] at hcv; omega
    · exact h
    · rw [h] at hcv; omega
  rw [hcout] at hcv
  simp only [add_zero, zero_mul, sub_zero] at hcv
  have hres : add_by_normal dst src = bigint_pack_memory
      ⟨sign_scan data2.reverse,
        carry_pass 0 (if sign_scan data2.reverse < 0 then data2.map (fun x => -x) else data2),
        (bigint_assure_memory dst (max dst.data_len src.data_len + 1)).mem_size⟩ := by
    unfold add_by_normal
    simp only [hasg, hadat]
    have hdl : (bigint_assure_memory dst (max dst.data_len src.data_len + 1)).data_len =
        dst.data_len := congrArg List.length hadat
    rw [hdl, hdata2]
  rw [hres]
  constructor
  · rw [pack_memory_value]; unfold value; simp only
    rw [hcv, hsv3, hv2]; rfl
  · apply pack_memory_well_formed
    · exact sign_scan_range _
    · simp only; intro he
      have := congrArg List.length he
      rw [hcl, hl3] at this; simp at this
    · exact hcr
    · simp only
      intro h0
      have hz2 : seg_value data2 = 0 := by rw [← hsv3, h0]; ring
      have hz3 : seg_value (if sign_scan data2.reverse < 0 then data2.map (fun x => -x)
          else data2) = 0 := by
        rw [if_neg (by omega)]; exact hz2
      rw [hz3] at hcv
      exact all_zero_of_seg_value_zero _ (fun x hx => (hcr x hx).1) hcv
    · simp only; rw [hcl, hl3]; exact hamem

/-! ## `bigint_add_by` -/

theorem copy_spec (dst src : bigint) (hs : well_formed src) :
    value (bigint_copy dst src) = value src ∧ well_formed (bigint_copy dst src) ∧
    (bigint_copy dst src).data = src.data ∧ (bigint_copy dst src).sign = src.sign := by
  obtain ⟨hsign, hlen, hr, hlast, hzero, hmem⟩ := hs
  obtain ⟨-, -, -, hcap⟩ := assure_memory_fields dst src.data_len
  have hne : src.data ≠ [] := by intro h; rw [h] at hlen; simp at hlen
  have htrim : pack_trim src.data = src.data := by
    obtain ⟨x, xs, hx⟩ := List.exists_cons_of_ne_nil hne
    rw [hx, pack_trim]
    congr 1
    cases xs with
    | nil => rfl
    | cons y ys =>
      have hl : (y :: ys).getLast? ≠ some 0 := by
        have := hlast (by rw [hx]; simp)
        rw [hx, List.getLast?_cons_cons] at this
        exact this
      clear hx
      induction ys generalizing y with
      | nil =>
        have : y ≠ 0 := by simpa using hl
        simp [strip_zeros, this]
      | cons z zs ih =>
        rw [List.getLast?_cons_cons] at hl
        rw [strip_zeros, ih z hl]
  unfold bigint_copy
  simp only
  refine ⟨?_, ?_, ?_, ?_⟩
  · rw [pack_memory_value]; rfl
  · apply pack_memory_well_formed
    · exact hsign
    · exact hne
    · exact hr
    · intro h0 s hs
      have := hzero.1 h0
      simp only at this hs
      rw [this] at hs
      simpa using hs
    · exact hcap
  · rw [pack_memory_data]; exact htrim
  · rw [pack_memory_sign]; simp only [htrim]
    split_ifs with h
    · exact (hzero.2 h).symm
    · rfl

/-- `bigint_add_by` on distinct well-formed operands, at any nesting bound that
allows the call of `bigint_add_by_int`: the value of the destination becomes the
sum, the source is unchanged, and the result is well-formed on every path except
possibly the fast path through `bigint_add_by_int`. -/
theorem add_by_aux_spec (n : Nat) (dst src : bigint) (hd : well_formed dst)
    (hs : well_formed src) :
    value (add_by_aux (n + 2) dst src).1 = value dst + value src ∧
    (add_by_aux (n + 2) dst src).2 = src ∧
    ((dst.sign = 0 ∨ src.sign = 0 ∨ src.data.length ≠ 1) →
      well_formed (add_by_aux (n + 2) dst src).1) := by
  have hcd := check_sign_of_well_formed dst hd
  have hcs := check_sign_of_well_formed src hs
  rw [add_by_aux]
  simp only [hcd, hcs]
  by_cases hd0 : dst.sign = 0
  · rw [if_pos hd0]
    obtain ⟨h1, h2, -, -⟩ := copy_spec dst src hs
    refine ⟨?_, rfl, fun _ => h2⟩
    rw [h1]
    simp only [value, hd0, zero_mul, zero_add]
  · rw [if_neg hd0]
    by_cases hs0 : src.sign = 0
    · rw [if_pos hs0]
      refine ⟨?_, rfl, fun _ => hd⟩
      simp only [value, hs0, zero_mul, add_zero]
    · rw [if_neg hs0]
      by_cases h1 : src.data_len = 1
      · rw [if_pos h1]
        obtain ⟨s0, hs0d⟩ : ∃ s0, src.data = [s0] := by
          unfold bigint.data_len at h1
          match hdd : src.data, h1 with
          | [s0], _ => exact ⟨s0, rfl⟩
        have hr0 : 0 ≤ s0 ∧ s0 < BIGINT_RADIX :=
          hs.2.2.1 s0 (by rw [hs0d]; exact List.mem_cons_self _ _)
        have hwf : ¬ (dst.sign = 0 ∨ src.sign = 0 ∨ [s0].length ≠ 1) := by
          simp [hd0, hs0]
        simp only [hs0d, List.headD_cons]
        by_cases hneg : src.sign < 0
        · rw [if_pos hneg]
          refine ⟨?_, rfl, fun h => absurd h hwf⟩
          simp only
          rw [add_by_int_small_value n dst (-s0) hd (by constructor <;> omega)]
          have : src.sign = -1 := by have := hs.1; omega
          simp only [value, hs0d, seg_value, this]; ring
        · rw [if_neg hneg]
          have hpos : src.sign > 0 := by have := hs.1; omega
          rw [if_pos hpos]
          refine ⟨?_, rfl, fun h => absurd h hwf⟩
          simp only
          rw [add_by_int_small_value n dst s0 hd (by constructor <;> omega)]
          have : src.sign = 1 := by have := hs.1; omega
          simp only [value, hs0d, seg_value, this]; ring
      · rw [if_neg h1]
        obtain ⟨hv, hwf⟩ := add_by_normal_spec dst src hd hs hd0 hs0
        exact ⟨hv, rfl, fun _ => hwf⟩

/-- C3: for well-formed distinct operands, `bigint_add_by` leaves in the destination
the sum of the two values and leaves the source unchanged, whichever path is taken
(zero operand, single-segment source, general case). -/
theorem add_by_sum (dst src : bigint) (hd : well_formed dst) (hs : well_formed src) :
    value (bigint_add_by dst src).1 = value dst + value src ∧
    (bigint_add_by dst src).2 = src := by
  obtain ⟨h1, h2, -⟩ := add_by_aux_spec 1 dst src hd hs
  exact ⟨h1, h2⟩

/-- C3, on the three paths: a zero destination, a single-segment source (here the
segment of the destination reaches the radix), and the general path with a borrow. -/
theorem add_by_sum_witness :
    (well_formed ⟨0, [0], 4⟩ ∧ well_formed ⟨-1, [7, 1], 4⟩ ∧
      value (bigint_add_by ⟨0, [0], 4⟩ ⟨-1, [7, 1], 4⟩).1 =
        value ⟨0, [0], 4⟩ + value ⟨-1, [7, 1], 4⟩) ∧
    (well_formed ⟨1, [999999999, 1], 4⟩ ∧ well_formed ⟨1, [1], 4⟩ ∧
      value (bigint_add_by ⟨1, [999999999, 1], 4⟩ ⟨1, [1], 4⟩).1 =
        value ⟨1, [999999999, 1], 4⟩ + value ⟨1, [1], 4⟩) ∧
    (well_formed ⟨1, [5, 1], 4⟩ ∧ well_formed ⟨-1, [7, 1], 4⟩ ∧
      value (bigint_add_by ⟨1, [5, 1], 4⟩ ⟨-1, [7, 1], 4⟩).1 =
        value ⟨1, [5, 1], 4⟩ + value ⟨-1, [7, 1], 4⟩) :=
  ⟨⟨by decide, by decide, (add_by_sum _ _ (by decide) (by decide)).1⟩,
   ⟨by decide, by decide, (add_by_sum _ _ (by decide) (by decide)).1⟩,
   ⟨by decide, by decide, (add_by_sum _ _ (by decide) (by decide)).1⟩⟩

/-! ## Trimming, and the states between the steps of a multiplication -/

theorem strip_zeros_of_last (l : List Int) (h : l.getLast? ≠ some 0) : strip_zeros l = l := by
  induction l with
  | nil => rfl
  | cons x xs ih =>
    cases xs with
    | nil =>
      have hx : x ≠ 0 := by intro h0; apply h; simp [h0]
      simp [strip_zeros, hx]
    | cons y ys =>
      rw [List.getLast?_cons_cons] at h
      simp only [strip_zeros] at ih ⊢
      rw [ih h]

theorem pack_trim_of_last (l : List Int) (h : l.getLast? ≠ some 0) : pack_trim l = l := by
  cases l with
  | nil => rfl
  | cons x xs =>
    cases xs with
    | nil => simp [pack_trim, strip_zeros]
    | cons y ys =>
      rw [List.getLast?_cons_cons] at h
      simp only [pack_trim]
      rw [strip_zeros_of_last _ h]

theorem strip_zeros_append_zeros (l : List Int) (n : Nat) :
    strip_zeros (l ++ List.replicate n 0) = strip_zeros l := by
  induction l with
  | nil =>
    induction n with
    | zero => rfl
    | succ n ih =>
      simp only [List.nil_append] at ih ⊢
      simp only [List.replicate_succ, strip_zeros, ih]
      simp
  | cons x xs ih =>
    rw [List.cons_append]
    simp only [strip_zeros]
    rw [ih]

theorem pack_trim_append_zeros (l : List Int) (n : Nat) (h : l ≠ []) :
    pack_trim (l ++ List.replicate n 0) = pack_trim l := by
  cases l with
  | nil => exact absurd rfl h
  | cons x xs => simp only [List.cons_append, pack_trim, strip_zeros_append_zeros]

theorem getLast_append_ne_nil (a b : List Int) (h : b ≠ []) :
    (a ++ b).getLast? = b.getLast? := by
  induction a with
  | nil => rfl
  | cons x xs ih =>
    cases hxs : xs ++ b with
    | nil => simp [h] at hxs
    | cons y ys =>
      rw [List.cons_append, hxs, List.getLast?_cons_cons, ← hxs, ih]

theorem loose_of_well_formed (p : bigint) (h : well_formed p) : loose 0 p := by
  obtain ⟨hs, hl, hr, hlast, hz, hm⟩ := h
  refine ⟨hs, ?_, fun s hs => ⟨(hr s hs).1, le_of_lt (hr s hs).2⟩, ?_, ?_, ?_, hm⟩
  · intro h; rw [h] at hl; simp at hl
  · intro s hs; rw [List.drop_zero] at hs; exact (hr s hs).2
  · intro h0 s hs
    rw [hz.1 h0] at hs
    simpa using hs
  · intro h0
    by_cases h1 : 1 < p.data.length
    · exact hlast h1
    · intro hl0
      apply h0
      apply hz.2
      cases hd : p.data with
      | nil => rw [hd] at hl; simp at hl
      | cons x xs =>
        cases xs with
        | nil => rw [hd] at hl0; simp at hl0; rw [hl0]
        | cons y ys => rw [hd] at h1; simp at h1

theorem well_formed_of_loose (p : bigint) (h : loose 0 p) (ht : p.sign = 0 → p.data = [0]) :
    well_formed p := by
  obtain ⟨hs, hne, hr, hk, hz, hlast, hm⟩ := h
  refine ⟨hs, ?_, ?_, ?_, ⟨ht, ?_⟩, hm⟩
  · cases hd : p.data with
    | nil => exact absurd hd hne
    | cons x xs => simp
  · intro s hs
    exact ⟨(hr s hs).1, hk s (by rw [List.drop_zero]; exact hs)⟩
  · intro h1
    by_cases h0 : p.sign = 0
    · rw [ht h0] at h1; simp at h1
    · exact hlast h0
  · intro hd
    by_contra h0
    have := hlast h0
    rw [hd] at this
    simp at this

theorem loose_mono (k k2 : Nat) (p : bigint) (h : loose k p) (hk : k ≤ k2) : loose k2 p := by
  obtain ⟨hs, hne, hr, hd, hz, hlast, hm⟩ := h
  refine ⟨hs, hne, hr, ?_, hz, hlast, hm⟩
  intro s hs
  apply hd
  have : p.data.drop k2 = (p.data.drop k).drop (k2 - k) := by
    rw [List.drop_drop]; congr 1; omega
  rw [this] at hs
  exact List.mem_of_mem_drop hs

theorem check_sign_of_loose (k : Nat) (p : bigint) (h : loose k p) : bigint_check_sign p = p := by
  obtain ⟨hs, hne, hr, hd, hz, hlast, hm⟩ := h
  unfold bigint_check_sign
  split_ifs with h0
  · by_cases hs0 : p.sign = 0
    · cases p; simp_all
    · have := hlast hs0
      rw [h0] at this; simp at this
  · rfl

/-- The sign of a number in such a state is the sign of its value. -/
theorem loose_value_sign (k : Nat) (p : bigint) (h : loose k p) :
    (p.sign = 0 → value p = 0) ∧ (p.sign = 1 → 0 < value p) ∧ (p.sign = -1 → value p < 0) := by
  obtain ⟨hs, hne, hr, hd, hz, hlast, hm⟩ := h
  have hpos : p.sign ≠ 0 → 0 < seg_value p.data := by
    intro h0
    have := seg_value_ge_pow p.data hne (fun s h => (hr s h).1) (hlast h0)
    have hp : (0 : Int) < BIGINT_RADIX ^ (p.data.length - 1) := by positivity
    omega
  unfold value
  refine ⟨fun h => by rw [h]; simp, fun h => ?_, fun h => ?_⟩
  · have := hpos (by omega); rw [h]; omega
  · have := hpos (by omega); rw [h]; omega

/-! ## Copy and shift by whole segments -/

theorem copy_loose (dst src : bigint) (hs : loose 0 src) :
    well_formed (bigint_copy dst src) ∧ value (bigint_copy dst src) = value src ∧
    (bigint_copy dst src).sign = src.sign ∧
    (src.sign ≠ 0 → (bigint_copy dst src).data = src.data) := by
  obtain ⟨hsign, hne, hr, hk, hz, hlast, hm⟩ := hs
  obtain ⟨-, -, -, hcap⟩ := assure_memory_fields dst src.data_len
  unfold bigint_copy
  simp only
  refine ⟨?_, ?_, ?_, ?_⟩
  · apply pack_memory_well_formed
    · exact hsign
    · exact hne
    · intro s h
      exact ⟨(hr s h).1, hk s (by rw [List.drop_zero]; exact h)⟩
    · exact hz
    · exact hcap
  · rw [pack_memory_value]; rfl
  · rw [pack_memory_sign]
    simp only
    split_ifs with h0
    · by_contra hc
      have := hlast (fun h => hc h.symm)
      rw [← pack_trim_of_last _ this, h0] at this
      simp at this
    · rfl
  · intro h0
    rw [pack_memory_data]
    exact pack_trim_of_last _ (hlast h0)

/-- `bigint_mul_by_pow_10` by a multiple of 9 inserts whole zero segments at the low
end and does nothing else. -/
theorem mul_by_pow_10_segments (p : bigint) (n : Nat) :
    bigint_mul_by_pow_10 p ((n : Int) * BIGINT_RADIX_LOG10) =
      if n = 0 then p
      else ⟨p.sign, List.replicate n 0 ++ p.data, (n + 2) + p.data_len⟩ := by
  unfold bigint_mul_by_pow_10
  have h9 : ((BIGINT_RADIX_LOG10 : Nat) : Int) = 9 := rfl
  rw [h9]
  by_cases hn : n = 0
  · subst hn; simp
  · rw [if_neg hn, if_neg (by omega), if_pos (by omega)]
    unfold mul_by_pow_10_pos
    have h1 : ((n : Int) * 9 / 9).toNat = n := by
      rw [Int.mul_ediv_cancel _ (by norm_num)]; simp
    have h2 : ((n : Int) * 9 % 9).toNat = 0 := by
      rw [Int.mul_emod_left]; rfl
    have h3 : ((n : Int) * 9 / 9 + 2).toNat = n + 2 := by
      rw [Int.mul_ediv_cancel _ (by norm_num)]; omega
    simp only [h1, h2, h3]
    simp [pow10_loop, bigint_mul_by_int]

theorem seg_value_shift (n : Nat) (l : List Int) :
    seg_value (List.replicate n 0 ++ l) = seg_value l * BIGINT_RADIX ^ n := by
  rw [seg_value_append, seg_value_replicate_zero, List.length_replicate]; ring

/-- The shift keeps the state and moves the segments up. -/
theorem mul_by_pow_10_loose (k n : Nat) (p : bigint) (h : loose k p) :
    loose (k + n) (bigint_mul_by_pow_10 p ((n : Int) * BIGINT_RADIX_LOG10)) ∧
    value (bigint_mul_by_pow_10 p ((n : Int) * BIGINT_RADIX_LOG10)) = value p * BIGINT_RADIX ^ n ∧
    (bigint_mul_by_pow_10 p ((n : Int) * BIGINT_RADIX_LOG10)).sign = p.sign ∧
    (bigint_mul_by_pow_10 p ((n : Int) * BIGINT_RADIX_LOG10)).data =
      List.replicate n 0 ++ p.data := by
  rw [mul_by_pow_10_segments]
  by_cases hn : n = 0
  · subst hn
    simp only [if_true, pow_zero, mul_one, List.replicate_zero, List.nil_append, add_zero]
    exact ⟨h, trivial, trivial, trivial⟩
  · rw [if_neg hn]
    obtain ⟨hsign, hne, hr, hk, hz, hlast, hm⟩ := h
    refine ⟨⟨hsign, ?_, ?_, ?_, ?_, ?_, ?_⟩, ?_, rfl, rfl⟩
    · simp [hne]
    · intro s hs
      rcases List.mem_append.1 hs with h1 | h1
      · rw [(List.mem_replicate.1 h1).2]; decide
      · exact hr s h1
    · intro s hs
      simp only at hs
      have : (List.replicate n 0 ++ p.data).drop (k + n) = p.data.drop k := by
        rw [List.drop_append_eq_append_drop]
        simp only [List.length_replicate, List.drop_replicate]
        have h0 : n - (k + n) = 0 := by omega
        have h1 : k + n - n = k := by omega
        rw [h0, h1]; simp
      rw [this] at hs
      exact hk s hs
    · intro h0 s hs
      rcases List.mem_append.1 hs with h1 | h1
      · exact (List.mem_replicate.1 h1).2
      · exact hz h0 s h1
    · intro h0
      simp only
      rw [getLast_append_ne_nil _ _ hne]
      exact hlast h0
    · simp only [List.length_append, List.length_replicate, bigint.data_len]; omega
    · unfold value; simp only
      rw [seg_value_shift]; ring

/-! ## Addition of operands of the same sign, for a destination in a relaxed state -/

theorem add_segments_nil (d : List Int) : add_segments d [] = d := by
  cases d <;> rfl

/-- The sum of the segments followed by the carry pass, for two magnitudes: the
first may have segments equal to the radix below index `k`.  The result has them
only where the first had, and nowhere when the second is zero below `k`. -/
theorem add_carry_spec : ∀ (d s : List Int) (c : Int) (k : Nat), (c = 0 ∨ c = 1) →
    s.length ≤ d.length →
    (∀ x ∈ d, 0 ≤ x ∧ x ≤ BIGINT_RADIX) → (∀ x ∈ d.drop k, x < BIGINT_RADIX) →
    (∀ y ∈ s, 0 ≤ y ∧ y < BIGINT_RADIX) →
    ∃ cout : Int, (cout = 0 ∨ cout = 1) ∧
      seg_value (carry_pass c (add_segments d s)) =
        seg_value d + seg_value s + c - cout * BIGINT_RADIX ^ d.length ∧
      (carry_pass c (add_segments d s)).length = d.length ∧
      (∀ x ∈ carry_pass c (add_segments d s), 0 ≤ x ∧ x ≤ BIGINT_RADIX) ∧
      (∀ x ∈ (carry_pass c (add_segments d s)).drop k, x < BIGINT_RADIX) ∧
      ((∀ y ∈ s.take k, y = 0) → ∀ x ∈ carry_pass c (add_segments d s), x < BIGINT_RADIX) := by
  intro d
  induction d with
  | nil =>
    intro s c k hc hlen _ _ _
    have hs : s = [] := by
      cases s with
      | nil => rfl
      | cons y ys => simp at hlen
    subst hs
    refine ⟨c, hc, ?_, rfl, ?_, ?_, ?_⟩
    · simp [add_segments, carry_pass, seg_value]
    · intro x hx; simp [add_segments, carry_pass] at hx
    · intro x hx; simp [add_segments, carry_pass] at hx
    · intro _ x hx; simp [add_segments, carry_pass] at hx
  | cons x xs ih =>
    intro s c k hc hlen hd hdk hs
    have hR : BIGINT_RADIX = 1000000000 := rfl
    obtain ⟨y, ys, hadd, hsv, hy, hys, hlen2, htake⟩ : ∃ (y : Int) (ys : List Int),
        add_segments (x :: xs) s = (x + y) :: add_segments xs ys ∧
        seg_value s = y + BIGINT_RADIX * seg_value ys ∧ (0 ≤ y ∧ y < BIGINT_RADIX) ∧
        (∀ z ∈ ys, 0 ≤ z ∧ z < BIGINT_RADIX) ∧ ys.length ≤ xs.length ∧
        (∀ j : Nat, (∀ z ∈ s.take (j + 1), z = 0) → y = 0 ∧ ∀ z ∈ ys.take j, z = 0) := by
      cases s with
      | nil =>
        refine ⟨0, [], ?_, ?_, by decide, ?_, by simp, ?_⟩
        · rw [add_segments_nil, add_segments_nil, add_zero]
        · simp [seg_value]
        · intro z hz; simp at hz
        · intro j _; exact ⟨rfl, by intro z hz; simp at hz⟩
      | cons y ys =>
        refine ⟨y, ys, rfl, rfl, hs y (List.mem_cons_self _ _),
          fun z hz => hs z (List.mem_cons_of_mem _ hz), by simpa using hlen, ?_⟩
        intro j hj
        rw [List.take_succ_cons] at hj
        exact ⟨hj y (List.mem_cons_self _ _), fun z hz => hj z (List.mem_cons_of_mem _ hz)⟩
    have hx := hd x (List.mem_cons_self _ _)
    have hxs : ∀ z ∈ xs, 0 ≤ z ∧ z ≤ BIGINT_RADIX := fun z hz => hd z (List.mem_cons_of_mem _ hz)
    have hxl : (0 : Int) ≤ x ∧ x ≤ 1000000000 := hx
    have hyl : (0 : Int) ≤ y ∧ y < 1000000000 := hy
    -- the tail, with the index shifted
    have hdk2 : ∀ z ∈ xs.drop (k - 1), z < BIGINT_RADIX := by
      intro z hz
      cases k with
      | zero =>
        rw [List.drop_zero] at hdk
        exact hdk z (List.mem_cons_of_mem _ (by simpa using hz))
      | succ j =>
        rw [List.drop_succ_cons] at hdk
        exact hdk z (by simpa using hz)
    have hx0 : k = 0 → x < 1000000000 := by
      intro h0; subst h0
      rw [List.drop_zero] at hdk
      exact hdk x (List.mem_cons_self _ _)
    rw [hadd, hsv]
    have hstep : ∀ c2 : Int, (c2 = 0 ∨ c2 = 1) →
        x + y + c = x + y + c - c2 * 1000000000 + c2 * 1000000000 →
        (0 ≤ x + y + c - c2 * 1000000000 ∧ x + y + c - c2 * 1000000000 ≤ 1000000000) →
        (k = 0 → x + y + c - c2 * 1000000000 < 1000000000) →
        (y = 0 → x + y + c - c2 * 1000000000 < 1000000000) →
        ∃ cout : Int, (cout = 0 ∨ cout = 1) ∧
          seg_value ((x + y + c - c2 * 1000000000) :: carry_pass c2 (add_segments xs ys)) =
            seg_value (x :: xs) + (y + BIGINT_RADIX * seg_value ys) + c -
              cout * BIGINT_RADIX ^ (x :: xs).length ∧
          ((x + y + c - c2 * 1000000000) :: carry_pass c2 (add_segments xs ys)).length =
            (x :: xs).length ∧
          (∀ z ∈ (x + y + c - c2 * 1000000000) :: carry_pass c2 (add_segments xs ys),
            0 ≤ z ∧ z ≤ BIGINT_RADIX) ∧
          (∀ z ∈ ((x + y + c - c2 * 1000000000) :: carry_pass c2 (add_segments xs ys)).drop k,
            z < BIGINT_RADIX) ∧
          ((∀ z ∈ s.take k, z = 0) →
            ∀ z ∈ (x + y + c - c2 * 1000000000) :: carry_pass c2 (add_segments xs ys),
              z < BIGINT_RADIX) := by
      intro c2 hc2 _ hr0 hk0 hy0
      obtain ⟨cout, hco, hv, hl, hr, hdr, hall⟩ := ih ys c2 (k - 1) hc2 hlen2 hxs hdk2 hys
      refine ⟨cout, hco, ?_, ?_, ?_, ?_, ?_⟩
      · simp only [seg_value, List.length_cons]
        rw [hv, pow_succ, hR]; ring
      · simp [hl]
      · intro z hz
        rcases List.mem_cons.1 hz with h | h
        · rw [h, hR]; exact hr0
        · exact hr z h
      · intro z hz
        cases k with
        | zero =>
          rw [List.drop_zero] at hz
          rcases List.mem_cons.1 hz with h | h
          · rw [h, hR]; exact hk0 rfl
          · exact hdr z (by simpa using h)
        | succ j =>
          rw [List.drop_succ_cons] at hz
          exact hdr z (by simpa using hz)
      · intro hz0 z hz
        cases k with
        | zero =>
          rcases List.mem_cons.1 hz with h | h
          · rw [h, hR]; exact hk0 rfl
          · exact hdr z (by simpa using h)
        | succ j =>
          obtain ⟨hy00, hys0⟩ := htake j hz0
          rcases List.mem_cons.1 hz with h | h
          · rw [h, hR]; exact hy0 hy00
          · exact hall (by simpa using hys0) z h
    rw [carry_pass]
    have hnn : ¬ (x + y + c < 0) := by rcases hc with h | h <;> omega
    rw [if_neg hnn]
    by_cases hge : x + y + c ≥ BIGINT_RADIX
    · rw [if_pos hge]
      rw [hR] at hge ⊢
      have := hstep 1 (Or.inr rfl) (by ring)
        (by rcases hc with h | h <;> constructor <;> omega)
        (fun h0 => by have := hx0 h0; rcases hc with h | h <;> omega)
        (fun h0 => by rcases hc with h | h <;> omega)
      simpa using this
    · rw [if_neg hge]
      rw [hR] at hge
      have := hstep 0 (Or.inl rfl) (by ring)
        (by rcases hc with h | h <;> constructor <;> omega)
        (fun h0 => by omega)
        (fun h0 => by omega)
      simpa using this

theorem strip_zeros_prefix (l : List Int) : ∃ n : Nat, l = strip_zeros l ++ List.replicate n 0 := by
  induction l with
  | nil => exact ⟨0, rfl⟩
  | cons x xs ih =>
    obtain ⟨n, hn⟩ := ih
    cases hst : strip_zeros xs with
    | nil =>
      rw [hst, List.nil_append] at hn
      by_cases hx : x = 0
      · refine ⟨n + 1, ?_⟩
        simp only [strip_zeros, hst, hx, if_true, List.nil_append, List.replicate_succ]
        rw [← hn]
      · refine ⟨n, ?_⟩
        simp only [strip_zeros, hst, hx, if_false]
        rw [List.singleton_append, ← hn]
    | cons y ys =>
      refine ⟨n, ?_⟩
      simp only [strip_zeros, hst]
      rw [List.cons_append, ← hst, ← hn]

theorem pack_trim_prefix (l : List Int) : ∃ n : Nat, l = pack_trim l ++ List.replicate n 0 := by
  cases l with
  | nil => exact ⟨0, rfl⟩
  | cons x xs =>
    obtain ⟨n, hn⟩ := strip_zeros_prefix xs
    exact ⟨n, by simp only [pack_trim, List.cons_append]; rw [← hn]⟩

theorem mem_drop_append (a b : List Int) (k : Nat) (x : Int) (h : x ∈ (a ++ b).drop k) :
    x ∈ a.drop k ∨ x ∈ b := by
  rw [List.drop_append_eq_append_drop] at h
  rcases List.mem_append.1 h with h1 | h1
  · exact Or.inl h1
  · exact Or.inr (List.mem_of_mem_drop h1)

theorem mem_drop_pack_trim (l : List Int) (k : Nat) (x : Int) (h : x ∈ (pack_trim l).drop k) :
    x ∈ l.drop k := by
  obtain ⟨n, hn⟩ := pack_trim_prefix l
  have : l.drop k = (pack_trim l).drop k ++ (List.replicate n 0).drop (k - (pack_trim l).length) := by
    conv_lhs => rw [hn]
    rw [List.drop_append_eq_append_drop]
  rw [this]
  exact List.mem_append_left _ h

theorem seg_value_le_loose (l : List Int) (h : ∀ s ∈ l, 0 ≤ s ∧ s ≤ BIGINT_RADIX) :
    seg_value l ≤ 2 * BIGINT_RADIX ^ l.length - 2 := by
  induction l with
  | nil => simp [seg_value]
  | cons x xs ih =>
    have hx : (0 : Int) ≤ x ∧ x ≤ 1000000000 := h x (List.mem_cons_self _ _)
    have := ih (fun s hs => h s (List.mem_cons_of_mem _ hs))
    simp only [seg_value, List.length_cons, pow_succ]
    have hR : BIGINT_RADIX = 1000000000 := rfl
    rw [hR] at this ⊢
    omega

theorem pack_trim_last_of_pos (l : List Int) (h : 0 < seg_value l) :
    (pack_trim l).getLast? ≠ some 0 := by
  by_cases h1 : 1 < (pack_trim l).length
  · exact pack_trim_last l h1
  · have hv := pack_trim_value l
    cases hp : pack_trim l with
    | nil => simp
    | cons a as =>
      cases as with
      | nil =>
        rw [hp] at hv
        simp only [seg_value, mul_zero, add_zero] at hv
        simp only [List.getLast?_singleton, ne_eq, Option.some.injEq]
        omega
      | cons b bs => rw [hp] at h1; simp at h1

/-- Packing a nonzero number in a relaxed state keeps the state, the sign and the
value. -/
theorem pack_memory_loose (k : Nat) (p : bigint) (hs : p.sign = -1 ∨ p.sign = 1)
    (hr : ∀ s ∈ p.data, 0 ≤ s ∧ s ≤ BIGINT_RADIX) (hk : ∀ s ∈ p.data.drop k, s < BIGINT_RADIX)
    (hpos : 0 < seg_value p.data) (hm : p.data.length ≤ p.mem_size) :
    loose k (bigint_pack_memory p) ∧ (bigint_pack_memory p).sign = p.sign ∧
    value (bigint_pack_memory p) = value p := by
  have hne : p.data ≠ [] := by intro h; rw [h] at hpos; simp [seg_value] at hpos
  have hlen := pack_trim_length p.data
  have hd := pack_memory_data p
  have hv := pack_trim_value p.data
  have hsg : (bigint_pack_memory p).sign = p.sign := by
    rw [pack_memory_sign, if_neg]
    intro h0
    rw [h0] at hv
    simp [seg_value] at hv
    omega
  refine ⟨⟨?_, ?_, ?_, ?_, ?_, ?_, ?_⟩, hsg, pack_memory_value p⟩
  · rw [hsg]; rcases hs with h | h
    · exact Or.inl h
    · exact Or.inr (Or.inr h)
  · rw [hd]; intro h; have := hlen.2 hne; rw [h] at this; simp at this
  · rw [hd]; intro s h; exact hr s (pack_trim_mem _ s h)
  · rw [hd]; intro s h; exact hk s (mem_drop_pack_trim _ _ _ h)
  · rw [hsg]; intro h; omega
  · intro _; rw [hd]; exact pack_trim_last_of_pos _ hpos
  · unfold bigint_pack_memory bigint_check_sign
    simp only
    split_ifs <;> simp only <;> omega

theorem sub_segments_neg : ∀ (d s : List Int),
    sub_segments (d.map (fun x => -x)) s = (add_segments d s).map (fun x => -x) := by
  intro d
  induction d with
  | nil => intro s; cases s <;> rfl
  | cons x xs ih =>
    intro s
    cases s with
    | nil => rfl
    | cons y ys =>
      simp only [List.map_cons, sub_segments, add_segments, ih]
      congr 1; ring

theorem sign_scan_neg (l : List Int) : sign_scan (l.map (fun x => -x)) = -sign_scan l := by
  induction l with
  | nil => rfl
  | cons x xs ih =>
    simp only [List.map_cons, sign_scan, ih]
    split_ifs <;> omega

/-- The normal case of `bigint_add_by` on two nonzero operands of the same sign, the
destination in a relaxed state: the value is the sum, the state is kept, and the
result is well-formed when the source is zero below index `k`. -/
theorem add_by_normal_loose (k : Nat) (dst src : bigint) (hd : loose k dst) (hs : loose 0 src)
    (hd0 : dst.sign ≠ 0) (hss : src.sign = dst.sign) :
    value (add_by_normal dst src) = value dst + value src ∧
    loose k (add_by_normal dst src) ∧ (add_by_normal dst src).sign = dst.sign ∧
    ((∀ y ∈ src.data.take k, y = 0) → well_formed (add_by_normal dst src)) := by
  have hvd := loose_value_sign k dst hd
  have hvs := loose_value_sign 0 src hs
  obtain ⟨hdsign, hdne, hdr, hdk, -, hdlast, -⟩ := hd
  obtain ⟨hssign, hsne, hsr, hsk, -, hslast, -⟩ := hs
  have hR : BIGINT_RADIX = 1000000000 := rfl
  have hsr2 : ∀ y ∈ src.data, 0 ≤ y ∧ y < BIGINT_RADIX :=
    fun y hy => ⟨(hsr y hy).1, hsk y (by rw [List.drop_zero]; exact hy)⟩
  obtain ⟨hasg, hadat, -, hamem⟩ := assure_memory_fields dst (max dst.data_len src.data_len + 1)
  have hlen0 : (dst.data ++ List.replicate (max dst.data_len src.data_len + 1 - dst.data_len) 0).length
      = max dst.data_len src.data_len + 1 := by
    simp only [List.length_append, List.length_replicate, bigint.data_len]; omega
  have hsv0 : seg_value (dst.data ++ List.replicate (max dst.data_len src.data_len + 1 - dst.data_len) 0)
      = seg_value dst.data := by
    rw [seg_value_append, seg_value_replicate_zero]; ring
  have hr0 : ∀ x ∈ dst.data ++ List.replicate (max dst.data_len src.data_len + 1 - dst.data_len) 0,
      0 ≤ x ∧ x ≤ BIGINT_RADIX := by
    intro x hx
    rcases List.mem_append.1 hx with h | h
    · exact hdr x h
    · rw [(List.mem_replicate.1 h).2]; decide
  have hk0 : ∀ x ∈ (dst.data ++
      List.replicate (max dst.data_len src.data_len + 1 - dst.data_len) 0).drop k,
      x < BIGINT_RADIX := by
    intro x hx
    rcases mem_drop_append _ _ _ _ hx with h | h
    · exact hdk x h
    · rw [(List.mem_replicate.1 h).2]; decide
  have hsl : src.data.length ≤
      (dst.data ++ List.replicate (max dst.data_len src.data_len + 1 - dst.data_len) 0).length := by
    rw [hlen0]; unfold bigint.data_len; omega
  obtain ⟨cout, hco, hcv, hcl, hcr, hck, hcall⟩ :=
    add_carry_spec _ src.data 0 k (Or.inl rfl) hsl hr0 hk0 hsr2
  rw [hlen0] at hcv hcl
  rw [hsv0] at hcv
  -- the magnitudes
  have hpd : 0 < seg_value dst.data := by
    have := seg_value_ge_pow dst.data hdne (fun s h => (hdr s h).1) (hdlast hd0)
    have hp : (0 : Int) < BIGINT_RADIX ^ (dst.data.length - 1) := by positivity
    omega
  have hps : 0 < seg_value src.data := by
    have := seg_value_ge_pow src.data hsne (fun s h => (hsr s h).1) (hslast (by rw [hss]; exact hd0))
    have hp : (0 : Int) < BIGINT_RADIX ^ (src.data.length - 1) := by positivity
    omega
  have hdb := seg_value_le_loose dst.data hdr
  have hsb := seg_value_lt_pow src.data hsr2
  have hpd2 : BIGINT_RADIX ^ dst.data.length ≤ BIGINT_RADIX ^ (max dst.data_len src.data_len) :=
    pow_le_pow_right₀ (by norm_num) (by unfold bigint.data_len; omega)
  have hps2 : BIGINT_RADIX ^ src.data.length ≤ BIGINT_RADIX ^ (max dst.data_len src.data_len) :=
    pow_le_pow_right₀ (by norm_num) (by unfold bigint.data_len; omega)
  have hnn := seg_value_nonneg _ (fun s h => (hcr s h).1)
  have hcout : cout = 0 := by
    have hp : (0 : Int) < BIGINT_RADIX ^ (max dst.data_len src.data_len) := by positivity
    have hpw : BIGINT_RADIX ^ (max dst.data_len src.data_len + 1) =
        BIGINT_RADIX ^ (max dst.data_len src.data_len) * 1000000000 := by rw [pow_succ]
    rcases hco with h | h
    · exact h
    · rw [hcv, h, hpw] at hnn; omega
  rw [hcout] at hcv
  simp only [add_zero, zero_mul, sub_zero] at hcv
  -- the segment-wise sum and the sign found by the scan
  have hsum_pos : ∀ x ∈ add_segments (dst.data ++
      List.replicate (max dst.data_len src.data_len + 1 - dst.data_len) 0) src.data, 0 ≤ x := by
    intro x hx
    have := (add_segments_spec _ src.data 0 BIGINT_RADIX 0 BIGINT_RADIX hsl (le_refl _)
      (by norm_num) hr0 (fun y hy => ⟨(hsr y hy).1, (hsr y hy).2⟩)).2.2 x hx
    omega
  have hsum_val : seg_value (add_segments (dst.data ++
      List.replicate (max dst.data_len src.data_len + 1 - dst.data_len) 0) src.data) =
      seg_value dst.data + seg_value src.data := by
    rw [(add_segments_spec _ src.data 0 BIGINT_RADIX 0 BIGINT_RADIX hsl (le_refl _)
      (by norm_num) hr0 (fun y hy => ⟨(hsr y hy).1, (hsr y hy).2⟩)).1, hsv0]
  have hscan : sign_scan (add_segments (dst.data ++
      List.replicate (max dst.data_len src.data_len + 1 - dst.data_len) 0) src.data).reverse = 1 := by
    have h1 := sign_scan_nonneg _ (fun x hx => hsum_pos x (List.mem_reverse.1 hx))
    have h2 := sign_scan_range (add_segments (dst.data ++
      List.replicate (max dst.data_len src.data_len + 1 - dst.data_len) 0) src.data).reverse
    have h3 : sign_scan (add_segments (dst.data ++
        List.replicate (max dst.data_len src.data_len + 1 - dst.data_len) 0) src.data).reverse ≠ 0 := by
      intro h0
      have hz := sign_scan_eq_zero _ h0
      have := seg_value_of_all_zero _ (fun x hx => hz x (List.mem_reverse.2 hx))
      rw [hsum_val] at this
      omega
    omega
  have hres : add_by_normal dst src = bigint_pack_memory
      ⟨dst.sign, carry_pass 0 (add_segments (dst.data ++
        List.replicate (max dst.data_len src.data_len + 1 - dst.data_len) 0) src.data),
        (bigint_assure_memory dst (max dst.data_len src.data_len + 1)).mem_size⟩ := by
    unfold add_by_normal
    simp only [hasg, hadat]
    have hdl : (bigint_assure_memory dst (max dst.data_len src.data_len + 1)).data_len =
        dst.data_len := congrArg List.length hadat
    rw [hdl]
    by_cases hneg : dst.sign < 0
    · have hsn : src.sign < 0 := by rw [hss]; exact hneg
      have hd1 : dst.sign = -1 := by omega
      simp only [if_pos hneg, if_pos hsn]
      rw [sub_segments_neg, ← List.map_reverse, sign_scan_neg, hscan]
      simp only [List.map_map]
      have hid : ((fun x : Int => -x) ∘ fun x : Int => -x) = id := by
        funext x; simp
      rw [hid, List.map_id, hd1]
      simp
    · have hsn : ¬ src.sign < 0 := by rw [hss]; exact hneg
      have hd1 : dst.sign = 1 := by omega
      simp only [if_neg hneg, if_neg hsn]
      rw [hscan, hd1]
      simp
  rw [hres]
  have hsg : dst.sign = -1 ∨ dst.sign = 1 := by omega
  obtain ⟨hl1, hl2, hl3⟩ := pack_memory_loose k
    ⟨dst.sign, carry_pass 0 (add_segments (dst.data ++
        List.replicate (max dst.data_len src.data_len + 1 - dst.data_len) 0) src.data),
        (bigint_assure_memory dst (max dst.data_len src.data_len + 1)).mem_size⟩
    hsg hcr hck (by simp only; rw [hcv]; omega) (by simp only; rw [hcl]; exact hamem)
  refine ⟨?_, hl1, hl2, ?_⟩
  · rw [hl3]
    unfold value
    simp only
    rw [hcv, hss]; ring
  · intro hz
    have hall := hcall hz
    apply pack_memory_well_formed
    · simp only; omega
    · simp only; intro he
      have := congrArg List.length he
      rw [hcl] at this; simp at this
    · simp only; intro s h; exact ⟨(hcr s h).1, hall s h⟩
    · simp only; intro h0; exact absurd h0 hd0
    · simp only; rw [hcl]; exact hamem

/-! ## `bigint_add_by_int` on operands of the same sign -/

/-- The multi-segment case of `bigint_add_by_int` when the value has the sign of the
destination: given where the addition loop can leave a segment equal to the radix,
the state of the result. -/
theorem add_by_int_large_loose (j k : Nat) (dst : bigint) (v : Int) (hd : loose j dst)
    (hv : (dst.sign = 1 ∧ 0 < v ∧ v < BIGINT_RADIX) ∨ (dst.sign = -1 ∧ -BIGINT_RADIX < v ∧ v < 0))
    (hdrop : ∀ a : Int, 0 < a → a < BIGINT_RADIX →
      ∀ x ∈ (add_int_loop a (dst.data ++ [0])).drop k, x < BIGINT_RADIX) :
    value (add_by_int_large dst v) = value dst + v ∧ loose k (add_by_int_large dst v) ∧
    (add_by_int_large dst v).sign = dst.sign := by
  obtain ⟨hsign, hne, hr, -, -, hlast, hm⟩ := hd
  have hR : BIGINT_RADIX = 1000000000 := rfl
  obtain ⟨hs, hdat, -, hcap⟩ := assure_memory_fields dst
    (dst.data_len + (BIGINT_INT_MAX_DIGITS / BIGINT_RADIX_LOG10 + 1))
  have happ : seg_value (dst.data ++ [0]) = seg_value dst.data := by
    rw [seg_value_append]; simp [seg_value]
  have hnn : 0 ≤ seg_value dst.data := seg_value_nonneg _ (fun s h => (hr s h).1)
  have key : ∀ a : Int, 0 < a → a < BIGINT_RADIX → dst.sign * a = v →
      add_by_int_large dst v = bigint_pack_memory
        ⟨dst.sign, add_int_loop a (dst.data ++ [0]),
          (bigint_assure_memory dst
            (dst.data_len + (BIGINT_INT_MAX_DIGITS / BIGINT_RADIX_LOG10 + 1))).mem_size⟩ →
      value (add_by_int_large dst v) = value dst + v ∧ loose k (add_by_int_large dst v) ∧
      (add_by_int_large dst v).sign = dst.sign := by
    intro a ha0 ha1 hav hres
    obtain ⟨h1, h2, h3⟩ := add_int_loop_spec dst.data a (le_of_lt ha0) (le_of_lt ha1) hr
    rw [hres]
    obtain ⟨hl1, hl2, hl3⟩ := pack_memory_loose k
      ⟨dst.sign, add_int_loop a (dst.data ++ [0]),
        (bigint_assure_memory dst
          (dst.data_len + (BIGINT_INT_MAX_DIGITS / BIGINT_RADIX_LOG10 + 1))).mem_size⟩
      (by rcases hv with h | h
          · exact Or.inr h.1
          · exact Or.inl h.1)
      h3 (hdrop a ha0 ha1) (by simp only; rw [h1, happ]; omega)
      (by simp only; rw [h2]
          simp only [List.length_append, List.length_singleton]
          have hc2 : dst.data.length + 2 ≤ (bigint_assure_memory dst
              (dst.data_len + (BIGINT_INT_MAX_DIGITS / BIGINT_RADIX_LOG10 + 1))).mem_size := hcap
          omega)
    refine ⟨?_, hl1, hl2⟩
    rw [hl3]; unfold value; simp only
    rw [h1, happ, ← hav]; ring
  rcases hv with ⟨hs1, hv0, hv1⟩ | ⟨hs1, hv0, hv1⟩
  · apply key v hv0 hv1 (by rw [hs1]; ring)
    unfold add_by_int_large
    simp only [hs, hdat, hs1]
    rw [if_neg (not_lt.2 (le_of_lt hv0)), if_neg (not_lt.2 (le_of_lt hv0)), if_pos rfl]
  · apply key (-v) (by omega) (by omega) (by rw [hs1]; ring)
    unfold add_by_int_large
    simp only [hs, hdat, hs1]
    rw [if_pos hv1, if_pos hv1, if_pos rfl]

/-- On in-range segments the addition loop stops at index 1 at the latest. -/
theorem add_int_loop_drop_two (l : List Int) (a : Int) (ha0 : 0 < a)
    (hr : ∀ s ∈ l, 0 ≤ s ∧ s < BIGINT_RADIX) :
    ∀ x ∈ (add_int_loop a (l ++ [0])).drop 2, x < BIGINT_RADIX := by
  have hR : BIGINT_RADIX = 1000000000 := rfl
  have ha : a ≠ 0 := by omega
  match l, hr with
  | [], _ =>
    intro x hx
    simp [add_int_loop, ha] at hx
    split_ifs at hx <;> simp at hx
  | [x0], _ =>
    intro x hx
    simp only [List.singleton_append, add_int_loop, ne_eq, ha, not_false_eq_true, if_true] at hx
    split_ifs at hx <;> simp at hx
  | x0 :: x1 :: rest, hr =>
    intro x hx
    have h0 := hr x0 (List.mem_cons_self _ _)
    have h1 := hr x1 (List.mem_cons_of_mem _ (List.mem_cons_self _ _))
    rw [hR] at h0 h1
    have hx1 : ¬ (x1 + 1 > BIGINT_RADIX) := by rw [hR]; omega
    simp only [List.cons_append, add_int_loop, ne_eq, ha, not_false_eq_true, if_true,
      one_ne_zero, hx1, if_false] at hx
    have hmem : x ∈ rest ++ [0] := by
      split_ifs at hx <;> simpa using hx
    rcases List.mem_append.1 hmem with h | h
    · exact (hr x (List.mem_cons_of_mem _ (List.mem_cons_of_mem _ h))).2
    · simp at h; rw [h]; decide

/-- On a destination whose lowest segment is 0 the addition loop changes that
segment only. -/
theorem add_int_loop_head_zero (k : Nat) (rest : List Int) (a : Int) (ha0 : 0 < a)
    (ha1 : a < BIGINT_RADIX) (hk : ∀ s ∈ ((0 : Int) :: rest).drop k, s < BIGINT_RADIX) :
    ∀ x ∈ (add_int_loop a ((0 :: rest) ++ [0])).drop k, x < BIGINT_RADIX := by
  have hR : BIGINT_RADIX = 1000000000 := rfl
  have ha : a ≠ 0 := by omega
  have hna : ¬ (0 + a > BIGINT_RADIX) := by rw [hR] at ha1 ⊢; omega
  have hloop : add_int_loop a ((0 :: rest) ++ [0]) = a :: (rest ++ [0]) := by
    rw [List.cons_append, add_int_loop, if_pos ha, if_neg hna, zero_add]
  intro x hx
  rw [hloop] at hx
  cases k with
  | zero =>
    rw [List.drop_zero] at hx hk
    rcases List.mem_cons.1 hx with h | h
    · rw [h]; exact ha1
    · rcases List.mem_append.1 h with h2 | h2
      · exact hk x (List.mem_cons_of_mem _ h2)
      · simp at h2; rw [h2]; decide
  | succ j =>
    rw [List.drop_succ_cons] at hx hk
    rcases mem_drop_append _ _ _ _ hx with h2 | h2
    · exact hk x h2
    · simp at h2; rw [h2]; decide

/-- In such a state, a number of sign 0 or `sg` is one whose value, times `sg`, is
not negative. -/
theorem loose_sign_iff (k : Nat) (p : bigint) (h : loose k p) (sg : Int)
    (hsg : sg = 1 ∨ sg = -1) : (p.sign = 0 ∨ p.sign = sg) ↔ 0 ≤ sg * value p := by
  obtain ⟨h0, h1, h2⟩ := loose_value_sign k p h
  have hs := h.1
  constructor
  · intro hp
    rcases hp with hp | hp
    · rw [h0 hp]; simp
    · rcases hsg with g | g
      · rw [g] at hp ⊢; have := h1 hp; omega
      · rw [g] at hp ⊢; have := h2 hp; omega
  · intro hv
    rcases hs with hp | hp | hp
    · have := h2 hp
      rcases hsg with g | g
      · rw [g] at hv; omega
      · right; rw [g, hp]
    · left; exact hp
    · have := h1 hp
      rcases hsg with g | g
      · right; rw [g, hp]
      · rw [g] at hv; omega

theorem loose_sign_zero_iff (k : Nat) (p : bigint) (h : loose k p) :
    p.sign = 0 ↔ value p = 0 := by
  obtain ⟨h0, h1, h2⟩ := loose_value_sign k p h
  have hs := h.1
  constructor
  · exact h0
  · intro hv
    rcases hs with hp | hp | hp
    · have := h2 hp; omega
    · exact hp
    · have := h1 hp; omega

/-- `bigint_add_by_int` with a value of the sign of the destination, on a
destination of several segments whose lowest is 0. -/
theorem add_by_int_aux_head_zero (n k : Nat) (dst : bigint) (v : Int) (hd : loose k dst)
    (hv : (dst.sign = 1 ∧ 0 < v ∧ v < BIGINT_RADIX) ∨ (dst.sign = -1 ∧ -BIGINT_RADIX < v ∧ v < 0))
    (hhead : ∃ rest : List Int, dst.data = 0 :: rest ∧ rest ≠ []) :
    value (add_by_int_aux (n + 1) dst v) = value dst + v ∧ loose k (add_by_int_aux (n + 1) dst v) ∧
    (add_by_int_aux (n + 1) dst v).sign = dst.sign := by
  obtain ⟨rest, hdata, hrest⟩ := hhead
  have hcs := check_sign_of_loose k dst hd
  have hd0 : dst.sign ≠ 0 := by rcases hv with h | h <;> omega
  have hv0 : v ≠ 0 := by rcases hv with h | h <;> omega
  have hsm : -BIGINT_RADIX < v ∧ v < BIGINT_RADIX := by
    have hR : BIGINT_RADIX = 1000000000 := rfl
    rw [hR] at hv ⊢
    rcases hv with h | h <;> constructor <;> omega
  have hlen : ¬ dst.data_len = 1 := by
    unfold bigint.data_len
    rw [hdata]
    cases rest with
    | nil => exact absurd rfl hrest
    | cons y ys => simp
  rw [add_by_int_aux]
  simp only [hcs]
  rw [if_neg hd0, if_neg hv0, if_pos hsm, if_neg hlen]
  apply add_by_int_large_loose k k dst v hd hv
  intro a ha0 ha1
  rw [hdata]
  apply add_int_loop_head_zero k rest a ha0 ha1
  rw [← hdata]
  exact hd.2.2.2.1

/-- `bigint_add_by_int` with a value of the sign of a well-formed destination: only
the two lowest segments can be left equal to the radix. -/
theorem add_by_int_aux_same_sign (n : Nat) (dst : bigint) (v : Int) (hd : well_formed dst)
    (hv : (dst.sign = 1 ∧ 0 < v ∧ v < BIGINT_RADIX) ∨ (dst.sign = -1 ∧ -BIGINT_RADIX < v ∧ v < 0)) :
    loose 2 (add_by_int_aux (n + 1) dst v) ∧ (add_by_int_aux (n + 1) dst v).sign ≠ 0 := by
  have hl := loose_of_well_formed dst hd
  have hcs := check_sign_of_well_formed dst hd
  have hR : BIGINT_RADIX = 1000000000 := rfl
  have hd0 : dst.sign ≠ 0 := by rcases hv with h | h <;> omega
  have hv0 : v ≠ 0 := by rcases hv with h | h <;> omega
  have hsm : -BIGINT_RADIX < v ∧ v < BIGINT_RADIX := by
    rw [hR] at hv ⊢
    rcases hv with h | h <;> constructor <;> omega
  have hval := add_by_int_small_value n dst v hd hsm
  have hvs := loose_value_sign 0 dst hl
  by_cases hlen : dst.data_len = 1
  · -- a single segment: through `bigint_from_int`
    have hwf : well_formed (add_by_int_aux (n + 1) dst v) := by
      obtain ⟨d0, hd0d⟩ : ∃ d0, dst.data = [d0] := by
        unfold bigint.data_len at hlen
        match hdd : dst.data, hlen with
        | [d0], _ => exact ⟨d0, rfl⟩
      have hr0 : 0 ≤ d0 ∧ d0 < BIGINT_RADIX :=
        hd.2.2.1 d0 (by rw [hd0d]; exact List.mem_cons_self _ _)
      have hmem : 1 ≤ dst.mem_size := by
        have := hd.2.2.2.2.2; rw [hd0d] at this; simpa using this
      rw [hR] at hr0 hv
      rw [add_by_int_aux]
      simp only [hcs]
      rw [if_neg hd0, if_neg hv0, if_pos hsm, if_pos hlen]
      simp only [hd0d, List.headD_cons]
      split_ifs with hneg
      · exact (from_int_spec dst _ (by rcases hv with h | h <;> omega)
          (by rcases hv with h | h <;> omega) hmem).2
      · exact (from_int_spec dst _ (by rcases hv with h | h <;> omega)
          (by rcases hv with h | h <;> omega) hmem).2
    have hl2 := loose_of_well_formed _ hwf
    refine ⟨loose_mono 0 2 _ hl2 (by omega), ?_⟩
    intro h0
    have := (loose_value_sign 0 _ hl2).1 h0
    rw [hval] at this
    rcases hv with h | h
    · have := hvs.2.1 h.1; omega
    · have := hvs.2.2 h.1; omega
  · rw [add_by_int_aux]
    simp only [hcs]
    rw [if_neg hd0, if_neg hv0, if_pos hsm, if_neg hlen]
    obtain ⟨-, h2, h3⟩ := add_by_int_large_loose 0 2 dst v hl hv
      (fun a ha0 _ => add_int_loop_drop_two dst.data a ha0 hd.2.2.1)
    exact ⟨h2, by rw [h3]; exact hd0⟩

/-- `bigint_add_by` on a destination in a relaxed state and a source that has its
sign (or a zero operand); a single-segment source only meets a destination whose
lowest segment is 0.  The value is the sum, the source is unchanged, the state is
kept, and the result is well-formed when the destination was zero or the source has
several segments and is zero below index `k`. -/
theorem add_by_aux_loose (n k : Nat) (dst src : bigint) (hd : loose k dst) (hs : loose 0 src)
    (hsign : dst.sign = 0 ∨ src.sign = 0 ∨ src.sign = dst.sign)
    (hfast : src.data.length = 1 → src.sign ≠ 0 → dst.sign ≠ 0 →
      ∃ rest : List Int, dst.data = 0 :: rest ∧ rest ≠ []) :
    value (add_by_aux (n + 2) dst src).1 = value dst + value src ∧
    (add_by_aux (n + 2) dst src).2 = src ∧
    loose k (add_by_aux (n + 2) dst src).1 ∧
    ((add_by_aux (n + 2) dst src).1.sign = 0 → (add_by_aux (n + 2) dst src).1.data = [0]) ∧
    ((dst.sign = 0 ∨ (src.sign ≠ 0 ∧ src.data.length ≠ 1 ∧ ∀ y ∈ src.data.take k, y = 0)) →
      well_formed (add_by_aux (n + 2) dst src).1) := by
  have hcd := check_sign_of_loose k dst hd
  have hcs := check_sign_of_loose 0 src hs
  have hvd := loose_value_sign k dst hd
  have hvs := loose_value_sign 0 src hs
  rw [add_by_aux]
  simp only [hcd, hcs]
  by_cases hd0 : dst.sign = 0
  · rw [if_pos hd0]
    obtain ⟨h1, h2, -, -⟩ := copy_loose dst src hs
    refine ⟨?_, rfl, loose_mono 0 k _ (loose_of_well_formed _ h1) (by omega),
      h1.2.2.2.2.1.1, fun _ => h1⟩
    simp only
    rw [h2, hvd.1 hd0, zero_add]
  · rw [if_neg hd0]
    by_cases hs0 : src.sign = 0
    · rw [if_pos hs0]
      refine ⟨?_, rfl, hd, fun h => absurd h hd0, ?_⟩
      · simp only; rw [hvs.1 hs0, add_zero]
      · intro h
        rcases h with h | h
        · exact absurd h hd0
        · exact absurd hs0 h.1
    · rw [if_neg hs0]
      have hss : src.sign = dst.sign := by
        rcases hsign with h | h | h
        · exact absurd h hd0
        · exact absurd h hs0
        · exact h
      by_cases h1 : src.data_len = 1
      · rw [if_pos h1]
        obtain ⟨s0, hs0d⟩ : ∃ s0, src.data = [s0] := by
          unfold bigint.data_len at h1
          match hdd : src.data, h1 with
          | [s0], _ => exact ⟨s0, rfl⟩
        have hr0 : 0 ≤ s0 ∧ s0 < BIGINT_RADIX :=
          ⟨(hs.2.2.1 s0 (by rw [hs0d]; exact List.mem_cons_self _ _)).1,
            hs.2.2.2.1 s0 (by rw [hs0d]; simp)⟩
        have hne0 : s0 ≠ 0 := by
          intro h0
          have := hs.2.2.2.2.2.1 hs0
          rw [hs0d, h0] at this
          simp at this
        have hR : BIGINT_RADIX = 1000000000 := rfl
        rw [hR] at hr0
        have hhead := hfast (by rw [hs0d]; rfl) hs0 hd0
        have hnw : ¬ (dst.sign = 0 ∨ (src.sign ≠ 0 ∧ [s0].length ≠ 1 ∧
            ∀ y ∈ [s0].take k, y = 0)) := by
          simp [hd0]
        simp only [hs0d, List.headD_cons]
        by_cases hneg : src.sign < 0
        · rw [if_pos hneg]
          have hsm : src.sign = -1 := by have := hs.1; omega
          obtain ⟨g1, g2, g3⟩ := add_by_int_aux_head_zero n k dst (-s0) hd
            (Or.inr ⟨by rw [← hss]; exact hsm, by rw [hR]; omega, by omega⟩) hhead
          refine ⟨?_, rfl, g2, fun h => absurd (g3 ▸ h) hd0, fun h => absurd h hnw⟩
          simp only
          rw [g1]
          simp only [value, hs0d, seg_value, hsm]; ring
        · rw [if_neg hneg]
          have hsm : src.sign = 1 := by have := hs.1; omega
          rw [if_pos (by omega)]
          obtain ⟨g1, g2, g3⟩ := add_by_int_aux_head_zero n k dst s0 hd
            (Or.inl ⟨by rw [← hss]; exact hsm, by omega, by rw [hR]; omega⟩) hhead
          refine ⟨?_, rfl, g2, fun h => absurd (g3 ▸ h) hd0, fun h => absurd h hnw⟩
          simp only
          rw [g1]
          simp only [value, hs0d, seg_value, hsm]; ring
      · rw [if_neg h1]
        obtain ⟨g1, g2, g3, g4⟩ := add_by_normal_loose k dst src hd hs hd0 hss
        refine ⟨g1, rfl, g2, fun h => absurd (g3 ▸ h) hd0, ?_⟩
        intro h
        rcases h with h | h
        · exact absurd h hd0
        · exact g4 h.2.2

/-- `bigint_add_by` on well-formed operands of the same sign: only the two lowest
segments of the result can be equal to the radix, and only when both operands are
nonzero and the source has one segment. -/
theorem add_by_aux_first (n : Nat) (dst src : bigint) (hd : well_formed dst)
    (hs : well_formed src) (hsign : dst.sign = 0 ∨ src.sign = 0 ∨ src.sign = dst.sign) :
    loose 2 (add_by_aux (n + 2) dst src).1 ∧
    ((add_by_aux (n + 2) dst src).1.sign = 0 → (add_by_aux (n + 2) dst src).1.data = [0]) := by
  obtain ⟨-, -, hwf⟩ := add_by_aux_spec n dst src hd hs
  by_cases hc : dst.sign = 0 ∨ src.sign = 0 ∨ src.data.length ≠ 1
  · have h := hwf hc
    exact ⟨loose_mono 0 2 _ (loose_of_well_formed _ h) (by omega), h.2.2.2.2.1.1⟩
  · have hd0 : dst.sign ≠ 0 := fun h => hc (Or.inl h)
    have hs0 : src.sign ≠ 0 := fun h => hc (Or.inr (Or.inl h))
    have h1 : src.data_len = 1 := by
      by_contra h; exact hc (Or.inr (Or.inr h))
    have hss : src.sign = dst.sign := by
      rcases hsign with h | h | h
      · exact absurd h hd0
      · exact absurd h hs0
      · exact h
    have hcd := check_sign_of_well_formed dst hd
    have hcs := check_sign_of_well_formed src hs
    obtain ⟨s0, hs0d⟩ : ∃ s0, src.data = [s0] := by
      unfold bigint.data_len at h1
      match hdd : src.data, h1 with
      | [s0], _ => exact ⟨s0, rfl⟩
    have hr0 : 0 ≤ s0 ∧ s0 < BIGINT_RADIX :=
      hs.2.2.1 s0 (by rw [hs0d]; exact List.mem_cons_self _ _)
    have hne0 : s0 ≠ 0 := by
      intro h0
      apply hs0
      apply hs.2.2.2.2.1.2
      rw [hs0d, h0]
    have hR : BIGINT_RADIX = 1000000000 := rfl
    rw [hR] at hr0
    rw [add_by_aux]
    simp only [hcd, hcs]
    rw [if_neg hd0, if_neg hs0, if_pos h1]
    simp only [hs0d, List.headD_cons]
    by_cases hneg : src.sign < 0
    · rw [if_pos hneg]
      have hsm : src.sign = -1 := by have := hs.1; omega
      obtain ⟨g1, g2⟩ := add_by_int_aux_same_sign n dst (-s0) hd
        (Or.inr ⟨by rw [← hss]; exact hsm, by rw [hR]; omega, by omega⟩)
      exact ⟨g1, fun h => absurd h g2⟩
    · rw [if_neg hneg]
      have hsm : src.sign = 1 := by have := hs.1; omega
      rw [if_pos (by omega)]
      obtain ⟨g1, g2⟩ := add_by_int_aux_same_sign n dst s0 hd
        (Or.inl ⟨by rw [← hss]; exact hsm, by omega, by rw [hR]; omega⟩)
      exact ⟨g1, fun h => absurd h g2⟩

/-! ## `bigint_mul_by_int` -/

theorem mul_int_extend_zero (fuel : Nat) : mul_int_extend fuel 0 = [] := by
  cases fuel <;> simp [mul_int_extend]

theorem mul_int_extend_small (carry : Int) (h0 : 0 ≤ carry) (h1 : carry < BIGINT_RADIX) :
    mul_int_extend carry.natAbs carry = if carry = 0 then [] else [carry] := by
  have hR : BIGINT_RADIX = 1000000000 := rfl
  by_cases hc : carry = 0
  · rw [if_pos hc, hc]; rfl
  · rw [if_neg hc]
    obtain ⟨m, hm⟩ : ∃ m, carry.natAbs = m + 1 := ⟨carry.natAbs - 1, by omega⟩
    rw [hm, mul_int_extend, if_pos hc, Int.tmod_eq_emod h0 (by norm_num),
      Int.tdiv_eq_ediv h0 (by norm_num)]
    have h2 : carry % BIGINT_RADIX = carry := Int.emod_eq_of_lt h0 h1
    have h3 : carry / BIGINT_RADIX = 0 := Int.ediv_eq_zero_of_lt h0 h1
    rw [h2, h3, mul_int_extend_zero]

/-- The multiplication loop on in-range segments, for a multiplier of at most the
radix: the carry stays below the multiplier and at most one segment is added. -/
theorem mul_int_loop_spec (v : Int) (hv0 : 0 < v) (hv1 : v ≤ BIGINT_RADIX) (l : List Int) :
    ∀ carry : Int, 0 ≤ carry → carry < v → (∀ x ∈ l, 0 ≤ x ∧ x < BIGINT_RADIX) →
    seg_value (mul_int_loop v carry l) = seg_value l * v + carry ∧
    (∀ x ∈ mul_int_loop v carry l, 0 ≤ x ∧ x < BIGINT_RADIX) ∧
    l.length ≤ (mul_int_loop v carry l).length ∧
    (mul_int_loop v carry l).length ≤ l.length + 1 ∧
    ((l ≠ [] ∨ carry ≠ 0) → l.getLast? ≠ some 0 →
      mul_int_loop v carry l ≠ [] ∧ (mul_int_loop v carry l).getLast? ≠ some 0) := by
  have hR : BIGINT_RADIX = 1000000000 := rfl
  induction l with
  | nil =>
    intro carry hc0 hc1 _
    have hcR : carry < BIGINT_RADIX := by omega
    rw [mul_int_loop, mul_int_extend_small carry hc0 hcR]
    by_cases hc : carry = 0
    · rw [if_pos hc]
      refine ⟨by simp [seg_value, hc], by simp, by simp, by simp, ?_⟩
      intro h; simp [hc] at h
    · rw [if_neg hc]
      refine ⟨by simp [seg_value], ?_, by simp, by simp, ?_⟩
      · intro x hx; simp at hx; rw [hx]; exact ⟨hc0, hcR⟩
      · intro _ _; simp [hc]
  | cons x xs ih =>
    intro carry hc0 hc1 hr
    have hx := hr x (List.mem_cons_self _ _)
    have hxs : ∀ z ∈ xs, 0 ≤ z ∧ z < BIGINT_RADIX := fun z hz => hr z (List.mem_cons_of_mem _ hz)
    have hxv : 0 ≤ x * v := mul_nonneg hx.1 (le_of_lt hv0)
    have hxv2 : x * v ≤ (BIGINT_RADIX - 1) * v :=
      mul_le_mul_of_nonneg_right (by omega) (le_of_lt hv0)
    have hp0 : 0 ≤ x * v + carry := by omega
    have hplt : x * v + carry < v * BIGINT_RADIX := by
      have : (BIGINT_RADIX - 1) * v = v * BIGINT_RADIX - v := by ring
      omega
    have hq0 : 0 ≤ (x * v + carry) / BIGINT_RADIX := Int.ediv_nonneg hp0 (by norm_num)
    have hq1 : (x * v + carry) / BIGINT_RADIX < v := Int.ediv_lt_of_lt_mul (by norm_num) hplt
    have hm0 : 0 ≤ (x * v + carry) % BIGINT_RADIX := Int.emod_nonneg _ (by norm_num)
    have hm1 : (x * v + carry) % BIGINT_RADIX < BIGINT_RADIX := Int.emod_lt_of_pos _ (by norm_num)
    have hdm := Int.emod_add_ediv (x * v + carry) BIGINT_RADIX
    obtain ⟨i1, i2, i3, i4, i5⟩ := ih ((x * v + carry) / BIGINT_RADIX) hq0 hq1 hxs
    rw [mul_int_loop, Int.tmod_eq_emod hp0 (by norm_num), Int.tdiv_eq_ediv hp0 (by norm_num)]
    refine ⟨?_, ?_, ?_, ?_, ?_⟩
    · simp only [seg_value]
      rw [i1]
      linear_combination hdm
    · intro z hz
      rcases List.mem_cons.1 hz with h | h
      · rw [h]; exact ⟨hm0, hm1⟩
      · exact i2 z h
    · simp only [List.length_cons]; omega
    · simp only [List.length_cons]; omega
    · intro _ hlast
      refine ⟨by simp, ?_⟩
      by_cases hcase : xs ≠ [] ∨ (x * v + carry) / BIGINT_RADIX ≠ 0
      · have hl2 : xs.getLast? ≠ some 0 := by
          cases xs with
          | nil => simp
          | cons y ys => rw [List.getLast?_cons_cons] at hlast; exact hlast
        obtain ⟨j1, j2⟩ := i5 hcase hl2
        cases hT : mul_int_loop v ((x * v + carry) / BIGINT_RADIX) xs with
        | nil => exact absurd hT j1
        | cons z zs =>
          rw [hT] at j2
          rw [List.getLast?_cons_cons]
          exact j2
      · have hxs0 : xs = [] := by
          by_contra h; exact hcase (Or.inl h)
        have hq : (x * v + carry) / BIGINT_RADIX = 0 := by
          by_contra h; exact hcase (Or.inr h)
        subst hxs0
        have hx0 : x ≠ 0 := by
          intro h0; apply hlast; simp [h0]
        have hx1 : 1 ≤ x := by omega
        have hxv3 : 1 * v ≤ x * v := mul_le_mul_of_nonneg_right hx1 (le_of_lt hv0)
        rw [hq, mul_int_loop, show (0 : Int).natAbs = 0 from rfl, mul_int_extend]
        simp only [List.getLast?_singleton, ne_eq, Option.some.injEq]
        rw [hq] at hdm
        omega

/-- `bigint_mul_by_int` by a multiplier from 0 to the radix: the result is
well-formed and its value is the product. -/
theorem mul_by_int_spec (p : bigint) (v : Int) (hp : well_formed p) (hv0 : 0 ≤ v)
    (hv1 : v ≤ BIGINT_RADIX) :
    well_formed (bigint_mul_by_int p v) ∧ value (bigint_mul_by_int p v) = value p * v := by
  have hR : BIGINT_RADIX = 1000000000 := rfl
  unfold bigint_mul_by_int
  by_cases h0 : v = 0
  · rw [if_pos h0, h0]
    have hz : bigint_set_zero p = ⟨0, [0], if 4 < p.mem_size then 2 else p.mem_size⟩ := by
      unfold bigint_set_zero bigint_pack_memory bigint_check_sign
      simp [pack_trim, strip_zeros]
    rw [hz]
    refine ⟨⟨by simp, by simp, by simp, by simp, by simp, ?_⟩, by simp [value, seg_value]⟩
    have := hp.2.2.2.2.2
    have := hp.2.1
    simp only [List.length_singleton]
    split_ifs <;> omega
  · rw [if_neg h0]
    by_cases h1 : v = 1
    · rw [if_pos h1, h1]
      exact ⟨hp, by ring⟩
    · rw [if_neg h1, if_neg (by omega)]
      simp only [if_neg (not_lt.2 hv0)]
      obtain ⟨hasg, hadat, -, hamem⟩ := assure_memory_fields p
        (p.data_len + (BIGINT_INT_MAX_DIGITS / BIGINT_RADIX_LOG10 + 1))
      rw [hasg, hadat]
      have hl := loose_of_well_formed p hp
      obtain ⟨hsign, hne, -, -, hz, hlast, -⟩ := hl
      obtain ⟨m1, m2, m3, m4, m5⟩ := mul_int_loop_spec v (by omega) hv1 p.data 0 (le_refl _)
        (by omega) hp.2.2.1
      have hval : value ⟨p.sign, mul_int_loop v 0 p.data, (bigint_assure_memory p
          (p.data_len + (BIGINT_INT_MAX_DIGITS / BIGINT_RADIX_LOG10 + 1))).mem_size⟩ =
          value p * v := by
        unfold value; simp only; rw [m1]; ring
      refine ⟨?_, hval⟩
      apply well_formed_of_loose
      · refine ⟨hsign, ?_, fun s hs => ⟨(m2 s hs).1, le_of_lt (m2 s hs).2⟩, ?_, ?_, ?_, ?_⟩
        · simp only; intro he
          rw [he] at m3
          simp only [List.length_nil, Nat.le_zero, List.length_eq_zero] at m3
          exact hne m3
        · simp only; intro s hs; rw [List.drop_zero] at hs; exact (m2 s hs).2
        · simp only; intro hs0
          have hd := hp.2.2.2.2.1.1 hs0
          rw [hd]
          simp [mul_int_loop, mul_int_extend]
        · simp only; intro hs0
          exact (m5 (Or.inl hne) (hlast hs0)).2
        · simp only
          have hc2 : p.data.length + 2 ≤ (bigint_assure_memory p
            (p.data_len + (BIGINT_INT_MAX_DIGITS / BIGINT_RADIX_LOG10 + 1))).mem_size := hamem
          omega
      · simp only; intro hs0
        have hd := hp.2.2.2.2.1.1 hs0
        rw [hd]
        simp [mul_int_loop, mul_int_extend]

/-! ## Schoolbook multiplication and the split -/

theorem set_zero_spec (p : bigint) (hm : 1 ≤ p.mem_size) :
    well_formed (bigint_set_zero p) ∧ value (bigint_set_zero p) = 0 ∧
    (bigint_set_zero p).sign = 0 := by
  rw [set_zero_eq]
  refine ⟨⟨by simp, by simp, by simp, by simp, by simp, ?_⟩, by simp [value, seg_value], rfl⟩
  simp only [List.length_singleton]
  split_ifs <;> omega

theorem change_sign_spec (p : bigint) (hp : well_formed p) :
    well_formed (bigint_change_sign p) ∧ value (bigint_change_sign p) = -value p := by
  obtain ⟨hs, hl, hr, hlast, hz, hm⟩ := hp
  unfold bigint_change_sign bigint_check_sign
  by_cases h0 : p.data = [0]
  · simp only [h0, if_true]
    refine ⟨⟨by simp, by simp, by simp, by simp, by simp, ?_⟩, ?_⟩
    · simp only; rw [h0] at hm; exact hm
    · simp [value, h0, seg_value]
  · simp only [h0, if_false]
    have hs0 : p.sign ≠ 0 := fun h => h0 (hz.1 h)
    refine ⟨⟨?_, hl, hr, hlast, ?_, hm⟩, ?_⟩
    · simp only; omega
    · simp only
      constructor
      · intro h; exfalso; omega
      · intro h; exact absurd h h0
    · simp only [value]; ring

theorem loose_zero_of_range (k : Nat) (p : bigint) (h : loose k p)
    (hr : ∀ s ∈ p.data, s < BIGINT_RADIX) : loose 0 p := by
  obtain ⟨hs, hne, hr2, -, hz, hlast, hm⟩ := h
  exact ⟨hs, hne, hr2, fun s h => hr s (List.mem_of_mem_drop h), hz, hlast, hm⟩

/-- The shift of a number without a segment equal to the radix has none either. -/
theorem mul_by_pow_10_loose_zero (n : Nat) (p : bigint) (h : loose 0 p) :
    loose 0 (bigint_mul_by_pow_10 p ((n : Int) * BIGINT_RADIX_LOG10)) := by
  obtain ⟨h1, -, -, h4⟩ := mul_by_pow_10_loose 0 n p h
  apply loose_zero_of_range _ _ h1
  intro s hs
  rw [h4] at hs
  rcases List.mem_append.1 hs with g | g
  · rw [(List.mem_replicate.1 g).2]; decide
  · exact h.2.2.2.1 s (by rw [List.drop_zero]; exact g)

/-- The shift of a well-formed number has no segment equal to the radix. -/
theorem mul_by_pow_10_well_formed (n : Nat) (p : bigint) (h : well_formed p) :
    loose 0 (bigint_mul_by_pow_10 p ((n : Int) * BIGINT_RADIX_LOG10)) :=
  mul_by_pow_10_loose_zero n p (loose_of_well_formed p h)

theorem same_sign_of_values (k1 k2 : Nat) (p q : bigint) (hp : loose k1 p) (hq : loose k2 q)
    (sg : Int) (hsg : sg = 1 ∨ sg = -1) (h1 : 0 ≤ sg * value p) (h2 : 0 ≤ sg * value q) :
    p.sign = 0 ∨ q.sign = 0 ∨ q.sign = p.sign := by
  rcases (loose_sign_iff k1 p hp sg hsg).2 h1 with h | h
  · exact Or.inl h
  · rcases (loose_sign_iff k2 q hq sg hsg).2 h2 with g | g
    · exact Or.inr (Or.inl g)
    · exact Or.inr (Or.inr (by rw [g, h]))

/-- The loop of `bigint_mul_by_trad`: each step adds the destination times one
segment of the source, shifted to the place of that segment. -/
theorem mul_trad_loop_spec (dst : bigint) (hd : well_formed dst) (sg : Int)
    (hsg : sg = 1 ∨ sg = -1) (hdsg : 0 ≤ sg * value dst) :
    ∀ (segs : List Int) (i : Nat) (bi bi_add : bigint), well_formed bi →
    (∀ s ∈ segs, 0 ≤ s ∧ s < BIGINT_RADIX) → 0 ≤ sg * value bi → (i = 0 → bi.sign = 0) →
    well_formed (mul_trad_loop dst i segs bi bi_add) ∧
    value (mul_trad_loop dst i segs bi bi_add) =
      value bi + value dst * BIGINT_RADIX ^ i * seg_value segs := by
  intro segs
  induction segs with
  | nil =>
    intro i bi bi_add hbi _ _ _
    exact ⟨hbi, by simp [mul_trad_loop, seg_value]⟩
  | cons seg rest ih =>
    intro i bi bi_add hbi hr hbsg hi0
    have hseg := hr seg (List.mem_cons_self _ _)
    obtain ⟨c1, c2, -, -⟩ := copy_spec bi_add dst hd
    obtain ⟨m1, m2⟩ := mul_by_int_spec (bigint_copy bi_add dst) seg c2 hseg.1 (le_of_lt hseg.2)
    have s0 := mul_by_pow_10_well_formed i _ m1
    obtain ⟨-, s2, -, s4⟩ := mul_by_pow_10_loose 0 i _ (loose_of_well_formed _ m1)
    have hbl := loose_of_well_formed bi hbi
    have hpow : (0 : Int) ≤ BIGINT_RADIX ^ i := by positivity
    have hv3 : value (bigint_mul_by_pow_10 (bigint_mul_by_int (bigint_copy bi_add dst) seg)
        ((i : Int) * BIGINT_RADIX_LOG10)) = value dst * seg * BIGINT_RADIX ^ i := by
      rw [s2, m2, c1]
    have hsg3 : 0 ≤ sg * value (bigint_mul_by_pow_10
        (bigint_mul_by_int (bigint_copy bi_add dst) seg) ((i : Int) * BIGINT_RADIX_LOG10)) := by
      rw [hv3]
      have := mul_nonneg (mul_nonneg hdsg hseg.1) hpow
      calc (0 : Int) ≤ sg * value dst * seg * BIGINT_RADIX ^ i := this
        _ = sg * (value dst * seg * BIGINT_RADIX ^ i) := by ring
    have hsign : bi.sign = 0 ∨ (bigint_mul_by_pow_10
        (bigint_mul_by_int (bigint_copy bi_add dst) seg) ((i : Int) * BIGINT_RADIX_LOG10)).sign = 0 ∨
        (bigint_mul_by_pow_10 (bigint_mul_by_int (bigint_copy bi_add dst) seg)
          ((i : Int) * BIGINT_RADIX_LOG10)).sign = bi.sign := by
      rcases (loose_sign_iff 0 bi hbl sg hsg).2 hbsg with h | h
      · exact Or.inl h
      · rcases (loose_sign_iff 0 _ s0 sg hsg).2 hsg3 with g | g
        · exact Or.inr (Or.inl g)
        · exact Or.inr (Or.inr (by rw [g, h]))
    obtain ⟨a1, a2, a3, a4, -⟩ := add_by_aux_loose 1 0 bi _ hbl s0 hsign (by
      intro hlen _ hb0
      exfalso
      have hi : i ≠ 0 := fun h => hb0 (hi0 h)
      rw [s4] at hlen
      have hne := m1.2.1
      simp only [List.length_append, List.length_replicate] at hlen
      omega)
    have hwf := well_formed_of_loose _ a3 a4
    rw [mul_trad_loop]
    obtain ⟨r1, r2⟩ := ih (i + 1) (bigint_add_by bi (bigint_mul_by_pow_10
        (bigint_mul_by_int (bigint_copy bi_add dst) seg) ((i : Int) * BIGINT_RADIX_LOG10))).1
      (bigint_add_by bi (bigint_mul_by_pow_10
        (bigint_mul_by_int (bigint_copy bi_add dst) seg) ((i : Int) * BIGINT_RADIX_LOG10))).2
      hwf (fun s hs => hr s (List.mem_cons_of_mem _ hs))
      (by show 0 ≤ sg * value (add_by_aux 3 bi _).1
          rw [a1, mul_add]; omega)
      (by intro h; omega)
    refine ⟨r1, ?_⟩
    rw [r2]
    show value (add_by_aux 3 bi _).1 + _ = _
    rw [a1, hv3]
    simp only [seg_value, pow_succ]
    ring

/-- `bigint_mul_by_trad` on distinct well-formed operands. -/
theorem mul_by_trad_spec (dst src : bigint) (hd : well_formed dst) (hs : well_formed src) :
    well_formed (bigint_mul_by_trad dst src).1 ∧
    value (bigint_mul_by_trad dst src).1 = value dst * value src ∧
    (bigint_mul_by_trad dst src).2 = src := by
  have hcs := check_sign_of_well_formed src hs
  unfold bigint_mul_by_trad
  simp only [hcs]
  have hz := set_zero_spec bigint_init (by decide)
  have key : ∀ d1 : bigint, well_formed d1 →
      well_formed (bigint_copy d1 (mul_trad_loop d1 0 src.data (bigint_set_zero bigint_init)
        bigint_init)) ∧
      value (bigint_copy d1 (mul_trad_loop d1 0 src.data (bigint_set_zero bigint_init)
        bigint_init)) = value d1 * seg_value src.data := by
    intro d1 hd1
    obtain ⟨sg, hsg, hdsg⟩ : ∃ sg : Int, (sg = 1 ∨ sg = -1) ∧ 0 ≤ sg * value d1 := by
      have hl := loose_of_well_formed d1 hd1
      rcases hd1.1 with h | h | h
      · exact ⟨-1, Or.inr rfl, (loose_sign_iff 0 d1 hl (-1) (Or.inr rfl)).1 (Or.inr h)⟩
      · exact ⟨1, Or.inl rfl, (loose_sign_iff 0 d1 hl 1 (Or.inl rfl)).1 (Or.inl h)⟩
      · exact ⟨1, Or.inl rfl, (loose_sign_iff 0 d1 hl 1 (Or.inl rfl)).1 (Or.inr h)⟩
    obtain ⟨l1, l2⟩ := mul_trad_loop_spec d1 hd1 sg hsg hdsg src.data 0
      (bigint_set_zero bigint_init) bigint_init hz.1 hs.2.2.1 (by rw [hz.2.1]; simp)
      (fun _ => hz.2.2)
    obtain ⟨c1, c2, -, -⟩ := copy_spec d1 _ l1
    refine ⟨c2, ?_⟩
    rw [c1, l2, hz.2.1]
    simp
  by_cases hneg : src.sign < 0
  · simp only [if_pos hneg]
    obtain ⟨g1, g2⟩ := change_sign_spec dst hd
    obtain ⟨k1, k2⟩ := key _ g1
    refine ⟨k1, ?_, trivial⟩
    rw [k2, g2]
    have : src.sign = -1 := by have := hs.1; omega
    simp only [value, this]; ring
  · simp only [if_neg hneg]
    obtain ⟨k1, k2⟩ := key _ hd
    refine ⟨k1, ?_, trivial⟩
    rw [k2]
    rcases hs.1 with h | h | h
    · omega
    · have := hs.2.2.2.2.1.1 h
      simp [value, this, seg_value, h]
    · simp only [value, h]; ring

/-- `bigint_split_number` at `low_len >= 1` segments: both parts are well-formed,
`value = high * RADIX^low_len + low`, each part is zero or has the sign of the
number, and the parts are no longer than the places they are cut from. -/
theorem split_number_spec (p high low : bigint) (n : Nat) (hp : well_formed p) (hn : 1 ≤ n)
    (hh : 1 ≤ high.mem_size) :
    well_formed (bigint_split_number p high low n).1 ∧
    well_formed (bigint_split_number p high low n).2 ∧
    value p = value (bigint_split_number p high low n).1 * BIGINT_RADIX ^ n +
      value (bigint_split_number p high low n).2 ∧
    (p.data_len ≤ n → (bigint_split_number p high low n).1.sign = 0) ∧
    (n < p.data_len → (bigint_split_number p high low n).1.data_len ≤ p.data_len - n) ∧
    (bigint_split_number p high low n).2.data_len ≤ n ∧
    (bigint_split_number p high low n).2.data_len ≤ p.data_len := by
  unfold bigint_split_number
  by_cases hc : n ≥ p.data_len
  · rw [if_pos hc]
    obtain ⟨z1, z2, z3⟩ := set_zero_spec high hh
    obtain ⟨c1, c2, c3, -⟩ := copy_spec low p hp
    have hlen : (bigint_copy low p).data_len = p.data_len := congrArg List.length c3
    refine ⟨z1, c2, ?_, fun _ => z3, fun h => by omega, by rw [hlen]; exact hc, le_of_eq hlen⟩
    simp only
    rw [z2, c1]; ring
  · rw [if_neg hc]
    have hlt : n < p.data.length := by unfold bigint.data_len at hc; omega
    obtain ⟨hs, hl, hr, hlast, hz, hm⟩ := hp
    have hs0 : p.sign ≠ 0 := by
      intro h
      have := hz.1 h
      rw [this] at hlt
      simp at hlt; omega
    obtain ⟨-, -, -, hcap1⟩ := assure_memory_fields high (p.data_len - n)
    obtain ⟨-, -, -, hcap2⟩ := assure_memory_fields low n
    have hdl : (p.data.drop n).length = p.data.length - n := List.length_drop _ _
    have htl : (p.data.take n).length = n := by
      rw [List.length_take]; omega
    have hwf1 := pack_memory_well_formed
      ⟨p.sign, p.data.drop n, (bigint_assure_memory high (p.data_len - n)).mem_size⟩ hs
      (by simp only; intro h; rw [h] at hdl; simp at hdl; omega)
      (fun s h => hr s (List.mem_of_mem_drop h))
      (fun h => absurd h hs0)
      (by simp only; rw [hdl]; exact hcap1)
    have hwf2 := pack_memory_well_formed
      ⟨p.sign, p.data.take n, (bigint_assure_memory low n).mem_size⟩ hs
      (by simp only; intro h; rw [h] at htl; simp at htl; omega)
      (fun s h => hr s (List.mem_of_mem_take h))
      (fun h => absurd h hs0)
      (by simp only; rw [htl]; exact hcap2)
    refine ⟨hwf1, hwf2, ?_, fun h => by unfold bigint.data_len at h; omega, ?_, ?_, ?_⟩
    · simp only
      rw [pack_memory_value, pack_memory_value]
      unfold value; simp only
      have : seg_value p.data = seg_value (p.data.take n) +
          BIGINT_RADIX ^ n * seg_value (p.data.drop n) := by
        conv_lhs => rw [← List.take_append_drop n p.data]
        rw [seg_value_append, htl]
      rw [this]; ring
    · intro _
      simp only
      unfold bigint.data_len
      rw [pack_memory_data]
      have := (pack_trim_length (p.data.drop n)).1
      simp only at this ⊢
      omega
    · simp only
      unfold bigint.data_len
      rw [pack_memory_data]
      have := (pack_trim_length (p.data.take n)).1
      simp only at this ⊢
      omega
    · simp only
      unfold bigint.data_len
      rw [pack_memory_data]
      have := (pack_trim_length (p.data.take n)).1
      simp only at this ⊢
      omega

/-! ## Recombination of the partial products -/

/-- The recombination when only the source is split: `low + high * RADIX^n`. -/
theorem mul_combine_src (D X : bigint) (n : Nat) (sg : Int) (hsg : sg = 1 ∨ sg = -1)
    (hn : 1 ≤ n) (hD : well_formed D) (hX : well_formed X)
    (sD : 0 ≤ sg * value D) (sX : 0 ≤ sg * value X) :
    well_formed (bigint_add_by D (bigint_mul_by_pow_10 X ((n : Int) * BIGINT_RADIX_LOG10))).1 ∧
    value (bigint_add_by D (bigint_mul_by_pow_10 X ((n : Int) * BIGINT_RADIX_LOG10))).1 =
      value D + value X * BIGINT_RADIX ^ n := by
  have hB := mul_by_pow_10_well_formed n X hX
  obtain ⟨-, b2, -, b4⟩ := mul_by_pow_10_loose 0 n X (loose_of_well_formed X hX)
  have hDl := loose_of_well_formed D hD
  have hpow : (0 : Int) ≤ BIGINT_RADIX ^ n := by positivity
  have sB : 0 ≤ sg * value (bigint_mul_by_pow_10 X ((n : Int) * BIGINT_RADIX_LOG10)) := by
    rw [b2, ← mul_assoc]; exact mul_nonneg sX hpow
  obtain ⟨a1, -, a3, a4, -⟩ := add_by_aux_loose 1 0 D _ hDl hB
    (same_sign_of_values 0 0 _ _ hDl hB sg hsg sD sB) (by
      intro hlen _ _
      exfalso
      rw [b4] at hlen
      have := hX.2.1
      simp only [List.length_append, List.length_replicate] at hlen
      omega)
  refine ⟨well_formed_of_loose _ a3 a4, ?_⟩
  show value (add_by_aux 3 D _).1 = _
  rw [a1, b2]

/-- The recombination when only the destination is split: the shifted high product
is copied into the destination and the low product is added. -/
theorem mul_combine_dst (dst X Y : bigint) (n : Nat) (sg : Int) (hsg : sg = 1 ∨ sg = -1)
    (hn : 1 ≤ n) (hX : well_formed X) (hY : well_formed Y)
    (sX : 0 ≤ sg * value X) (sY : 0 ≤ sg * value Y) :
    well_formed (bigint_add_by
      (bigint_copy dst (bigint_mul_by_pow_10 X ((n : Int) * BIGINT_RADIX_LOG10))) Y).1 ∧
    value (bigint_add_by
      (bigint_copy dst (bigint_mul_by_pow_10 X ((n : Int) * BIGINT_RADIX_LOG10))) Y).1 =
      value X * BIGINT_RADIX ^ n + value Y := by
  have hB := mul_by_pow_10_well_formed n X hX
  obtain ⟨-, b2, -, b4⟩ := mul_by_pow_10_loose 0 n X (loose_of_well_formed X hX)
  obtain ⟨c1, c2, c3, c4⟩ := copy_loose dst _ hB
  have hCl := loose_of_well_formed _ c1
  have hYl := loose_of_well_formed Y hY
  have hpow : (0 : Int) ≤ BIGINT_RADIX ^ n := by positivity
  have sC : 0 ≤ sg * value (bigint_copy dst
      (bigint_mul_by_pow_10 X ((n : Int) * BIGINT_RADIX_LOG10))) := by
    rw [c2, b2, ← mul_assoc]; exact mul_nonneg sX hpow
  obtain ⟨a1, -, a3, a4, -⟩ := add_by_aux_loose 1 0 _ Y hCl hYl
    (same_sign_of_values 0 0 _ _ hCl hYl sg hsg sC sY) (by
      intro _ _ hc0
      rw [c3] at hc0
      rw [c4 hc0, b4]
      obtain ⟨m, hm⟩ : ∃ m, n = m + 1 := ⟨n - 1, by omega⟩
      refine ⟨List.replicate m 0 ++ X.data, ?_, ?_⟩
      · rw [hm, List.replicate_succ, List.cons_append]
      · intro h
        have hl := congrArg List.length h
        simp only [List.length_append, List.length_replicate, List.length_nil] at hl
        have := hX.2.1
        omega)
  refine ⟨well_formed_of_loose _ a3 a4, ?_⟩
  show value (add_by_aux 3 _ Y).1 = _
  rw [a1, c2, b2]

/-- The recombination when both operands are split:
`(P1 + X2) * RADIX^n + X3 + X4 * RADIX^(2n)`.  The first addition may leave a segment
equal to the radix at index 0 or 1, but only when both its operands are nonzero;
then `X4` is nonzero and the last addition, whose source is zero below index `2n`,
brings that segment back in range. -/
theorem mul_combine_both (P1 X2 X3 X4 : bigint) (n : Nat) (sg : Int) (hsg : sg = 1 ∨ sg = -1)
    (hn : 2 ≤ n) (h1 : well_formed P1) (h2 : well_formed X2) (h3 : well_formed X3)
    (h4 : well_formed X4) (s1 : 0 ≤ sg * value P1) (s2 : 0 ≤ sg * value X2)
    (s3 : 0 ≤ sg * value X3) (s4 : 0 ≤ sg * value X4)
    (hnz : value P1 ≠ 0 → value X2 ≠ 0 → value X4 ≠ 0) :
    well_formed (bigint_add_by (bigint_add_by (bigint_mul_by_pow_10 (bigint_add_by P1 X2).1
      ((n : Int) * BIGINT_RADIX_LOG10)) X3).1
      (bigint_mul_by_pow_10 X4 ((n : Int) * BIGINT_RADIX_LOG10 * 2))).1 ∧
    value (bigint_add_by (bigint_add_by (bigint_mul_by_pow_10 (bigint_add_by P1 X2).1
      ((n : Int) * BIGINT_RADIX_LOG10)) X3).1
      (bigint_mul_by_pow_10 X4 ((n : Int) * BIGINT_RADIX_LOG10 * 2))).1 =
      (value P1 + value X2) * BIGINT_RADIX ^ n + value X3 + value X4 * BIGINT_RADIX ^ (2 * n) := by
  have e : (n : Int) * ((BIGINT_RADIX_LOG10 : Nat) : Int) * 2 =
      ((2 * n : Nat) : Int) * ((BIGINT_RADIX_LOG10 : Nat) : Int) := by push_cast; ring
  simp only [bigint_add_by]
  rw [e]
  have l1 := loose_of_well_formed P1 h1
  have l2 := loose_of_well_formed X2 h2
  have l3 := loose_of_well_formed X3 h3
  have l4 := loose_of_well_formed X4 h4
  have hs12 := same_sign_of_values 0 0 P1 X2 l1 l2 sg hsg s1 s2
  obtain ⟨v1, -, w1⟩ := add_by_aux_spec 1 P1 X2 h1 h2
  obtain ⟨f1, f2⟩ := add_by_aux_first 1 P1 X2 h1 h2 hs12
  have hpow : (0 : Int) ≤ BIGINT_RADIX ^ n := by positivity
  have hpow2 : (0 : Int) ≤ BIGINT_RADIX ^ (2 * n) := by positivity
  have sA : 0 ≤ sg * value (add_by_aux 3 P1 X2).1 := by rw [v1, mul_add]; omega
  -- the shifted sum of the cross products
  obtain ⟨-, p2, -, p4⟩ := mul_by_pow_10_loose 2 n _ f1
  have sP3 : 0 ≤ sg * value (bigint_mul_by_pow_10 (add_by_aux 3 P1 X2).1
      ((n : Int) * BIGINT_RADIX_LOG10)) := by
    rw [p2, ← mul_assoc]; exact mul_nonneg sA hpow
  -- the shifted high product
  have hP5 := mul_by_pow_10_well_formed (2 * n) X4 h4
  obtain ⟨-, q2, q3, q4⟩ := mul_by_pow_10_loose 0 (2 * n) X4 l4
  have sP5 : 0 ≤ sg * value (bigint_mul_by_pow_10 X4
      (((2 * n : Nat) : Int) * BIGINT_RADIX_LOG10)) := by
    rw [q2, ← mul_assoc]; exact mul_nonneg s4 hpow2
  have chain : ∀ K : Nat, K ≤ 2 * n →
      loose K (bigint_mul_by_pow_10 (add_by_aux 3 P1 X2).1 ((n : Int) * BIGINT_RADIX_LOG10)) →
      (K = 0 ∨ X4.sign ≠ 0) →
      well_formed (add_by_aux 3 (add_by_aux 3 (bigint_mul_by_pow_10 (add_by_aux 3 P1 X2).1
        ((n : Int) * BIGINT_RADIX_LOG10)) X3).1
        (bigint_mul_by_pow_10 X4 (((2 * n : Nat) : Int) * BIGINT_RADIX_LOG10))).1 ∧
      value (add_by_aux 3 (add_by_aux 3 (bigint_mul_by_pow_10 (add_by_aux 3 P1 X2).1
        ((n : Int) * BIGINT_RADIX_LOG10)) X3).1
        (bigint_mul_by_pow_10 X4 (((2 * n : Nat) : Int) * BIGINT_RADIX_LOG10))).1 =
        (value P1 + value X2) * BIGINT_RADIX ^ n + value X3 +
          value X4 * BIGINT_RADIX ^ (2 * n) := by
    intro K hK hP3 hcase
    obtain ⟨a1, -, a3, a4, -⟩ := add_by_aux_loose 1 K _ X3 hP3 l3
      (same_sign_of_values K 0 _ _ hP3 l3 sg hsg sP3 s3) (by
        intro _ _ _
        rw [p4]
        obtain ⟨m, hm⟩ : ∃ m, n = m + 1 := ⟨n - 1, by omega⟩
        refine ⟨List.replicate m 0 ++ (add_by_aux 3 P1 X2).1.data, ?_, ?_⟩
        · rw [hm, List.replicate_succ, List.cons_append]
        · intro h
          have hl := congrArg List.length h
          simp only [List.length_append, List.length_replicate, List.length_nil] at hl
          have hne := f1.2.1
          have : (add_by_aux 3 P1 X2).1.data.length = 0 := by omega
          exact hne (List.length_eq_zero.1 this))
    have sP4 : 0 ≤ sg * value (add_by_aux 3 (bigint_mul_by_pow_10 (add_by_aux 3 P1 X2).1
        ((n : Int) * BIGINT_RADIX_LOG10)) X3).1 := by
      rw [a1, mul_add]; omega
    have hlen5 : (bigint_mul_by_pow_10 X4
        (((2 * n : Nat) : Int) * BIGINT_RADIX_LOG10)).data.length ≠ 1 := by
      rw [q4]
      simp only [List.length_append, List.length_replicate]
      have := h4.2.1
      omega
    obtain ⟨b1, -, b3, b4, b5⟩ := add_by_aux_loose 1 K _ _ a3 hP5
      (same_sign_of_values K 0 _ _ a3 hP5 sg hsg sP4 sP5) (fun h => absurd h hlen5)
    refine ⟨?_, ?_⟩
    · rcases hcase with hK0 | hX4
      · subst hK0
        exact well_formed_of_loose _ b3 b4
      · apply b5
        refine Or.inr ⟨by rw [q3]; exact hX4, hlen5, ?_⟩
        intro y hy
        rw [q4, List.take_append_of_le_length (by simp; omega)] at hy
        exact (List.mem_replicate.1 (List.mem_of_mem_take hy)).2
    · rw [b1, a1, p2, q2, v1]
  by_cases hc : P1.sign = 0 ∨ X2.sign = 0 ∨ X2.data.length ≠ 1
  · have hA := loose_of_well_formed _ (w1 hc)
    exact chain 0 (by omega) (mul_by_pow_10_loose_zero n _ hA) (Or.inl rfl)
  · have hP1 : P1.sign ≠ 0 := fun h => hc (Or.inl h)
    have hX2 : X2.sign ≠ 0 := fun h => hc (Or.inr (Or.inl h))
    have hv1 : value P1 ≠ 0 := fun h => hP1 ((loose_sign_zero_iff 0 P1 l1).2 h)
    have hv2 : value X2 ≠ 0 := fun h => hX2 ((loose_sign_zero_iff 0 X2 l2).2 h)
    have hv4 := hnz hv1 hv2
    have hX4 : X4.sign ≠ 0 := fun h => hv4 ((loose_sign_zero_iff 0 X4 l4).1 h)
    exact chain (2 + n) (by omega) (mul_by_pow_10_loose 2 n _ f1).1 (Or.inr hX4)

/-! ## `bigint_mul_by` -/

theorem sign_mul_value_nonneg (p : bigint) (hp : well_formed p) : 0 ≤ p.sign * value p := by
  have := seg_value_nonneg p.data (fun s h => (hp.2.2.1 s h).1)
  have h2 := mul_nonneg (mul_self_nonneg p.sign) this
  unfold value
  calc (0 : Int) ≤ p.sign * p.sign * seg_value p.data := h2
    _ = p.sign * (p.sign * seg_value p.data) := by ring

theorem prod_sign_nonneg (a b x y : Int) (h1 : 0 ≤ a * x) (h2 : 0 ≤ b * y) :
    0 ≤ a * b * (x * y) := by
  calc (0 : Int) ≤ (a * x) * (b * y) := mul_nonneg h1 h2
    _ = a * b * (x * y) := by ring

/-- Each part of `bigint_split_number` is zero or has the sign of the number. -/
theorem split_number_sign (p high low : bigint) (n : Nat) (hp : well_formed p)
    (hh : 1 ≤ high.mem_size) :
    0 ≤ p.sign * value (bigint_split_number p high low n).1 ∧
    0 ≤ p.sign * value (bigint_split_number p high low n).2 := by
  have hnn : ∀ l : List Int, (∀ s ∈ l, s ∈ p.data) → 0 ≤ p.sign * (p.sign * seg_value l) := by
    intro l hl
    have := seg_value_nonneg l (fun s h => (hp.2.2.1 s (hl s h)).1)
    calc (0 : Int) ≤ p.sign * p.sign * seg_value l := mul_nonneg (mul_self_nonneg p.sign) this
      _ = p.sign * (p.sign * seg_value l) := by ring
  unfold bigint_split_number
  by_cases hc : n ≥ p.data_len
  · rw [if_pos hc]
    obtain ⟨-, z2, -⟩ := set_zero_spec high hh
    obtain ⟨c1, -, -, -⟩ := copy_spec low p hp
    simp only
    rw [z2, c1]
    exact ⟨by simp, sign_mul_value_nonneg p hp⟩
  · rw [if_neg hc]
    simp only
    rw [pack_memory_value, pack_memory_value]
    exact ⟨hnn _ (fun s h => List.mem_of_mem_drop h), hnn _ (fun s h => List.mem_of_mem_take h)⟩

/-- `bigint_mul_by` with enough depth for the lengths of the operands: the
destination becomes the well-formed product and the source is unchanged. -/
theorem mul_by_aux_spec : ∀ (fuel : Nat) (dst src : bigint), well_formed dst → well_formed src →
    (dst.sign = 0 ∨ src.sign = 0 ∨ dst.data_len + src.data_len ≤ fuel) →
    well_formed (mul_by_aux (fuel + 1) dst src).1 ∧
    value (mul_by_aux (fuel + 1) dst src).1 = value dst * value src ∧
    (mul_by_aux (fuel + 1) dst src).2 = src := by
  have hzero : ∀ (fuel : Nat) (dst src : bigint), well_formed dst → well_formed src →
      (dst.sign = 0 ∨ src.sign = 0) →
      well_formed (mul_by_aux (fuel + 1) dst src).1 ∧
      value (mul_by_aux (fuel + 1) dst src).1 = value dst * value src ∧
      (mul_by_aux (fuel + 1) dst src).2 = src := by
    intro fuel dst src hd hs h0
    have hcd := check_sign_of_well_formed dst hd
    have hcs := check_sign_of_well_formed src hs
    have hm : 1 ≤ dst.mem_size := le_trans hd.2.1 hd.2.2.2.2.2
    obtain ⟨z1, z2, -⟩ := set_zero_spec dst hm
    rw [mul_by_aux]
    simp only [hcd, hcs]
    by_cases hd0 : dst.sign = 0
    · rw [if_pos hd0]
      refine ⟨z1, ?_, rfl⟩
      simp only
      rw [z2, (loose_value_sign 0 dst (loose_of_well_formed dst hd)).1 hd0, zero_mul]
    · rw [if_neg hd0]
      have hs0 : src.sign = 0 := by
        rcases h0 with h | h
        · exact absurd h hd0
        · exact h
      rw [if_pos hs0]
      refine ⟨z1, ?_, rfl⟩
      simp only
      rw [z2, (loose_value_sign 0 src (loose_of_well_formed src hs)).1 hs0, mul_zero]
  intro fuel
  induction fuel with
  | zero =>
    intro dst src hd hs hf
    rcases hf with h | h | h
    · exact hzero 0 dst src hd hs (Or.inl h)
    · exact hzero 0 dst src hd hs (Or.inr h)
    · exfalso
      have := hd.2.1
      unfold bigint.data_len at h
      omega
  | succ f ih =>
    intro dst src hd hs hf
    by_cases h0 : dst.sign = 0 ∨ src.sign = 0
    · exact hzero (f + 1) dst src hd hs h0
    · have hd0 : dst.sign ≠ 0 := fun h => h0 (Or.inl h)
      have hs0 : src.sign ≠ 0 := fun h => h0 (Or.inr h)
      have hlen : dst.data_len + src.data_len ≤ f + 1 := by
        rcases hf with h | h | h
        · exact absurd h hd0
        · exact absurd h hs0
        · exact h
      have hcd := check_sign_of_well_formed dst hd
      have hcs := check_sign_of_well_formed src hs
      have hdl : 1 ≤ dst.data_len := hd.2.1
      have hsl : 1 ≤ src.data_len := hs.2.1
      -- the sign of the product
      have hsg : dst.sign * src.sign = 1 ∨ dst.sign * src.sign = -1 := by
        rcases hd.1 with a | a | a <;> rcases hs.1 with b | b | b <;> rw [a, b] <;> simp_all
      have sdst := sign_mul_value_nonneg dst hd
      have ssrc := sign_mul_value_nonneg src hs
      have hi4 : 1 ≤ bigint_init.mem_size := by decide
      rw [mul_by_aux]
      simp only [hcd, hcs]
      rw [if_neg hd0, if_neg hs0]
      by_cases hb1 : dst.data_len < BIGINT_MUL_THRESHOLD ∧ src.data_len < BIGINT_MUL_THRESHOLD
      · rw [if_pos hb1]
        exact mul_by_trad_spec dst src hd hs
      · rw [if_neg hb1]
        by_cases hb2 : dst.data_len ≤ BIGINT_MUL_THRESHOLD ∧ src.data_len > BIGINT_MUL_THRESHOLD
        · rw [if_pos hb2]
          have hT : BIGINT_MUL_THRESHOLD = 100 := rfl
          rw [hT] at hb2
          have hL : 1 ≤ src.data_len / 2 := by omega
          obtain ⟨p1, p2, p3, -, p5, p6, -⟩ :=
            split_number_spec src bigint_init bigint_init (src.data_len / 2) hs hL hi4
          obtain ⟨q1, q2⟩ := split_number_sign src bigint_init bigint_init (src.data_len / 2) hs hi4
          obtain ⟨c1, c2, c3, -⟩ := copy_spec bigint_init dst hd
          have hcl : (bigint_copy bigint_init dst).data_len = dst.data_len :=
            congrArg List.length c3
          have p5b := p5 (by omega)
          obtain ⟨i1, i2, -⟩ := ih (bigint_copy bigint_init dst)
            (bigint_split_number src bigint_init bigint_init (src.data_len / 2)).1 c2 p1
            (Or.inr (Or.inr (by rw [hcl]; omega)))
          obtain ⟨j1, j2, -⟩ := ih dst
            (bigint_split_number src bigint_init bigint_init (src.data_len / 2)).2 hd p2
            (Or.inr (Or.inr (by omega)))
          obtain ⟨k1, k2⟩ := mul_combine_src _ _ (src.data_len / 2) _ hsg hL j1 i1
            (by rw [j2]; exact prod_sign_nonneg _ _ _ _ sdst q2)
            (by rw [i2, c1]; exact prod_sign_nonneg _ _ _ _ sdst q1)
          refine ⟨k1, ?_, rfl⟩
          simp only
          rw [k2, j2, i2, c1]
          conv_rhs => rw [p3]
          ring
        · rw [if_neg hb2]
          have hT : BIGINT_MUL_THRESHOLD = 100 := rfl
          by_cases hb3 : dst.data_len > BIGINT_MUL_THRESHOLD ∧ src.data_len ≤ BIGINT_MUL_THRESHOLD
          · rw [if_pos hb3]
            rw [hT] at hb3
            have hL : 1 ≤ dst.data_len / 2 := by omega
            obtain ⟨p1, p2, p3, -, p5, p6, -⟩ :=
              split_number_spec dst bigint_init bigint_init (dst.data_len / 2) hd hL hi4
            obtain ⟨q1, q2⟩ :=
              split_number_sign dst bigint_init bigint_init (dst.data_len / 2) hd hi4
            have p5b := p5 (by omega)
            obtain ⟨i1, i2, i3⟩ := ih
              (bigint_split_number dst bigint_init bigint_init (dst.data_len / 2)).1 src p1 hs
              (Or.inr (Or.inr (by omega)))
            simp only [i3]
            obtain ⟨j1, j2, j3⟩ := ih
              (bigint_split_number dst bigint_init bigint_init (dst.data_len / 2)).2 src p2 hs
              (Or.inr (Or.inr (by omega)))
            obtain ⟨k1, k2⟩ := mul_combine_dst dst _ _ (dst.data_len / 2) _ hsg hL i1 j1
              (by rw [i2]; exact prod_sign_nonneg _ _ _ _ q1 ssrc)
              (by rw [j2]; exact prod_sign_nonneg _ _ _ _ q2 ssrc)
            refine ⟨k1, ?_, j3⟩
            rw [k2, j2, i2]
            conv_rhs => rw [p3]
            ring
          · rw [if_neg hb3]
            rw [hT] at hb1 hb2 hb3
            have hL : 2 ≤ (dst.data_len + src.data_len) / 4 := by omega
            have hL1 : 1 ≤ (dst.data_len + src.data_len) / 4 := by omega
            obtain ⟨p1, p2, p3, p4, p5, p6, p7⟩ := split_number_spec src bigint_init bigint_init
              ((dst.data_len + src.data_len) / 4) hs hL1 hi4
            obtain ⟨q1, q2⟩ := split_number_sign src bigint_init bigint_init
              ((dst.data_len + src.data_len) / 4) hs hi4
            obtain ⟨t1, t2, t3, t4, t5, t6, t7⟩ := split_number_spec dst bigint_init bigint_init
              ((dst.data_len + src.data_len) / 4) hd hL1 hi4
            obtain ⟨u1, u2⟩ := split_number_sign dst bigint_init bigint_init
              ((dst.data_len + src.data_len) / 4) hd hi4
            -- high(dst) * low(src)
            obtain ⟨c1, c2, c3, c4⟩ := copy_spec bigint_init _ t1
            obtain ⟨i1, i2, i3⟩ := ih _
              (bigint_split_number src bigint_init bigint_init
                ((dst.data_len + src.data_len) / 4)).2 c2 p2 (by
                by_cases hx : dst.data_len ≤ (dst.data_len + src.data_len) / 4
                · exact Or.inl (by rw [c4]; exact t4 hx)
                · have := t5 (by omega)
                  have hcl := congrArg List.length c3
                  refine Or.inr (Or.inr ?_)
                  unfold bigint.data_len at *
                  rw [hcl]
                  omega)
            obtain ⟨d1, d2, -, -⟩ := copy_spec dst _ i1
            -- high(src) * low(dst)
            obtain ⟨e1, e2, e3, e4⟩ := copy_spec (mul_by_aux (f + 1)
              (bigint_copy bigint_init (bigint_split_number dst bigint_init bigint_init
                ((dst.data_len + src.data_len) / 4)).1)
              (bigint_split_number src bigint_init bigint_init
                ((dst.data_len + src.data_len) / 4)).2).1 _ p1
            obtain ⟨j1, j2, j3⟩ := ih _
              (bigint_split_number dst bigint_init bigint_init
                ((dst.data_len + src.data_len) / 4)).2 e2 t2 (by
                by_cases hx : src.data_len ≤ (dst.data_len + src.data_len) / 4
                · exact Or.inl (by rw [e4]; exact p4 hx)
                · have := p5 (by omega)
                  have hcl := congrArg List.length e3
                  refine Or.inr (Or.inr ?_)
                  unfold bigint.data_len at *
                  rw [hcl]
                  omega)
            simp only [i3, j3]
            -- low(dst) * low(src)
            obtain ⟨k1, k2, -⟩ := ih _ _ t2 p2 (Or.inr (Or.inr (by omega)))
            -- high(dst) * high(src)
            obtain ⟨m1, m2, -⟩ := ih _ _ t1 p1 (by
              by_cases hx : dst.data_len ≤ (dst.data_len + src.data_len) / 4
              · exact Or.inl (t4 hx)
              · by_cases hy : src.data_len ≤ (dst.data_len + src.data_len) / 4
                · exact Or.inr (Or.inl (p4 hy))
                · have := t5 (by omega)
                  have := p5 (by omega)
                  exact Or.inr (Or.inr (by omega)))
            obtain ⟨n1, n2⟩ := mul_combine_both _ _ _ _ ((dst.data_len + src.data_len) / 4) _ hsg
              hL d2 j1 k1 m1
              (by rw [d1, i2, c1]; exact prod_sign_nonneg _ _ _ _ u1 q2)
              (by rw [j2, e1, mul_comm (dst.sign)]; exact prod_sign_nonneg _ _ _ _ q1 u2)
              (by rw [k2]; exact prod_sign_nonneg _ _ _ _ u2 q2)
              (by rw [m2]; exact prod_sign_nonneg _ _ _ _ u1 q1)
              (by rw [d1, i2, c1, j2, e1, m2]
                  intro ha hb
                  exact mul_ne_zero (left_ne_zero_of_mul ha) (left_ne_zero_of_mul hb))
            refine ⟨n1, ?_, trivial⟩
            rw [n2, d1, i2, c1, j2, e1, k2, m2]
            conv_rhs => rw [p3, t3]
            ring

/-- C2: for well-formed distinct operands of any lengths and signs, `bigint_mul_by`
leaves in the destination the well-formed product of the two values and leaves the
source unchanged, on every branch (zero operand, schoolbook below the threshold,
one operand split, both operands split). -/
theorem mul_by_product (dst src : bigint) (hd : well_formed dst) (hs : well_formed src) :
    well_formed (bigint_mul_by dst src).1 ∧
    value (bigint_mul_by dst src).1 = value dst * value src ∧
    (bigint_mul_by dst src).2 = src :=
  mul_by_aux_spec (dst.data_len + src.data_len) dst src hd hs (Or.inr (Or.inr (le_refl _)))

/-- C2, on operands of two segments (schoolbook branch) and on operands of 101 and
3 segments (the destination is split). -/
theorem mul_by_product_witness :
    (well_formed ⟨1, [999999999, 1], 4⟩ ∧ well_formed ⟨-1, [999999999, 999999999], 4⟩ ∧
      well_formed (bigint_mul_by ⟨1, [999999999, 1], 4⟩ ⟨-1, [999999999, 999999999], 4⟩).1 ∧
      value (bigint_mul_by ⟨1, [999999999, 1], 4⟩ ⟨-1, [999999999, 999999999], 4⟩).1 =
        value ⟨1, [999999999, 1], 4⟩ * value ⟨-1, [999999999, 999999999], 4⟩) ∧
    (well_formed ⟨-1, List.replicate 101 7, 101⟩ ∧ well_formed ⟨1, [5, 0, 3], 4⟩ ∧
      well_formed (bigint_mul_by ⟨-1, List.replicate 101 7, 101⟩ ⟨1, [5, 0, 3], 4⟩).1 ∧
      value (bigint_mul_by ⟨-1, List.replicate 101 7, 101⟩ ⟨1, [5, 0, 3], 4⟩).1 =
        value ⟨-1, List.replicate 101 7, 101⟩ * value ⟨1, [5, 0, 3], 4⟩) :=
  ⟨⟨by decide, by decide, (mul_by_product _ _ (by decide) (by decide)).1,
      (mul_by_product _ _ (by decide) (by decide)).2.1⟩,
   ⟨by decide, by decide, (mul_by_product _ _ (by decide) (by decide)).1,
      (mul_by_product _ _ (by decide) (by decide)).2.1⟩⟩

/-! ## `bigint_string_length` -/

theorem digit_count_loop_eq : ∀ (fuel : Nat) (v len : Int), 0 ≤ v → v.toNat ≤ fuel →
    digit_count_loop fuel v len = len + ((Nat.digits 10 v.toNat).length : Int) := by
  intro fuel
  induction fuel with
  | zero =>
    intro v len h0 hf
    have : v.toNat = 0 := by omega
    simp [digit_count_loop, this]
  | succ fuel ih =>
    intro v len h0 hf
    rw [digit_count_loop]
    split_ifs with hv
    · obtain ⟨n, rfl⟩ := Int.eq_ofNat_of_zero_le h0
      have hn : 0 < n := by omega
      have hdiv : ((n : Int) / 10) = ((n / 10 : Nat) : Int) := by norm_cast
      rw [hdiv, ih _ _ (by omega) (by simp only [Int.toNat_ofNat]; simp at hf; omega)]
      simp only [Int.toNat_ofNat]
      rw [Nat.digits_def' (by omega) hn]
      simp only [List.length_cons]
      push_cast
      ring
    · have : v.toNat = 0 := by omega
      simp [this]

theorem padded_digits_length : ∀ (k n : Nat), (padded_digits k n).length = k := by
  intro k
  induction k with
  | zero => intro n; rfl
  | succ k ih => intro n; simp [padded_digits, ih]

theorem padded_numeral_length (k n : Nat) : (padded_numeral k n).length = k := by
  simp [padded_numeral, padded_digits_length]

theorem segments_numeral_length (top : Int) (rest : List Int) :
    (segments_numeral (top :: rest)).length =
      (Nat.digits 10 top.toNat).length + 9 * rest.length := by
  have hrest : ∀ l : List Int,
      ((l.map (fun seg => padded_numeral 9 seg.toNat)).flatten).length = 9 * l.length := by
    intro l
    induction l with
    | nil => rfl
    | cons s l ih =>
      simp only [List.map_cons, List.flatten_cons, List.length_append, ih,
        padded_numeral_length, List.length_cons]
      ring
  simp only [segments_numeral, List.length_append, hrest, nat_numeral, List.length_map,
    List.length_reverse]

/-- The characters of a canonical numeral are a minus sign and digits: none is NUL. -/
theorem decimal_numeral_no_nul (v : Int) : ∀ c ∈ decimal_numeral v, c ≠ NUL := by
  intro c hc
  have hdig : ∀ c ∈ nat_numeral v.natAbs, c ≠ NUL := by
    intro c hc
    unfold nat_numeral at hc
    obtain ⟨d, hd, rfl⟩ := List.mem_map.1 hc
    have hlt : d < 10 := Nat.digits_lt_base (by omega) (List.mem_reverse.1 hd)
    interval_cases d <;> decide
  unfold decimal_numeral at hc
  split_ifs at hc with h0 hneg
  · simp at hc; rw [hc]; decide
  · rcases List.mem_append.1 hc with h | h
    · simp at h; rw [h]; decide
    · exact hdig c h
  · rcases List.mem_append.1 hc with h | h
    · simp at h
    · exact hdig c h

/-- C11: for a well-formed bigint, `bigint_string_length` is the number of characters
`bigint_to_string` writes before the terminating NUL.  Those characters are the
canonical numeral of the value (the digits of the magnitude, after '-' when
negative, "0" for zero), none of which is NUL. -/
theorem string_length_exact (x : bigint) (h : well_formed x) :
    bigint_to_string x = decimal_numeral (value x) ++ [NUL] ∧
    (∀ c ∈ decimal_numeral (value x), c ≠ NUL) ∧
    bigint_string_length x = ((decimal_numeral (value x)).length : Int) ∧
    bigint_string_length x + 1 = ((bigint_to_string x).length : Int) := by
  have hnum := to_string_numeral x h
  have hcs := check_sign_of_well_formed x h
  have key : bigint_string_length x + 1 = ((bigint_to_string x).length : Int) := by
    rcases to_string_shape x h with ⟨h0, hd, hts⟩ | ⟨h0, hne, hl, hts⟩
    · rw [hts]
      unfold bigint_string_length bigint_digit_count
      simp [hcs, h0]
    · have hrev : x.data.reverse ≠ [] := by simpa using hne
      obtain ⟨top, rest, htr⟩ := List.exists_cons_of_ne_nil hrev
      have htop : top ∈ x.data := by
        rw [← List.mem_reverse, htr]; exact List.mem_cons_self _ _
      have hlast : x.data.getLastD 0 = top := by
        have : x.data = (top :: rest).reverse := by rw [← htr, List.reverse_reverse]
        rw [this]; simp
      have hlen : (x.data_len : Int) - 1 = rest.length := by
        have : x.data.length = (top :: rest).length := by rw [← htr, List.length_reverse]
        unfold bigint.data_len
        rw [this]; simp
      have hdc : bigint_digit_count x =
          9 * (rest.length : Int) + ((Nat.digits 10 top.toNat).length : Int) := by
        unfold bigint_digit_count
        simp only [hcs, if_neg h0, hlast, hlen]
        rw [digit_count_loop_eq _ _ _ (h.2.2.1 top htop).1 (le_refl _)]
        rfl
      rw [hts, htr]
      unfold bigint_string_length
      simp only [hcs, hdc, List.length_append, segments_numeral_length, List.length_singleton]
      split_ifs <;> simp <;> ring
  refine ⟨hnum, decimal_numeral_no_nul _, ?_, key⟩
  rw [hnum] at key
  simp only [List.length_append, List.length_singleton] at key
  push_cast at key
  omega

/-- C11 on a negative number of two segments: 10 digits and the sign. -/
theorem string_length_exact_witness :
    well_formed ⟨-1, [42, 5], 4⟩ ∧ bigint_string_length ⟨-1, [42, 5], 4⟩ = 11 ∧
    bigint_string_length ⟨-1, [42, 5], 4⟩ + 1 =
      ((bigint_to_string ⟨-1, [42, 5], 4⟩).length : Int) :=
  ⟨by decide, by decide, (string_length_exact ⟨-1, [42, 5], 4⟩ (by decide)).2.2.2⟩

/-! ## `bigint_to_int` -/

theorem desc_fold_reverse (l : List Int) : ∀ t : Int,
    List.foldl (fun t x => t * BIGINT_RADIX + x) t l.reverse =
      t * BIGINT_RADIX ^ l.length + seg_value l := by
  induction l with
  | nil => intro t; simp [seg_value]
  | cons x xs ih =>
    intro t
    rw [List.reverse_cons, List.foldl_append, ih]
    simp only [List.foldl_cons, List.foldl_nil, seg_value, List.length_cons, pow_succ]
    ring

theorem desc_fold_ge (l : List Int) : ∀ t : Int, 0 ≤ t → (∀ x ∈ l, 0 ≤ x) →
    t ≤ List.foldl (fun t x => t * BIGINT_RADIX + x) t l := by
  induction l with
  | nil => intro t _ _; simp
  | cons x xs ih =>
    intro t ht hl
    have hx := hl x (List.mem_cons_self _ _)
    have hR : BIGINT_RADIX = 1000000000 := rfl
    have h1 : t ≤ t * BIGINT_RADIX + x := by rw [hR]; omega
    have := ih (t * BIGINT_RADIX + x) (by omega) (fun y hy => hl y (List.mem_cons_of_mem _ hy))
    simp only [List.foldl_cons]
    omega

theorem to_int_overflow_pos_iff (l : List Int) : ∀ t : Int, 0 ≤ t → t < 2147483648 →
    (∀ x ∈ l, 0 ≤ x) →
    (to_int_overflow_pos t l = true ↔
      2147483648 ≤ List.foldl (fun t x => t * BIGINT_RADIX + x) t l) := by
  induction l with
  | nil => intro t _ ht _; simp [to_int_overflow_pos]; omega
  | cons x xs ih =>
    intro t ht0 ht1 hl
    have hx := hl x (List.mem_cons_self _ _)
    have hxs : ∀ y ∈ xs, 0 ≤ y := fun y hy => hl y (List.mem_cons_of_mem _ hy)
    have hR : BIGINT_RADIX = 1000000000 := rfl
    have h0 : 0 ≤ t * BIGINT_RADIX + x := by rw [hR]; omega
    rw [to_int_overflow_pos, List.foldl_cons]
    split_ifs with hc
    · have := desc_fold_ge xs _ h0 hxs
      simp only [true_iff]
      omega
    · exact ih _ h0 (by omega) hxs

theorem to_int_overflow_neg_iff (l : List Int) : ∀ t : Int, 0 ≤ t → t ≤ 2147483648 →
    (∀ x ∈ l, 0 ≤ x) →
    (to_int_overflow_neg t l = true ↔
      2147483648 < List.foldl (fun t x => t * BIGINT_RADIX + x) t l) := by
  induction l with
  | nil => intro t _ ht _; simp [to_int_overflow_neg]; omega
  | cons x xs ih =>
    intro t ht0 ht1 hl
    have hx := hl x (List.mem_cons_self _ _)
    have hxs : ∀ y ∈ xs, 0 ≤ y := fun y hy => hl y (List.mem_cons_of_mem _ hy)
    have hR : BIGINT_RADIX = 1000000000 := rfl
    have h0 : 0 ≤ t * BIGINT_RADIX + x := by rw [hR]; omega
    rw [to_int_overflow_neg, List.foldl_cons]
    split_ifs with hc
    · have := desc_fold_ge xs _ h0 hxs
      simp only [true_iff]
      omega
    · exact ih _ h0 (by omega) hxs

/-- Without overflow the 32-bit accumulation of a positive number is exact. -/
theorem to_int_accum_pos_eq (l : List Int) : ∀ acc : Int, 0 ≤ acc → (∀ x ∈ l, 0 ≤ x) →
    List.foldl (fun t x => t * BIGINT_RADIX + x) acc l < 2147483648 →
    to_int_accum_pos acc l = List.foldl (fun t x => t * BIGINT_RADIX + x) acc l := by
  induction l with
  | nil => intro acc _ _ _; rfl
  | cons x xs ih =>
    intro acc h0 hl hb
    have hx := hl x (List.mem_cons_self _ _)
    have hxs : ∀ y ∈ xs, 0 ≤ y := fun y hy => hl y (List.mem_cons_of_mem _ hy)
    have hR : BIGINT_RADIX = 1000000000 := rfl
    have h1 : 0 ≤ acc * BIGINT_RADIX := by rw [hR]; omega
    simp only [List.foldl_cons] at hb ⊢
    have hge := desc_fold_ge xs (acc * BIGINT_RADIX + x) (by omega) hxs
    rw [to_int_accum_pos, wrap_int_of_range (acc * BIGINT_RADIX) (by omega) (by omega),
      wrap_int_of_range (acc * BIGINT_RADIX + x) (by omega) (by omega)]
    exact ih _ (by omega) hxs hb

/-- Without overflow the 32-bit accumulation of a negative number is exact. -/
theorem to_int_accum_neg_eq (l : List Int) : ∀ acc : Int, 0 ≤ acc → (∀ x ∈ l, 0 ≤ x) →
    List.foldl (fun t x => t * BIGINT_RADIX + x) acc l ≤ 2147483648 →
    to_int_accum_neg (-acc) l = -List.foldl (fun t x => t * BIGINT_RADIX + x) acc l := by
  induction l with
  | nil => intro acc _ _ _; rfl
  | cons x xs ih =>
    intro acc h0 hl hb
    have hx := hl x (List.mem_cons_self _ _)
    have hxs : ∀ y ∈ xs, 0 ≤ y := fun y hy => hl y (List.mem_cons_of_mem _ hy)
    have hR : BIGINT_RADIX = 1000000000 := rfl
    have h1 : 0 ≤ acc * BIGINT_RADIX := by rw [hR]; omega
    simp only [List.foldl_cons] at hb ⊢
    have hge := desc_fold_ge xs (acc * BIGINT_RADIX + x) (by omega) hxs
    have e1 : -acc * BIGINT_RADIX = -(acc * BIGINT_RADIX) := by ring
    have e2 : -(acc * BIGINT_RADIX) - x = -(acc * BIGINT_RADIX + x) := by ring
    rw [to_int_accum_neg, e1, wrap_int_of_range (-(acc * BIGINT_RADIX)) (by omega) (by omega),
      e2, wrap_int_of_range (-(acc * BIGINT_RADIX + x)) (by omega) (by omega)]
    exact ih _ (by omega) hxs hb

/-- C12: on a well-formed bigint, `bigint_to_int` returns the overflow error exactly
when the value is above 2147483647 or below -2147483648; otherwise it returns
success and stores the value. -/
theorem to_int_overflow_iff (x : bigint) (old : Int) (h : well_formed x) :
    ((bigint_to_int x old).1 = bigint_errno.BIGINT_OVERFLOW ↔
      (value x > 2147483647 ∨ value x < -2147483648)) ∧
    (¬ (value x > 2147483647 ∨ value x < -2147483648) →
      bigint_to_int x old = (bigint_errno.BIGINT_NOERR, value x)) := by
  have hcs := check_sign_of_well_formed x h
  have hnn : ∀ s ∈ x.data.reverse, 0 ≤ s := fun s hs => (h.2.2.1 s (List.mem_reverse.1 hs)).1
  have hfold : List.foldl (fun t x => t * BIGINT_RADIX + x) 0 x.data.reverse = seg_value x.data := by
    rw [desc_fold_reverse]; ring
  have hp := to_int_overflow_pos_iff x.data.reverse 0 (le_refl _) (by norm_num) hnn
  have hn := to_int_overflow_neg_iff x.data.reverse 0 (le_refl _) (by norm_num) hnn
  rw [hfold] at hp hn
  have hsv := seg_value_nonneg x.data (fun s hs => (h.2.2.1 s hs).1)
  have hz := (loose_value_sign 0 x (loose_of_well_formed x h)).1
  unfold bigint_to_int
  simp only [hcs]
  rcases h.1 with hs | hs | hs
  · -- negative
    have hv : value x = -seg_value x.data := by unfold value; rw [hs]; ring
    have e0 : ¬ (x.sign > 0) := by omega
    have e1 : x.sign < 0 := by omega
    by_cases hov : to_int_overflow_neg 0 x.data.reverse = true
    · have := hn.1 hov
      simp only [e0, e1, hov, false_and, if_false, not_false_eq_true, and_self, if_true]
      exact ⟨by simp; omega, fun hc => by exfalso; omega⟩
    · have hle : seg_value x.data ≤ 2147483648 := by
        by_contra hc; exact hov (hn.2 (by omega))
      simp only [e0, e1, hov, false_and, if_false, not_false_eq_true, and_false, and_true,
        Bool.false_eq_true]
      have hacc := to_int_accum_neg_eq x.data.reverse 0 (le_refl _) hnn (by rw [hfold]; exact hle)
      rw [neg_zero] at hacc
      rw [hacc, hfold]
      exact ⟨by simp; omega, fun _ => by simp [hv]⟩
  · -- zero
    have hv := hz hs
    simp only [hs, gt_iff_lt, lt_self_iff_false, false_and, if_false, not_false_eq_true,
      and_false, and_self]
    rw [hv]
    exact ⟨by simp, fun _ => rfl⟩
  · -- positive
    have hv : value x = seg_value x.data := by unfold value; rw [hs]; ring
    have e0 : x.sign > 0 := by omega
    by_cases hov : to_int_overflow_pos 0 x.data.reverse = true
    · have := hp.1 hov
      simp only [e0, hov, and_self, if_true]
      exact ⟨by simp; omega, fun hc => by exfalso; omega⟩
    · have hlt : seg_value x.data < 2147483648 := by
        by_contra hc; exact hov (hp.2 (by omega))
      simp only [e0, hov, and_false, if_false, not_true_eq_false, false_and, if_true,
        Bool.false_eq_true]
      have hacc := to_int_accum_pos_eq x.data.reverse 0 (le_refl _) hnn (by rw [hfold]; exact hlt)
      rw [hacc, hfold]
      exact ⟨by simp; omega, fun _ => by simp [hv]⟩

/-- C12 at the two boundaries: -2147483648 is stored, +2147483648 is an overflow. -/
theorem to_int_overflow_iff_witness :
    (well_formed ⟨-1, [147483648, 2], 4⟩ ∧ value ⟨-1, [147483648, 2], 4⟩ = -2147483648 ∧
      bigint_to_int ⟨-1, [147483648, 2], 4⟩ 0 = (bigint_errno.BIGINT_NOERR, -2147483648)) ∧
    (well_formed ⟨1, [147483648, 2], 4⟩ ∧ value ⟨1, [147483648, 2], 4⟩ = 2147483648 ∧
      (bigint_to_int ⟨1, [147483648, 2], 4⟩ 0).1 = bigint_errno.BIGINT_OVERFLOW) :=
  ⟨⟨by decide, by decide,
      (to_int_overflow_iff ⟨-1, [147483648, 2], 4⟩ 0 (by decide)).2 (by decide)⟩,
   ⟨by decide, by decide,
      (to_int_overflow_iff ⟨1, [147483648, 2], 4⟩ 0 (by decide)).1.2 (Or.inl (by decide))⟩⟩

/-! ## `bigint_pow_by_int` -/

theorem set_one_spec (p : bigint) (hm : 1 ≤ p.mem_size) :
    well_formed (bigint_set_one p) ∧ value (bigint_set_one p) = 1 := by
  rw [set_one_eq]
  refine ⟨⟨by simp, by simp, by simp, by simp, by simp, ?_⟩, by simp [value, seg_value]⟩
  simp only [List.length_singleton]
  split_ifs <;> omega

theorem mem_size_pos (p : bigint) (h : well_formed p) : 1 ≤ p.mem_size :=
  le_trans h.2.1 h.2.2.2.2.2

/-- Multiplication of a number by itself, through the copy the source makes. -/
theorem mul_by_self_spec (p : bigint) (h : well_formed p) :
    well_formed (bigint_mul_by_self p) ∧ value (bigint_mul_by_self p) = value p * value p := by
  obtain ⟨c1, c2, -, -⟩ := copy_spec bigint_init p h
  obtain ⟨m1, m2, -⟩ := mul_by_aux_spec (p.data_len + (bigint_copy bigint_init p).data_len) p
    (bigint_copy bigint_init p) h c2 (Or.inr (Or.inr (le_refl _)))
  refine ⟨m1, ?_⟩
  show value (mul_by_aux _ p (bigint_copy bigint_init p)).1 = _
  rw [m2, c1]

theorem is_one_value (p : bigint) (h : well_formed p) (h1 : bigint_is_one p = true) :
    value p = 1 := by
  unfold bigint_is_one at h1
  simp only [decide_eq_true_eq] at h1
  obtain ⟨hs, hl, hh⟩ := h1
  have hsg : p.sign = 1 := by have := h.1; omega
  unfold bigint.data_len at hl
  match hd : p.data, hl, hh with
  | [x], _, hh =>
    simp only [List.headD_cons] at hh
    simp [value, hd, hh, hsg, seg_value]

theorem is_neg_one_value (p : bigint) (h : well_formed p) (h1 : bigint_is_neg_one p = true) :
    value p = -1 := by
  unfold bigint_is_neg_one at h1
  simp only [decide_eq_true_eq] at h1
  obtain ⟨hs, hl, hh⟩ := h1
  have hsg : p.sign = -1 := by have := h.1; omega
  unfold bigint.data_len at hl
  match hd : p.data, hl, hh with
  | [x], _, hh =>
    simp only [List.headD_cons] at hh
    simp [value, hd, hh, hsg, seg_value]

/-- `bigint_pow_by_int` with enough depth for the exponent: success, and the
well-formed power. -/
theorem pow_by_int_aux_spec : ∀ (fuel : Nat) (p : bigint) (pow : Int), well_formed p →
    0 ≤ pow → pow.toNat ≤ fuel →
    (pow_by_int_aux (fuel + 1) p pow).1 = bigint_errno.BIGINT_NOERR ∧
    well_formed (pow_by_int_aux (fuel + 1) p pow).2 ∧
    value (pow_by_int_aux (fuel + 1) p pow).2 = value p ^ pow.toNat := by
  intro fuel
  induction fuel with
  | zero =>
    intro p pow hp h0 hf
    have hpow : pow = 0 := by omega
    subst hpow
    obtain ⟨s1, s2⟩ := set_one_spec p (mem_size_pos p hp)
    rw [pow_by_int_aux]
    simp only [lt_self_iff_false, if_false, if_true]
    exact ⟨trivial, s1, by rw [s2]; simp⟩
  | succ f ih =>
    intro p pow hp h0 hf
    have hcs := check_sign_of_well_formed p hp
    obtain ⟨s1, s2⟩ := set_one_spec p (mem_size_pos p hp)
    rw [pow_by_int_aux]
    rw [if_neg (not_lt.2 h0)]
    by_cases hz : pow = 0
    · rw [if_pos hz, hz]
      exact ⟨rfl, s1, by rw [s2]; simp⟩
    · rw [if_neg hz]
      by_cases h1 : pow > 1
      · rw [if_pos h1]
        simp only [hcs]
        obtain ⟨n, rfl⟩ := Int.eq_ofNat_of_zero_le h0
        simp only [Int.toNat_ofNat] at hf ⊢
        have hn : 1 < n := by omega
        by_cases hzo : p.sign = 0 ∨ bigint_is_one p = true
        · rw [if_pos hzo]
          refine ⟨rfl, hp, ?_⟩
          rcases hzo with h | h
          · have := (loose_value_sign 0 p (loose_of_well_formed p hp)).1 h
            simp only
            rw [this, zero_pow (by omega)]
          · simp only
            rw [is_one_value p hp h, one_pow]
        · rw [if_neg hzo]
          by_cases hno : bigint_is_neg_one p = true
          · rw [if_pos hno]
            have hv := is_neg_one_value p hp hno
            by_cases hev : (n : Int) % 2 = 0
            · rw [if_pos hev]
              refine ⟨rfl, s1, ?_⟩
              simp only
              rw [s2, hv]
              have : Even n := by
                rw [Nat.even_iff]; omega
              rw [Even.neg_one_pow this]
            · rw [if_neg hev]
              refine ⟨rfl, hp, ?_⟩
              simp only
              rw [hv]
              have : Odd n := by
                rw [Nat.odd_iff]; omega
              rw [Odd.neg_one_pow this]
          · rw [if_neg hno]
            have hdiv : ((n : Int) / 2) = ((n / 2 : Nat) : Int) := by norm_cast
            obtain ⟨i1, i2, i3⟩ := ih p ((n : Int) / 2) hp (by omega)
              (by rw [hdiv]; simp only [Int.toNat_ofNat]; omega)
            have ht : ((n : Int) / 2).toNat = n / 2 := by omega
            rw [ht] at i3
            obtain ⟨q1, q2⟩ := mul_by_self_spec _ i2
            by_cases hodd : (n : Int) % 2 = 1
            · rw [if_pos hodd]
              obtain ⟨c1, c2, -, -⟩ := copy_spec bigint_init p hp
              obtain ⟨m1, m2, -⟩ := mul_by_aux_spec _ _ _ q1 c2 (Or.inr (Or.inr (le_refl _)))
              refine ⟨rfl, m1, ?_⟩
              show value (mul_by_aux _ _ (bigint_copy bigint_init p)).1 = _
              rw [m2, q2, i3, c1]
              have hn2 : n = n / 2 + n / 2 + 1 := by omega
              conv_rhs => rw [hn2]
              rw [pow_succ, pow_add]
            · rw [if_neg hodd]
              refine ⟨rfl, q1, ?_⟩
              simp only
              rw [q2, i3]
              have hn2 : n = n / 2 + n / 2 := by omega
              conv_rhs => rw [hn2]
              rw [pow_add]
      · rw [if_neg h1]
        have hpow : pow = 1 := by omega
        subst hpow
        exact ⟨rfl, hp, by simp⟩

/-- C13: for a well-formed number and an exponent `n >= 0`, `bigint_pow_by_int`
returns success and leaves the well-formed power `value ^ n` (1 for `n = 0`, also
when the number is 0). -/
theorem pow_by_int_power (a : bigint) (n : Int) (ha : well_formed a) (hn : 0 ≤ n) :
    (bigint_pow_by_int a n).1 = bigint_errno.BIGINT_NOERR ∧
    well_formed (bigint_pow_by_int a n).2 ∧
    value (bigint_pow_by_int a n).2 = value a ^ n.toNat :=
  pow_by_int_aux_spec n.toNat a n ha hn (le_refl _)

/-- C13 on the example of the specification: 2^100 and its decimal text. -/
theorem pow_by_int_power_witness :
    well_formed ⟨1, [2], 4⟩ ∧
    value (bigint_pow_by_int ⟨1, [2], 4⟩ 100).2 = value ⟨1, [2], 4⟩ ^ (100 : Int).toNat ∧
    bigint_to_string (bigint_pow_by_int ⟨1, [2], 4⟩ 100).2 =
      ['1', '2', '6', '7', '6', '5', '0', '6', '0', '0', '2', '2', '8', '2', '2', '9', '4', '0',
       '1', '4', '9', '6', '7', '0', '3', '2', '0', '5', '3', '7', '6', NUL] :=
  ⟨by decide, (pow_by_int_power ⟨1, [2], 4⟩ 100 (by decide) (by decide)).2.2, by decide⟩

/-- C14: `bigint_pow_by_int` returns the illegal-parameter error exactly when the
exponent is negative, and success for every exponent `>= 0`, whatever the number. -/
theorem pow_by_int_errno (p : bigint) (pow : Int) :
    ((bigint_pow_by_int p pow).1 = bigint_errno.BIGINT_ILLEGAL_PARAM ↔ pow < 0) ∧
    (0 ≤ pow → (bigint_pow_by_int p pow).1 = bigint_errno.BIGINT_NOERR) := by
  unfold bigint_pow_by_int
  rw [pow_by_int_aux]
  by_cases h : pow < 0
  · rw [if_pos h]
    exact ⟨by simp [h], fun h0 => by omega⟩
  · rw [if_neg h]
    have key : (if pow = 0 then (bigint_errno.BIGINT_NOERR, bigint_set_one p)
        else if pow > 1 then
          if (bigint_check_sign p).sign = 0 ∨ bigint_is_one (bigint_check_sign p) = true then
            (bigint_errno.BIGINT_NOERR, bigint_check_sign p)
          else if bigint_is_neg_one (bigint_check_sign p) = true then
            if pow % 2 = 0 then (bigint_errno.BIGINT_NOERR, bigint_set_one (bigint_check_sign p))
            else (bigint_errno.BIGINT_NOERR, bigint_check_sign p)
          else if pow % 2 = 1 then
            (bigint_errno.BIGINT_NOERR,
              (bigint_mul_by (bigint_mul_by_self (pow_by_int_aux pow.toNat
                (bigint_check_sign p) (pow / 2)).2) (bigint_copy bigint_init
                  (bigint_check_sign p))).1)
          else (bigint_errno.BIGINT_NOERR,
            bigint_mul_by_self (pow_by_int_aux pow.toNat (bigint_check_sign p) (pow / 2)).2)
        else (bigint_errno.BIGINT_NOERR, p)).1 = bigint_errno.BIGINT_NOERR := by
      split_ifs <;> rfl
    exact ⟨by rw [key]; simp [h], fun _ => key⟩

/-- C15: the power laws of the special cases: exponent 0 gives the well-formed 1 for
every well-formed number, 0 included; a well-formed -1 raised to an even exponent
gives 1 and to an odd exponent -1. -/
theorem pow_by_int_laws (a m : bigint) (k : Nat) (ha : well_formed a) (hm : well_formed m)
    (hv : value m = -1) :
    (well_formed (bigint_pow_by_int a 0).2 ∧ value (bigint_pow_by_int a 0).2 = 1) ∧
    value (bigint_pow_by_int m (2 * (k : Int))).2 = 1 ∧
    value (bigint_pow_by_int m (2 * (k : Int) + 1)).2 = -1 := by
  obtain ⟨-, a2, a3⟩ := pow_by_int_aux_spec (0 : Int).toNat a 0 ha (le_refl _) (le_refl _)
  obtain ⟨-, -, e3⟩ := pow_by_int_aux_spec (2 * (k : Int)).toNat m (2 * (k : Int)) hm
    (by omega) (le_refl _)
  obtain ⟨-, -, o3⟩ := pow_by_int_aux_spec (2 * (k : Int) + 1).toNat m (2 * (k : Int) + 1) hm
    (by omega) (le_refl _)
  refine ⟨⟨a2, by rw [show bigint_pow_by_int a 0 = pow_by_int_aux ((0 : Int).toNat + 1) a 0
    from rfl, a3]; simp⟩, ?_, ?_⟩
  · show value (pow_by_int_aux _ m _).2 = 1
    rw [e3, hv]
    have : (2 * (k : Int)).toNat = 2 * k := by omega
    rw [this, pow_mul]; simp
  · show value (pow_by_int_aux _ m _).2 = -1
    rw [o3, hv]
    have : (2 * (k : Int) + 1).toNat = 2 * k + 1 := by omega
    rw [this, pow_succ, pow_mul]; simp

/-- C15 on 0 with exponent 0 and on -1 with exponents 6 and 7. -/
theorem pow_by_int_laws_witness :
    well_formed ⟨0, [0], 4⟩ ∧ well_formed ⟨-1, [1], 4⟩ ∧ value ⟨-1, [1], 4⟩ = -1 ∧
    value (bigint_pow_by_int ⟨0, [0], 4⟩ 0).2 = 1 ∧
    value (bigint_pow_by_int ⟨-1, [1], 4⟩ (2 * ((3 : Nat) : Int))).2 = 1 ∧
    value (bigint_pow_by_int ⟨-1, [1], 4⟩ (2 * ((3 : Nat) : Int) + 1)).2 = -1 :=
  ⟨by decide, by decide, by decide,
    (pow_by_int_laws ⟨0, [0], 4⟩ ⟨-1, [1], 4⟩ 3 (by decide) (by decide) (by decide)).1.2,
    (pow_by_int_laws ⟨0, [0], 4⟩ ⟨-1, [1], 4⟩ 3 (by decide) (by decide) (by decide)).2.1,
    (pow_by_int_laws ⟨0, [0], 4⟩ ⟨-1, [1], 4⟩ 3 (by decide) (by decide) (by decide)).2.2⟩

/-! ## Uniqueness of the representation -/

theorem seg_value_inj : ∀ (l1 l2 : List Int), (∀ s ∈ l1, 0 ≤ s ∧ s < BIGINT_RADIX) →
    (∀ s ∈ l2, 0 ≤ s ∧ s < BIGINT_RADIX) → l1.getLast? ≠ some 0 → l2.getLast? ≠ some 0 →
    seg_value l1 = seg_value l2 → l1 = l2 := by
  have hpos : ∀ l : List Int, l ≠ [] → (∀ s ∈ l, 0 ≤ s ∧ s < BIGINT_RADIX) →
      l.getLast? ≠ some 0 → 0 < seg_value l := by
    intro l hne hr hl
    have := seg_value_ge_pow l hne (fun s h => (hr s h).1) hl
    have hp : (0 : Int) < BIGINT_RADIX ^ (l.length - 1) := by positivity
    omega
  have htail : ∀ (x : Int) (xs : List Int), (x :: xs).getLast? ≠ some 0 →
      xs.getLast? ≠ some 0 := by
    intro x xs h
    cases xs with
    | nil => simp
    | cons y ys => rw [List.getLast?_cons_cons] at h; exact h
  intro l1
  induction l1 with
  | nil =>
    intro l2 _ h2 _ hl2 hv
    cases l2 with
    | nil => rfl
    | cons y ys =>
      have := hpos (y :: ys) (by simp) h2 hl2
      rw [← hv] at this
      simp [seg_value] at this
  | cons x xs ih =>
    intro l2 h1 h2 hl1 hl2 hv
    cases l2 with
    | nil =>
      have := hpos (x :: xs) (by simp) h1 hl1
      rw [hv] at this
      simp [seg_value] at this
    | cons y ys =>
      have hx : (0 : Int) ≤ x ∧ x < 1000000000 := h1 x (List.mem_cons_self _ _)
      have hy : (0 : Int) ≤ y ∧ y < 1000000000 := h2 y (List.mem_cons_self _ _)
      simp only [seg_value] at hv
      have hR : BIGINT_RADIX = 1000000000 := rfl
      rw [hR] at hv
      have hxy : x = y := by omega
      have hs : seg_value xs = seg_value ys := by omega
      rw [hxy, ih ys (fun s hs => h1 s (List.mem_cons_of_mem _ hs))
        (fun s hs => h2 s (List.mem_cons_of_mem _ hs)) (htail x xs hl1) (htail y ys hl2) hs]

/-- Two well-formed bigints of the same value have the same sign and the same
segments. -/
theorem well_formed_unique (p q : bigint) (hp : well_formed p) (hq : well_formed q)
    (hv : value p = value q) : p.sign = q.sign ∧ p.data = q.data := by
  have lp := loose_of_well_formed p hp
  have lq := loose_of_well_formed q hq
  obtain ⟨p0, p1, p2⟩ := loose_value_sign 0 p lp
  obtain ⟨q0, q1, q2⟩ := loose_value_sign 0 q lq
  have hsign : p.sign = q.sign := by
    rcases hp.1 with a | a | a <;> rcases hq.1 with b | b | b <;>
      first
        | (rw [a, b]; done)
        | (exfalso
           have h1 := p0
           have h2 := p1
           have h3 := p2
           have h4 := q0
           have h5 := q1
           have h6 := q2
           omega)
  refine ⟨hsign, ?_⟩
  by_cases h0 : p.sign = 0
  · rw [hp.2.2.2.2.1.1 h0, hq.2.2.2.2.1.1 (by rw [← hsign]; exact h0)]
  · have hq0 : q.sign ≠ 0 := by rw [← hsign]; exact h0
    apply seg_value_inj _ _ hp.2.2.1 hq.2.2.1 (lp.2.2.2.2.2.1 h0) (lq.2.2.2.2.2.1 hq0)
    unfold value at hv
    rw [← hsign] at hv
    exact mul_left_cancel₀ h0 hv

theorem change_sign_involutive (p : bigint) (hp : well_formed p) :
    bigint_change_sign (bigint_change_sign p) = p := by
  unfold bigint_change_sign bigint_check_sign
  by_cases h0 : p.data = [0]
  · have hs := hp.2.2.2.2.1.2 h0
    cases p
    simp_all
  · cases p
    simp_all

/-! ## Subtraction, additive identity and inverse -/

/-- C17: for well-formed distinct operands `bigint_sub_by` leaves in the destination
the difference of the two values and gives the source back exactly as it was; the
self subtraction gives the well-formed zero. -/
theorem sub_by_difference (dst src : bigint) (hd : well_formed dst) (hs : well_formed src) :
    value (bigint_sub_by dst src).1 = value dst - value src ∧
    (bigint_sub_by dst src).2 = src ∧
    well_formed (bigint_sub_by_self dst) ∧ value (bigint_sub_by_self dst) = 0 := by
  obtain ⟨c1, c2⟩ := change_sign_spec src hs
  obtain ⟨a1, a2, -⟩ := add_by_aux_spec 1 dst (bigint_change_sign src) hd c1
  obtain ⟨z1, z2, -⟩ := set_zero_spec dst (mem_size_pos dst hd)
  refine ⟨?_, ?_, z1, z2⟩
  · show value (add_by_aux 3 dst (bigint_change_sign src)).1 = _
    rw [a1, c2]; ring
  · show bigint_change_sign (add_by_aux 3 dst (bigint_change_sign src)).2 = src
    rw [a2, change_sign_involutive src hs]

/-- C17 on a subtraction that changes the sign, and on the self subtraction. -/
theorem sub_by_difference_witness :
    well_formed ⟨1, [5, 1], 4⟩ ∧ well_formed ⟨1, [5, 1, 1], 7⟩ ∧
    value (bigint_sub_by ⟨1, [5, 1], 4⟩ ⟨1, [5, 1, 1], 7⟩).1 =
      value ⟨1, [5, 1], 4⟩ - value ⟨1, [5, 1, 1], 7⟩ ∧
    (bigint_sub_by ⟨1, [5, 1], 4⟩ ⟨1, [5, 1, 1], 7⟩).2 = ⟨1, [5, 1, 1], 7⟩ ∧
    value (bigint_sub_by_self ⟨1, [5, 1], 4⟩) = 0 :=
  ⟨by decide, by decide,
    (sub_by_difference ⟨1, [5, 1], 4⟩ ⟨1, [5, 1, 1], 7⟩ (by decide) (by decide)).1,
    (sub_by_difference ⟨1, [5, 1], 4⟩ ⟨1, [5, 1, 1], 7⟩ (by decide) (by decide)).2.1,
    (sub_by_difference ⟨1, [5, 1], 4⟩ ⟨1, [5, 1, 1], 7⟩ (by decide) (by decide)).2.2.2⟩

/-- `bigint_add_by_int` on a destination of one segment goes through
`bigint_from_int` and gives a well-formed result. -/
theorem add_by_int_aux_single (n : Nat) (dst : bigint) (v : Int) (hd : well_formed dst)
    (hlen : dst.data_len = 1) (hv : -BIGINT_RADIX < v ∧ v < BIGINT_RADIX) :
    well_formed (add_by_int_aux (n + 1) dst v) := by
  have hcs := check_sign_of_well_formed dst hd
  have hR : BIGINT_RADIX = 1000000000 := rfl
  rw [hR] at hv
  have hmem := mem_size_pos dst hd
  obtain ⟨d0, hd0d⟩ : ∃ d0, dst.data = [d0] := by
    unfold bigint.data_len at hlen
    match hdd : dst.data, hlen with
    | [d0], _ => exact ⟨d0, rfl⟩
  have hr0 : 0 ≤ d0 ∧ d0 < BIGINT_RADIX :=
    hd.2.2.1 d0 (by rw [hd0d]; exact List.mem_cons_self _ _)
  rw [hR] at hr0
  rw [add_by_int_aux]
  simp only [hcs]
  by_cases h0 : dst.sign = 0
  · rw [if_pos h0]
    exact (from_int_spec dst v (by omega) (by omega) hmem).2
  · rw [if_neg h0]
    by_cases hv0 : v = 0
    · rw [if_pos hv0]; exact hd
    · rw [if_neg hv0, if_pos (by rw [hR]; exact hv), if_pos hlen]
      simp only [hd0d, List.headD_cons]
      split_ifs
      · exact (from_int_spec dst _ (by omega) (by omega) hmem).2
      · exact (from_int_spec dst _ (by omega) (by omega) hmem).2

/-- C18: adding a well-formed zero leaves the sign, the segments and the value of a
well-formed number; adding the number to a zero gives them to the zero; and adding a
distinct instance that holds the opposite value gives the well-formed zero (sign 0,
the single segment 0), whatever the number of segments. -/
theorem add_identity_inverse (a z m : bigint) (ha : well_formed a) (hz : well_formed z)
    (hz0 : value z = 0) (hm : well_formed m) (hmv : value m = -value a) :
    ((bigint_add_by a z).1.sign = a.sign ∧ (bigint_add_by a z).1.data = a.data ∧
      value (bigint_add_by a z).1 = value a) ∧
    ((bigint_add_by z a).1.sign = a.sign ∧ (bigint_add_by z a).1.data = a.data ∧
      value (bigint_add_by z a).1 = value a) ∧
    (well_formed (bigint_add_by a m).1 ∧ (bigint_add_by a m).1.sign = 0 ∧
      (bigint_add_by a m).1.data = [0] ∧ value (bigint_add_by a m).1 = 0) := by
  have la := loose_of_well_formed a ha
  have lz := loose_of_well_formed z hz
  have lm := loose_of_well_formed m hm
  have hzs : z.sign = 0 := (loose_sign_zero_iff 0 z lz).2 hz0
  have hca := check_sign_of_well_formed a ha
  have hcz := check_sign_of_well_formed z hz
  have hcm := check_sign_of_well_formed m hm
  refine ⟨?_, ?_, ?_⟩
  · -- a + 0
    obtain ⟨v1, -, w1⟩ := add_by_aux_spec 1 a z ha hz
    have hw := w1 (Or.inr (Or.inl hzs))
    have := well_formed_unique _ a hw ha (by rw [v1, hz0, add_zero])
    exact ⟨this.1, this.2, by show value (add_by_aux 3 a z).1 = _; rw [v1, hz0, add_zero]⟩
  · -- 0 + a
    obtain ⟨v1, -, w1⟩ := add_by_aux_spec 1 z a hz ha
    have hw := w1 (Or.inl hzs)
    have := well_formed_unique _ a hw ha (by rw [v1, hz0, zero_add])
    exact ⟨this.1, this.2, by show value (add_by_aux 3 z a).1 = _; rw [v1, hz0, zero_add]⟩
  · -- a + (-a)
    obtain ⟨v1, -, w1⟩ := add_by_aux_spec 1 a m ha hm
    have hv0 : value (bigint_add_by a m).1 = 0 := by
      show value (add_by_aux 3 a m).1 = 0
      rw [v1, hmv]; ring
    have hw : well_formed (bigint_add_by a m).1 := by
      by_cases hc : a.sign = 0 ∨ m.sign = 0 ∨ m.data.length ≠ 1
      · exact w1 hc
      · have ha0 : a.sign ≠ 0 := fun h => hc (Or.inl h)
        have hm0 : m.sign ≠ 0 := fun h => hc (Or.inr (Or.inl h))
        have hm1 : m.data_len = 1 := by
          by_contra h; exact hc (Or.inr (Or.inr h))
        -- the negated source has the segments of the destination
        obtain ⟨c1, c2⟩ := change_sign_spec m hm
        have hu := well_formed_unique _ a c1 ha (by rw [c2, hmv]; ring)
        have hcd : (bigint_change_sign m).data = m.data := by
          unfold bigint_change_sign bigint_check_sign
          split_ifs <;> rfl
        have ha1 : a.data_len = 1 := by
          unfold bigint.data_len at hm1 ⊢
          rw [← hu.2, hcd]; exact hm1
        obtain ⟨s0, hs0d⟩ : ∃ s0, m.data = [s0] := by
          unfold bigint.data_len at hm1
          match hdd : m.data, hm1 with
          | [s0], _ => exact ⟨s0, rfl⟩
        have hr0 : 0 ≤ s0 ∧ s0 < BIGINT_RADIX :=
          hm.2.2.1 s0 (by rw [hs0d]; exact List.mem_cons_self _ _)
        have hR : BIGINT_RADIX = 1000000000 := rfl
        rw [hR] at hr0
        show well_formed (add_by_aux 3 a m).1
        rw [add_by_aux]
        simp only [hca, hcm]
        rw [if_neg ha0, if_neg hm0, if_pos hm1]
        simp only [hs0d, List.headD_cons]
        split_ifs
        · exact add_by_int_aux_single 1 a (-s0) ha ha1 (by rw [hR]; constructor <;> omega)
        · exact add_by_int_aux_single 1 a s0 ha ha1 (by rw [hR]; constructor <;> omega)
        · exact ha
    have hs0 := (loose_sign_zero_iff 0 _ (loose_of_well_formed _ hw)).2 hv0
    exact ⟨hw, hs0, hw.2.2.2.2.1.1 hs0, hv0⟩

/-- C18 on a number of two segments and on a number of one segment. -/
theorem add_identity_inverse_witness :
    (well_formed ⟨1, [5, 1], 4⟩ ∧ well_formed ⟨0, [0], 4⟩ ∧ well_formed ⟨-1, [5, 1], 4⟩ ∧
      (bigint_add_by ⟨1, [5, 1], 4⟩ ⟨0, [0], 4⟩).1.data = [5, 1] ∧
      (bigint_add_by ⟨0, [0], 4⟩ ⟨1, [5, 1], 4⟩).1.data = [5, 1] ∧
      (bigint_add_by ⟨1, [5, 1], 4⟩ ⟨-1, [5, 1], 4⟩).1.data = [0]) ∧
    (well_formed ⟨-1, [7], 4⟩ ∧ well_formed ⟨1, [7], 4⟩ ∧
      (bigint_add_by ⟨-1, [7], 4⟩ ⟨1, [7], 4⟩).1.sign = 0 ∧
      (bigint_add_by ⟨-1, [7], 4⟩ ⟨1, [7], 4⟩).1.data = [0]) :=
  ⟨⟨by decide, by decide, by decide,
      (add_identity_inverse ⟨1, [5, 1], 4⟩ ⟨0, [0], 4⟩ ⟨-1, [5, 1], 4⟩ (by decide) (by decide)
        (by decide) (by decide) (by decide)).1.2.1,
      (add_identity_inverse ⟨1, [5, 1], 4⟩ ⟨0, [0], 4⟩ ⟨-1, [5, 1], 4⟩ (by decide) (by decide)
        (by decide) (by decide) (by decide)).2.1.2.1,
      (add_identity_inverse ⟨1, [5, 1], 4⟩ ⟨0, [0], 4⟩ ⟨-1, [5, 1], 4⟩ (by decide) (by decide)
        (by decide) (by decide) (by decide)).2.2.2.2.1⟩,
   ⟨by decide, by decide,
      (add_identity_inverse ⟨-1, [7], 4⟩ ⟨0, [0], 4⟩ ⟨1, [7], 4⟩ (by decide) (by decide)
        (by decide) (by decide) (by decide)).2.2.2.1,
      (add_identity_inverse ⟨-1, [7], 4⟩ ⟨0, [0], 4⟩ ⟨1, [7], 4⟩ (by decide) (by decide)
        (by decide) (by decide) (by decide)).2.2.2.2.1⟩⟩

/-! ## `bigint_compare` and `bigint_equal` -/

theorem seg_value_reverse_cons (x : Int) (xs : List Int) :
    seg_value (x :: xs).reverse = seg_value xs.reverse + BIGINT_RADIX ^ xs.length * x := by
  rw [List.reverse_cons, seg_value_append, List.length_reverse]
  simp [seg_value]

/-- The segment loop of `bigint_compare` on two numbers of the same length orders
them as their magnitudes. -/
theorem compare_segments_spec : ∀ (d1 d2 : List Int), d1.length = d2.length →
    (∀ s ∈ d1, 0 ≤ s ∧ s < BIGINT_RADIX) → (∀ s ∈ d2, 0 ≤ s ∧ s < BIGINT_RADIX) →
    (compare_segments d1 d2 = 1 ∧ seg_value d2.reverse < seg_value d1.reverse) ∨
    (compare_segments d1 d2 = -1 ∧ seg_value d1.reverse < seg_value d2.reverse) ∨
    (compare_segments d1 d2 = 0 ∧ d1 = d2) := by
  intro d1
  induction d1 with
  | nil =>
    intro d2 hlen _ _
    cases d2 with
    | nil => exact Or.inr (Or.inr ⟨rfl, rfl⟩)
    | cons y ys => simp at hlen
  | cons x xs ih =>
    intro d2 hlen h1 h2
    cases d2 with
    | nil => simp at hlen
    | cons y ys =>
      have hl : xs.length = ys.length := by simpa using hlen
      have hx := h1 x (List.mem_cons_self _ _)
      have hy := h2 y (List.mem_cons_self _ _)
      have hxs : ∀ s ∈ xs, 0 ≤ s ∧ s < BIGINT_RADIX := fun s hs => h1 s (List.mem_cons_of_mem _ hs)
      have hys : ∀ s ∈ ys, 0 ≤ s ∧ s < BIGINT_RADIX := fun s hs => h2 s (List.mem_cons_of_mem _ hs)
      have hA0 := seg_value_nonneg xs.reverse (fun s hs => (hxs s (List.mem_reverse.1 hs)).1)
      have hB0 := seg_value_nonneg ys.reverse (fun s hs => (hys s (List.mem_reverse.1 hs)).1)
      have hA1 := seg_value_lt_pow xs.reverse (fun s hs => hxs s (List.mem_reverse.1 hs))
      have hB1 := seg_value_lt_pow ys.reverse (fun s hs => hys s (List.mem_reverse.1 hs))
      rw [List.length_reverse] at hA1 hB1
      rw [← hl] at hB1
      have hp : (0 : Int) ≤ BIGINT_RADIX ^ xs.length := by positivity
      rw [seg_value_reverse_cons, seg_value_reverse_cons, ← hl, compare_segments]
      by_cases hgt : x > y
      · rw [if_pos hgt]
        left
        refine ⟨rfl, ?_⟩
        have h := mul_le_mul_of_nonneg_left (show y + 1 ≤ x by omega) hp
        have e : BIGINT_RADIX ^ xs.length * (y + 1) =
            BIGINT_RADIX ^ xs.length * y + BIGINT_RADIX ^ xs.length := by ring
        rw [e] at h
        omega
      · rw [if_neg hgt]
        by_cases hlt : x < y
        · rw [if_pos hlt]
          right; left
          refine ⟨rfl, ?_⟩
          have h := mul_le_mul_of_nonneg_left (show x + 1 ≤ y by omega) hp
          have e : BIGINT_RADIX ^ xs.length * (x + 1) =
              BIGINT_RADIX ^ xs.length * x + BIGINT_RADIX ^ xs.length := by ring
          rw [e] at h
          omega
        · rw [if_neg hlt]
          have hxy : x = y := by omega
          subst hxy
          rcases ih ys hl hxs hys with ⟨c, hc⟩ | ⟨c, hc⟩ | ⟨c, hc⟩
          · exact Or.inl ⟨c, by omega⟩
          · exact Or.inr (Or.inl ⟨c, by omega⟩)
          · exact Or.inr (Or.inr ⟨c, by rw [hc]⟩)

/-- `bigint_compare` on two well-formed positive numbers. -/
theorem compare_aux_pos (d : Nat) (p1 p2 : bigint) (h1 : well_formed p1) (h2 : well_formed p2)
    (s1 : p1.sign = 1) (s2 : p2.sign = 1) :
    (compare_aux (d + 1) p1 p2).2 = (p1, p2) ∧
    (((compare_aux (d + 1) p1 p2).1 = 1 ∧ value p2 < value p1) ∨
     ((compare_aux (d + 1) p1 p2).1 = -1 ∧ value p1 < value p2) ∨
     ((compare_aux (d + 1) p1 p2).1 = 0 ∧ value p1 = value p2)) := by
  have hc1 := check_sign_of_well_formed p1 h1
  have hc2 := check_sign_of_well_formed p2 h2
  have l1 := loose_of_well_formed p1 h1
  have l2 := loose_of_well_formed p2 h2
  have hv1 : value p1 = seg_value p1.data := by unfold value; rw [s1]; ring
  have hv2 : value p2 = seg_value p2.data := by unfold value; rw [s2]; ring
  have hge1 := seg_value_ge_pow p1.data l1.2.1 (fun s h => (h1.2.2.1 s h).1)
    (l1.2.2.2.2.2.1 (by omega))
  have hge2 := seg_value_ge_pow p2.data l2.2.1 (fun s h => (h2.2.2.1 s h).1)
    (l2.2.2.2.2.2.1 (by omega))
  have hlt1 := seg_value_lt_pow p1.data h1.2.2.1
  have hlt2 := seg_value_lt_pow p2.data h2.2.2.1
  rw [compare_aux]
  simp only [hc1, hc2, s1, s2, lt_self_iff_false, if_false, gt_iff_lt, one_ne_zero]
  rw [if_neg (by norm_num)]
  by_cases hg : p2.data_len < p1.data_len
  · rw [if_pos hg]
    refine ⟨rfl, Or.inl ⟨rfl, ?_⟩⟩
    have : BIGINT_RADIX ^ p2.data.length ≤ BIGINT_RADIX ^ (p1.data.length - 1) :=
      pow_le_pow_right₀ (by norm_num) (by unfold bigint.data_len at hg; omega)
    omega
  · rw [if_neg hg]
    by_cases hl : p1.data_len < p2.data_len
    · rw [if_pos hl]
      refine ⟨rfl, Or.inr (Or.inl ⟨rfl, ?_⟩)⟩
      have : BIGINT_RADIX ^ p1.data.length ≤ BIGINT_RADIX ^ (p2.data.length - 1) :=
        pow_le_pow_right₀ (by norm_num) (by unfold bigint.data_len at hl; omega)
      omega
    · rw [if_neg hl]
      refine ⟨rfl, ?_⟩
      have hlen : p1.data.reverse.length = p2.data.reverse.length := by
        unfold bigint.data_len at hg hl
        simp only [List.length_reverse]; omega
      rcases compare_segments_spec p1.data.reverse p2.data.reverse hlen
        (fun s hs => h1.2.2.1 s (List.mem_reverse.1 hs))
        (fun s hs => h2.2.2.1 s (List.mem_reverse.1 hs)) with ⟨c, hc⟩ | ⟨c, hc⟩ | ⟨c, hc⟩
      · rw [List.reverse_reverse, List.reverse_reverse] at hc
        exact Or.inl ⟨c, by omega⟩
      · rw [List.reverse_reverse, List.reverse_reverse] at hc
        exact Or.inr (Or.inl ⟨c, by omega⟩)
      · have : p1.data = p2.data := List.reverse_injective hc
        exact Or.inr (Or.inr ⟨c, by rw [hv1, hv2, this]⟩)

/-- `bigint_compare` on well-formed operands returns -1, 0 or 1 as the values are
ordered, and leaves both operands as they were. -/
theorem compare_spec (p1 p2 : bigint) (h1 : well_formed p1) (h2 : well_formed p2) :
    (bigint_compare p1 p2).2 = (p1, p2) ∧
    (((bigint_compare p1 p2).1 = 1 ∧ value p2 < value p1) ∨
     ((bigint_compare p1 p2).1 = -1 ∧ value p1 < value p2) ∨
     ((bigint_compare p1 p2).1 = 0 ∧ value p1 = value p2)) := by
  have hc1 := check_sign_of_well_formed p1 h1
  have hc2 := check_sign_of_well_formed p2 h2
  obtain ⟨a0, a1, a2⟩ := loose_value_sign 0 p1 (loose_of_well_formed p1 h1)
  obtain ⟨b0, b1, b2⟩ := loose_value_sign 0 p2 (loose_of_well_formed p2 h2)
  have hs1 := h1.1
  have hs2 := h2.1
  by_cases hpos : p1.sign = 1 ∧ p2.sign = 1
  · exact compare_aux_pos 1 p1 p2 h1 h2 hpos.1 hpos.2
  · unfold bigint_compare
    rw [compare_aux]
    simp only [hc1, hc2]
    by_cases hlt : p1.sign < p2.sign
    · rw [if_pos hlt]
      exact ⟨rfl, Or.inr (Or.inl ⟨rfl, by omega⟩)⟩
    · rw [if_neg hlt]
      by_cases hgt : p1.sign > p2.sign
      · rw [if_pos hgt]
        exact ⟨rfl, Or.inl ⟨rfl, by omega⟩⟩
      · rw [if_neg hgt]
        have heq : p1.sign = p2.sign := by omega
        by_cases hz : p1.sign = 0
        · rw [if_pos hz]
          exact ⟨rfl, Or.inr (Or.inr ⟨rfl, by rw [a0 hz, b0 (by omega)]⟩)⟩
        · rw [if_neg hz]
          have hn1 : p1.sign = -1 := by omega
          have hn2 : p2.sign = -1 := by omega
          rw [if_pos (by omega)]
          obtain ⟨c1, c2⟩ := change_sign_spec p1 h1
          obtain ⟨d1, d2⟩ := change_sign_spec p2 h2
          have e1 : (bigint_change_sign p1).sign = 1 := by
            have := (loose_value_sign 0 _ (loose_of_well_formed _ c1))
            have := a2 hn1
            have := c1.1
            omega
          have e2 : (bigint_change_sign p2).sign = 1 := by
            have := (loose_value_sign 0 _ (loose_of_well_formed _ d1))
            have := b2 hn2
            have := d1.1
            omega
          obtain ⟨r1, r2⟩ := compare_aux_pos 0 _ _ d1 c1 e2 e1
          simp only [r1, change_sign_involutive p1 h1, change_sign_involutive p2 h2]
          refine ⟨trivial, ?_⟩
          rw [d2, c2] at r2
          rcases r2 with ⟨c, hc⟩ | ⟨c, hc⟩ | ⟨c, hc⟩
          · exact Or.inl ⟨c, by omega⟩
          · exact Or.inr (Or.inl ⟨c, by omega⟩)
          · exact Or.inr (Or.inr ⟨c, by omega⟩)

theorem equal_of_value_eq (p1 p2 : bigint) (h1 : well_formed p1) (h2 : well_formed p2)
    (hv : value p1 = value p2) : bigint_equal p1 p2 = 1 := by
  unfold bigint_equal
  rcases (compare_spec p1 p2 h1 h2).2 with ⟨_, hc⟩ | ⟨_, hc⟩ | ⟨c, _⟩
  · omega
  · omega
  · rw [if_pos c]

/-- `bigint_mul_by` on distinct well-formed operands (the depth it is given is
enough for every pair of lengths). -/
theorem mul_by_spec (dst src : bigint) (hd : well_formed dst) (hs : well_formed src) :
    well_formed (bigint_mul_by dst src).1 ∧
    value (bigint_mul_by dst src).1 = value dst * value src ∧
    (bigint_mul_by dst src).2 = src :=
  mul_by_aux_spec (dst.data_len + src.data_len) dst src hd hs (Or.inr (Or.inr (le_refl _)))

/-! ## Laws of the multiplication -/

/-- C19: on well-formed operands of any lengths the multiplication is commutative
and associative up to `bigint_equal`: `a * b` equals `b * a`, and `(a * b) * c`
equals `a * (b * c)` (each product computed by `bigint_mul_by` into a copy of its
left operand). -/
theorem mul_by_commutative_associative (a b c : bigint) (ha : well_formed a)
    (hb : well_formed b) (hc : well_formed c) :
    bigint_equal (bigint_mul_by a b).1 (bigint_mul_by b a).1 = 1 ∧
    bigint_equal (bigint_mul_by (bigint_mul_by a b).1 c).1
      (bigint_mul_by a (bigint_mul_by b c).1).1 = 1 := by
  obtain ⟨ab1, ab2, -⟩ := mul_by_spec a b ha hb
  obtain ⟨ba1, ba2, -⟩ := mul_by_spec b a hb ha
  obtain ⟨bc1, bc2, -⟩ := mul_by_spec b c hb hc
  obtain ⟨l1, l2, -⟩ := mul_by_spec (bigint_mul_by a b).1 c ab1 hc
  obtain ⟨r1, r2, -⟩ := mul_by_spec a (bigint_mul_by b c).1 ha bc1
  refine ⟨equal_of_value_eq _ _ ab1 ba1 ?_, equal_of_value_eq _ _ l1 r1 ?_⟩
  · rw [ab2, ba2]; ring
  · rw [l2, r2, ab2, bc2]; ring

/-- C19 on three operands of one, two and three segments. -/
theorem mul_by_commutative_associative_witness :
    well_formed ⟨-1, [7], 4⟩ ∧ well_formed ⟨1, [999999999, 1], 4⟩ ∧
    well_formed ⟨1, [5, 0, 3], 4⟩ ∧
    bigint_equal (bigint_mul_by ⟨-1, [7], 4⟩ ⟨1, [999999999, 1], 4⟩).1
      (bigint_mul_by ⟨1, [999999999, 1], 4⟩ ⟨-1, [7], 4⟩).1 = 1 ∧
    bigint_equal
      (bigint_mul_by (bigint_mul_by ⟨-1, [7], 4⟩ ⟨1, [999999999, 1], 4⟩).1 ⟨1, [5, 0, 3], 4⟩).1
      (bigint_mul_by ⟨-1, [7], 4⟩ (bigint_mul_by ⟨1, [999999999, 1], 4⟩ ⟨1, [5, 0, 3], 4⟩).1).1
        = 1 :=
  ⟨by decide, by decide, by decide,
    (mul_by_commutative_associative ⟨-1, [7], 4⟩ ⟨1, [999999999, 1], 4⟩ ⟨1, [5, 0, 3], 4⟩
      (by decide) (by decide) (by decide)).1,
    (mul_by_commutative_associative ⟨-1, [7], 4⟩ ⟨1, [999999999, 1], 4⟩ ⟨1, [5, 0, 3], 4⟩
      (by decide) (by decide) (by decide)).2⟩

/-- C20: on well-formed distinct operands of any lengths, `bigint_mul_by`, whichever
branch it takes, leaves the same sign, the same length and the same segments in the
destination as the schoolbook routine `bigint_mul_by_trad`. -/
theorem mul_by_eq_trad (dst src : bigint) (hd : well_formed dst) (hs : well_formed src) :
    (bigint_mul_by dst src).1.sign = (bigint_mul_by_trad dst src).1.sign ∧
    (bigint_mul_by dst src).1.data_len = (bigint_mul_by_trad dst src).1.data_len ∧
    (bigint_mul_by dst src).1.data = (bigint_mul_by_trad dst src).1.data := by
  obtain ⟨m1, m2, -⟩ := mul_by_spec dst src hd hs
  obtain ⟨t1, t2, -⟩ := mul_by_trad_spec dst src hd hs
  obtain ⟨u1, u2⟩ := well_formed_unique _ _ m1 t1 (by rw [m2, t2])
  exact ⟨u1, congrArg List.length u2, u2⟩

/-- C20 on a destination of 101 segments, which `bigint_mul_by` splits. -/
theorem mul_by_eq_trad_witness :
    well_formed ⟨-1, List.replicate 101 7, 101⟩ ∧ well_formed ⟨1, [5, 0, 3], 4⟩ ∧
    (bigint_mul_by ⟨-1, List.replicate 101 7, 101⟩ ⟨1, [5, 0, 3], 4⟩).1.data =
      (bigint_mul_by_trad ⟨-1, List.replicate 101 7, 101⟩ ⟨1, [5, 0, 3], 4⟩).1.data :=
  ⟨by decide, by decide,
    (mul_by_eq_trad ⟨-1, List.replicate 101 7, 101⟩ ⟨1, [5, 0, 3], 4⟩
      (by decide) (by decide)).2.2⟩

/-! ## The division by zero -/

/-- A call that passes the final check returns the code it was given. -/
theorem divmod_assert_return_errno (ret : bigint_errno) (a b q r : bigint)
    (res : bigint_errno × bigint × bigint × bigint × bigint)
    (h : divmod_assert_return ret a b q r = some res) : res.1 = ret := by
  unfold divmod_assert_return at h
  split at h
  · exact absurd h (by simp)
  · simp only [Option.some.injEq] at h
    rw [← h]

theorem divmod_large_errno (newton : bigint → Int → bigint × Int) (a b q r : bigint)
    (res : bigint_errno × bigint × bigint × bigint × bigint)
    (h : divmod_large newton a b q r = some res) : res.1 = bigint_errno.BIGINT_NOERR := by
  unfold divmod_large at h
  simp only at h
  split at h
  · exact absurd h (by simp)
  · exact divmod_assert_return_errno _ _ _ _ _ res h

/-- With a positive divisor every path of `bigint_divmod` that returns, returns
success. -/
theorem divmod_aux_pos_errno (newton : bigint → Int → bigint × Int) (d : Nat)
    (a b q r : bigint) (hb : 0 < (bigint_check_sign b).sign)
    (res : bigint_errno × bigint × bigint × bigint × bigint)
    (h : divmod_aux newton (d + 1) a b q r = some res) :
    res.1 = bigint_errno.BIGINT_NOERR := by
  rw [divmod_aux] at h
  simp only at h
  rw [if_neg (by omega), if_neg (by omega)] at h
  split_ifs at h
  all_goals first
    | exact divmod_assert_return_errno _ _ _ _ _ res h
    | exact absurd h (by simp)
    | exact divmod_large_errno newton _ _ _ _ res h

theorem divmod_errno (newton : bigint → Int → bigint × Int) (a b q r : bigint)
    (hb : well_formed b) :
    (bigint_divmod newton a b q r).map (fun x => x.1) =
      some bigint_errno.BIGINT_ILLEGAL_PARAM ↔ value b = 0 := by
  have hcs := check_sign_of_well_formed b hb
  have lb := loose_of_well_formed b hb
  rw [← loose_sign_zero_iff 0 b lb]
  unfold bigint_divmod
  rw [divmod_aux]
  simp only [hcs]
  by_cases h0 : b.sign = 0
  · rw [if_pos h0]
    simp [h0]
  · rw [if_neg h0]
    simp only [h0, iff_false]
    by_cases hneg : b.sign < 0
    · rw [if_pos hneg]
      obtain ⟨c1, c2⟩ := change_sign_spec b hb
      have hpos : 0 < (bigint_check_sign (bigint_change_sign b)).sign := by
        rw [check_sign_of_well_formed _ c1]
        have h1 := loose_value_sign 0 _ (loose_of_well_formed _ c1)
        have h2 := loose_value_sign 0 b lb
        have h3 := c1.1
        have h4 := hb.1
        omega
      cases hin : divmod_aux newton 1 a (bigint_change_sign b) q r with
      | none => simp
      | some res =>
        have he := divmod_aux_pos_errno newton 0 a _ q r hpos res hin
        obtain ⟨ret, a2, b2, q2, r2⟩ := res
        simp only at he
        subst he
        simp only
        cases hck : bigint_divmod_check a2 b2 q2 r2 with
        | none => simp
        | some c =>
          obtain ⟨a3, b3, q3, r3⟩ := c
          simp only
          split_ifs
          all_goals
            intro hc
            rw [Option.map_eq_some'] at hc
            obtain ⟨x, hx, hx1⟩ := hc
            have := divmod_assert_return_errno _ _ _ _ _ x hx
            rw [this] at hx1
            exact absurd hx1 (by decide)
    · rw [if_neg hneg]
      have hpos : 0 < (bigint_check_sign b).sign := by
        rw [hcs]; omega
      intro hc
      cases hin : divmod_aux newton 2 a b q r with
      | none =>
        rw [divmod_aux] at hin
        simp only [hcs] at hin
        rw [if_neg h0, if_neg hneg] at hin
        rw [hin] at hc
        simp at hc
      | some res =>
        have he := divmod_aux_pos_errno newton 1 a b q r hpos res hin
        rw [divmod_aux] at hin
        simp only [hcs] at hin
        rw [if_neg h0, if_neg hneg] at hin
        rw [hin] at hc
        simp only [Option.map_some', Option.some.injEq] at hc
        rw [he] at hc
        exact absurd hc (by decide)

theorem div_by_errno (newton : bigint → Int → bigint × Int) (dst src : bigint)
    (hs : well_formed src) :
    (bigint_div_by newton dst src).map (fun x => x.1) =
      some bigint_errno.BIGINT_ILLEGAL_PARAM ↔ value src = 0 := by
  have hcs := check_sign_of_well_formed src hs
  have hd := divmod_errno newton dst src bigint_init bigint_init hs
  have hz := loose_sign_zero_iff 0 src (loose_of_well_formed src hs)
  unfold bigint_div_by
  simp only [hcs]
  by_cases h0 : src.sign = 0
  · rw [if_pos h0]
    simp [hz.1 h0]
  · rw [if_neg h0]
    have hv : ¬ value src = 0 := fun h => h0 (hz.2 h)
    simp only [hv, iff_false] at hd ⊢
    cases hin : bigint_divmod newton dst src bigint_init bigint_init with
    | none => simp
    | some res =>
      obtain ⟨ret, a2, b2, q2, r2⟩ := res
      rw [hin] at hd
      simpa using hd

theorem mod_by_errno (newton : bigint → Int → bigint × Int) (dst src : bigint)
    (hs : well_formed src) :
    (bigint_mod_by newton dst src).map (fun x => x.1) =
      some bigint_errno.BIGINT_ILLEGAL_PARAM ↔ value src = 0 := by
  have hcs := check_sign_of_well_formed src hs
  have hd := divmod_errno newton dst src bigint_init bigint_init hs
  have hz := loose_sign_zero_iff 0 src (loose_of_well_formed src hs)
  unfold bigint_mod_by
  simp only [hcs]
  by_cases h0 : src.sign = 0
  · rw [if_pos h0]
    simp [hz.1 h0]
  · rw [if_neg h0]
    have hv : ¬ value src = 0 := fun h => h0 (hz.2 h)
    simp only [hv, iff_false] at hd ⊢
    cases hin : bigint_divmod newton dst src bigint_init bigint_init with
    | none => simp
    | some res =>
      obtain ⟨ret, a2, b2, q2, r2⟩ := res
      rw [hin] at hd
      simpa using hd

theorem div_by_int_errno (p : bigint) (d : Int) :
    (bigint_div_by_int p d).1 = bigint_errno.BIGINT_ILLEGAL_PARAM ↔ d = 0 := by
  unfold bigint_div_by_int
  by_cases h0 : d = 0
  · rw [if_pos h0]; simp [h0]
  · rw [if_neg h0]
    simp only [h0, iff_false]
    split_ifs <;> simp

theorem mod_by_int_errno (p : bigint) (d old : Int) :
    (bigint_mod_by_int p d old).1 = bigint_errno.BIGINT_ILLEGAL_PARAM ↔ d = 0 := by
  unfold bigint_mod_by_int
  by_cases h0 : d = 0
  · rw [if_pos h0]; simp [h0]
  · rw [if_neg h0]
    simp [h0]

/-- C16: `bigint_divmod`, `bigint_div_by` and `bigint_mod_by` return the
illegal-parameter error exactly when the (well-formed) divisor is zero, whatever the
reciprocal estimate of the floating-point code is; `bigint_div_by_int` and
`bigint_mod_by_int` return it exactly when the `int` divisor is 0. -/
theorem division_by_zero_errno (newton : bigint → Int → bigint × Int)
    (a b q r dst p : bigint) (d old : Int) (hb : well_formed b) :
    ((bigint_divmod newton a b q r).map (fun x => x.1) =
      some bigint_errno.BIGINT_ILLEGAL_PARAM ↔ value b = 0) ∧
    ((bigint_div_by newton dst b).map (fun x => x.1) =
      some bigint_errno.BIGINT_ILLEGAL_PARAM ↔ value b = 0) ∧
    ((bigint_mod_by newton dst b).map (fun x => x.1) =
      some bigint_errno.BIGINT_ILLEGAL_PARAM ↔ value b = 0) ∧
    ((bigint_div_by_int p d).1 = bigint_errno.BIGINT_ILLEGAL_PARAM ↔ d = 0) ∧
    ((bigint_mod_by_int p d old).1 = bigint_errno.BIGINT_ILLEGAL_PARAM ↔ d = 0) :=
  ⟨divmod_errno newton a b q r hb, div_by_errno newton dst b hb, mod_by_errno newton dst b hb,
    div_by_int_errno p d, mod_by_int_errno p d old⟩

/-- C16 on the divisors 0 and 7 (with a reciprocal estimate that is never used on
these paths). -/
theorem division_by_zero_errno_witness :
    (well_formed ⟨0, [0], 4⟩ ∧
      (bigint_divmod (fun _ _ => (bigint_init, 0)) ⟨1, [12345], 4⟩ ⟨0, [0], 4⟩ bigint_init
        bigint_init).map (fun x => x.1) = some bigint_errno.BIGINT_ILLEGAL_PARAM) ∧
    (well_formed ⟨1, [7], 4⟩ ∧
      (bigint_divmod (fun _ _ => (bigint_init, 0)) ⟨1, [12345], 4⟩ ⟨1, [7], 4⟩ bigint_init
        bigint_init).map (fun x => x.1) ≠ some bigint_errno.BIGINT_ILLEGAL_PARAM ∧
      (bigint_divmod (fun _ _ => (bigint_init, 0)) ⟨1, [12345], 4⟩ ⟨1, [7], 4⟩ bigint_init
        bigint_init).map (fun x => x.1) = some bigint_errno.BIGINT_NOERR) :=
  ⟨⟨by decide,
      (division_by_zero_errno (fun _ _ => (bigint_init, 0)) ⟨1, [12345], 4⟩ ⟨0, [0], 4⟩
        bigint_init bigint_init bigint_init bigint_init 0 0 (by decide)).1.2 (by decide)⟩,
   ⟨by decide,
      fun h => absurd ((division_by_zero_errno (fun _ _ => (bigint_init, 0)) ⟨1, [12345], 4⟩
        ⟨1, [7], 4⟩ bigint_init bigint_init bigint_init bigint_init 0 0 (by decide)).1.1 h)
        (by decide),
      by decide⟩⟩

/-- C21: on well-formed operands `bigint_compare` returns -1, 0 or 1 exactly as the
value of the first is below, equal to or above the value of the second; so
`compare(a, b) = -compare(b, a)`, and both operands are afterwards what they were
(sign, segments and capacity). -/
theorem compare_total_order (a b : bigint) (ha : well_formed a) (hb : well_formed b) :
    ((bigint_compare a b).1 = -1 ↔ value a < value b) ∧
    ((bigint_compare a b).1 = 0 ↔ value a = value b) ∧
    ((bigint_compare a b).1 = 1 ↔ value b < value a) ∧
    (bigint_compare a b).1 = -(bigint_compare b a).1 ∧
    (bigint_compare a b).2 = (a, b) := by
  obtain ⟨u, h⟩ := compare_spec a b ha hb
  obtain ⟨-, g⟩ := compare_spec b a hb ha
  refine ⟨?_, ?_, ?_, ?_, u⟩
  · rcases h with ⟨c, hc⟩ | ⟨c, hc⟩ | ⟨c, hc⟩ <;> rw [c] <;> constructor <;> intro h1 <;> omega
  · rcases h with ⟨c, hc⟩ | ⟨c, hc⟩ | ⟨c, hc⟩ <;> rw [c] <;> constructor <;> intro h1 <;> omega
  · rcases h with ⟨c, hc⟩ | ⟨c, hc⟩ | ⟨c, hc⟩ <;> rw [c] <;> constructor <;> intro h1 <;> omega
  · rcases h with ⟨c, hc⟩ | ⟨c, hc⟩ | ⟨c, hc⟩ <;>
      rcases g with ⟨e, he⟩ | ⟨e, he⟩ | ⟨e, he⟩ <;> rw [c, e] <;> omega

/-- C21 on two negative numbers of two segments, which go through the nested call. -/
theorem compare_total_order_witness :
    well_formed ⟨-1, [5, 1], 4⟩ ∧ well_formed ⟨-1, [7, 1], 4⟩ ∧
    ((bigint_compare ⟨-1, [5, 1], 4⟩ ⟨-1, [7, 1], 4⟩).1 = 1 ↔
      value ⟨-1, [7, 1], 4⟩ < value ⟨-1, [5, 1], 4⟩) ∧
    (bigint_compare ⟨-1, [5, 1], 4⟩ ⟨-1, [7, 1], 4⟩).1 = 1 ∧
    (bigint_compare ⟨-1, [5, 1], 4⟩ ⟨-1, [7, 1], 4⟩).2 = (⟨-1, [5, 1], 4⟩, ⟨-1, [7, 1], 4⟩) :=
  ⟨by decide, by decide,
    (compare_total_order ⟨-1, [5, 1], 4⟩ ⟨-1, [7, 1], 4⟩ (by decide) (by decide)).2.2.1,
    by decide,
    (compare_total_order ⟨-1, [5, 1], 4⟩ ⟨-1, [7, 1], 4⟩ (by decide) (by decide)).2.2.2.2⟩

/-! ## Division by an `int` -/

/-- Floor division by a negative divisor is Euclidean division of the negated
operands. -/
theorem fdiv_neg_divisor (a d : Int) (hd : d < 0) : Int.fdiv a d = (-a) / (-d) := by
  match a, d, hd with
  | Int.ofNat 0, Int.negSucc n, _ => simp
  | Int.ofNat (m + 1), Int.negSucc n, _ => rfl
  | Int.negSucc m, Int.negSucc n, _ => rfl
  | Int.ofNat _, Int.ofNat n, h => exact absurd h (by simp)
  | Int.negSucc _, Int.ofNat n, h => exact absurd h (by simp)

/-- The floor quotient is determined by a remainder that is zero or has the sign of
the divisor and is smaller in magnitude. -/
theorem fdiv_unique (a d q r : Int) (h : a = d * q + r)
    (hr : (0 ≤ r ∧ r < d) ∨ (d < r ∧ r ≤ 0)) : Int.fdiv a d = q := by
  rcases hr with ⟨h1, h2⟩ | ⟨h1, h2⟩
  · rw [Int.fdiv_eq_ediv a (by omega)]
    exact ((Int.ediv_emod_unique (by omega)).2 ⟨by rw [h]; ring, h1, h2⟩).1
  · rw [fdiv_neg_divisor a d (by omega)]
    exact ((Int.ediv_emod_unique (by omega : 0 < -d)).2
      ⟨(by rw [h]; ring : -r + -d * q = -a), by omega, by omega⟩).1

/-- The long-division loop: the quotient segments are in range, and together with
the last remainder they reproduce the dividend. -/
theorem div_int_loop_spec (d : Int) (hd : 0 < d) (l : List Int) :
    ∀ rp r0 : Int, 0 ≤ rp → rp < d → 0 ≤ r0 → r0 < d →
    (∀ x ∈ l, 0 ≤ x ∧ x < BIGINT_RADIX) →
    (div_int_loop d (rp * BIGINT_RADIX) r0 l).1.length = l.length ∧
    (∀ x ∈ (div_int_loop d (rp * BIGINT_RADIX) r0 l).1, 0 ≤ x ∧ x < BIGINT_RADIX) ∧
    0 ≤ (div_int_loop d (rp * BIGINT_RADIX) r0 l).2 ∧
    (div_int_loop d (rp * BIGINT_RADIX) r0 l).2 < d ∧
    (l ≠ [] → rp * BIGINT_RADIX ^ l.length + seg_value l.reverse =
      d * seg_value (div_int_loop d (rp * BIGINT_RADIX) r0 l).1.reverse +
        (div_int_loop d (rp * BIGINT_RADIX) r0 l).2) := by
  induction l with
  | nil =>
    intro rp r0 h1 h2 h3 h4 _
    simp [div_int_loop, h3, h4]
  | cons x rest ih =>
    intro rp r0 h1 h2 _ _ hl
    have hx : 0 ≤ x ∧ x < BIGINT_RADIX := hl x (List.mem_cons_self _ _)
    have hv0 : 0 ≤ rp * BIGINT_RADIX + x := by
      have : 0 ≤ rp * BIGINT_RADIX := Int.mul_nonneg h1 (by norm_num)
      omega
    have hm0 : 0 ≤ (rp * BIGINT_RADIX + x) % d := Int.emod_nonneg _ (by omega)
    have hm1 : (rp * BIGINT_RADIX + x) % d < d := Int.emod_lt_of_pos _ hd
    have hq0 : 0 ≤ (rp * BIGINT_RADIX + x) / d := Int.ediv_nonneg hv0 (by omega)
    have hdm := Int.emod_add_ediv (rp * BIGINT_RADIX + x) d
    have hq1 : (rp * BIGINT_RADIX + x) / d < BIGINT_RADIX := by
      have hlt : rp * BIGINT_RADIX + x < d * BIGINT_RADIX := by
        have : (rp + 1) * BIGINT_RADIX ≤ d * BIGINT_RADIX :=
          Int.mul_le_mul_of_nonneg_right (by omega) (by norm_num)
        have e : (rp + 1) * BIGINT_RADIX = rp * BIGINT_RADIX + BIGINT_RADIX := by ring
        omega
      rw [Int.mul_comm d] at hlt
      exact Int.ediv_lt_of_lt_mul hd hlt
    obtain ⟨i1, i2, i3, i4, i5⟩ := ih ((rp * BIGINT_RADIX + x) % d)
      ((rp * BIGINT_RADIX + x) % d) hm0 hm1 hm0 hm1
      (fun s hs => hl s (List.mem_cons_of_mem _ hs))
    simp only [div_int_loop, Int.tmod_eq_emod hv0 (le_of_lt hd),
      Int.tdiv_eq_ediv hv0 (le_of_lt hd)]
    refine ⟨by simp [i1], ?_, i3, i4, ?_⟩
    · intro s hs
      rcases List.mem_cons.1 hs with e | e
      · rw [e]; exact ⟨hq0, hq1⟩
      · exact i2 s e
    · intro _
      rw [seg_value_reverse_cons, seg_value_reverse_cons, i1, List.length_cons]
      by_cases hrest : rest = []
      · subst hrest
        simp only [div_int_loop, List.length_nil, List.reverse_nil, seg_value]
        linear_combination hdm.symm
      · have e := i5 hrest
        rw [pow_succ]
        linear_combination e + (BIGINT_RADIX ^ rest.length) * hdm.symm

/-- The packed quotient of the long division of a well-formed number by a positive
divisor: well-formed, and its magnitude times the divisor plus the last remainder is
the magnitude of the dividend. -/
theorem div_int_core (p : bigint) (d : Int) (hp : well_formed p) (hd : 0 < d) :
    ∃ Q : Int, 0 ≤ Q ∧ 0 ≤ (div_int_loop d 0 0 p.data.reverse).2 ∧
      (div_int_loop d 0 0 p.data.reverse).2 < d ∧
      seg_value p.data = d * Q + (div_int_loop d 0 0 p.data.reverse).2 ∧
      well_formed (bigint_pack_memory
        ⟨p.sign, (div_int_loop d 0 0 p.data.reverse).1.reverse, p.mem_size⟩) ∧
      value (bigint_pack_memory
        ⟨p.sign, (div_int_loop d 0 0 p.data.reverse).1.reverse, p.mem_size⟩) = p.sign * Q := by
  obtain ⟨hs, hlen, hr, htop, hz, hm⟩ := hp
  have hne : p.data.reverse ≠ [] := by
    intro h
    have := congrArg List.length h
    simp only [List.length_reverse, List.length_nil] at this
    omega
  obtain ⟨i1, i2, i3, i4, i5⟩ := div_int_loop_spec d hd p.data.reverse 0 0 (le_refl 0) hd
    (le_refl 0) hd (fun x hx => hr x (List.mem_reverse.1 hx))
  rw [Int.zero_mul] at i1 i2 i3 i4 i5
  have e := i5 hne
  rw [List.reverse_reverse, Int.zero_mul, Int.zero_add] at e
  have hrq : ∀ s ∈ (div_int_loop d 0 0 p.data.reverse).1.reverse, 0 ≤ s ∧ s < BIGINT_RADIX :=
    fun s hs => i2 s (List.mem_reverse.1 hs)
  refine ⟨seg_value (div_int_loop d 0 0 p.data.reverse).1.reverse,
    (seg_value_lt_pow _ hrq).1, i3, i4, e, ?_, ?_⟩
  · apply pack_memory_well_formed
    · exact hs
    · intro h
      have := congrArg List.length h
      simp only [List.length_reverse, i1, List.length_nil] at this
      omega
    · exact hrq
    · intro h0
      have hd0 : p.data = [0] := hz.1 h0
      simp only [hd0, List.reverse_cons, List.reverse_nil, List.nil_append, div_int_loop]
      intro s hs
      simpa using hs
    · simp only [List.length_reverse, i1]
      exact hm
  · rw [pack_memory_value]
    rfl

/-- `a = d0 * q + r` with `0 ≤ r < d0` gives the floor quotient of `a` by `d0`, and
that of `-a` by `-d0`. -/
theorem fdiv_of_magnitude (v d A d0 q r : Int) (hA : A = d0 * q + r) (h0 : 0 ≤ r) (h1 : r < d0)
    (h : (v = A ∧ d = d0) ∨ (v = -A ∧ d = -d0)) : Int.fdiv v d = q := by
  rcases h with ⟨e1, e2⟩ | ⟨e1, e2⟩
  · rw [e1, e2]
    exact fdiv_unique A d0 q r hA (Or.inl ⟨h0, h1⟩)
  · rw [e1, e2]
    exact fdiv_unique (-A) (-d0) q (-r) (by rw [hA]; ring) (by omega)

/-- `bigint_change_sign` on a well-formed number negates the sign and keeps the
segments. -/
theorem change_sign_fields (p : bigint) (hp : well_formed p) :
    (bigint_change_sign p).sign = -p.sign ∧ (bigint_change_sign p).data = p.data ∧
    (bigint_change_sign p).mem_size = p.mem_size := by
  obtain ⟨hs, hlen, hr, htop, hz, hm⟩ := hp
  unfold bigint_change_sign bigint_check_sign
  by_cases h : p.data = [0]
  · have := hz.2 h
    simp [h, this]
  · simp [h]

/-- The quotient `bigint_div_by_int` leaves for a positive divisor above 1, with the
final adjustment for a negative dividend: the floor quotient. -/
theorem div_int_pos_spec (p : bigint) (d : Int) (hp : well_formed p) (hd : 0 < d) :
    value (if (div_int_loop d 0 0 p.data.reverse).2 ≠ 0 ∧ p.sign < 0 then
        bigint_sub_by_int (bigint_pack_memory
          ⟨p.sign, (div_int_loop d 0 0 p.data.reverse).1.reverse, p.mem_size⟩) 1
      else bigint_pack_memory
          ⟨p.sign, (div_int_loop d 0 0 p.data.reverse).1.reverse, p.mem_size⟩) =
      Int.fdiv (value p) d := by
  obtain ⟨Q, hQ, hr0, hr1, hsv, hwf, hval⟩ := div_int_core p d hp hd
  have hs := hp.1
  have hz := hp.2.2.2.2.1
  have hvp : value p = p.sign * (d * Q + (div_int_loop d 0 0 p.data.reverse).2) := by
    rw [← hsv]; rfl
  have hR : BIGINT_RADIX = 1000000000 := rfl
  by_cases hc : (div_int_loop d 0 0 p.data.reverse).2 ≠ 0 ∧ p.sign < 0
  · rw [if_pos hc]
    have hsg : p.sign = -1 := by omega
    have hv := add_by_int_small_value 2 _ (-1) hwf (by rw [hR]; omega)
    unfold bigint_sub_by_int bigint_add_by_int
    rw [hv, hval]
    symm
    apply fdiv_unique (value p) d _ (d - (div_int_loop d 0 0 p.data.reverse).2)
    · rw [hvp, hsg]; ring
    · left; omega
  · rw [if_neg hc, hval]
    symm
    rcases hs with h | h | h
    · have h0 : (div_int_loop d 0 0 p.data.reverse).2 = 0 := by
        by_contra hne
        exact hc ⟨hne, by omega⟩
      apply fdiv_unique (value p) d _ 0
      · rw [hvp, h, h0]; ring
      · left; omega
    · rw [hvp, h]
      simp
    · apply fdiv_unique (value p) d _ (div_int_loop d 0 0 p.data.reverse).2
      · rw [hvp, h]; ring
      · left; omega

/-- `bigint_div_by_int` by a nonzero divisor succeeds and leaves the floor of the
quotient of the values. -/
theorem div_by_int_spec (a : bigint) (d : Int) (ha : well_formed a) (hd : d ≠ 0) :
    (bigint_div_by_int a d).1 = bigint_errno.BIGINT_NOERR ∧
    value (bigint_div_by_int a d).2 = Int.fdiv (value a) d := by
  obtain ⟨hw1, hv1⟩ := change_sign_spec a ha
  obtain ⟨hf1, -, -⟩ := change_sign_fields a ha
  have hs := ha.1
  unfold bigint_div_by_int
  rw [if_neg hd]
  by_cases hneg : d < 0
  · simp only [if_pos hneg]
    by_cases h1 : -d ≠ 1
    · rw [if_pos h1]
      have hc : ∀ r : Int, (r ≠ 0 ∧ ((d < 0 ∧ a.sign > 0) ∨ (¬ d < 0 ∧ a.sign < 0))) ↔
          (r ≠ 0 ∧ (bigint_change_sign a).sign < 0) := by
        intro r; rw [hf1]; constructor <;> intro h <;> refine ⟨h.1, ?_⟩ <;> omega
      simp only [hc]
      have h := div_int_pos_spec (bigint_change_sign a) (-d) hw1 (by omega)
      constructor
      · split <;> rfl
      · have e : Int.fdiv (value (bigint_change_sign a)) (-d) = Int.fdiv (value a) d := by
          rw [hv1, fdiv_neg_divisor (value a) d hneg, Int.fdiv_eq_ediv _ (by omega)]
        rw [← e, ← h]
        split <;> rfl
    · rw [if_neg h1]
      refine ⟨rfl, ?_⟩
      have hd1 : d = -1 := by omega
      show value (bigint_change_sign a) = _
      rw [hv1, hd1]
      symm
      exact fdiv_unique (value a) (-1) (-value a) 0 (by ring) (by omega)
  · simp only [if_neg hneg]
    by_cases h1 : d ≠ 1
    · rw [if_pos h1]
      have hc : ∀ r : Int, (r ≠ 0 ∧ ((d < 0 ∧ a.sign > 0) ∨ (¬ d < 0 ∧ a.sign < 0))) ↔
          (r ≠ 0 ∧ a.sign < 0) := by
        intro r; constructor <;> intro h <;> refine ⟨h.1, ?_⟩ <;> omega
      simp only [hc]
      have h := div_int_pos_spec a d ha (by omega)
      constructor
      · split <;> rfl
      · rw [← h]
        split <;> rfl
    · rw [if_neg h1]
      refine ⟨rfl, ?_⟩
      have hd1 : d = 1 := by omega
      show value a = _
      rw [hd1]
      simp

/-- The C remainder of a non-negative dividend is the Euclidean one, whatever the
sign of the divisor. -/
theorem tmod_of_nonneg (a v : Int) (ha : 0 ≤ a) : Int.tmod a v = a % v := by
  by_cases hv : 0 ≤ v
  · exact Int.tmod_eq_emod ha hv
  · have e : v = -(-v) := by omega
    rw [e, Int.tmod_neg, Int.emod_neg]
    exact Int.tmod_eq_emod ha (by omega)

/-- The Euclidean remainder is below the magnitude of a nonzero divisor. -/
theorem emod_lt_magnitude (a v : Int) (hv : v ≠ 0) : 0 ≤ a % v ∧ (a % v < v ∨ a % v < -v) := by
  refine ⟨Int.emod_nonneg a hv, ?_⟩
  by_cases h : 0 < v
  · exact Or.inl (Int.emod_lt_of_pos a h)
  · right
    have := Int.emod_lt_of_pos a (by omega : 0 < -v)
    rwa [Int.emod_neg] at this

/-- The loop of `bigint_mod_by_int` computes the remainder of the magnitude. -/
theorem mod_int_loop_spec (v : Int) (hv : v ≠ 0) (l : List Int) :
    ∀ r : Int, 0 ≤ r → (r < v ∨ r < -v) → (∀ x ∈ l, 0 ≤ x) →
    mod_int_loop v r l = (r * BIGINT_RADIX ^ l.length + seg_value l.reverse) % v := by
  induction l with
  | nil =>
    intro r h0 h1 _
    simp only [mod_int_loop, List.length_nil, pow_zero, Int.mul_one, List.reverse_nil, seg_value,
      Int.add_zero]
    rcases h1 with h1 | h1
    · exact (Int.emod_eq_of_lt h0 h1).symm
    · have := Int.emod_eq_of_lt h0 h1
      rw [Int.emod_neg] at this
      exact this.symm
  | cons x rest ih =>
    intro r h0 h1 hl
    have hx : 0 ≤ x := hl x (List.mem_cons_self _ _)
    have hv0 : 0 ≤ r * BIGINT_RADIX + x := by
      have : 0 ≤ r * BIGINT_RADIX := Int.mul_nonneg h0 (by norm_num)
      omega
    obtain ⟨b0, b1⟩ := emod_lt_magnitude (r * BIGINT_RADIX + x) v hv
    rw [mod_int_loop, tmod_of_nonneg _ _ hv0,
      ih _ b0 b1 (fun s hs => hl s (List.mem_cons_of_mem _ hs)), seg_value_reverse_cons,
      List.length_cons, pow_succ]
    have e : r * (BIGINT_RADIX ^ rest.length * BIGINT_RADIX) +
        (seg_value rest.reverse + BIGINT_RADIX ^ rest.length * x) =
        (r * BIGINT_RADIX + x) * BIGINT_RADIX ^ rest.length + seg_value rest.reverse := by ring
    rw [e, Int.add_emod, Int.mul_emod, Int.emod_emod, ← Int.mul_emod, ← Int.add_emod]

/-- A remainder that is zero or has the sign of the divisor and is smaller in
magnitude is the value minus the divisor times the floor quotient. -/
theorem fmod_unique (a d q r : Int) (h : a = d * q + r)
    (hr : (0 ≤ r ∧ r < d) ∨ (d < r ∧ r ≤ 0)) : r = a - d * Int.fdiv a d := by
  rw [fdiv_unique a d q r h hr]
  omega

/-- `bigint_mod_by_int` by a nonzero divisor succeeds, leaves the number as it was,
and stores the remainder of floor division: zero or of the sign of the divisor, and
smaller in magnitude. -/
theorem mod_by_int_spec (a : bigint) (d old : Int) (ha : well_formed a) (hd : d ≠ 0) :
    bigint_mod_by_int a d old =
      (bigint_errno.BIGINT_NOERR, value a - d * Int.fdiv (value a) d, a) ∧
    ((0 ≤ value a - d * Int.fdiv (value a) d ∧ value a - d * Int.fdiv (value a) d < d) ∨
      (d < value a - d * Int.fdiv (value a) d ∧ value a - d * Int.fdiv (value a) d ≤ 0)) := by
  obtain ⟨hs, hlen, hr, htop, hz, hm⟩ := ha
  have hloop := mod_int_loop_spec d hd a.data.reverse 0 (le_refl 0) (by omega)
    (fun x hx => (hr x (List.mem_reverse.1 hx)).1)
  rw [Int.zero_mul, Int.zero_add, List.reverse_reverse] at hloop
  obtain ⟨m0, m1⟩ := emod_lt_magnitude (seg_value a.data) d hd
  have hdm := Int.emod_add_ediv (seg_value a.data) d
  have hzero : a.sign = 0 → seg_value a.data % d = 0 := by
    intro h0
    rw [hz.1 h0]
    simp [seg_value]
  have hva : value a = a.sign * seg_value a.data := rfl
  unfold bigint_mod_by_int
  rw [if_neg hd, check_sign_of_well_formed a ⟨hs, hlen, hr, htop, hz, hm⟩]
  simp only [hloop]
  have hr0 : (if a.sign < 0 then -(seg_value a.data % d) else seg_value a.data % d) =
      a.sign * (seg_value a.data % d) := by
    rcases hs with h | h | h
    · rw [h]; simp
    · rw [hzero h, h]; simp
    · rw [h]; simp
  rw [hr0]
  have hb : (a.sign * (seg_value a.data % d) < d ∨ a.sign * (seg_value a.data % d) < -d) ∧
      (-d < a.sign * (seg_value a.data % d) ∨ d < a.sign * (seg_value a.data % d)) := by
    rcases hs with h | h | h <;> rw [h] <;> omega
  have heq : value a = d * (a.sign * (seg_value a.data / d)) + a.sign * (seg_value a.data % d) := by
    rw [hva]
    linear_combination a.sign * hdm.symm
  generalize a.sign * (seg_value a.data % d) = r0 at hb heq ⊢
  generalize a.sign * (seg_value a.data / d) = q0 at heq
  have key : ∀ q r : Int, value a = d * q + r → ((0 ≤ r ∧ r < d) ∨ (d < r ∧ r ≤ 0)) →
      ((bigint_errno.BIGINT_NOERR, r, a) : bigint_errno × Int × bigint) =
        (bigint_errno.BIGINT_NOERR, value a - d * Int.fdiv (value a) d, a) ∧
      ((0 ≤ value a - d * Int.fdiv (value a) d ∧ value a - d * Int.fdiv (value a) d < d) ∨
        (d < value a - d * Int.fdiv (value a) d ∧ value a - d * Int.fdiv (value a) d ≤ 0)) := by
    intro q r h1 h2
    have := fmod_unique (value a) d q r h1 h2
    rw [← this]
    exact ⟨rfl, h2⟩
  by_cases c1 : d < 0 ∧ r0 > 0
  · rw [if_pos c1]
    exact key (q0 - 1) (r0 + d) (by rw [heq]; ring) (by omega)
  · rw [if_neg c1]
    by_cases c2 : d > 0 ∧ r0 < 0
    · rw [if_pos c2]
      exact key (q0 - 1) (r0 + d) (by rw [heq]; ring) (by omega)
    · rw [if_neg c2]
      exact key q0 r0 heq (by omega)

/-- C22: for a well-formed `a` and a nonzero `int` divisor `d` other than `INT_MIN`,
`bigint_div_by_int` succeeds and leaves a number whose value is the floor of
`value(a) / d`; `bigint_mod_by_int` succeeds, leaves `a` as it was, and stores
`r = value(a) - d * floor(value(a) / d)`, which is zero or has the sign of `d`, with
`|r| < |d|`. -/
theorem div_mod_by_int_floor (a : bigint) (d old : Int) (ha : well_formed a) (hd : d ≠ 0)
    (h1 : -2147483648 < d) (h2 : d < 2147483648) :
    (bigint_div_by_int a d).1 = bigint_errno.BIGINT_NOERR ∧
    value (bigint_div_by_int a d).2 = Int.fdiv (value a) d ∧
    (bigint_mod_by_int a d old).1 = bigint_errno.BIGINT_NOERR ∧
    (bigint_mod_by_int a d old).2.2 = a ∧
    (bigint_mod_by_int a d old).2.1 = value a - d * Int.fdiv (value a) d ∧
    ((bigint_mod_by_int a d old).2.1 = 0 ∨
      (0 < (bigint_mod_by_int a d old).2.1 ∧ 0 < d) ∨
      ((bigint_mod_by_int a d old).2.1 < 0 ∧ d < 0)) ∧
    |(bigint_mod_by_int a d old).2.1| < |d| := by
  obtain ⟨e1, e2⟩ := div_by_int_spec a d ha hd
  obtain ⟨e3, e4⟩ := mod_by_int_spec a d old ha hd
  rw [e3]
  refine ⟨e1, e2, rfl, rfl, rfl, ?_, ?_⟩
  · dsimp only
    omega
  · dsimp only
    rw [abs_lt]
    rcases e4 with ⟨e5, e6⟩ | ⟨e5, e6⟩
    · rw [abs_of_pos (by omega : 0 < d)]; omega
    · rw [abs_of_neg (by omega : d < 0)]; omega

/-- C22 at -3999999999 and 2: the quotient has the value -2000000000 and the
remainder is 1. -/
theorem div_mod_by_int_floor_witness :
    well_formed ⟨-1, [999999999, 3], 4⟩ ∧
    value (bigint_div_by_int ⟨-1, [999999999, 3], 4⟩ 2).2 = Int.fdiv (value ⟨-1, [999999999, 3], 4⟩) 2 ∧
    Int.fdiv (value ⟨-1, [999999999, 3], 4⟩) 2 = -2000000000 ∧
    (bigint_mod_by_int ⟨-1, [999999999, 3], 4⟩ 2 0).2.1 =
      value ⟨-1, [999999999, 3], 4⟩ - 2 * Int.fdiv (value ⟨-1, [999999999, 3], 4⟩) 2 ∧
    (bigint_mod_by_int ⟨-1, [999999999, 3], 4⟩ 2 0).2.1 = 1 :=
  ⟨by decide,
    (div_mod_by_int_floor ⟨-1, [999999999, 3], 4⟩ 2 0 (by decide) (by decide) (by decide)
      (by decide)).2.1,
    by decide,
    (div_mod_by_int_floor ⟨-1, [999999999, 3], 4⟩ 2 0 (by decide) (by decide) (by decide)
      (by decide)).2.2.2.2.1,
    by decide⟩

/-! ## Multiplication by a power of ten -/

/-- The power-of-ten loop multiplies its start value by `10^n`. -/
theorem pow10_loop_eq (n : Nat) : ∀ prod : Int, pow10_loop n prod = prod * 10 ^ n := by
  induction n with
  | zero => intro prod; simp [pow10_loop]
  | succ n ih =>
    intro prod
    rw [pow10_loop, ih, pow_succ]
    ring

/-- `bigint_mul_by_int` by a multiplier from 1 to the radix, on segments in range
(the number need not be packed): the value is the product and the sign is kept. -/
theorem mul_by_int_value (p : bigint) (v : Int) (hr : ∀ s ∈ p.data, 0 ≤ s ∧ s < BIGINT_RADIX)
    (hv0 : 0 < v) (hv1 : v ≤ BIGINT_RADIX) :
    value (bigint_mul_by_int p v) = value p * v ∧ (bigint_mul_by_int p v).sign = p.sign := by
  unfold bigint_mul_by_int
  rw [if_neg (by omega)]
  by_cases h1 : v = 1
  · rw [if_pos h1, h1]
    exact ⟨by ring, rfl⟩
  · rw [if_neg h1, if_neg (by omega)]
    simp only [if_neg (not_lt.2 (le_of_lt hv0))]
    obtain ⟨hasg, hadat, -, -⟩ := assure_memory_fields p
      (p.data_len + (BIGINT_INT_MAX_DIGITS / BIGINT_RADIX_LOG10 + 1))
    rw [hasg, hadat]
    obtain ⟨m1, -⟩ := mul_int_loop_spec v hv0 hv1 p.data 0 (le_refl _) hv0 hr
    refine ⟨?_, rfl⟩
    unfold value
    simp only
    rw [m1]
    ring

/-- The value and the sign `bigint_mul_by_pow_10` leaves for a non-negative
exponent. -/
theorem mul_by_pow_10_spec (x : bigint) (k : Nat) (hx : well_formed x) :
    value (bigint_mul_by_pow_10 x k) = value x * 10 ^ k ∧
    (bigint_mul_by_pow_10 x k).sign = x.sign ∧
    (0 < k → bigint_mul_by_pow_10 x k =
      bigint_mul_by_int ⟨x.sign, List.replicate (k / 9) 0 ++ x.data, (k / 9 + 2) + x.data_len⟩
        (10 ^ (k % 9))) := by
  by_cases hk : k = 0
  · subst hk
    refine ⟨?_, rfl, fun h => absurd h (by omega)⟩
    show value x = _
    simp
  · have e1 : (((k : Int) / 9).toNat) = k / 9 := by omega
    have e2 : (((k : Int) % 9).toNat) = k % 9 := by omega
    have e3 : (((k : Int) / 9 + 2).toNat) = k / 9 + 2 := by omega
    have hform : bigint_mul_by_pow_10 x k =
        bigint_mul_by_int ⟨x.sign, List.replicate (k / 9) 0 ++ x.data, (k / 9 + 2) + x.data_len⟩
          (10 ^ (k % 9)) := by
      unfold bigint_mul_by_pow_10 mul_by_pow_10_pos
      rw [if_neg (by omega), if_pos (by omega)]
      simp only [e1, e2, e3, pow10_loop_eq, Int.one_mul]
    have hj : k % 9 < 9 := Nat.mod_lt _ (by norm_num)
    have hp0 : (0 : Int) < 10 ^ (k % 9) := by positivity
    have hp1 : (10 : Int) ^ (k % 9) ≤ BIGINT_RADIX := by
      have : (10 : Int) ^ (k % 9) ≤ 10 ^ 9 := pow_le_pow_right₀ (by norm_num) (le_of_lt hj)
      exact le_trans this (by norm_num)
    have hr : ∀ s ∈ (⟨x.sign, List.replicate (k / 9) 0 ++ x.data,
        (k / 9 + 2) + x.data_len⟩ : bigint).data, 0 ≤ s ∧ s < BIGINT_RADIX := by
      intro s hs
      rcases List.mem_append.1 hs with h | h
      · rw [(List.mem_replicate.1 h).2]; norm_num
      · exact hx.2.2.1 s h
    obtain ⟨v1, v2⟩ := mul_by_int_value _ _ hr hp0 hp1
    rw [hform]
    refine ⟨?_, v2, fun _ => rfl⟩
    rw [v1]
    unfold value
    simp only
    rw [seg_value_shift]
    have hR : BIGINT_RADIX = 10 ^ 9 := by norm_num
    have hk9 : k = 9 * (k / 9) + k % 9 := (Nat.div_add_mod k 9).symm
    rw [hR, ← pow_mul]
    nth_rewrite 3 [hk9]
    rw [pow_add]
    ring

/-- C23: for a well-formed `x` and an exponent `k >= 0`, `bigint_mul_by_pow_10`
leaves the value `value(x) * 10^k` and the sign of `x`; for `k > 0` the result is
`bigint_mul_by_int` by `10^(k mod 9)` applied to the number with `k / 9` zero segments
inserted at the low end; and for a negative exponent (above `INT_MIN`, whose negation
is not an `int`) the function is `bigint_div_by_pow_10` of the negated exponent. -/
theorem mul_by_pow_10_value (x : bigint) (k : Int) (hx : well_formed x) (hk : 0 ≤ k) :
    value (bigint_mul_by_pow_10 x k) = value x * 10 ^ k.toNat ∧
    (bigint_mul_by_pow_10 x k).sign = x.sign ∧
    (0 < k → bigint_mul_by_pow_10 x k =
      bigint_mul_by_int
        ⟨x.sign, List.replicate (k.toNat / 9) 0 ++ x.data, (k.toNat / 9 + 2) + x.data_len⟩
        (10 ^ (k.toNat % 9))) ∧
    (∀ j : Int, -2147483648 < j → j < 0 →
      bigint_mul_by_pow_10 x j = bigint_div_by_pow_10 x (-j)) := by
  obtain ⟨n, rfl⟩ := Int.eq_ofNat_of_zero_le hk
  obtain ⟨h1, h2, h3⟩ := mul_by_pow_10_spec x n hx
  refine ⟨h1, h2, ?_, ?_⟩
  · intro h
    exact h3 (by omega)
  · intro j _ hj
    unfold bigint_mul_by_pow_10 bigint_div_by_pow_10
    rw [if_pos hj, if_neg (by omega), if_pos (by omega)]

/-- C23 at -5 and the exponent 20: two zero segments and the multiplier 100. -/
theorem mul_by_pow_10_value_witness :
    well_formed ⟨-1, [5], 4⟩ ∧
    value (bigint_mul_by_pow_10 ⟨-1, [5], 4⟩ 20) = value ⟨-1, [5], 4⟩ * 10 ^ (20 : Int).toNat ∧
    bigint_mul_by_pow_10 ⟨-1, [5], 4⟩ 20 = ⟨-1, [0, 0, 500], 5⟩ ∧
    bigint_mul_by_pow_10 ⟨-1, [5], 4⟩ (-20) = bigint_div_by_pow_10 ⟨-1, [5], 4⟩ 20 :=
  ⟨by decide,
    (mul_by_pow_10_value ⟨-1, [5], 4⟩ 20 (by decide) (by decide)).1,
    by decide,
    (mul_by_pow_10_value ⟨-1, [5], 4⟩ 20 (by decide) (by decide)).2.2.2 (-20) (by decide)
      (by decide)⟩

/-- For a nonzero well-formed number `bigint_mul_by_pow_10` with a non-negative
exponent leaves a well-formed number: the inserted zero segments lie below a nonzero
top segment. -/
theorem mul_by_pow_10_nonzero_well_formed (x : bigint) (k : Nat) (hx : well_formed x)
    (h0 : x.sign ≠ 0) : well_formed (bigint_mul_by_pow_10 x k) := by
  by_cases hk : k = 0
  · subst hk
    exact hx
  · obtain ⟨-, -, hform⟩ := mul_by_pow_10_spec x k hx
    rw [hform (by omega)]
    have hj : k % 9 < 9 := Nat.mod_lt _ (by norm_num)
    have hp1 : (10 : Int) ^ (k % 9) ≤ BIGINT_RADIX := by
      have : (10 : Int) ^ (k % 9) ≤ 10 ^ 9 := pow_le_pow_right₀ (by norm_num) (le_of_lt hj)
      exact le_trans this (by norm_num)
    obtain ⟨ls, lne, -, -, -, llast, -⟩ := loose_of_well_formed x hx
    obtain ⟨hs, hlen, hr, -, -, -⟩ := hx
    have hlast : (List.replicate (k / 9) 0 ++ x.data).getLast? ≠ some 0 := by
      rw [getLast_append_ne_nil _ _ lne]
      exact llast h0
    refine (mul_by_int_spec
      ⟨x.sign, List.replicate (k / 9) 0 ++ x.data, (k / 9 + 2) + x.data_len⟩ (10 ^ (k % 9))
      ⟨hs, ?_, ?_, fun _ => hlast, ?_, ?_⟩ (by positivity) hp1).1
    · simp only [List.length_append, List.length_replicate]
      omega
    · intro s hs
      rcases List.mem_append.1 hs with h | h
      · rw [(List.mem_replicate.1 h).2]; norm_num
      · exact hr s h
    · constructor
      · intro h; exact absurd h h0
      · intro h
        simp only at h
        rw [h] at hlast
        exact absurd rfl hlast
    · simp only [List.length_append, List.length_replicate, bigint.data_len]
      omega

/-! ## Inputs on which a result is not normalised -/

/-- C24 at 1999999999 plus 1: the fast path of `bigint_add_by_int` tests the carry
with `p_data[index] > BIGINT_RADIX`, so the low segment 999999999 + 1 = 1000000000 is
left as it is; the value, 2000000000, is right, but the segment is not below 10^9
and the number is formatted as "1000000000".  `bigint_add_by` with a one-segment
source takes the same path. -/
theorem add_by_int_segment_radix :
    well_formed ⟨1, [999999999, 1], 4⟩ ∧ well_formed ⟨1, [1], 4⟩ ∧
    bigint_add_by_int ⟨1, [999999999, 1], 4⟩ 1 = ⟨1, [1000000000, 1], 4⟩ ∧
    (bigint_add_by ⟨1, [999999999, 1], 4⟩ ⟨1, [1], 4⟩).1 = ⟨1, [1000000000, 1], 4⟩ ∧
    ¬ well_formed (bigint_add_by_int ⟨1, [999999999, 1], 4⟩ 1) ∧
    ¬ well_formed (bigint_add_by ⟨1, [999999999, 1], 4⟩ ⟨1, [1], 4⟩).1 ∧
    value (bigint_add_by_int ⟨1, [999999999, 1], 4⟩ 1) = 2000000000 ∧
    bigint_to_string (bigint_add_by_int ⟨1, [999999999, 1], 4⟩ 1) =
      ['1', '0', '0', '0', '0', '0', '0', '0', '0', '0', NUL] := by
  decide

/-- C25 at zero and the exponent 9: `bigint_mul_by_pow_10` inserts one zero segment
below the zero segment and does not pack, so the result has two segments, the top one
zero. -/
theorem mul_by_pow_10_zero_unpacked :
    well_formed ⟨0, [0], 4⟩ ∧
    bigint_mul_by_pow_10 ⟨0, [0], 4⟩ 9 = ⟨0, [0, 0], 4⟩ ∧
    ¬ well_formed (bigint_mul_by_pow_10 ⟨0, [0], 4⟩ 9) ∧
    bigint_mul_by_pow_10 ⟨0, [0], 4⟩ 20 = ⟨0, [0, 0, 0], 5⟩ := by
  decide

/-- C27 at -3999999999 divided by 2, for every reciprocal estimate (the path does not
use it): the quotient `bigint_divmod` leaves has the segments 1000000000 and 1, so it
is not well-formed, and it is formatted as "-1000000000" although the floor of the
quotient is -2000000000. -/
theorem divmod_small_divisor_segment_radix (newton : bigint → Int → bigint × Int) :
    well_formed ⟨-1, [999999999, 3], 4⟩ ∧ well_formed ⟨1, [2], 4⟩ ∧
    bigint_divmod newton ⟨-1, [999999999, 3], 4⟩ ⟨1, [2], 4⟩ bigint_init bigint_init =
      some (bigint_errno.BIGINT_NOERR, ⟨-1, [999999999, 3], 4⟩, ⟨1, [2], 4⟩,
        ⟨-1, [1000000000, 1], 4⟩, ⟨1, [1], 4⟩) ∧
    ¬ well_formed ⟨-1, [1000000000, 1], 4⟩ ∧
    bigint_to_string ⟨-1, [1000000000, 1], 4⟩ =
      ['-', '1', '0', '0', '0', '0', '0', '0', '0', '0', '0', NUL] ∧
    Int.fdiv (value ⟨-1, [999999999, 3], 4⟩) (value ⟨1, [2], 4⟩) = -2000000000 := by
  refine ⟨by decide, by decide, ?_, by decide, by decide, by decide⟩
  rfl

/-! ## Errors leave the destination as it was -/

/-- After `bigint_check_sign` a negative sign means the number is not the one-segment
zero, so `bigint_change_sign` makes the sign positive. -/
theorem check_sign_change_sign_pos (b : bigint) (h : (bigint_check_sign b).sign < 0) :
    0 < (bigint_check_sign (bigint_change_sign (bigint_check_sign b))).sign := by
  unfold bigint_change_sign bigint_check_sign at *
  by_cases hd : b.data = [0]
  · simp [hd] at h
  · simp only [if_neg hd] at h ⊢
    omega

/-- With a nonzero divisor every path of `bigint_divmod` that returns, returns
success; the divisor need not be well-formed. -/
theorem divmod_nonzero_errno (newton : bigint → Int → bigint × Int) (a b q r : bigint)
    (hb : (bigint_check_sign b).sign ≠ 0)
    (res : bigint_errno × bigint × bigint × bigint × bigint)
    (h : bigint_divmod newton a b q r = some res) : res.1 = bigint_errno.BIGINT_NOERR := by
  unfold bigint_divmod at h
  by_cases hneg : (bigint_check_sign b).sign < 0
  · rw [divmod_aux] at h
    simp only at h
    rw [if_neg hb, if_pos hneg] at h
    have hpos := check_sign_change_sign_pos b hneg
    cases hin : divmod_aux newton 1 a (bigint_change_sign (bigint_check_sign b)) q r with
    | none =>
      rw [hin] at h
      exact absurd h (by simp)
    | some res1 =>
      have he := divmod_aux_pos_errno newton 0 a _ q r hpos res1 hin
      obtain ⟨ret, a2, b2, q2, r2⟩ := res1
      rw [hin] at h
      simp only at he h
      subst he
      cases hck : bigint_divmod_check a2 b2 q2 r2 with
      | none =>
        rw [hck] at h
        exact absurd h (by simp)
      | some c =>
        obtain ⟨a3, b3, q3, r3⟩ := c
        rw [hck] at h
        simp only at h
        split_ifs at h <;> exact divmod_assert_return_errno _ _ _ _ _ res h
  · exact divmod_aux_pos_errno newton 1 a b q r (by omega) res h

/-- C26: when `bigint_from_string`, `bigint_pow_by_int`, `bigint_div_by`,
`bigint_mod_by`, `bigint_div_by_int` or `bigint_mod_by_pow_10` returns an error, the
destination is exactly what it was before the call: sign, segments and capacity. -/
theorem error_leaves_destination (newton : bigint → Int → bigint × Int)
    (p dst src : bigint) (str : List Char) (pow d : Int) :
    ((bigint_from_string p str).1 ≠ bigint_errno.BIGINT_NOERR →
      (bigint_from_string p str).2 = p) ∧
    ((bigint_pow_by_int p pow).1 ≠ bigint_errno.BIGINT_NOERR →
      (bigint_pow_by_int p pow).2 = p) ∧
    (∀ res, bigint_div_by newton dst src = some res →
      res.1 ≠ bigint_errno.BIGINT_NOERR → res.2.1 = dst) ∧
    (∀ res, bigint_mod_by newton dst src = some res →
      res.1 ≠ bigint_errno.BIGINT_NOERR → res.2.1 = dst) ∧
    ((bigint_div_by_int p d).1 ≠ bigint_errno.BIGINT_NOERR →
      (bigint_div_by_int p d).2 = p) ∧
    ((bigint_mod_by_pow_10 p pow).1 ≠ bigint_errno.BIGINT_NOERR →
      (bigint_mod_by_pow_10 p pow).2 = p) := by
  refine ⟨?_, ?_, ?_, ?_, ?_, ?_⟩
  · unfold bigint_from_string
    simp only
    cases h1 : fsm_loop fsm_init 0 (c_string str) with
    | none => intro _; rfl
    | some v0 =>
      cases h2 : fsm_finish v0 ((c_string str).length : Nat) with
      | none => intro _; simp only [h2]
      | some v =>
        simp only [h2]
        intro hne
        exfalso
        apply hne
        split_ifs <;> rfl
  · unfold bigint_pow_by_int
    rw [pow_by_int_aux]
    by_cases h : pow < 0
    · rw [if_pos h]
      intro _; rfl
    · rw [if_neg h]
      intro hne
      exfalso
      apply hne
      simp only
      split_ifs <;> rfl
  · intro res h hne
    unfold bigint_div_by at h
    simp only at h
    by_cases h0 : (bigint_check_sign src).sign = 0
    · rw [if_pos h0] at h
      simp only [Option.some.injEq] at h
      rw [← h]
    · rw [if_neg h0] at h
      have hcs : (bigint_check_sign (bigint_check_sign src)).sign ≠ 0 := by
        unfold bigint_check_sign at h0 ⊢
        by_cases hd : src.data = [0]
        · simp [hd] at h0
        · simpa [hd] using h0
      cases hin : bigint_divmod newton dst (bigint_check_sign src) bigint_init bigint_init with
      | none =>
        rw [hin] at h
        exact absurd h (by simp)
      | some res1 =>
        have he := divmod_nonzero_errno newton dst _ bigint_init bigint_init hcs res1 hin
        obtain ⟨ret, a2, b2, q2, r2⟩ := res1
        rw [hin] at h
        simp only [Option.some.injEq] at h
        simp only at he
        rw [← h, he] at hne
        exact absurd rfl hne
  · intro res h hne
    unfold bigint_mod_by at h
    simp only at h
    by_cases h0 : (bigint_check_sign src).sign = 0
    · rw [if_pos h0] at h
      simp only [Option.some.injEq] at h
      rw [← h]
    · rw [if_neg h0] at h
      have hcs : (bigint_check_sign (bigint_check_sign src)).sign ≠ 0 := by
        unfold bigint_check_sign at h0 ⊢
        by_cases hd : src.data = [0]
        · simp [hd] at h0
        · simpa [hd] using h0
      cases hin : bigint_divmod newton dst (bigint_check_sign src) bigint_init bigint_init with
      | none =>
        rw [hin] at h
        exact absurd h (by simp)
      | some res1 =>
        have he := divmod_nonzero_errno newton dst _ bigint_init bigint_init hcs res1 hin
        obtain ⟨ret, a2, b2, q2, r2⟩ := res1
        rw [hin] at h
        simp only [Option.some.injEq] at h
        simp only at he
        rw [← h, he] at hne
        exact absurd rfl hne
  · unfold bigint_div_by_int
    by_cases h : d = 0
    · rw [if_pos h]
      intro _; rfl
    · rw [if_neg h]
      intro hne
      exfalso
      apply hne
      simp only
      split_ifs <;> rfl
  · unfold bigint_mod_by_pow_10
    by_cases h : pow < 0
    · rw [if_pos h]
      intro _; rfl
    · rw [if_neg h]
      intro hne
      exfalso
      apply hne
      simp only
      split_ifs <;> rfl

/-- C26 on the destination 5: the text "x", the exponent -1, the divisor zero, the
`int` divisor 0 and the power -1 are refused, and the destination is still 5. -/
theorem error_leaves_destination_witness :
    ((bigint_from_string ⟨1, [5], 4⟩ ['x']).1 ≠ bigint_errno.BIGINT_NOERR ∧
      (bigint_from_string ⟨1, [5], 4⟩ ['x']).2 = ⟨1, [5], 4⟩) ∧
    ((bigint_pow_by_int ⟨1, [5], 4⟩ (-1)).1 ≠ bigint_errno.BIGINT_NOERR ∧
      (bigint_pow_by_int ⟨1, [5], 4⟩ (-1)).2 = ⟨1, [5], 4⟩) ∧
    (bigint_div_by (fun _ _ => (bigint_init, 0)) ⟨1, [5], 4⟩ ⟨0, [0], 4⟩ =
        some (bigint_errno.BIGINT_ILLEGAL_PARAM, ⟨1, [5], 4⟩, ⟨0, [0], 4⟩) ∧
      ((bigint_errno.BIGINT_ILLEGAL_PARAM, ⟨1, [5], 4⟩, ⟨0, [0], 4⟩) :
        bigint_errno × bigint × bigint).2.1 = ⟨1, [5], 4⟩) ∧
    ((bigint_div_by_int ⟨1, [5], 4⟩ 0).1 ≠ bigint_errno.BIGINT_NOERR ∧
      (bigint_div_by_int ⟨1, [5], 4⟩ 0).2 = ⟨1, [5], 4⟩) ∧
    ((bigint_mod_by_pow_10 ⟨1, [5], 4⟩ (-1)).1 ≠ bigint_errno.BIGINT_NOERR ∧
      (bigint_mod_by_pow_10 ⟨1, [5], 4⟩ (-1)).2 = ⟨1, [5], 4⟩) :=
  ⟨⟨by decide,
      (error_leaves_destination (fun _ _ => (bigint_init, 0)) ⟨1, [5], 4⟩ ⟨1, [5], 4⟩
        ⟨0, [0], 4⟩ ['x'] (-1) 0).1 (by decide)⟩,
    ⟨by decide,
      (error_leaves_destination (fun _ _ => (bigint_init, 0)) ⟨1, [5], 4⟩ ⟨1, [5], 4⟩
        ⟨0, [0], 4⟩ ['x'] (-1) 0).2.1 (by decide)⟩,
    ⟨by decide,
      (error_leaves_destination (fun _ _ => (bigint_init, 0)) ⟨1, [5], 4⟩ ⟨1, [5], 4⟩
        ⟨0, [0], 4⟩ ['x'] (-1) 0).2.2.1 _ (by decide) (by decide)⟩,
    ⟨by decide,
      (error_leaves_destination (fun _ _ => (bigint_init, 0)) ⟨1, [5], 4⟩ ⟨1, [5], 4⟩
        ⟨0, [0], 4⟩ ['x'] (-1) 0).2.2.2.2.1 (by decide)⟩,
    ⟨by decide,
      (error_leaves_destination (fun _ _ => (bigint_init, 0)) ⟨1, [5], 4⟩ ⟨1, [5], 4⟩
        ⟨0, [0], 4⟩ ['x'] (-1) 0).2.2.2.2.2 (by decide)⟩⟩

/-! ## The check `bigint_divmod` makes before it returns -/

/-- `bigint_change_sign` negates the value of every number. -/
theorem change_sign_value (p : bigint) : value (bigint_change_sign p) = -value p := by
  unfold bigint_change_sign bigint_check_sign value
  by_cases h : p.data = [0]
  · simp [h, seg_value]
  · simp [h]

theorem check_sign_idem (p : bigint) :
    bigint_check_sign (bigint_check_sign p) = bigint_check_sign p := by
  unfold bigint_check_sign
  by_cases h : p.data = [0]
  · simp [h]
  · simp [h]

/-- `bigint_check_sign` keeps the value of every number. -/
theorem check_sign_value (p : bigint) : value (bigint_check_sign p) = value p := by
  unfold bigint_check_sign value
  by_cases h : p.data = [0]
  · simp [h, seg_value]
  · simp [h]

/-- `bigint_add_by` does nothing to its source but `bigint_check_sign`, whatever the
two numbers are. -/
theorem add_by_aux_source_any (n : Nat) (dst src : bigint) :
    (add_by_aux n dst src).2 = src ∨ (add_by_aux n dst src).2 = bigint_check_sign src := by
  cases n with
  | zero => exact Or.inl rfl
  | succ d =>
    rw [add_by_aux]
    simp only
    split_ifs
    · exact Or.inl rfl
    all_goals exact Or.inr rfl

/-- `bigint_add_by` leaves a source as it was when `bigint_check_sign` does. -/
theorem add_by_aux_source_stable (n : Nat) (dst src : bigint)
    (hs : bigint_check_sign src = src) : (add_by_aux n dst src).2 = src := by
  rcases add_by_aux_source_any n dst src with h | h
  · exact h
  · rw [h, hs]

/-- `bigint_mul_by` does nothing to its source but `bigint_check_sign`, whatever the
two numbers are. -/
theorem mul_by_aux_source_any (fuel : Nat) : ∀ (dst src : bigint),
    (mul_by_aux fuel dst src).2 = src ∨ (mul_by_aux fuel dst src).2 = bigint_check_sign src := by
  induction fuel with
  | zero => intro dst src; exact Or.inl rfl
  | succ n ih =>
    intro dst src
    rw [mul_by_aux]
    simp only
    split_ifs
    · exact Or.inl rfl
    · exact Or.inr rfl
    · right
      unfold bigint_mul_by_trad
      simp only [check_sign_idem]
    · exact Or.inr rfl
    · right
      have h1 : ∀ d : bigint, (mul_by_aux n d (bigint_check_sign src)).2 = bigint_check_sign src := by
        intro d
        rcases ih d (bigint_check_sign src) with h | h
        · exact h
        · rw [h, check_sign_idem]
      rw [h1, h1]
    · exact Or.inr rfl

/-- `bigint_mul_by` leaves a source as it was when `bigint_check_sign` does. -/
theorem mul_by_aux_source_stable (fuel : Nat) (dst src : bigint)
    (hs : bigint_check_sign src = src) : (mul_by_aux fuel dst src).2 = src := by
  rcases mul_by_aux_source_any fuel dst src with h | h
  · exact h
  · rw [h, hs]

/-- `bigint_compare` leaves a well-formed operand as it was, whatever the other
operand is. -/
theorem compare_aux_operands (d : Nat) : ∀ (p1 p2 : bigint),
    (well_formed p1 → (compare_aux d p1 p2).2.1 = p1) ∧
    (well_formed p2 → (compare_aux d p1 p2).2.2 = p2) := by
  induction d with
  | zero => intro p1 p2; exact ⟨fun _ => rfl, fun _ => rfl⟩
  | succ n ih =>
    intro p1 p2
    constructor
    · intro h1
      have hcs := check_sign_of_well_formed p1 h1
      rw [compare_aux]
      simp only [hcs]
      split_ifs
      · rfl
      · rfl
      · rfl
      · simp only
        rw [(ih _ (bigint_change_sign p1)).2 (change_sign_spec p1 h1).1]
        exact change_sign_involutive p1 h1
      · rfl
      · rfl
      · rfl
    · intro h2
      have hcs := check_sign_of_well_formed p2 h2
      rw [compare_aux]
      simp only [hcs]
      split_ifs
      · rfl
      · rfl
      · rfl
      · simp only
        rw [(ih (bigint_change_sign p2) _).1 (change_sign_spec p2 h2).1]
        exact change_sign_involutive p2 h2
      · rfl
      · rfl
      · rfl

theorem compare_segments_zero : ∀ (d1 d2 : List Int), d1.length = d2.length →
    compare_segments d1 d2 = 0 → d1 = d2 := by
  intro d1
  induction d1 with
  | nil =>
    intro d2 hl _
    cases d2 with
    | nil => rfl
    | cons y ys => simp at hl
  | cons x xs ih =>
    intro d2 hl h
    cases d2 with
    | nil => simp at hl
    | cons y ys =>
      rw [compare_segments] at h
      by_cases h1 : x > y
      · rw [if_pos h1] at h
        exact absurd h (by decide)
      · rw [if_neg h1] at h
        by_cases h2 : x < y
        · rw [if_pos h2] at h
          exact absurd h (by decide)
        · rw [if_neg h2] at h
          have hxy : x = y := by omega
          rw [hxy, ih ys (by simpa using hl) h]

/-- One call of `bigint_compare` that does not negate its operands: the result 0
means equal values. -/
theorem compare_aux_zero_direct (d : Nat) (p1 p2 : bigint)
    (hn : ¬ (bigint_check_sign p1).sign < 0)
    (h : (compare_aux (d + 1) p1 p2).1 = 0) : value p1 = value p2 := by
  rw [← check_sign_value p1, ← check_sign_value p2]
  rw [compare_aux] at h
  simp only at h
  by_cases h1 : (bigint_check_sign p1).sign < (bigint_check_sign p2).sign
  · rw [if_pos h1] at h
    exact absurd h (by simp)
  rw [if_neg h1] at h
  by_cases h2 : (bigint_check_sign p1).sign > (bigint_check_sign p2).sign
  · rw [if_pos h2] at h
    exact absurd h (by simp)
  rw [if_neg h2] at h
  have hsg : (bigint_check_sign p1).sign = (bigint_check_sign p2).sign := by omega
  by_cases h3 : (bigint_check_sign p1).sign = 0
  · unfold value
    rw [← hsg, h3]
    simp
  rw [if_neg h3, if_neg hn] at h
  by_cases h5 : (bigint_check_sign p1).data_len > (bigint_check_sign p2).data_len
  · rw [if_pos h5] at h
    exact absurd h (by simp)
  rw [if_neg h5] at h
  by_cases h6 : (bigint_check_sign p1).data_len < (bigint_check_sign p2).data_len
  · rw [if_pos h6] at h
    exact absurd h (by simp)
  rw [if_neg h6] at h
  simp only at h
  have hd : (bigint_check_sign p1).data = (bigint_check_sign p2).data := by
    have := compare_segments_zero _ _ (by
      simp only [List.length_reverse]
      unfold bigint.data_len at h5 h6
      omega) h
    exact List.reverse_injective this
  unfold value
  rw [hd, hsg]

/-- When `bigint_compare` returns 0 the two numbers have the same value, whatever
they are. -/
theorem compare_zero_value (p1 p2 : bigint) (h : (bigint_compare p1 p2).1 = 0) :
    value p1 = value p2 := by
  unfold bigint_compare at h
  by_cases hn : (bigint_check_sign p1).sign < 0
  · rw [compare_aux] at h
    simp only at h
    by_cases h1 : (bigint_check_sign p1).sign < (bigint_check_sign p2).sign
    · rw [if_pos h1] at h
      exact absurd h (by simp)
    rw [if_neg h1] at h
    by_cases h2 : (bigint_check_sign p1).sign > (bigint_check_sign p2).sign
    · rw [if_pos h2] at h
      exact absurd h (by simp)
    rw [if_neg h2, if_neg (by omega), if_pos hn] at h
    simp only at h
    have hpos : ¬ (bigint_check_sign (bigint_change_sign (bigint_check_sign p2))).sign < 0 := by
      have e : (bigint_check_sign p2).sign = (bigint_check_sign p1).sign := by omega
      unfold bigint_change_sign
      rw [check_sign_idem]
      unfold bigint_check_sign at e hn ⊢
      split_ifs at e hn ⊢ <;> simp only <;> omega
    have := compare_aux_zero_direct 0 _ _ hpos h
    rw [change_sign_value, change_sign_value, check_sign_value, check_sign_value] at this
    omega
  · exact compare_aux_zero_direct 1 p1 p2 hn h

/-- The subtraction loop of `bigint_add_by_int` on segments that are not negative:
the value goes down by the amount, as long as the number is at least that large. -/
theorem sub_int_loop_value (l : List Int) : ∀ v : Int, 0 ≤ v → (∀ x ∈ l, 0 ≤ x) →
    v ≤ seg_value l → seg_value (sub_int_loop v l) = seg_value l - v := by
  have hR : BIGINT_RADIX = 1000000000 := rfl
  induction l with
  | nil =>
    intro v hv _ hle
    simp only [seg_value] at hle
    have : v = 0 := by omega
    subst this
    simp [sub_int_loop, seg_value]
  | cons x rest ih =>
    intro v hv hx hle
    have hx0 := hx x (List.mem_cons_self _ _)
    have hrest : ∀ y ∈ rest, 0 ≤ y := fun y hy => hx y (List.mem_cons_of_mem _ hy)
    rw [sub_int_loop]
    by_cases h0 : v ≠ 0
    · rw [if_pos h0]
      by_cases hb : x - v < 0
      · rw [if_pos hb]
        simp only [seg_value] at hle ⊢
        have h1 : 1 ≤ seg_value rest := by rw [hR] at hle; omega
        rw [ih 1 (by omega) hrest h1, hR]
        omega
      · rw [if_neg hb]
        simp only [seg_value]
        omega
    · rw [if_neg h0]
      have : v = 0 := by omega
      rw [this]
      simp

/-- The multi-segment case of `bigint_add_by_int` adds the value also when a segment
of the destination is equal to the radix. -/
theorem add_by_int_large_loose_value (j : Nat) (dst : bigint) (v : Int) (hd : loose j dst)
    (hs0 : dst.sign ≠ 0) (hlen : 1 < dst.data.length)
    (hv : -BIGINT_RADIX < v ∧ v < BIGINT_RADIX) :
    value (add_by_int_large dst v) = value dst + v := by
  obtain ⟨hsign, hne, hr, -, -, hlast, -⟩ := hd
  obtain ⟨hs, hdat, -, -⟩ := assure_memory_fields dst
    (dst.data_len + (BIGINT_INT_MAX_DIGITS / BIGINT_RADIX_LOG10 + 1))
  have hge := seg_value_ge_pow dst.data hne (fun s h => (hr s h).1) (hlast hs0)
  have hR1 : BIGINT_RADIX ≤ BIGINT_RADIX ^ (dst.data.length - 1) := by
    have : BIGINT_RADIX ^ 1 ≤ BIGINT_RADIX ^ (dst.data.length - 1) :=
      pow_le_pow_right₀ (by norm_num) (by omega)
    simpa using this
  have happ : seg_value (dst.data ++ [0]) = seg_value dst.data := by
    rw [seg_value_append]; simp [seg_value]
  have hall : ∀ x ∈ dst.data ++ [0], 0 ≤ x := by
    intro x hx
    rcases List.mem_append.1 hx with h | h
    · exact (hr x h).1
    · simp only [List.mem_singleton] at h; rw [h]
  unfold add_by_int_large
  simp only [hs, hdat]
  rw [pack_memory_value]
  unfold value
  simp only
  by_cases hvn : v < 0
  · simp only [if_pos hvn]
    by_cases hsg : (-1 : Int) = dst.sign
    · rw [if_pos hsg]
      obtain ⟨h1, -, -⟩ := add_int_loop_spec dst.data (-v) (by omega) (by omega) hr
      rw [h1, happ, ← hsg]; ring
    · rw [if_neg hsg]
      have hsp : dst.sign = 1 := by omega
      rw [sub_int_loop_value (dst.data ++ [0]) (-v) (by omega) hall (by rw [happ]; omega),
        happ, hsp]
      ring
  · simp only [if_neg hvn]
    by_cases hsg : (1 : Int) = dst.sign
    · rw [if_pos hsg]
      obtain ⟨h1, -, -⟩ := add_int_loop_spec dst.data v (by omega) (by omega) hr
      rw [h1, happ, ← hsg]; ring
    · rw [if_neg hsg]
      have hsp : dst.sign = -1 := by omega
      rw [sub_int_loop_value (dst.data ++ [0]) v (by omega) hall (by rw [happ]; omega),
        happ, hsp]
      ring

/-- `bigint_add_by_int` with a value of less than one segment adds that value, also
when a segment of the destination is equal to the radix. -/
theorem add_by_int_aux_loose_value (n j : Nat) (dst : bigint) (v : Int) (hd : loose j dst)
    (hv : -BIGINT_RADIX < v ∧ v < BIGINT_RADIX) :
    value (add_by_int_aux (n + 1) dst v) = value dst + v := by
  have hcs := check_sign_of_loose j dst hd
  have hvl : -1000000000 < v ∧ v < 1000000000 := hv
  have hR : BIGINT_RADIX = 1000000000 := rfl
  have hmem : 1 ≤ dst.mem_size := by
    have h1 := hd.2.1
    have h2 := hd.2.2.2.2.2.2
    have : 0 < dst.data.length := List.length_pos.2 h1
    omega
  rw [add_by_int_aux]
  simp only [hcs]
  by_cases h0 : dst.sign = 0
  · rw [if_pos h0, (from_int_spec dst v (by omega) (by omega) hmem).1]
    simp [value, h0]
  · rw [if_neg h0]
    by_cases hv0 : v = 0
    · rw [if_pos hv0, hv0, add_zero]
    · rw [if_neg hv0, if_pos hv]
      by_cases h1 : dst.data_len = 1
      · rw [if_pos h1]
        obtain ⟨d0, hd0⟩ : ∃ d0, dst.data = [d0] := List.length_eq_one.1 h1
        have hr0 : 0 ≤ d0 ∧ d0 ≤ 1000000000 :=
          hd.2.2.1 d0 (by rw [hd0]; exact List.mem_cons_self _ _)
        simp only [hd0, List.headD_cons]
        have hsign := hd.1
        by_cases hneg : dst.sign < 0
        · rw [if_pos hneg, (from_int_spec dst _ (by omega) (by omega) hmem).1]
          have : dst.sign = -1 := by omega
          simp only [value, hd0, seg_value, this]; ring
        · rw [if_neg hneg, (from_int_spec dst _ (by omega) (by omega) hmem).1]
          have : dst.sign = 1 := by omega
          simp only [value, hd0, seg_value, this]; ring
      · rw [if_neg h1]
        have hne := hd.2.1
        have : 0 < dst.data.length := List.length_pos.2 hne
        exact add_by_int_large_loose_value j dst v hd h0
          (by unfold bigint.data_len at h1; omega) hv

/-- The multi-segment case of `bigint_add_by_int` when the value has the other sign:
the subtraction loop leaves a well-formed number. -/
theorem add_by_int_large_sub_well_formed (dst : bigint) (v : Int) (hd : well_formed dst)
    (hlen : 1 < dst.data.length)
    (hv : (dst.sign = 1 ∧ -BIGINT_RADIX < v ∧ v < 0) ∨
      (dst.sign = -1 ∧ 0 < v ∧ v < BIGINT_RADIX)) :
    well_formed (add_by_int_large dst v) := by
  obtain ⟨hsign, -, hr, hlast, hzero, hm⟩ := hd
  obtain ⟨hs, hdat, -, hcap⟩ := assure_memory_fields dst
    (dst.data_len + (BIGINT_INT_MAX_DIGITS / BIGINT_RADIX_LOG10 + 1))
  have hne : dst.data ≠ [] := by intro h; rw [h] at hlen; simp at hlen
  have hge := seg_value_ge_pow dst.data hne (fun s h => (hr s h).1) (hlast hlen)
  have hR1 : BIGINT_RADIX ≤ BIGINT_RADIX ^ (dst.data.length - 1) := by
    have : BIGINT_RADIX ^ 1 ≤ BIGINT_RADIX ^ (dst.data.length - 1) :=
      pow_le_pow_right₀ (by norm_num) (by omega)
    simpa using this
  have happ : seg_value (dst.data ++ [0]) = seg_value dst.data := by
    rw [seg_value_append]; simp [seg_value]
  have hall : ∀ x ∈ dst.data ++ [0], 0 ≤ x ∧ x < BIGINT_RADIX := by
    intro x hx
    rcases List.mem_append.1 hx with h | h
    · exact hr x h
    · simp only [List.mem_singleton] at h; rw [h]; decide
  have key : ∀ a : Int, 0 < a → a < BIGINT_RADIX →
      add_by_int_large dst v = bigint_pack_memory
        ⟨dst.sign, sub_int_loop a (dst.data ++ [0]),
          (bigint_assure_memory dst
            (dst.data_len + (BIGINT_INT_MAX_DIGITS / BIGINT_RADIX_LOG10 + 1))).mem_size⟩ →
      well_formed (add_by_int_large dst v) := by
    intro a ha0 ha1 hres
    obtain ⟨-, h2, h3⟩ := sub_int_loop_spec (dst.data ++ [0]) a (le_of_lt ha0) ha1 hall
      (by rw [happ]; omega)
    rw [hres]
    refine pack_memory_well_formed _ hsign ?_ h3 ?_ ?_
    · simp only
      intro h
      have := congrArg List.length h
      rw [h2] at this
      simp at this
    · simp only
      intro h
      rcases hv with h' | h' <;> omega
    · simp only
      rw [h2]
      simp only [List.length_append, List.length_singleton]
      have hc2 : dst.data.length + 2 ≤ (bigint_assure_memory dst
          (dst.data_len + (BIGINT_INT_MAX_DIGITS / BIGINT_RADIX_LOG10 + 1))).mem_size := hcap
      omega
  rcases hv with ⟨hs1, hv0, hv1⟩ | ⟨hs1, hv0, hv1⟩
  · apply key (-v) (by omega) (by omega)
    unfold add_by_int_large
    simp only [hs, hdat, hs1]
    rw [if_pos hv1, if_pos hv1, if_neg (by decide)]
  · apply key v hv0 hv1
    unfold add_by_int_large
    simp only [hs, hdat, hs1]
    rw [if_neg (not_lt.2 (le_of_lt hv0)), if_neg (not_lt.2 (le_of_lt hv0)), if_neg (by decide)]

/-- When `bigint_add_by` leaves a well-formed sum: one of the two numbers is zero,
the source has more than one segment, the destination has one segment, or the two
signs differ.  (A one-segment source added to a longer destination of the same sign
goes through the fast path of `bigint_add_by_int`.) -/
theorem add_by_aux_well_formed (n : Nat) (dst src : bigint) (hd : well_formed dst)
    (hs : well_formed src)
    (h : dst.sign = 0 ∨ src.sign = 0 ∨ src.data.length ≠ 1 ∨ dst.data.length = 1 ∨
      src.sign ≠ dst.sign) :
    well_formed (add_by_aux (n + 2) dst src).1 := by
  by_cases h3 : dst.sign = 0 ∨ src.sign = 0 ∨ src.data.length ≠ 1
  · exact (add_by_aux_spec n dst src hd hs).2.2 h3
  · have hd0 : dst.sign ≠ 0 := fun e => h3 (Or.inl e)
    have hs0 : src.sign ≠ 0 := fun e => h3 (Or.inr (Or.inl e))
    have hl1 : src.data.length = 1 := by
      by_contra e
      exact h3 (Or.inr (Or.inr e))
    have h45 : dst.data.length = 1 ∨ src.sign ≠ dst.sign := by
      rcases h with e | e | e | e | e
      · exact absurd e hd0
      · exact absurd e hs0
      · exact absurd hl1 e
      · exact Or.inl e
      · exact Or.inr e
    have hR : BIGINT_RADIX = 1000000000 := rfl
    obtain ⟨s0, hs0d⟩ : ∃ s0, src.data = [s0] := List.length_eq_one.1 hl1
    have hr0 : 0 ≤ s0 ∧ s0 < BIGINT_RADIX := hs.2.2.1 s0 (by rw [hs0d]; simp)
    have hs0ne : s0 ≠ 0 := by
      intro e
      rw [e] at hs0d
      exact hs0 (hs.2.2.2.2.1.2 hs0d)
    have hcd := check_sign_of_well_formed dst hd
    have hcs := check_sign_of_well_formed src hs
    have key : ∀ v : Int, v ≠ 0 → -BIGINT_RADIX < v → v < BIGINT_RADIX →
        (src.sign ≠ dst.sign → (dst.sign = 1 ∧ v < 0) ∨ (dst.sign = -1 ∧ 0 < v)) →
        well_formed (add_by_int_aux (n + 1) dst v) := by
      intro v hv0 hv1 hv2 hsg
      rcases h45 with e | e
      · exact add_by_int_aux_single n dst v hd e ⟨hv1, hv2⟩
      · by_cases hlen : dst.data_len = 1
        · exact add_by_int_aux_single n dst v hd hlen ⟨hv1, hv2⟩
        · rw [add_by_int_aux]
          simp only [hcd]
          rw [if_neg hd0, if_neg hv0, if_pos ⟨hv1, hv2⟩, if_neg hlen]
          have hl := hd.2.1
          apply add_by_int_large_sub_well_formed dst v hd
            (by unfold bigint.data_len at hlen; omega)
          rcases hsg e with ⟨e1, e2⟩ | ⟨e1, e2⟩
          · exact Or.inl ⟨e1, hv1, e2⟩
          · exact Or.inr ⟨e1, e2, hv2⟩
    have hds := hd.1
    have hss := hs.1
    rw [add_by_aux]
    simp only [hcd, hcs]
    rw [if_neg hd0, if_neg hs0, if_pos (show src.data_len = 1 from hl1)]
    simp only [hs0d, List.headD_cons]
    by_cases hneg : src.sign < 0
    · rw [if_pos hneg]
      simp only
      exact key (-s0) (by omega) (by omega) (by omega) (fun e => by omega)
    · rw [if_neg hneg, if_pos (by omega)]
      simp only
      exact key s0 hs0ne (by omega) (by omega) (fun e => by omega)

theorem well_formed_one_segment (p : bigint) (hp : well_formed p)
    (h : |value p| < BIGINT_RADIX) : p.data.length = 1 := by
  by_contra hne
  have hlen : 1 < p.data.length := by
    have := hp.2.1
    omega
  have hne0 : p.data ≠ [] := by intro e; rw [e] at hlen; simp at hlen
  have hge := seg_value_ge_pow p.data hne0 (fun s hs => (hp.2.2.1 s hs).1) (hp.2.2.2.1 hlen)
  have hR1 : BIGINT_RADIX ≤ BIGINT_RADIX ^ (p.data.length - 1) := by
    have : BIGINT_RADIX ^ 1 ≤ BIGINT_RADIX ^ (p.data.length - 1) :=
      pow_le_pow_right₀ (by norm_num) (by omega)
    simpa using this
  have hs0 : p.sign ≠ 0 := by
    intro e
    have := hp.2.2.2.2.1.1 e
    rw [this] at hlen
    simp at hlen
  have hs := hp.1
  rw [abs_lt] at h
  unfold value at h
  rcases hs with e | e | e
  · rw [e] at h; omega
  · exact hs0 e
  · rw [e] at h; omega

theorem sign_ne_of_mul_neg (p r : bigint) (hp : well_formed p) (hr : well_formed r)
    (h : value p * value r < 0) : r.sign ≠ p.sign := by
  intro e
  have h1 := loose_value_sign 0 p (loose_of_well_formed p hp)
  have h2 := loose_value_sign 0 r (loose_of_well_formed r hr)
  rcases hp.1 with s | s | s
  · have a1 := h1.2.2 s
    have a2 := h2.2.2 (by rw [e]; exact s)
    have := Int.mul_pos_of_neg_of_neg a1 a2
    omega
  · rw [h1.1 s] at h
    simp at h
  · have a1 := h1.2.1 s
    have a2 := h2.2.1 (by rw [e]; exact s)
    have := Int.mul_pos a1 a2
    omega

/-- What `bigint_divmod_check` hands back when it passes: a well-formed dividend as
it was, and the other three numbers after `bigint_check_sign` at most. -/
theorem divmod_check_out (a b q r : bigint) (out : bigint × bigint × bigint × bigint)
    (h : bigint_divmod_check a b q r = some out) :
    (well_formed a → out.1 = a) ∧ out.2.1 = bigint_check_sign b ∧
    (out.2.2.1 = q ∨ out.2.2.1 = bigint_check_sign q) ∧
    out.2.2.2 = bigint_check_sign r := by
  unfold bigint_divmod_check at h
  simp only at h
  split_ifs at h
  simp only [Option.some.injEq] at h
  rw [← h]
  refine ⟨fun ha => (compare_aux_operands 2 _ a).2 ha, rfl, ?_, ?_⟩
  · exact mul_by_aux_source_any _ _ q
  · simp only
    rcases add_by_aux_source_any 3 (bigint_mul_by (bigint_copy bigint_init b) q).1 r with e | e
    · unfold bigint_add_by
      rw [e]
    · unfold bigint_add_by
      rw [e, check_sign_idem]

/-- The values `bigint_divmod_check` hands back are those it was given. -/
theorem divmod_check_out_value (a b q r : bigint) (out : bigint × bigint × bigint × bigint)
    (h : bigint_divmod_check a b q r = some out) :
    value out.2.1 = value b ∧ value out.2.2.1 = value q ∧ value out.2.2.2 = value r := by
  obtain ⟨-, h2, h3, h4⟩ := divmod_check_out a b q r out h
  refine ⟨by rw [h2, check_sign_value], ?_, by rw [h4, check_sign_value]⟩
  rcases h3 with e | e
  · rw [e]
  · rw [e, check_sign_value]

/-- The check passes on well-formed numbers with `a = b * q + r` and a remainder of
the sign of `b`, unless the sum `b * q + r` goes through the fast path of
`bigint_add_by_int` (a one-segment `r` added to a longer product of the same sign). -/
theorem divmod_check_pass (a b q r : bigint) (ha : well_formed a) (hb : well_formed b)
    (hq : well_formed q) (hr : well_formed r)
    (hv : value a = value b * value q + value r)
    (hs : b.sign = r.sign ∨ r.sign = 0)
    (hsum : value b * value q = 0 ∨ r.sign = 0 ∨ r.data.length ≠ 1 ∨
      |value b * value q| < BIGINT_RADIX ∨ value b * value q * value r < 0) :
    bigint_divmod_check a b q r = some (a, b, q, r) := by
  obtain ⟨c1, c2, -, -⟩ := copy_spec bigint_init b hb
  obtain ⟨m1, m2, m3⟩ := mul_by_spec (bigint_copy bigint_init b) q c2 hq
  rw [c1] at m2
  have hwf : well_formed (bigint_add_by (bigint_mul_by (bigint_copy bigint_init b) q).1 r).1 := by
    apply add_by_aux_well_formed 1 _ r m1 hr
    rcases hsum with e | e | e | e | e
    · left
      rw [← m2] at e
      exact (loose_sign_zero_iff 0 _ (loose_of_well_formed _ m1)).2 e
    · exact Or.inr (Or.inl e)
    · exact Or.inr (Or.inr (Or.inl e))
    · right; right; right; left
      rw [← m2] at e
      exact well_formed_one_segment _ m1 e
    · right; right; right; right
      rw [← m2] at e
      exact sign_ne_of_mul_neg _ r m1 hr e
  obtain ⟨s1, s2⟩ := add_by_sum (bigint_mul_by (bigint_copy bigint_init b) q).1 r m1 hr
  rw [m2] at s1
  obtain ⟨k1, k2⟩ := compare_spec _ a hwf ha
  have hc : (bigint_compare (bigint_add_by (bigint_mul_by (bigint_copy bigint_init b) q).1
      r).1 a).1 = 0 := by
    rcases k2 with ⟨e, f⟩ | ⟨e, f⟩ | ⟨e, f⟩
    · omega
    · omega
    · exact e
  unfold bigint_divmod_check
  simp only
  rw [if_neg (not_not.2 hc), k1, s2, m3, check_sign_of_well_formed b hb,
    check_sign_of_well_formed r hr, if_pos hs]

/-- The same for `assert(bigint_divmod_check(a, b, q, r)); return ret;`. -/
theorem divmod_assert_return_pass (ret : bigint_errno) (a b q r : bigint)
    (ha : well_formed a) (hb : well_formed b) (hq : well_formed q) (hr : well_formed r)
    (hv : value a = value b * value q + value r)
    (hs : b.sign = r.sign ∨ r.sign = 0)
    (hsum : value b * value q = 0 ∨ r.sign = 0 ∨ r.data.length ≠ 1 ∨
      |value b * value q| < BIGINT_RADIX ∨ value b * value q * value r < 0) :
    divmod_assert_return ret a b q r = some (ret, a, b, q, r) := by
  unfold divmod_assert_return
  rw [divmod_check_pass a b q r ha hb hq hr hv hs hsum]

/-- What `assert(bigint_divmod_check(a, b, q, r)); return ret;` returns, when it
returns. -/
theorem divmod_assert_return_out (ret : bigint_errno) (a b q r : bigint)
    (res : bigint_errno × bigint × bigint × bigint × bigint)
    (h : divmod_assert_return ret a b q r = some res) :
    res.1 = ret ∧ (well_formed a → res.2.1 = a) ∧ res.2.2.1 = bigint_check_sign b ∧
    (res.2.2.2.1 = q ∨ res.2.2.2.1 = bigint_check_sign q) ∧
    res.2.2.2.2 = bigint_check_sign r := by
  unfold divmod_assert_return at h
  cases hc : bigint_divmod_check a b q r with
  | none =>
    rw [hc] at h
    exact absurd h (by simp)
  | some out =>
    obtain ⟨o1, o2, o3, o4⟩ := divmod_check_out a b q r out hc
    obtain ⟨a3, b3, q3, r3⟩ := out
    rw [hc] at h
    simp only [Option.some.injEq] at h
    rw [← h]
    exact ⟨rfl, o1, o2, o3, o4⟩

/-! ## `bigint_divmod` leaves its inputs as they were -/

/-- `bigint_sub_by` leaves a well-formed source as it was, whatever the
destination: the source is negated for the addition and negated back. -/
theorem sub_by_source (dst src : bigint) (hs : well_formed src) :
    (bigint_sub_by dst src).2 = src := by
  unfold bigint_sub_by bigint_add_by
  simp only
  rw [add_by_aux_source_stable 3 dst _
    (check_sign_of_well_formed _ (change_sign_spec src hs).1)]
  exact change_sign_involutive src hs

/-- The correction loop of `bigint_divmod` hands back the divisor it was given. -/
theorem divmod_loop_divisor (tries : Nat) : ∀ (q r b : bigint) (res : bigint × bigint × bigint),
    well_formed b → divmod_loop tries q r b = some res → res.2.2 = b := by
  induction tries with
  | zero =>
    intro q r b res hb h
    rw [divmod_loop] at h
    simp only at h
    split_ifs at h
    simp only [Option.some.injEq] at h
    rw [← h]
    exact (compare_aux_operands 2 _ b).2 hb
  | succ n ih =>
    intro q r b res hb h
    have hcb := check_sign_of_well_formed b hb
    rw [divmod_loop] at h
    simp only at h
    split_ifs at h
    · have e : (bigint_add_by (bigint_check_sign r) b).2 = b :=
        add_by_aux_source_stable 3 _ b hcb
      rw [e] at h
      exact ih _ _ b res hb h
    · have e1 : (bigint_compare (bigint_check_sign r) b).2.2 = b :=
        (compare_aux_operands 2 _ b).2 hb
      rw [e1, sub_by_source _ b hb] at h
      exact ih _ _ b res hb h
    · simp only [Option.some.injEq] at h
      rw [← h]
      exact (compare_aux_operands 2 _ b).2 hb

/-- The division of large numbers hands back the dividend and the divisor it was
given, for every reciprocal estimate. -/
theorem divmod_large_frame (newton : bigint → Int → bigint × Int) (a b q r : bigint)
    (ha : well_formed a) (hb : well_formed b)
    (res : bigint_errno × bigint × bigint × bigint × bigint)
    (h : divmod_large newton a b q r = some res) : res.2.1 = a ∧ res.2.2.1 = b := by
  have hca := check_sign_of_well_formed a ha
  have hcb := check_sign_of_well_formed b hb
  unfold divmod_large at h
  simp only [hca, hcb] at h
  have e1 : ∀ dst : bigint, (bigint_mul_by dst b).2 = b := fun dst =>
    mul_by_aux_source_stable _ dst b hcb
  have e2 : ∀ dst : bigint, (bigint_add_by dst a).2 = a := fun dst =>
    add_by_aux_source_stable 3 dst a hca
  rw [e1, e2] at h
  split at h
  · exact absurd h (by simp)
  · rename_i q2 r2 b2 heq
    have hb2 := divmod_loop_divisor 19 _ _ b _ hb heq
    simp only at hb2
    obtain ⟨-, o1, o2, -, -⟩ := divmod_assert_return_out _ _ _ _ _ res h
    rw [o1 ha, o2, hb2, hcb]
    exact ⟨rfl, rfl⟩

/-- With a positive divisor `bigint_divmod` hands back the dividend and the divisor
it was given on every path that returns. -/
theorem divmod_aux_pos_frame (newton : bigint → Int → bigint × Int) (d : Nat)
    (a b q r : bigint) (ha : well_formed a) (hb : well_formed b) (hpos : 0 < b.sign)
    (res : bigint_errno × bigint × bigint × bigint × bigint)
    (h : divmod_aux newton (d + 1) a b q r = some res) : res.2.1 = a ∧ res.2.2.1 = b := by
  have hca := check_sign_of_well_formed a ha
  have hcb := check_sign_of_well_formed b hb
  obtain ⟨s1, -⟩ := change_sign_spec a ha
  have hinv := change_sign_involutive a ha
  have fin : ∀ (ret : bigint_errno) (q2 r2 : bigint),
      divmod_assert_return ret a b q2 r2 = some res → res.2.1 = a ∧ res.2.2.1 = b := by
    intro ret q2 r2 e
    obtain ⟨-, o1, o2, -, -⟩ := divmod_assert_return_out _ _ _ _ _ res e
    rw [o1 ha, o2, hcb]
    exact ⟨rfl, rfl⟩
  rw [divmod_aux] at h
  simp only [hcb] at h
  rw [if_neg (by omega), if_neg (by omega)] at h
  by_cases hl : b.data_len = 1
  · rw [if_pos hl] at h
    have hm : ∀ v old : Int, (bigint_mod_by_int a v old).2.2 = a := by
      intro v old
      unfold bigint_mod_by_int
      split_ifs <;> simp only [hca]
    simp only [hm] at h
    split_ifs at h <;> exact fin _ _ _ h
  · rw [if_neg hl] at h
    simp only [hca] at h
    by_cases hneg : a.sign < 0
    · rw [if_pos hneg] at h
      obtain ⟨k1, -⟩ := compare_spec (bigint_change_sign a) b s1 hb
      rw [k1] at h
      simp only [hinv] at h
      split_ifs at h
      · have e : ∀ dst : bigint, (bigint_add_by dst b).2 = b := fun dst =>
          add_by_aux_source_stable 3 dst b hcb
        rw [e] at h
        exact fin _ _ _ h
      · exact fin _ _ _ h
      · exact divmod_large_frame newton a b q r ha hb res h
    · rw [if_neg hneg] at h
      obtain ⟨k1, -⟩ := compare_spec a b ha hb
      rw [k1] at h
      simp only at h
      split_ifs at h
      · exact fin _ _ _ h
      · exact fin _ _ _ h
      · exact divmod_large_frame newton a b q r ha hb res h

/-- For well-formed `a` and `b` every call of `bigint_divmod` that returns hands back
`a` and `b` as they were, whatever `q` and `r` hold and whatever the reciprocal
estimate is. -/
theorem divmod_frame (newton : bigint → Int → bigint × Int) (a b q r : bigint)
    (ha : well_formed a) (hb : well_formed b)
    (res : bigint_errno × bigint × bigint × bigint × bigint)
    (h : bigint_divmod newton a b q r = some res) : res.2.1 = a ∧ res.2.2.1 = b := by
  have hcb := check_sign_of_well_formed b hb
  obtain ⟨n1, -⟩ := change_sign_spec b hb
  have hinv := change_sign_involutive b hb
  have hs := hb.1
  unfold bigint_divmod at h
  by_cases h0 : b.sign = 0
  · rw [divmod_aux] at h
    simp only [hcb] at h
    rw [if_pos h0] at h
    simp only [Option.some.injEq] at h
    rw [← h]
    exact ⟨rfl, rfl⟩
  · by_cases hneg : b.sign < 0
    · rw [divmod_aux] at h
      simp only [hcb] at h
      rw [if_neg h0, if_pos hneg] at h
      cases hin : divmod_aux newton 1 a (bigint_change_sign b) q r with
      | none =>
        rw [hin] at h
        exact absurd h (by simp)
      | some res1 =>
        have hsp : 0 < (bigint_change_sign b).sign := by
          have := (change_sign_fields b hb).1
          omega
        obtain ⟨i1, i2⟩ := divmod_aux_pos_frame newton 0 a _ q r ha n1 hsp res1 hin
        obtain ⟨ret, a2, b2, q2, r2⟩ := res1
        simp only at i1 i2
        subst i1 i2
        rw [hin] at h
        simp only at h
        cases hck : bigint_divmod_check a2 (bigint_change_sign b) q2 r2 with
        | none =>
          rw [hck] at h
          exact absurd h (by simp)
        | some out =>
          obtain ⟨c1, c2, -, -⟩ := divmod_check_out _ _ _ _ out hck
          obtain ⟨a3, b3, q3, r3⟩ := out
          simp only at c1 c2
          rw [check_sign_of_well_formed _ n1] at c2
          have c1 := c1 ha
          subst c1 c2
          rw [hck] at h
          simp only [hinv] at h
          split_ifs at h
          · rw [sub_by_source _ b hb] at h
            obtain ⟨-, o1, o2, -, -⟩ := divmod_assert_return_out _ _ _ _ _ res h
            rw [o1 ha, o2, hcb]
            exact ⟨rfl, rfl⟩
          · obtain ⟨-, o1, o2, -, -⟩ := divmod_assert_return_out _ _ _ _ _ res h
            rw [o1 ha, o2, hcb]
            exact ⟨rfl, rfl⟩
    · exact divmod_aux_pos_frame newton 1 a b q r ha hb (by omega) res h

/-! ## `bigint_divmod`: the short cut for a small dividend, and the negative divisor -/

/-- For a divisor that is not negative, the bound on the nesting of calls plays no
part in `bigint_divmod`. -/
theorem divmod_aux_pos_depth (newton : bigint → Int → bigint × Int) (d1 d2 : Nat)
    (a b q r : bigint) (hb : ¬ (bigint_check_sign b).sign < 0) :
    divmod_aux newton (d1 + 1) a b q r = divmod_aux newton (d2 + 1) a b q r := by
  rw [divmod_aux, divmod_aux]
  simp only [if_neg hb]

/-- Two nested calls are all `bigint_divmod` ever makes: a larger bound on the
nesting gives the same result, so the result `none` of `bigint_divmod` is always a
failed assertion. -/
theorem divmod_aux_depth (newton : bigint → Int → bigint × Int) (d : Nat)
    (a b q r : bigint) :
    divmod_aux newton (d + 2) a b q r = bigint_divmod newton a b q r := by
  unfold bigint_divmod
  by_cases hneg : (bigint_check_sign b).sign < 0
  · have hpos := check_sign_change_sign_pos b hneg
    have e := divmod_aux_pos_depth newton d 0 a
      (bigint_change_sign (bigint_check_sign b)) q r (by omega)
    have e2 : divmod_aux newton 2 a b q r = divmod_aux newton (1 + 1) a b q r := rfl
    rw [divmod_aux, e2, divmod_aux]
    simp only [e]
  · exact divmod_aux_pos_depth newton (d + 1) 1 a b q r hneg

/-- `bigint_div_by_int` of a number smaller in magnitude than the positive divisor:
the result is well-formed and is -1 for a negative number, 0 otherwise. -/
theorem div_by_int_small (p : bigint) (d : Int) (hp : well_formed p) (hd : 0 < d)
    (h1 : -d < value p) (h2 : value p < d) :
    well_formed (bigint_div_by_int p d).2 ∧
    (value p < 0 → value (bigint_div_by_int p d).2 = -1) ∧
    (0 ≤ value p → value (bigint_div_by_int p d).2 = 0) := by
  obtain ⟨-, hv⟩ := div_by_int_spec p d hp (by omega)
  refine ⟨?_, ?_, ?_⟩
  · unfold bigint_div_by_int
    rw [if_neg (by omega)]
    simp only [if_neg (by omega : ¬ d < 0)]
    by_cases hd1 : d ≠ 1
    · rw [if_pos hd1]
      obtain ⟨Q, hQ, hr0, hr1, hsv, hwf, hval⟩ := div_int_core p d hp hd
      have hs := hp.1
      have hvp : value p = p.sign * seg_value p.data := rfl
      have hsv0 : p.sign = 0 → seg_value p.data = 0 := by
        intro h
        rw [hp.2.2.2.2.1.1 h]
        rfl
      have hQ0 : Q = 0 := by
        by_contra hne
        have hQ1 : 1 ≤ Q := by omega
        have : d * 1 ≤ d * Q := Int.mul_le_mul_of_nonneg_left hQ1 (le_of_lt hd)
        rcases hs with h | h | h
        · rw [h] at hvp; omega
        · have := hsv0 h; omega
        · rw [h] at hvp; omega
      rw [hQ0, Int.mul_zero] at hval
      have hz : (bigint_pack_memory
          ⟨p.sign, (div_int_loop d 0 0 p.data.reverse).1.reverse, p.mem_size⟩).data_len = 1 := by
        have := (loose_sign_zero_iff 0 _ (loose_of_well_formed _ hwf)).2 hval
        have := hwf.2.2.2.2.1.1 this
        unfold bigint.data_len
        rw [this]
        rfl
      have hR : BIGINT_RADIX = 1000000000 := rfl
      split_ifs
      · exact add_by_int_aux_single 2 _ (-1) hwf hz (by rw [hR]; omega)
      · exact hwf
    · rw [if_neg hd1]
      exact hp
  · intro hn
    rw [hv]
    exact fdiv_unique (value p) d (-1) (value p + d) (by ring) (by omega)
  · intro hn
    rw [hv]
    exact fdiv_unique (value p) d 0 (value p) (by ring) (by omega)

/-- `bigint_div_by_int` by a positive divisor leaves segments between 0 and the
radix; only the final `bigint_sub_by_int(p, 1)` on a negative quotient can leave a
segment equal to the radix. -/
theorem div_by_int_loose (p : bigint) (d : Int) (hp : well_formed p) (hd : 0 < d) :
    loose 2 (bigint_div_by_int p d).2 := by
  have hR : BIGINT_RADIX = 1000000000 := rfl
  unfold bigint_div_by_int
  rw [if_neg (by omega)]
  simp only [if_neg (by omega : ¬ d < 0)]
  by_cases hd1 : d ≠ 1
  · rw [if_pos hd1]
    obtain ⟨Q, hQ, hr0, hr1, hsv, hwf, hval⟩ := div_int_core p d hp hd
    split_ifs with hc
    · by_cases hz : (bigint_pack_memory
          ⟨p.sign, (div_int_loop d 0 0 p.data.reverse).1.reverse, p.mem_size⟩).sign = 0
      · have hl : (bigint_pack_memory
            ⟨p.sign, (div_int_loop d 0 0 p.data.reverse).1.reverse, p.mem_size⟩).data_len = 1 := by
          have := hwf.2.2.2.2.1.1 hz
          unfold bigint.data_len
          rw [this]
          rfl
        exact loose_mono 0 2 _ (loose_of_well_formed _
          (add_by_int_aux_single 2 _ (-1) hwf hl (by rw [hR]; omega))) (by omega)
      · have hsg : (bigint_pack_memory
            ⟨p.sign, (div_int_loop d 0 0 p.data.reverse).1.reverse, p.mem_size⟩).sign = -1 := by
          have h1 := pack_memory_sign
            ⟨p.sign, (div_int_loop d 0 0 p.data.reverse).1.reverse, p.mem_size⟩
          simp only at h1
          have hps : p.sign = -1 := by
            have := hp.1
            have := hc.2
            omega
          rw [h1] at hz ⊢
          split_ifs at hz ⊢
          · exact absurd rfl hz
          · exact hps
        exact (add_by_int_aux_same_sign 2 _ (-1) hwf
          (Or.inr ⟨hsg, by rw [hR]; omega, by omega⟩)).1
    · exact loose_mono 0 2 _ (loose_of_well_formed _ hwf) (by omega)
  · rw [if_neg hd1]
    exact loose_mono 0 2 _ (loose_of_well_formed _ hp) (by omega)

/-- `bigint_change_sign` keeps such a state. -/
theorem change_sign_loose (k : Nat) (p : bigint) (h : loose k p) :
    loose k (bigint_change_sign p) := by
  obtain ⟨hs, hne, hr, hd, hz, hlast, hm⟩ := h
  unfold bigint_change_sign bigint_check_sign
  by_cases h0 : p.data = [0]
  · simp only [h0, if_true]
    exact ⟨by simp, by simp, by simp, by
      intro s hs
      have := List.mem_of_mem_drop hs
      simp only [List.mem_singleton] at this
      rw [this]
      decide, by simp, by simp, by rw [h0] at hm; exact hm⟩
  · simp only [h0, if_false]
    refine ⟨?_, hne, hr, hd, ?_, ?_, hm⟩
    · show -p.sign = -1 ∨ -p.sign = 0 ∨ -p.sign = 1
      omega
    · intro e
      exact hz (by
        have e2 : -p.sign = 0 := e
        omega)
    · intro e
      exact hlast (by
        intro e2
        apply e
        show -p.sign = 0
        omega)

/-- The short cut of `bigint_divmod` for a positive divisor and a dividend smaller in
magnitude: the call returns success, the divisor is as it was, the quotient and the
remainder are well-formed, and they are -1 and `a + b` for a negative dividend, 0 and
`a` otherwise. -/
theorem divmod_short_pos (newton : bigint → Int → bigint × Int) (d : Nat) (a b q r : bigint)
    (ha : well_formed a) (hb : well_formed b) (hq : well_formed q) (hr : well_formed r)
    (hb0 : 0 < value b) (h1 : -value b < value a) (h2 : value a < value b) :
    ∃ a2 q2 r2, divmod_aux newton (d + 1) a b q r =
        some (bigint_errno.BIGINT_NOERR, a2, b, q2, r2) ∧
      well_formed q2 ∧ well_formed r2 ∧
      (value a < 0 → value q2 = -1 ∧ value r2 = value a + value b) ∧
      (0 ≤ value a → value q2 = 0 ∧ value r2 = value a) := by
  have hR : BIGINT_RADIX = 1000000000 := rfl
  have hcb := check_sign_of_well_formed b hb
  have hca := check_sign_of_well_formed a ha
  have hbs : b.sign = 1 := by
    have := loose_value_sign 0 b (loose_of_well_formed b hb)
    have := hb.1
    omega
  have hsa := loose_value_sign 0 a (loose_of_well_formed a ha)
  have has := ha.1
  have sgn : ∀ x : bigint, well_formed x → 0 ≤ value x → b.sign = x.sign ∨ x.sign = 0 := by
    intro x hx h0
    have := loose_value_sign 0 x (loose_of_well_formed x hx)
    have := hx.1
    omega
  rw [divmod_aux]
  simp only [hcb]
  rw [if_neg (by omega), if_neg (by omega)]
  by_cases hl : b.data_len = 1
  · rw [if_pos hl]
    obtain ⟨d0, hd0⟩ : ∃ d0, b.data = [d0] := List.length_eq_one.1 hl
    have hvb : value b = d0 := by
      unfold value
      rw [hbs, hd0]
      simp [seg_value]
    have hhd : b.data.headD 0 = d0 := by rw [hd0]; rfl
    rw [hhd]
    rw [hvb] at hb0 h1 h2
    obtain ⟨c1, c2, -, -⟩ := copy_spec q a ha
    obtain ⟨w1, w2, w3⟩ := div_by_int_small (bigint_copy q a) d0 c2 hb0 (by rw [c1]; omega)
      (by rw [c1]; omega)
    rw [c1] at w2 w3
    obtain ⟨m1, m2⟩ := mod_by_int_spec a d0 0 ha (by omega)
    rw [m1]
    simp only
    have hm0 : ¬ (value a - d0 * Int.fdiv (value a) d0 < 0) := by omega
    rw [if_neg hm0]
    have hd0R : d0 < 1000000000 := (hb.2.2.1 d0 (by rw [hd0]; simp)).2
    obtain ⟨f1, f2⟩ := from_int_spec r (value a - d0 * Int.fdiv (value a) d0) (by omega)
      (by omega) (mem_size_pos r hr)
    have hfd : (value a < 0 → Int.fdiv (value a) d0 = -1) ∧
        (0 ≤ value a → Int.fdiv (value a) d0 = 0) :=
      ⟨fun hn => fdiv_unique (value a) d0 (-1) (value a + d0) (by ring) (by omega),
        fun hn => fdiv_unique (value a) d0 0 (value a) (by ring) (by omega)⟩
    have hqv : value (bigint_div_by_int (bigint_copy q a) d0).2 = Int.fdiv (value a) d0 := by
      by_cases hn : value a < 0
      · rw [w2 hn, hfd.1 hn]
      · rw [w3 (by omega), hfd.2 (by omega)]
    have hqs : value (bigint_div_by_int (bigint_copy q a) d0).2 = -1 ∨
        value (bigint_div_by_int (bigint_copy q a) d0).2 = 0 := by
      by_cases hn : value a < 0
      · exact Or.inl (w2 hn)
      · exact Or.inr (w3 (by omega))
    have hpass := divmod_assert_return_pass bigint_errno.BIGINT_NOERR a b
      (bigint_div_by_int (bigint_copy q a) d0).2
      (bigint_from_int r (value a - d0 * Int.fdiv (value a) d0)) ha hb w1 f2
      (by rw [f1, hqv, hvb]; ring)
      (sgn _ f2 (by rw [f1]; omega))
      (by
        right; right; right; left
        rw [hvb, hR, abs_lt]
        rcases hqs with e | e <;> rw [e] <;> constructor <;> omega)
    refine ⟨a, _, _, hpass, w1, f2, ?_, ?_⟩
    · intro hn
      refine ⟨w2 hn, ?_⟩
      rw [f1, hfd.1 hn, hvb]
      ring
    · intro hn
      refine ⟨w3 hn, ?_⟩
      rw [f1, hfd.2 hn]
      ring
  · rw [if_neg hl]
    simp only [hca]
    by_cases hneg : a.sign < 0
    · rw [if_pos hneg]
      obtain ⟨s1, s2⟩ := change_sign_spec a ha
      obtain ⟨k1, k2⟩ := compare_spec (bigint_change_sign a) b s1 hb
      have hc : (bigint_compare (bigint_change_sign a) b).1 = -1 := by
        rcases k2 with ⟨e, f⟩ | ⟨e, f⟩ | ⟨e, f⟩ <;> omega
      rw [if_pos hc, k1]
      simp only
      rw [change_sign_involutive a ha]
      obtain ⟨c1, c2, -, -⟩ := copy_spec r (bigint_change_sign a) s1
      obtain ⟨t1, t2⟩ := change_sign_spec _ c2
      have hadd : value (bigint_add_by (bigint_change_sign (bigint_copy r (bigint_change_sign a)))
            b).1 = value (bigint_change_sign (bigint_copy r (bigint_change_sign a))) + value b ∧
          (bigint_add_by (bigint_change_sign (bigint_copy r (bigint_change_sign a))) b).2 = b ∧
          ((bigint_change_sign (bigint_copy r (bigint_change_sign a))).sign = 0 ∨ b.sign = 0 ∨
              b.data.length ≠ 1 →
            well_formed
              (bigint_add_by (bigint_change_sign (bigint_copy r (bigint_change_sign a))) b).1) :=
        add_by_aux_spec 1 _ b t1 hb
      obtain ⟨g1, g2, g3⟩ := hadd
      have g3 := g3 (Or.inr (Or.inr hl))
      have gv : value (bigint_add_by (bigint_change_sign (bigint_copy r (bigint_change_sign a)))
            b).1 = value a + value b := by
        rw [g1, t2, c1, s2]
        ring
      obtain ⟨f1, f2⟩ := from_int_spec q (-1) (by omega) (by omega) (mem_size_pos q hq)
      have hva : value a < 0 := by omega
      rw [g2]
      have hpass := divmod_assert_return_pass bigint_errno.BIGINT_NOERR a b
        (bigint_from_int q (-1))
        (bigint_add_by (bigint_change_sign (bigint_copy r (bigint_change_sign a))) b).1
        ha hb f2 g3 (by rw [f1, gv]; ring) (sgn _ g3 (by rw [gv]; omega))
        (by
          right; right; right; right
          rw [f1, gv]
          have : 0 < value b * (value a + value b) := Int.mul_pos hb0 (by omega)
          have e : value b * -1 * (value a + value b) = -(value b * (value a + value b)) := by
            ring
          rw [e]
          omega)
      refine ⟨_, _, _, hpass, f2, g3, ?_, ?_⟩
      · intro _
        exact ⟨f1, gv⟩
      · intro hn
        omega
    · rw [if_neg hneg]
      obtain ⟨k1, k2⟩ := compare_spec a b ha hb
      have hc : (bigint_compare a b).1 = -1 := by
        rcases k2 with ⟨e, f⟩ | ⟨e, f⟩ | ⟨e, f⟩ <;> omega
      rw [if_pos hc, k1]
      simp only
      obtain ⟨z1, z2, -⟩ := set_zero_spec q (mem_size_pos q hq)
      obtain ⟨c1, c2, -, -⟩ := copy_spec r a ha
      have hva : 0 ≤ value a := by omega
      have hpass := divmod_assert_return_pass bigint_errno.BIGINT_NOERR a b
        (bigint_set_zero q) (bigint_copy r a) ha hb z1 c2 (by rw [z2, c1]; ring)
        (sgn _ c2 (by rw [c1]; exact hva)) (Or.inl (by rw [z2]; ring))
      refine ⟨_, _, _, hpass, z1, c2, ?_, ?_⟩
      · intro hn
        omega
      · intro _
        exact ⟨z2, c1⟩

/-! ## `bigint_divmod`: the paths without the reciprocal estimate, and the negative divisor -/

/-- With a positive divisor, on the paths that do not use the reciprocal estimate (a
divisor of one segment, or a dividend not larger in magnitude), what a returning call
of `bigint_divmod` hands back: `a` and `b` as they were, a quotient with segments
between 0 and the radix, a well-formed remainder with `a = b * q + r` and
`0 <= r < b`; and the check passes again on these results. -/
theorem divmod_aux_pos_regular (newton : bigint → Int → bigint × Int) (d : Nat)
    (a b q r : bigint) (ha : well_formed a) (hb : well_formed b) (hq : well_formed q)
    (hr : well_formed r) (hb0 : 0 < value b) (hnl : b.data_len = 1 ∨ |value a| ≤ value b)
    (ret : bigint_errno) (a2 b2 q2 r2 : bigint)
    (h : divmod_aux newton (d + 1) a b q r = some (ret, a2, b2, q2, r2)) :
    a2 = a ∧ b2 = b ∧ loose 2 q2 ∧ well_formed r2 ∧
    value a = value b * value q2 + value r2 ∧ 0 ≤ value r2 ∧ value r2 < value b ∧
    bigint_divmod_check a b q2 r2 = some (a, b, q2, r2) := by
  have hR : BIGINT_RADIX = 1000000000 := rfl
  have hcb := check_sign_of_well_formed b hb
  have hca := check_sign_of_well_formed a ha
  have hbs : b.sign = 1 := by
    have := loose_value_sign 0 b (loose_of_well_formed b hb)
    have := hb.1
    omega
  have hsa := loose_value_sign 0 a (loose_of_well_formed a ha)
  have has := ha.1
  have fin : ∀ (q1 r1 : bigint), loose 2 q1 → well_formed r1 →
      value a = value b * value q1 + value r1 → 0 ≤ value r1 → value r1 < value b →
      divmod_assert_return bigint_errno.BIGINT_NOERR a b q1 r1 = some (ret, a2, b2, q2, r2) →
      a2 = a ∧ b2 = b ∧ loose 2 q2 ∧ well_formed r2 ∧
      value a = value b * value q2 + value r2 ∧ 0 ≤ value r2 ∧ value r2 < value b ∧
      bigint_divmod_check a b q2 r2 = some (a, b, q2, r2) := by
    intro q1 r1 lq wr hv h0 h1 e
    unfold divmod_assert_return at e
    cases hck : bigint_divmod_check a b q1 r1 with
    | none =>
      rw [hck] at e
      exact absurd e (by simp)
    | some out =>
      obtain ⟨o1, o2, o3, o4⟩ := divmod_check_out a b q1 r1 out hck
      obtain ⟨a3, b3, q3, r3⟩ := out
      simp only at o1 o2 o3 o4
      rw [check_sign_of_loose 2 q1 lq, or_self] at o3
      rw [check_sign_of_well_formed r1 wr] at o4
      rw [hcb] at o2
      have o1 := o1 ha
      subst o1 o2 o3 o4
      rw [hck] at e
      simp only [Option.some.injEq, Prod.mk.injEq] at e
      obtain ⟨-, e1, e2, e3, e4⟩ := e
      subst e1 e2 e3 e4
      exact ⟨rfl, rfl, lq, wr, hv, h0, h1, hck⟩
  rw [divmod_aux] at h
  simp only [hcb] at h
  rw [if_neg (by omega), if_neg (by omega)] at h
  by_cases hl : b.data_len = 1
  · rw [if_pos hl] at h
    obtain ⟨d0, hd0⟩ : ∃ d0, b.data = [d0] := List.length_eq_one.1 hl
    have hvb : value b = d0 := by
      unfold value
      rw [hbs, hd0]
      simp [seg_value]
    have hhd : b.data.headD 0 = d0 := by rw [hd0]; rfl
    rw [hhd] at h
    rw [hvb] at hb0
    obtain ⟨c1, c2, -, -⟩ := copy_spec q a ha
    obtain ⟨-, dv⟩ := div_by_int_spec (bigint_copy q a) d0 c2 (by omega)
    rw [c1] at dv
    have dl := div_by_int_loose (bigint_copy q a) d0 c2 hb0
    obtain ⟨m1, m2⟩ := mod_by_int_spec a d0 0 ha (by omega)
    rw [m1] at h
    simp only at h
    have hm0 : ¬ (value a - d0 * Int.fdiv (value a) d0 < 0) := by omega
    rw [if_neg hm0] at h
    have hd0R : d0 < 1000000000 := (hb.2.2.1 d0 (by rw [hd0]; simp)).2
    obtain ⟨f1, f2⟩ := from_int_spec r (value a - d0 * Int.fdiv (value a) d0) (by omega)
      (by omega) (mem_size_pos r hr)
    exact fin _ _ dl f2 (by rw [dv, f1, hvb]; ring) (by rw [f1]; omega)
      (by rw [f1, hvb]; omega) h
  · rw [if_neg hl] at h
    have hab : |value a| ≤ value b := by
      rcases hnl with e | e
      · exact absurd e hl
      · exact e
    rw [abs_le] at hab
    simp only [hca] at h
    by_cases hneg : a.sign < 0
    · rw [if_pos hneg] at h
      obtain ⟨s1, s2⟩ := change_sign_spec a ha
      obtain ⟨k1, k2⟩ := compare_spec (bigint_change_sign a) b s1 hb
      rw [k1] at h
      simp only [change_sign_involutive a ha] at h
      have hva : value a < 0 := by omega
      obtain ⟨f1, f2⟩ := from_int_spec q (-1) (by omega) (by omega) (mem_size_pos q hq)
      have fl := loose_mono 0 2 _ (loose_of_well_formed _ f2) (by omega)
      by_cases hc1 : (bigint_compare (bigint_change_sign a) b).1 = -1
      · rw [if_pos hc1] at h
        have hlt : value (bigint_change_sign a) < value b := by
          rcases k2 with ⟨e, f⟩ | ⟨e, f⟩ | ⟨e, f⟩ <;> omega
        rw [s2] at hlt
        obtain ⟨c1, c2, -, -⟩ := copy_spec r (bigint_change_sign a) s1
        obtain ⟨t1, t2⟩ := change_sign_spec _ c2
        have hadd : value (bigint_add_by
              (bigint_change_sign (bigint_copy r (bigint_change_sign a))) b).1 =
              value (bigint_change_sign (bigint_copy r (bigint_change_sign a))) + value b ∧
            (bigint_add_by (bigint_change_sign (bigint_copy r (bigint_change_sign a))) b).2 = b ∧
            ((bigint_change_sign (bigint_copy r (bigint_change_sign a))).sign = 0 ∨ b.sign = 0 ∨
                b.data.length ≠ 1 →
              well_formed
                (bigint_add_by (bigint_change_sign (bigint_copy r (bigint_change_sign a))) b).1) :=
          add_by_aux_spec 1 _ b t1 hb
        obtain ⟨g1, g2, g3⟩ := hadd
        have g3 := g3 (Or.inr (Or.inr hl))
        have gv : value (bigint_add_by
              (bigint_change_sign (bigint_copy r (bigint_change_sign a))) b).1 =
              value a + value b := by
          rw [g1, t2, c1, s2]
          ring
        rw [g2] at h
        exact fin _ _ fl g3 (by rw [f1, gv]; ring) (by rw [gv]; omega) (by rw [gv]; omega) h
      · rw [if_neg hc1] at h
        by_cases hc0 : (bigint_compare (bigint_change_sign a) b).1 = 0
        · rw [if_pos hc0] at h
          have heq : value (bigint_change_sign a) = value b := by
            rcases k2 with ⟨e, f⟩ | ⟨e, f⟩ | ⟨e, f⟩ <;> omega
          rw [s2] at heq
          obtain ⟨z1, z2, -⟩ := set_zero_spec r (mem_size_pos r hr)
          exact fin _ _ fl z1 (by rw [f1, z2]; omega) (by rw [z2]) (by rw [z2]; omega) h
        · rw [if_neg hc0] at h
          exfalso
          have hgt : value b < value (bigint_change_sign a) := by
            rcases k2 with ⟨e, f⟩ | ⟨e, f⟩ | ⟨e, f⟩
            · exact f
            · exact absurd e hc1
            · exact absurd e hc0
          rw [s2] at hgt
          omega
    · rw [if_neg hneg] at h
      obtain ⟨k1, k2⟩ := compare_spec a b ha hb
      rw [k1] at h
      simp only at h
      have hva : 0 ≤ value a := by omega
      by_cases hc1 : (bigint_compare a b).1 = -1
      · rw [if_pos hc1] at h
        have hlt : value a < value b := by
          rcases k2 with ⟨e, f⟩ | ⟨e, f⟩ | ⟨e, f⟩ <;> omega
        obtain ⟨z1, z2, -⟩ := set_zero_spec q (mem_size_pos q hq)
        obtain ⟨c1, c2, -, -⟩ := copy_spec r a ha
        exact fin _ _ (loose_mono 0 2 _ (loose_of_well_formed _ z1) (by omega)) c2
          (by rw [z2, c1]; ring) (by rw [c1]; exact hva) (by rw [c1]; exact hlt) h
      · rw [if_neg hc1] at h
        by_cases hc0 : (bigint_compare a b).1 = 0
        · rw [if_pos hc0] at h
          have heq : value a = value b := by
            rcases k2 with ⟨e, f⟩ | ⟨e, f⟩ | ⟨e, f⟩ <;> omega
          obtain ⟨o1, o2⟩ := set_one_spec q (mem_size_pos q hq)
          obtain ⟨z1, z2, -⟩ := set_zero_spec r (mem_size_pos r hr)
          exact fin _ _ (loose_mono 0 2 _ (loose_of_well_formed _ o1) (by omega)) z1
            (by rw [o2, z2]; omega) (by rw [z2]) (by rw [z2]; omega) h
        · rw [if_neg hc0] at h
          exfalso
          have hgt : value b < value a := by
            rcases k2 with ⟨e, f⟩ | ⟨e, f⟩ | ⟨e, f⟩
            · exact f
            · exact absurd e hc1
            · exact absurd e hc0
          omega

/-- The negative divisor in `bigint_divmod`: when the nested call on the negated
divisor has returned `q2` (segments between 0 and the radix) and a well-formed `r2`,
every return of the call has the same code, the quotient `-q2` and the remainder 0
for `r2 = 0`, and the quotient `-q2 - 1` with the remainder `r2 + b` otherwise. -/
theorem divmod_neg_fixup (newton : bigint → Int → bigint × Int) (a b q r : bigint)
    (ha : well_formed a) (hb : well_formed b) (hneg : value b < 0) (ret : bigint_errno)
    (a2 b2 q2 r2 : bigint) (k : Nat)
    (hin : divmod_aux newton 1 a (bigint_change_sign b) q r = some (ret, a2, b2, q2, r2))
    (hq2 : loose k q2) (hr2 : well_formed r2)
    (res : bigint_errno × bigint × bigint × bigint × bigint)
    (h : bigint_divmod newton a b q r = some res) :
    res.1 = ret ∧
    (value r2 = 0 → value res.2.2.2.1 = -value q2 ∧ value res.2.2.2.2 = 0) ∧
    (value r2 ≠ 0 →
      value res.2.2.2.1 = -value q2 - 1 ∧ value res.2.2.2.2 = value r2 + value b) := by
  have hR : BIGINT_RADIX = 1000000000 := rfl
  have hcb := check_sign_of_well_formed b hb
  have hbs : b.sign = -1 := by
    have := loose_value_sign 0 b (loose_of_well_formed b hb)
    have := hb.1
    omega
  obtain ⟨n1, n2⟩ := change_sign_spec b hb
  have hsp : 0 < (bigint_change_sign b).sign := by
    have := (change_sign_fields b hb).1
    omega
  obtain ⟨i1, i2⟩ := divmod_aux_pos_frame newton 0 a _ q r ha n1 hsp _ hin
  simp only at i1 i2
  subst i1 i2
  have hz := loose_sign_zero_iff 0 r2 (loose_of_well_formed r2 hr2)
  have fin : ∀ (a1 b1 q1 r1 : bigint),
      divmod_assert_return ret a1 b1 q1 r1 = some res →
      res.1 = ret ∧ value res.2.2.2.1 = value q1 ∧ value res.2.2.2.2 = value r1 := by
    intro a1 b1 q1 r1 e
    obtain ⟨o1, -, -, o3, o4⟩ := divmod_assert_return_out ret a1 b1 q1 r1 res e
    refine ⟨o1, ?_, by rw [o4, check_sign_value]⟩
    rcases o3 with e3 | e3
    · rw [e3]
    · rw [e3, check_sign_value]
  unfold bigint_divmod at h
  rw [divmod_aux] at h
  simp only [hcb] at h
  rw [if_neg (by omega), if_pos (by omega), hin] at h
  simp only at h
  cases hck : bigint_divmod_check a2 (bigint_change_sign b) q2 r2 with
  | none =>
    rw [hck] at h
    exact absurd h (by simp)
  | some out =>
    obtain ⟨-, c2, c3, c4⟩ := divmod_check_out _ _ _ _ out hck
    obtain ⟨a3, b3, q3, r3⟩ := out
    simp only at c2 c3 c4
    rw [check_sign_of_well_formed _ n1] at c2
    rw [check_sign_of_loose k q2 hq2, or_self] at c3
    rw [check_sign_of_well_formed r2 hr2] at c4
    subst c2 c3 c4
    rw [hck] at h
    simp only [check_sign_of_well_formed r3 hr2, change_sign_involutive b hb] at h
    by_cases h0 : r3.sign = 0
    · rw [if_neg (not_not.2 h0)] at h
      obtain ⟨e1, e2, e3⟩ := fin _ _ _ _ h
      refine ⟨e1, ?_, ?_⟩
      · intro _
        exact ⟨by rw [e2, change_sign_value], by rw [e3]; exact hz.1 h0⟩
      · intro hne
        exact absurd (hz.1 h0) hne
    · rw [if_pos h0] at h
      obtain ⟨e1, e2, e3⟩ := fin _ _ _ _ h
      obtain ⟨r1, r1v⟩ := change_sign_spec r3 hr2
      have hq3 : value (bigint_sub_by_int (bigint_change_sign q3) 1) = -value q3 - 1 := by
        unfold bigint_sub_by_int bigint_add_by_int
        rw [add_by_int_aux_loose_value 2 k _ (-1) (change_sign_loose k q3 hq2)
          (by rw [hR]; omega), change_sign_value]
        ring
      have hr3 : value (bigint_change_sign (bigint_sub_by (bigint_change_sign r3) b).1) =
          value r3 + value b := by
        rw [change_sign_value, (sub_by_difference _ b r1 hb).1, r1v]
        ring
      refine ⟨e1, ?_, ?_⟩
      · intro hv0
        exact absurd (hz.2 hv0) h0
      · intro _
        exact ⟨by rw [e2, hq3], by rw [e3, hr3]⟩

/-- The negative divisor in `bigint_divmod`, when the call returns: the nested call
has returned well-formed `q2` and `r2` with `a = (-b) * q2 + r2` and `0 <= r2 < -b`
that pass the check, and either `r2 = 0` or `-1 <= q2 < 10^9`.  Then the last check
passes as well. -/
theorem divmod_neg_returns (newton : bigint → Int → bigint × Int) (a b q r : bigint)
    (ha : well_formed a) (hb : well_formed b) (hneg : value b < 0) (ret : bigint_errno)
    (q2 r2 : bigint)
    (hin : divmod_aux newton 1 a (bigint_change_sign b) q r =
      some (ret, a, bigint_change_sign b, q2, r2))
    (hq2 : well_formed q2) (hr2 : well_formed r2)
    (hv : value a = -value b * value q2 + value r2) (hr0 : 0 ≤ value r2)
    (hr1 : value r2 < -value b)
    (hck : bigint_divmod_check a (bigint_change_sign b) q2 r2 =
      some (a, bigint_change_sign b, q2, r2))
    (hc : value r2 = 0 ∨ (-1 ≤ value q2 ∧ value q2 < BIGINT_RADIX)) :
    ∃ q3 r3, bigint_divmod newton a b q r = some (ret, a, b, q3, r3) ∧
      (value r2 = 0 → value q3 = -value q2 ∧ value r3 = 0) ∧
      (value r2 ≠ 0 → value q3 = -value q2 - 1 ∧ value r3 = value r2 + value b) := by
  have hR : BIGINT_RADIX = 1000000000 := rfl
  have hcb := check_sign_of_well_formed b hb
  have hbs : b.sign = -1 := by
    have := loose_value_sign 0 b (loose_of_well_formed b hb)
    have := hb.1
    omega
  obtain ⟨n1, n2⟩ := change_sign_spec b hb
  obtain ⟨q1, q1v⟩ := change_sign_spec q2 hq2
  obtain ⟨r1, r1v⟩ := change_sign_spec r2 hr2
  have hz := loose_sign_zero_iff 0 r2 (loose_of_well_formed r2 hr2)
  unfold bigint_divmod
  rw [divmod_aux]
  simp only [hcb]
  rw [if_neg (by omega), if_pos (by omega), hin]
  simp only
  rw [hck]
  simp only [check_sign_of_well_formed r2 hr2, change_sign_involutive b hb]
  by_cases h0 : r2.sign = 0
  · rw [if_neg (not_not.2 h0)]
    have hpass := divmod_assert_return_pass ret a b (bigint_change_sign q2) r2 ha hb q1 hr2
      (by rw [q1v, hv]; ring) (Or.inr h0) (Or.inr (Or.inl h0))
    refine ⟨_, _, hpass, ?_, ?_⟩
    · intro _
      exact ⟨q1v, hz.1 h0⟩
    · intro hne
      exact absurd (hz.1 h0) hne
  · rw [if_pos h0]
    have hv0 : value r2 ≠ 0 := fun e => h0 (hz.2 e)
    have hqr : -1 ≤ value q2 ∧ value q2 < BIGINT_RADIX := by
      rcases hc with e | e
      · exact absurd e hv0
      · exact e
    rw [hR] at hqr
    -- the quotient
    have hq1l : (bigint_change_sign q2).data_len = 1 :=
      well_formed_one_segment _ q1 (by rw [q1v, hR, abs_lt]; constructor <;> omega)
    have hq3w : well_formed (bigint_sub_by_int (bigint_change_sign q2) 1) :=
      add_by_int_aux_single 2 _ (-1) q1 hq1l (by rw [hR]; omega)
    have hq3v : value (bigint_sub_by_int (bigint_change_sign q2) 1) = -value q2 - 1 := by
      unfold bigint_sub_by_int bigint_add_by_int
      rw [add_by_int_small_value 2 _ (-1) q1 (by rw [hR]; omega), q1v]
      ring
    -- the remainder
    have hr2s : r2.sign = 1 := by
      have := loose_value_sign 0 r2 (loose_of_well_formed r2 hr2)
      have := hr2.1
      omega
    have hsw : well_formed (bigint_sub_by (bigint_change_sign r2) b).1 := by
      unfold bigint_sub_by bigint_add_by
      simp only
      apply add_by_aux_well_formed 1 _ _ r1 n1
      right; right; right; right
      have e1 := (change_sign_fields b hb).1
      have e2 := (change_sign_fields r2 hr2).1
      omega
    obtain ⟨d1, d2, -, -⟩ := sub_by_difference (bigint_change_sign r2) b r1 hb
    obtain ⟨r3w, r3v⟩ := change_sign_spec _ hsw
    rw [d1, r1v] at r3v
    have hr3v : value (bigint_change_sign (bigint_sub_by (bigint_change_sign r2) b).1) =
        value r2 + value b := by
      rw [r3v]
      ring
    have hr3s : (bigint_change_sign (bigint_sub_by (bigint_change_sign r2) b).1).sign = -1 := by
      have := loose_value_sign 0 _ (loose_of_well_formed _ r3w)
      have := r3w.1
      omega
    rw [d2]
    have hpass := divmod_assert_return_pass ret a b
      (bigint_sub_by_int (bigint_change_sign q2) 1)
      (bigint_change_sign (bigint_sub_by (bigint_change_sign r2) b).1) ha hb hq3w r3w
      (by rw [hq3v, hr3v, hv]; ring) (Or.inl (by rw [hbs, hr3s]))
      (by
        rw [hq3v, hr3v]
        by_cases hm : value q2 = -1
        · left
          rw [hm]
          ring
        · right; right; right; right
          have h1 : 0 < value b * (-value q2 - 1) :=
            Int.mul_pos_of_neg_of_neg hneg (by omega)
          exact Int.mul_neg_of_pos_of_neg h1 (by omega))
    refine ⟨_, _, hpass, ?_, ?_⟩
    · intro e
      exact absurd e hv0
    · intro _
      exact ⟨hq3v, hr3v⟩

/-- C28: for well-formed `a` and nonzero `b` with `|a| < |b|` (and well-formed
destinations), `bigint_divmod` returns success whatever the reciprocal estimate, with
`q = 0` and `r = a` when `a` is zero or has the sign of `b`, and `q = -1` and
`r = a + b` when `a` is nonzero of the opposite sign; so `q` is 0 or -1, and the
divisor keeps its value. -/
theorem divmod_short_circuit (newton : bigint → Int → bigint × Int) (a b q r : bigint)
    (ha : well_formed a) (hb : well_formed b) (hq : well_formed q) (hr : well_formed r)
    (hb0 : value b ≠ 0) (hlt : |value a| < |value b|) :
    ∃ a2 b2 q2 r2, bigint_divmod newton a b q r =
        some (bigint_errno.BIGINT_NOERR, a2, b2, q2, r2) ∧
      value b2 = value b ∧
      ((value a = 0 ∨ (0 < value a ∧ 0 < value b) ∨ (value a < 0 ∧ value b < 0)) →
        value q2 = 0 ∧ value r2 = value a) ∧
      (((0 < value a ∧ value b < 0) ∨ (value a < 0 ∧ 0 < value b)) →
        value q2 = -1 ∧ value r2 = value a + value b) ∧
      (value q2 = 0 ∨ value q2 = -1) := by
  by_cases hpos : 0 < value b
  · rw [abs_of_pos hpos, abs_lt] at hlt
    obtain ⟨a2, q2, r2, e, -, -, v1, v2⟩ :=
      divmod_short_pos newton 1 a b q r ha hb hq hr hpos hlt.1 hlt.2
    refine ⟨a2, b, q2, r2, e, rfl, ?_, ?_, ?_⟩
    · intro h
      exact v2 (by omega)
    · intro h
      exact v1 (by omega)
    · by_cases hn : value a < 0
      · exact Or.inr (v1 hn).1
      · exact Or.inl (v2 (by omega)).1
  · have hneg : value b < 0 := by omega
    rw [abs_of_neg hneg, abs_lt] at hlt
    obtain ⟨n1, n2⟩ := change_sign_spec b hb
    obtain ⟨a2, q2, r2, e, wq, wr, v1, v2⟩ :=
      divmod_short_pos newton 0 a (bigint_change_sign b) q r ha n1 hq hr (by omega)
        (by omega) (by omega)
    obtain ⟨g1, -, -, -, gv, g0, g2, gck⟩ := divmod_aux_pos_regular newton 0 a
      (bigint_change_sign b) q r ha n1 hq hr (by omega) (Or.inr (by rw [abs_le]; omega))
      bigint_errno.BIGINT_NOERR a2 (bigint_change_sign b) q2 r2 e
    rw [g1] at e
    have hR : BIGINT_RADIX = 1000000000 := rfl
    have hq2 : -1 ≤ value q2 ∧ value q2 < BIGINT_RADIX := by
      rw [hR]
      by_cases hn : value a < 0
      · have := (v1 hn).1
        omega
      · have := (v2 (by omega)).1
        omega
    obtain ⟨q3, r3, e3, w1, w2⟩ := divmod_neg_returns newton a b q r ha hb hneg
      bigint_errno.BIGINT_NOERR q2 r2 e wq wr (by rw [gv, n2]) g0 (by rw [← n2]; exact g2) gck
      (Or.inr hq2)
    refine ⟨a, b, q3, r3, e3, rfl, ?_, ?_, ?_⟩
    · intro h
      by_cases hn : value a < 0
      · obtain ⟨x1, x2⟩ := v1 hn
        obtain ⟨y1, y2⟩ := w2 (by omega)
        omega
      · obtain ⟨x1, x2⟩ := v2 (by omega)
        obtain ⟨y1, y2⟩ := w1 (by omega)
        omega
    · intro h
      obtain ⟨x1, x2⟩ := v2 (by omega)
      obtain ⟨y1, y2⟩ := w2 (by omega)
      omega
    · by_cases hn : value a < 0
      · obtain ⟨x1, x2⟩ := v1 hn
        obtain ⟨y1, y2⟩ := w2 (by omega)
        omega
      · obtain ⟨x1, x2⟩ := v2 (by omega)
        by_cases hz : value a = 0
        · obtain ⟨y1, y2⟩ := w1 (by omega)
          omega
        · obtain ⟨y1, y2⟩ := w2 (by omega)
          omega

/-- C28 at -5 and 10^9 (a divisor of two segments): the quotient is -1 and the
remainder 999999995. -/
theorem divmod_short_circuit_witness :
    (well_formed ⟨-1, [5], 4⟩ ∧ well_formed ⟨1, [0, 1], 4⟩ ∧ well_formed bigint_init ∧
      value ⟨1, [0, 1], 4⟩ ≠ 0 ∧ |value ⟨-1, [5], 4⟩| < |value ⟨1, [0, 1], 4⟩|) ∧
    (∃ a2 b2 q2 r2, bigint_divmod (fun _ _ => (bigint_init, 0)) ⟨-1, [5], 4⟩ ⟨1, [0, 1], 4⟩
        bigint_init bigint_init = some (bigint_errno.BIGINT_NOERR, a2, b2, q2, r2) ∧
      value b2 = value ⟨1, [0, 1], 4⟩ ∧
      ((value ⟨-1, [5], 4⟩ = 0 ∨ (0 < value ⟨-1, [5], 4⟩ ∧ 0 < value ⟨1, [0, 1], 4⟩) ∨
          (value ⟨-1, [5], 4⟩ < 0 ∧ value ⟨1, [0, 1], 4⟩ < 0)) →
        value q2 = 0 ∧ value r2 = value ⟨-1, [5], 4⟩) ∧
      (((0 < value ⟨-1, [5], 4⟩ ∧ value ⟨1, [0, 1], 4⟩ < 0) ∨
          (value ⟨-1, [5], 4⟩ < 0 ∧ 0 < value ⟨1, [0, 1], 4⟩)) →
        value q2 = -1 ∧ value r2 = value ⟨-1, [5], 4⟩ + value ⟨1, [0, 1], 4⟩) ∧
      (value q2 = 0 ∨ value q2 = -1)) ∧
    bigint_divmod (fun _ _ => (bigint_init, 0)) ⟨-1, [5], 4⟩ ⟨1, [0, 1], 4⟩
        bigint_init bigint_init =
      some (bigint_errno.BIGINT_NOERR, ⟨-1, [5], 4⟩, ⟨1, [0, 1], 4⟩, ⟨-1, [1], 4⟩,
        ⟨1, [999999995], 4⟩) :=
  ⟨by decide,
    divmod_short_circuit (fun _ _ => (bigint_init, 0)) ⟨-1, [5], 4⟩ ⟨1, [0, 1], 4⟩
      bigint_init bigint_init (by decide) (by decide) (by decide) (by decide) (by decide)
      (by decide),
    by decide⟩

/-- C29 as the code has it.  For well-formed `a`, `b`, `q`, `r` with `b < 0`, let
`bigint_divmod` on `a` and the negated divisor return `q2` and `r2` (when that call
went through the reciprocal estimate, which is `1 < data_len(b)` and `|b| < |a|`,
`q2` is assumed to have its segments between 0 and the radix and `r2` to be
well-formed; on the other paths this is proved).  Then every return of
`bigint_divmod` on `a` and `b` has the same code, leaves `a` and `b` as they were, and
gives `q = -q2`, `r = 0` when `r2 = 0`, and `q = -q2 - 1`, `r = r2 + b` when `r2` is
not zero.  The call does return when the nested call did not go through the
reciprocal estimate, `q2` is well-formed and either `r2 = 0` or `-1 <= q2 < 10^9`. -/
theorem divmod_negative_divisor (newton : bigint → Int → bigint × Int) (a b q r : bigint)
    (ha : well_formed a) (hb : well_formed b) (hq : well_formed q) (hr : well_formed r)
    (hneg : value b < 0) (ret : bigint_errno) (a2 b2 q2 r2 : bigint)
    (hin : bigint_divmod newton a (bigint_change_sign b) q r = some (ret, a2, b2, q2, r2))
    (hlarge : 1 < b.data_len → |value b| < |value a| →
      (∃ k, loose k q2) ∧ well_formed r2) :
    (∀ res, bigint_divmod newton a b q r = some res →
      res.1 = ret ∧ res.2.1 = a ∧ res.2.2.1 = b ∧
      (value r2 = 0 → value res.2.2.2.1 = -value q2 ∧ value res.2.2.2.2 = 0) ∧
      (value r2 ≠ 0 →
        value res.2.2.2.1 = -value q2 - 1 ∧ value res.2.2.2.2 = value r2 + value b)) ∧
    ((b.data_len = 1 ∨ |value a| ≤ |value b|) → well_formed q2 →
      (value r2 = 0 ∨ (-1 ≤ value q2 ∧ value q2 < BIGINT_RADIX)) →
      ∃ res, bigint_divmod newton a b q r = some res) := by
  obtain ⟨n1, n2⟩ := change_sign_spec b hb
  obtain ⟨-, f2, -⟩ := change_sign_fields b hb
  have hl : (bigint_change_sign b).data_len = b.data_len := by
    unfold bigint.data_len
    rw [f2]
  have hs : ¬ (bigint_check_sign (bigint_change_sign b)).sign < 0 := by
    rw [check_sign_of_well_formed _ n1]
    have := loose_value_sign 0 _ (loose_of_well_formed _ n1)
    have := n1.1
    omega
  have hin1 : divmod_aux newton 1 a (bigint_change_sign b) q r = some (ret, a2, b2, q2, r2) := by
    rw [← hin]
    exact divmod_aux_pos_depth newton 0 1 a _ q r hs
  have hreg : (b.data_len = 1 ∨ |value a| ≤ |value b|) →
      a2 = a ∧ b2 = bigint_change_sign b ∧ loose 2 q2 ∧ well_formed r2 ∧
      value a = value (bigint_change_sign b) * value q2 + value r2 ∧ 0 ≤ value r2 ∧
      value r2 < value (bigint_change_sign b) ∧
      bigint_divmod_check a (bigint_change_sign b) q2 r2 =
        some (a, bigint_change_sign b, q2, r2) := by
    intro hp
    apply divmod_aux_pos_regular newton 0 a (bigint_change_sign b) q r ha n1 hq hr (by omega)
      ?_ ret a2 b2 q2 r2 hin1
    rw [hl, n2]
    rw [abs_of_neg hneg] at hp
    exact hp
  constructor
  · intro res h
    have hqr : (∃ k, loose k q2) ∧ well_formed r2 := by
      by_cases hp : b.data_len = 1 ∨ |value a| ≤ |value b|
      · obtain ⟨-, -, lq, wr, -⟩ := hreg hp
        exact ⟨⟨2, lq⟩, wr⟩
      · have h1 : 1 < b.data_len := by
          have := hb.2.1
          unfold bigint.data_len
          have h2 : ¬ b.data.length = 1 := fun e => hp (Or.inl e)
          omega
        exact hlarge h1 (by
          by_contra e
          exact hp (Or.inr (by omega)))
    obtain ⟨⟨k, lq⟩, wr⟩ := hqr
    obtain ⟨e1, e2, e3⟩ := divmod_neg_fixup newton a b q r ha hb hneg ret a2 b2 q2 r2 k hin1
      lq wr res h
    obtain ⟨g1, g2⟩ := divmod_frame newton a b q r ha hb res h
    exact ⟨e1, g1, g2, e2, e3⟩
  · intro hp wq hc
    obtain ⟨g1, g2, -, wr, gv, g0, g3, gck⟩ := hreg hp
    subst g1 g2
    obtain ⟨q3, r3, e3, -, -⟩ := divmod_neg_returns newton a2 b q r ha hb hneg ret q2 r2 hin1
      wq wr (by rw [gv, n2]) g0 (by rw [← n2]; exact g3) gck hc
    exact ⟨_, e3⟩

/-- C29 at 7 and -3, at -3999999999 and -2, and at 7000000000000000005 and -10^9.
The call on 7 and 3 gives the quotient 2 and the remainder 1, and the call on 7 and -3
returns the quotient -3 and the remainder -2 = 1 + (-3).  The call on -3999999999 and
2 gives a quotient with the segments 1000000000 and 1 (the value -2000000000) and the
remainder 1, and the call on -3999999999 and -2 returns the quotient 1999999999 and
the remainder -1 = 1 + (-2).  The third pair goes through the reciprocal estimate,
here the pair (1, -9), that is 10^-9: the call on 7000000000000000005 and 10^9 gives
the quotient 7000000000 and the remainder 5, and the call with the divisor -10^9
returns the quotient -7000000001 and the remainder -999999995 = 5 + (-10^9). -/
theorem divmod_negative_divisor_witness :
    ((well_formed ⟨1, [7], 4⟩ ∧ well_formed ⟨-1, [3], 4⟩ ∧ well_formed bigint_init ∧
        value ⟨-1, [3], 4⟩ < 0 ∧
        bigint_divmod (fun _ _ => (bigint_init, 0)) ⟨1, [7], 4⟩
          (bigint_change_sign ⟨-1, [3], 4⟩) bigint_init bigint_init =
          some (bigint_errno.BIGINT_NOERR, ⟨1, [7], 4⟩, ⟨1, [3], 4⟩, ⟨1, [2], 4⟩,
            ⟨1, [1], 4⟩) ∧
        bigint_divmod (fun _ _ => (bigint_init, 0)) ⟨1, [7], 4⟩ ⟨-1, [3], 4⟩
          bigint_init bigint_init =
          some (bigint_errno.BIGINT_NOERR, ⟨1, [7], 4⟩, ⟨-1, [3], 4⟩, ⟨-1, [3], 4⟩,
            ⟨-1, [2], 4⟩)) ∧
      (bigint_errno.BIGINT_NOERR = bigint_errno.BIGINT_NOERR ∧
        (⟨1, [7], 4⟩ : bigint) = ⟨1, [7], 4⟩ ∧ (⟨-1, [3], 4⟩ : bigint) = ⟨-1, [3], 4⟩ ∧
        (value ⟨1, [1], 4⟩ = 0 → value ⟨-1, [3], 4⟩ = -value ⟨1, [2], 4⟩ ∧
          value ⟨-1, [2], 4⟩ = 0) ∧
        (value ⟨1, [1], 4⟩ ≠ 0 → value ⟨-1, [3], 4⟩ = -value ⟨1, [2], 4⟩ - 1 ∧
          value ⟨-1, [2], 4⟩ = value ⟨1, [1], 4⟩ + value ⟨-1, [3], 4⟩)) ∧
      (∃ res, bigint_divmod (fun _ _ => (bigint_init, 0)) ⟨1, [7], 4⟩ ⟨-1, [3], 4⟩
          bigint_init bigint_init = some res)) ∧
    ((well_formed ⟨-1, [999999999, 3], 4⟩ ∧ well_formed ⟨-1, [2], 4⟩ ∧
        value ⟨-1, [2], 4⟩ < 0 ∧
        bigint_divmod (fun _ _ => (bigint_init, 0)) ⟨-1, [999999999, 3], 4⟩
          (bigint_change_sign ⟨-1, [2], 4⟩) bigint_init bigint_init =
          some (bigint_errno.BIGINT_NOERR, ⟨-1, [999999999, 3], 4⟩, ⟨1, [2], 4⟩,
            ⟨-1, [1000000000, 1], 4⟩, ⟨1, [1], 4⟩) ∧
        bigint_divmod (fun _ _ => (bigint_init, 0)) ⟨-1, [999999999, 3], 4⟩ ⟨-1, [2], 4⟩
          bigint_init bigint_init =
          some (bigint_errno.BIGINT_NOERR, ⟨-1, [999999999, 3], 4⟩, ⟨-1, [2], 4⟩,
            ⟨1, [999999999, 1], 4⟩, ⟨-1, [1], 4⟩) ∧
        ¬ well_formed ⟨-1, [1000000000, 1], 4⟩) ∧
      (bigint_errno.BIGINT_NOERR = bigint_errno.BIGINT_NOERR ∧
        (⟨-1, [999999999, 3], 4⟩ : bigint) = ⟨-1, [999999999, 3], 4⟩ ∧
        (⟨-1, [2], 4⟩ : bigint) = ⟨-1, [2], 4⟩ ∧
        (value ⟨1, [1], 4⟩ = 0 →
          value ⟨1, [999999999, 1], 4⟩ = -value ⟨-1, [1000000000, 1], 4⟩ ∧
          value ⟨-1, [1], 4⟩ = 0) ∧
        (value ⟨1, [1], 4⟩ ≠ 0 →
          value ⟨1, [999999999, 1], 4⟩ = -value ⟨-1, [1000000000, 1], 4⟩ - 1 ∧
          value ⟨-1, [1], 4⟩ = value ⟨1, [1], 4⟩ + value ⟨-1, [2], 4⟩))) ∧
    ((well_formed ⟨1, [5, 0, 7], 4⟩ ∧ well_formed ⟨-1, [0, 1], 4⟩ ∧
        value ⟨-1, [0, 1], 4⟩ < 0 ∧ 1 < (⟨-1, [0, 1], 4⟩ : bigint).data_len ∧
        |value ⟨-1, [0, 1], 4⟩| < |value ⟨1, [5, 0, 7], 4⟩| ∧
        bigint_divmod (fun _ _ => (⟨1, [1], 4⟩, -9)) ⟨1, [5, 0, 7], 4⟩
          (bigint_change_sign ⟨-1, [0, 1], 4⟩) bigint_init bigint_init =
          some (bigint_errno.BIGINT_NOERR, ⟨1, [5, 0, 7], 4⟩, ⟨1, [0, 1], 4⟩,
            ⟨1, [0, 7], 2⟩, ⟨1, [5], 4⟩) ∧
        bigint_divmod (fun _ _ => (⟨1, [1], 4⟩, -9)) ⟨1, [5, 0, 7], 4⟩ ⟨-1, [0, 1], 4⟩
          bigint_init bigint_init =
          some (bigint_errno.BIGINT_NOERR, ⟨1, [5, 0, 7], 4⟩, ⟨-1, [0, 1], 4⟩,
            ⟨-1, [1, 7], 4⟩, ⟨-1, [999999995], 4⟩) ∧
        well_formed ⟨1, [0, 7], 2⟩ ∧ well_formed ⟨1, [5], 4⟩) ∧
      (bigint_errno.BIGINT_NOERR = bigint_errno.BIGINT_NOERR ∧
        (⟨1, [5, 0, 7], 4⟩ : bigint) = ⟨1, [5, 0, 7], 4⟩ ∧
        (⟨-1, [0, 1], 4⟩ : bigint) = ⟨-1, [0, 1], 4⟩ ∧
        (value ⟨1, [5], 4⟩ = 0 →
          value ⟨-1, [1, 7], 4⟩ = -value ⟨1, [0, 7], 2⟩ ∧
          value ⟨-1, [999999995], 4⟩ = 0) ∧
        (value ⟨1, [5], 4⟩ ≠ 0 →
          value ⟨-1, [1, 7], 4⟩ = -value ⟨1, [0, 7], 2⟩ - 1 ∧
          value ⟨-1, [999999995], 4⟩ = value ⟨1, [5], 4⟩ + value ⟨-1, [0, 1], 4⟩))) :=
  ⟨⟨by decide,
      (divmod_negative_divisor (fun _ _ => (bigint_init, 0)) ⟨1, [7], 4⟩ ⟨-1, [3], 4⟩
        bigint_init bigint_init (by decide) (by decide) (by decide) (by decide) (by decide)
        bigint_errno.BIGINT_NOERR ⟨1, [7], 4⟩ ⟨1, [3], 4⟩ ⟨1, [2], 4⟩ ⟨1, [1], 4⟩ (by decide)
        (fun h => absurd h (by decide))).1
        (bigint_errno.BIGINT_NOERR, ⟨1, [7], 4⟩, ⟨-1, [3], 4⟩, ⟨-1, [3], 4⟩, ⟨-1, [2], 4⟩)
        (by decide),
      (divmod_negative_divisor (fun _ _ => (bigint_init, 0)) ⟨1, [7], 4⟩ ⟨-1, [3], 4⟩
        bigint_init bigint_init (by decide) (by decide) (by decide) (by decide) (by decide)
        bigint_errno.BIGINT_NOERR ⟨1, [7], 4⟩ ⟨1, [3], 4⟩ ⟨1, [2], 4⟩ ⟨1, [1], 4⟩ (by decide)
        (fun h => absurd h (by decide))).2 (Or.inl (by decide)) (by decide)
        (Or.inr (by decide))⟩,
    ⟨by decide,
      (divmod_negative_divisor (fun _ _ => (bigint_init, 0)) ⟨-1, [999999999, 3], 4⟩
        ⟨-1, [2], 4⟩ bigint_init bigint_init (by decide) (by decide) (by decide) (by decide)
        (by decide) bigint_errno.BIGINT_NOERR ⟨-1, [999999999, 3], 4⟩ ⟨1, [2], 4⟩
        ⟨-1, [1000000000, 1], 4⟩ ⟨1, [1], 4⟩ (by decide) (fun h => absurd h (by decide))).1
        (bigint_errno.BIGINT_NOERR, ⟨-1, [999999999, 3], 4⟩, ⟨-1, [2], 4⟩,
          ⟨1, [999999999, 1], 4⟩, ⟨-1, [1], 4⟩)
        (by decide)⟩,
    ⟨by decide,
      (divmod_negative_divisor (fun _ _ => (⟨1, [1], 4⟩, -9)) ⟨1, [5, 0, 7], 4⟩
        ⟨-1, [0, 1], 4⟩ bigint_init bigint_init (by decide) (by decide) (by decide)
        (by decide) (by decide) bigint_errno.BIGINT_NOERR ⟨1, [5, 0, 7], 4⟩ ⟨1, [0, 1], 4⟩
        ⟨1, [0, 7], 2⟩ ⟨1, [5], 4⟩ (by decide)
        (fun _ _ => ⟨⟨0, loose_of_well_formed _ (by decide)⟩, by decide⟩)).1
        (bigint_errno.BIGINT_NOERR, ⟨1, [5, 0, 7], 4⟩, ⟨-1, [0, 1], 4⟩, ⟨-1, [1, 7], 4⟩,
          ⟨-1, [999999995], 4⟩)
        (by decide)⟩⟩

/-- C29 as the claim has it fails at 7 and -3: the call on 7 and 3 leaves the
remainder 1, and the call on 7 and -3 leaves the remainder -2, which is not
`b - r2 = -3 - 1 = -4`. -/
theorem divmod_7_neg_3_remainder_is_not_b_minus_r :
    bigint_divmod (fun _ _ => (bigint_init, 0)) ⟨1, [7], 4⟩ ⟨1, [3], 4⟩ bigint_init bigint_init =
      some (bigint_errno.BIGINT_NOERR, ⟨1, [7], 4⟩, ⟨1, [3], 4⟩, ⟨1, [2], 4⟩, ⟨1, [1], 4⟩) ∧
    bigint_divmod (fun _ _ => (bigint_init, 0)) ⟨1, [7], 4⟩ ⟨-1, [3], 4⟩ bigint_init bigint_init =
      some (bigint_errno.BIGINT_NOERR, ⟨1, [7], 4⟩, ⟨-1, [3], 4⟩, ⟨-1, [3], 4⟩, ⟨-1, [2], 4⟩) ∧
    value ⟨-1, [2], 4⟩ = -2 ∧
    value ⟨-1, [2], 4⟩ ≠ value ⟨-1, [3], 4⟩ - value ⟨1, [1], 4⟩ := by
  decide

/-- C1 at 2000000000 divided by 3, for every reciprocal estimate (the path does not
use it).  The long division gives the quotient 666666666 and the remainder 2, which
are right; the check before the return multiplies 3 by 666666666 (segments 999999998
and 1) and adds 2 through the fast path of `bigint_add_by_int`, whose carry test
leaves the segments 1000000000 and 1; `bigint_equal` compares them with the segments
0 and 2 of the dividend and reports a difference, so
`assert(bigint_divmod_check(a, b, q, r))` fails and the call does not return.  The
two examples of the claim, 12345 by 7 and -7 by 3, do return what the claim says. -/
theorem divmod_2000000000_by_3_assertion_fails (newton : bigint → Int → bigint × Int) :
    well_formed ⟨1, [0, 2], 4⟩ ∧ well_formed ⟨1, [3], 4⟩ ∧ value ⟨1, [3], 4⟩ ≠ 0 ∧
    (bigint_div_by_int (bigint_copy bigint_init ⟨1, [0, 2], 4⟩) 3).2 = ⟨1, [666666666], 4⟩ ∧
    (bigint_mod_by_int ⟨1, [0, 2], 4⟩ 3 0).2.1 = 2 ∧
    bigint_from_int bigint_init 2 = ⟨1, [2], 4⟩ ∧
    (bigint_mul_by (bigint_copy bigint_init ⟨1, [3], 4⟩) ⟨1, [666666666], 4⟩).1 =
      ⟨1, [999999998, 1], 4⟩ ∧
    (bigint_add_by ⟨1, [999999998, 1], 4⟩ ⟨1, [2], 4⟩).1 = ⟨1, [1000000000, 1], 4⟩ ∧
    bigint_equal ⟨1, [1000000000, 1], 4⟩ ⟨1, [0, 2], 4⟩ = 0 ∧
    bigint_divmod_check ⟨1, [0, 2], 4⟩ ⟨1, [3], 4⟩ ⟨1, [666666666], 4⟩ ⟨1, [2], 4⟩ = none ∧
    bigint_divmod newton ⟨1, [0, 2], 4⟩ ⟨1, [3], 4⟩ bigint_init bigint_init = none ∧
    bigint_divmod newton ⟨1, [12345], 4⟩ ⟨1, [7], 4⟩ bigint_init bigint_init =
      some (bigint_errno.BIGINT_NOERR, ⟨1, [12345], 4⟩, ⟨1, [7], 4⟩, ⟨1, [1763], 4⟩,
        ⟨1, [4], 4⟩) ∧
    bigint_divmod newton ⟨-1, [7], 4⟩ ⟨1, [3], 4⟩ bigint_init bigint_init =
      some (bigint_errno.BIGINT_NOERR, ⟨-1, [7], 4⟩, ⟨1, [3], 4⟩, ⟨-1, [3], 4⟩,
        ⟨1, [2], 4⟩) := by
  refine ⟨by decide, by decide, by decide, by decide, by decide, by decide, by decide,
    by decide, by decide, by decide, ?_, ?_, ?_⟩
  · rfl
  · rfl
  · rfl

/-- The negative divisor at -2000000000 and -3, for every reciprocal estimate: the
call on -2000000000 and 3 returns the quotient -666666667 and the remainder 1; the
call on -2000000000 and -3 turns them into 666666666 and -2, which are right, but the
check before the return adds -2 to the product -1999999998 through the fast path of
`bigint_add_by_int` and is left with the segments 1000000000 and 1, so the assertion
fails and the call does not return. -/
theorem divmod_neg_2000000000_by_neg_3_assertion_fails
    (newton : bigint → Int → bigint × Int) :
    well_formed ⟨-1, [0, 2], 4⟩ ∧ well_formed ⟨-1, [3], 4⟩ ∧
    bigint_divmod newton ⟨-1, [0, 2], 4⟩ (bigint_change_sign ⟨-1, [3], 4⟩) bigint_init
        bigint_init =
      some (bigint_errno.BIGINT_NOERR, ⟨-1, [0, 2], 4⟩, ⟨1, [3], 4⟩, ⟨-1, [666666667], 4⟩,
        ⟨1, [1], 4⟩) ∧
    bigint_sub_by_int (bigint_change_sign ⟨-1, [666666667], 4⟩) 1 = ⟨1, [666666666], 4⟩ ∧
    bigint_change_sign (bigint_sub_by (bigint_change_sign ⟨1, [1], 4⟩) ⟨-1, [3], 4⟩).1 =
      ⟨-1, [2], 4⟩ ∧
    (bigint_add_by (bigint_mul_by (bigint_copy bigint_init ⟨-1, [3], 4⟩)
        ⟨1, [666666666], 4⟩).1 ⟨-1, [2], 4⟩).1 = ⟨-1, [1000000000, 1], 4⟩ ∧
    bigint_divmod_check ⟨-1, [0, 2], 4⟩ ⟨-1, [3], 4⟩ ⟨1, [666666666], 4⟩ ⟨-1, [2], 4⟩ = none ∧
    bigint_divmod newton ⟨-1, [0, 2], 4⟩ ⟨-1, [3], 4⟩ bigint_init bigint_init = none := by
  refine ⟨by decide, by decide, ?_, by decide, by decide, by decide, by decide, ?_⟩
  · rfl
  · rfl

/-- On the paths without the reciprocal estimate (a divisor of one segment, or a
dividend not larger in magnitude), every return of `bigint_divmod` with a nonzero
divisor is a success with `a = b * q + r` and a remainder of the sign of `b` that is
smaller in magnitude: the quotient and the remainder are those of the floor
division.  What can go wrong on these paths is only that the call does not return. -/
theorem divmod_invariant_of_return (newton : bigint → Int → bigint × Int) (a b q r : bigint)
    (ha : well_formed a) (hb : well_formed b) (hq : well_formed q) (hr : well_formed r)
    (hb0 : value b ≠ 0) (hp : b.data_len = 1 ∨ |value a| ≤ |value b|)
    (res : bigint_errno × bigint × bigint × bigint × bigint)
    (h : bigint_divmod newton a b q r = some res) :
    res.1 = bigint_errno.BIGINT_NOERR ∧
    value a = value b * value res.2.2.2.1 + value res.2.2.2.2 ∧
    ((0 ≤ value res.2.2.2.2 ∧ value res.2.2.2.2 < value b) ∨
      (value b < value res.2.2.2.2 ∧ value res.2.2.2.2 ≤ 0)) ∧
    value res.2.2.2.1 = Int.fdiv (value a) (value b) := by
  have hcb := check_sign_of_well_formed b hb
  have hs0 : (bigint_check_sign b).sign ≠ 0 := by
    rw [hcb]
    intro e
    exact hb0 ((loose_sign_zero_iff 0 b (loose_of_well_formed b hb)).1 e)
  have hret := divmod_nonzero_errno newton a b q r hs0 res h
  have main : value a = value b * value res.2.2.2.1 + value res.2.2.2.2 ∧
      ((0 ≤ value res.2.2.2.2 ∧ value res.2.2.2.2 < value b) ∨
        (value b < value res.2.2.2.2 ∧ value res.2.2.2.2 ≤ 0)) := by
    by_cases hpos : 0 < value b
    · obtain ⟨ret, a2, b2, q2, r2⟩ := res
      obtain ⟨-, -, -, -, gv, g0, g1, -⟩ := divmod_aux_pos_regular newton 1 a b q r ha hb hq hr
        hpos (by rw [abs_of_pos hpos] at hp; exact hp) ret a2 b2 q2 r2 h
      exact ⟨gv, Or.inl ⟨g0, g1⟩⟩
    · have hneg : value b < 0 := by omega
      obtain ⟨n1, n2⟩ := change_sign_spec b hb
      obtain ⟨-, f2, -⟩ := change_sign_fields b hb
      have hbs : b.sign = -1 := by
        have := loose_value_sign 0 b (loose_of_well_formed b hb)
        have := hb.1
        omega
      cases hin : divmod_aux newton 1 a (bigint_change_sign b) q r with
      | none =>
        exfalso
        have h2 := h
        unfold bigint_divmod at h2
        rw [divmod_aux] at h2
        simp only [hcb] at h2
        rw [if_neg (by omega), if_pos (by omega), hin] at h2
        exact absurd h2 (by simp)
      | some res1 =>
        obtain ⟨ret, a2, b2, q2, r2⟩ := res1
        obtain ⟨-, -, lq, wr, gv, g0, g1, -⟩ := divmod_aux_pos_regular newton 0 a
          (bigint_change_sign b) q r ha n1 hq hr (by omega)
          (by
            have hl : (bigint_change_sign b).data_len = b.data_len := by
              unfold bigint.data_len
              rw [f2]
            rw [hl, n2]
            rw [abs_of_neg hneg] at hp
            exact hp)
          ret a2 b2 q2 r2 hin
        obtain ⟨-, e2, e3⟩ := divmod_neg_fixup newton a b q r ha hb hneg ret a2 b2 q2 r2 2 hin
          lq wr res h
        rw [n2] at gv g1
        by_cases hz : value r2 = 0
        · obtain ⟨x1, x2⟩ := e2 hz
          rw [x1, x2]
          refine ⟨?_, Or.inr ⟨by omega, le_refl _⟩⟩
          rw [gv, hz]
          ring
        · obtain ⟨x1, x2⟩ := e3 hz
          rw [x1, x2]
          refine ⟨?_, Or.inr ⟨by omega, by omega⟩⟩
          rw [gv]
          ring
  exact ⟨hret, main.1, main.2, (fdiv_unique _ _ _ _ main.1 main.2).symm⟩

/-! ## Packing, and calls with one instance in both places -/

/-- The capacity `bigint_pack_memory` leaves: twice the packed length when four
times that length is below the old capacity, the old capacity otherwise. -/
theorem pack_memory_mem_size (p : bigint) :
    (bigint_pack_memory p).mem_size =
      if (pack_trim p.data).length * 4 < p.mem_size then (pack_trim p.data).length * 2
      else p.mem_size := by
  unfold bigint_pack_memory bigint_check_sign
  simp only
  split_ifs <;> rfl

/-- C31: for a number of at least one segment whose capacity is at least its length,
`bigint_pack_memory` keeps the value; the result has at least one segment and no
most-significant zero segment unless its length is 1; for non-negative segments a
magnitude of zero gives the sign 0; the capacity is at least the length, and it is
twice the new length when four times the new length was below the old capacity, the
old capacity otherwise. -/
theorem pack_memory_normalizes (x : bigint) (hlen : 1 ≤ x.data.length)
    (hcap : x.data.length ≤ x.mem_size) :
    value (bigint_pack_memory x) = value x ∧
    1 ≤ (bigint_pack_memory x).data.length ∧
    ((bigint_pack_memory x).data.length = 1 ∨
      (bigint_pack_memory x).data.getLast? ≠ some 0) ∧
    ((∀ s ∈ x.data, 0 ≤ s) → seg_value x.data = 0 → (bigint_pack_memory x).sign = 0) ∧
    (bigint_pack_memory x).data.length ≤ (bigint_pack_memory x).mem_size ∧
    (bigint_pack_memory x).mem_size =
      (if 4 * (bigint_pack_memory x).data.length < x.mem_size then
        2 * (bigint_pack_memory x).data.length
      else x.mem_size) := by
  have hne : x.data ≠ [] := by
    intro h
    rw [h] at hlen
    simp at hlen
  obtain ⟨l1, l2⟩ := pack_trim_length x.data
  have l3 := l2 hne
  have hm := pack_memory_mem_size x
  rw [pack_memory_data]
  refine ⟨pack_memory_value x, l3, ?_, ?_, ?_, ?_⟩
  · by_cases h1 : (pack_trim x.data).length = 1
    · exact Or.inl h1
    · exact Or.inr (pack_trim_last x.data (by omega))
  · intro hnn hv
    have hz := all_zero_of_seg_value_zero x.data hnn hv
    rw [pack_memory_sign]
    have ht : pack_trim x.data = [0] := by
      cases hd : x.data with
      | nil => exact absurd hd hne
      | cons y ys =>
        rw [hd] at hz
        have hy : y = 0 := hz y (List.mem_cons_self _ _)
        have hs : strip_zeros ys = [] := by
          cases hst : strip_zeros ys with
          | nil => rfl
          | cons u us =>
            exfalso
            have hl := strip_zeros_last ys
            have hmem : ∀ s ∈ strip_zeros ys, s = 0 := fun s hs =>
              hz s (List.mem_cons_of_mem _ (strip_zeros_mem ys s hs))
            rw [hst] at hl hmem
            have hlast : (u :: us).getLast? = some ((u :: us).getLast (by simp)) :=
              List.getLast?_eq_getLast _ _
            rw [hlast, hmem _ (List.getLast_mem _)] at hl
            exact hl rfl
        simp only [pack_trim, hs, hy]
    rw [if_pos ht]
  · rw [hm]
    split_ifs <;> omega
  · rw [hm]
    split_ifs <;> omega

/-- C31 on a positive number with two zero segments on top and capacity 16. -/
theorem pack_memory_normalizes_witness :
    (1 ≤ (⟨1, [7, 0, 0], 16⟩ : bigint).data.length ∧
      (⟨1, [7, 0, 0], 16⟩ : bigint).data.length ≤ (⟨1, [7, 0, 0], 16⟩ : bigint).mem_size) ∧
    value (bigint_pack_memory ⟨1, [7, 0, 0], 16⟩) = value ⟨1, [7, 0, 0], 16⟩ ∧
    bigint_pack_memory ⟨1, [7, 0, 0], 16⟩ = ⟨1, [7], 2⟩ ∧
    bigint_pack_memory ⟨-1, [0, 0], 4⟩ = ⟨0, [0], 4⟩ :=
  ⟨by decide,
    (pack_memory_normalizes ⟨1, [7, 0, 0], 16⟩ (by decide) (by decide)).1,
    by decide, by decide⟩

/-- C32: for a well-formed `a`, `bigint_add_by` with `a` as destination and source
leaves a well-formed number of value `2 * value(a)`, and `bigint_mul_by` with `a` as
destination and source leaves a well-formed number of value `value(a)^2`, whatever
the number of segments. -/
theorem self_add_self_mul (a : bigint) (ha : well_formed a) :
    value (bigint_add_by_self a) = 2 * value a ∧ well_formed (bigint_add_by_self a) ∧
    value (bigint_mul_by_self a) = value a ^ 2 ∧ well_formed (bigint_mul_by_self a) := by
  obtain ⟨m1, m2⟩ := mul_by_self_spec a ha
  have hcs := check_sign_of_well_formed a ha
  have hR : BIGINT_RADIX = 1000000000 := rfl
  have hadd : value (bigint_add_by_self a) = 2 * value a ∧ well_formed (bigint_add_by_self a) := by
    unfold bigint_add_by_self
    simp only [hcs]
    by_cases h0 : a.sign = 0
    · rw [if_pos h0]
      obtain ⟨c1, c2, -, -⟩ := copy_spec a a ha
      refine ⟨?_, c2⟩
      rw [c1]
      have : value a = 0 := by unfold value; rw [h0]; ring
      omega
    · rw [if_neg h0, if_neg h0]
      by_cases h1 : a.data_len = 1
      · rw [if_pos h1]
        obtain ⟨d0, hd0⟩ : ∃ d0, a.data = [d0] := List.length_eq_one.1 h1
        have hr := ha.2.2.1 d0 (by rw [hd0]; simp)
        rw [hR] at hr
        have hhd : a.data.headD 0 = d0 := by rw [hd0]; rfl
        have hva : value a = a.sign * d0 := by
          unfold value; rw [hd0]; simp [seg_value]
        rw [hhd]
        unfold bigint_add_by_int
        rcases ha.1 with hs | hs | hs
        · rw [if_pos (by omega)]
          refine ⟨?_, add_by_int_aux_single 2 a (-d0) ha h1 (by rw [hR]; omega)⟩
          rw [add_by_int_small_value 2 a (-d0) ha (by rw [hR]; omega), hva, hs]
          ring
        · exact absurd hs h0
        · rw [if_neg (by omega), if_pos (by omega)]
          refine ⟨?_, add_by_int_aux_single 2 a d0 ha h1 (by rw [hR]; omega)⟩
          rw [add_by_int_small_value 2 a d0 ha (by rw [hR]; omega), hva, hs]
          ring
      · rw [if_neg h1]
        obtain ⟨w, v⟩ := mul_by_int_spec a 2 ha (by norm_num) (by norm_num)
        refine ⟨?_, w⟩
        rw [v]; ring
  refine ⟨hadd.1, hadd.2, ?_, m1⟩
  rw [m2]; ring

/-- C32 on -3999999999 (two segments) and on 999999999 (one segment). -/
theorem self_add_self_mul_witness :
    (well_formed ⟨-1, [999999999, 3], 4⟩ ∧
      value (bigint_add_by_self ⟨-1, [999999999, 3], 4⟩) = 2 * value ⟨-1, [999999999, 3], 4⟩ ∧
      bigint_add_by_self ⟨-1, [999999999, 3], 4⟩ = ⟨-1, [999999998, 7], 4⟩) ∧
    (well_formed ⟨1, [999999999], 4⟩ ∧
      value (bigint_mul_by_self ⟨1, [999999999], 4⟩) = value ⟨1, [999999999], 4⟩ ^ 2 ∧
      bigint_add_by_self ⟨1, [999999999], 4⟩ = ⟨1, [999999998, 1], 4⟩) :=
  ⟨⟨by decide, (self_add_self_mul ⟨-1, [999999999, 3], 4⟩ (by decide)).1, by decide⟩,
    ⟨by decide, (self_add_self_mul ⟨1, [999999999], 4⟩ (by decide)).2.2.1, by decide⟩⟩

/-- `bigint_compare(p, p)` on a well-formed number that is not negative returns 0
without a nested call and leaves the number as it was. -/
theorem compare_self_nonneg (p : bigint) (hp : well_formed p) (h : 0 ≤ value p) (depth : Nat) :
    compare_self_aux (depth + 1) p = some (0, p) := by
  have hcs := check_sign_of_well_formed p hp
  have hv := loose_value_sign 0 p (loose_of_well_formed p hp)
  have hs := hp.1
  have hseg : ∀ l : List Int, compare_segments l l = 0 := by
    intro l
    induction l with
    | nil => rfl
    | cons x xs ih => simp [compare_segments, ih]
  rw [compare_self_aux]
  simp only [hcs, lt_irrefl, gt_iff_lt, if_false]
  by_cases h0 : p.sign = 0
  · rw [if_pos h0]
  · rw [if_neg h0, if_neg (by omega), hseg]

/-- C33: `bigint_compare` with one well-formed negative instance in both places
never returns: the two sign changes of the both-negative branch act on the same
instance and cancel, so the nested call receives the number it started from, and for
every bound on the nesting of calls the bound is reached.  For a number that is not
negative the call returns 0. -/
theorem compare_self_negative_never_returns (p : bigint) (hp : well_formed p) :
    (value p < 0 → bigint_change_sign (bigint_change_sign p) = p ∧
      ∀ depth : Nat, compare_self_aux depth p = none) ∧
    (0 ≤ value p → ∀ depth : Nat, compare_self_aux (depth + 1) p = some (0, p)) := by
  refine ⟨?_, fun h depth => compare_self_nonneg p hp h depth⟩
  intro hneg
  have hinv := change_sign_involutive p hp
  refine ⟨hinv, ?_⟩
  have hcs := check_sign_of_well_formed p hp
  have hv := loose_value_sign 0 p (loose_of_well_formed p hp)
  have hs := hp.1
  intro depth
  induction depth with
  | zero => rfl
  | succ n ih =>
    rw [compare_self_aux]
    simp only [hcs, lt_irrefl, gt_iff_lt, if_false]
    rw [if_neg (by omega), if_pos (by omega), hinv, ih]

/-- C33 at -1: no nesting bound, a million included, lets the call return. -/
theorem compare_self_negative_never_returns_witness :
    well_formed ⟨-1, [1], 4⟩ ∧ value ⟨-1, [1], 4⟩ < 0 ∧
    compare_self_aux 1000000 ⟨-1, [1], 4⟩ = none ∧
    well_formed ⟨1, [1], 4⟩ ∧ 0 ≤ value ⟨1, [1], 4⟩ ∧
    compare_self_aux 1 ⟨1, [1], 4⟩ = some (0, ⟨1, [1], 4⟩) :=
  ⟨by decide, by decide,
    ((compare_self_negative_never_returns ⟨-1, [1], 4⟩ (by decide)).1 (by decide)).2 1000000,
    by decide, by decide,
    (compare_self_negative_never_returns ⟨1, [1], 4⟩ (by decide)).2 (by decide) 0⟩

/-! ## Conversions to and from `int`, and results that disagree -/

/-- On a well-formed number whose value is an `int`, `bigint_to_int` returns success
and stores the value. -/
theorem to_int_in_range (x : bigint) (old : Int) (h : well_formed x)
    (h1 : -2147483648 ≤ value x) (h2 : value x ≤ 2147483647) :
    bigint_to_int x old = (bigint_errno.BIGINT_NOERR, value x) := by
  have hcs := check_sign_of_well_formed x h
  have hnn : ∀ s ∈ x.data.reverse, 0 ≤ s := fun s hs => (h.2.2.1 s (List.mem_reverse.1 hs)).1
  have hfold : List.foldl (fun t x => t * BIGINT_RADIX + x) 0 x.data.reverse = seg_value x.data := by
    rw [desc_fold_reverse]; ring
  have hp := to_int_overflow_pos_iff x.data.reverse 0 (le_refl _) (by norm_num) hnn
  have hn := to_int_overflow_neg_iff x.data.reverse 0 (le_refl _) (by norm_num) hnn
  rw [hfold] at hp hn
  have hz := (loose_value_sign 0 x (loose_of_well_formed x h)).1
  unfold bigint_to_int
  simp only [hcs]
  rcases h.1 with hs | hs | hs
  · have hv : value x = -seg_value x.data := by unfold value; rw [hs]; ring
    have e0 : ¬ (x.sign > 0) := by omega
    have e1 : x.sign < 0 := by omega
    have hov : ¬ to_int_overflow_neg 0 x.data.reverse = true := by
      intro hc
      have := hn.1 hc
      omega
    simp only [e0, e1, hov, false_and, if_false, not_false_eq_true, and_false, and_true,
      Bool.false_eq_true]
    have hacc := to_int_accum_neg_eq x.data.reverse 0 (le_refl _) hnn (by rw [hfold]; omega)
    rw [neg_zero] at hacc
    rw [hacc, hfold, hv]
    simp
  · have hv := hz hs
    simp only [hs, gt_iff_lt, lt_self_iff_false, false_and, if_false, not_false_eq_true,
      and_false, and_self]
    rw [hv]
  · have hv : value x = seg_value x.data := by unfold value; rw [hs]; ring
    have e0 : x.sign > 0 := by omega
    have hov : ¬ to_int_overflow_pos 0 x.data.reverse = true := by
      intro hc
      have := hp.1 hc
      omega
    simp only [e0, hov, and_false, if_false, not_true_eq_false, false_and, if_true,
      Bool.false_eq_true]
    have hacc := to_int_accum_pos_eq x.data.reverse 0 (le_refl _) hnn (by rw [hfold]; omega)
    rw [hacc, hfold, hv]

/-- The round trip through `bigint_from_int` and `bigint_to_int` for every `int`
above `INT_MIN`. -/
theorem from_int_to_int_above_min (p : bigint) (v old : Int) (h1 : -2147483648 < v)
    (h2 : v < 2147483648) (hp : 1 ≤ p.mem_size) :
    well_formed (bigint_from_int p v) ∧ value (bigint_from_int p v) = v ∧
    bigint_to_int (bigint_from_int p v) old = (bigint_errno.BIGINT_NOERR, v) := by
  obtain ⟨f1, f2⟩ := from_int_spec p v h1 h2 hp
  refine ⟨f2, f1, ?_⟩
  have := to_int_in_range (bigint_from_int p v) old f2 (by omega) (by omega)
  rw [this, f1]

/-- C37 at `INT_MIN`: the negation `value = -value` leaves -2147483648, which is
neither 0 nor positive, so `bigint_from_int` writes no segment: the result has the
sign -1, length 0 and (after packing) capacity 0.  It is not well-formed, its value
is 0, and `bigint_to_int` returns success with 0 instead of -2147483648. -/
theorem from_int_min_has_no_segment :
    wrap_int (-(-2147483648)) = -2147483648 ∧
    bigint_from_int bigint_init (-2147483648) = ⟨-1, [], 0⟩ ∧
    ¬ well_formed (bigint_from_int bigint_init (-2147483648)) ∧
    value (bigint_from_int bigint_init (-2147483648)) = 0 ∧
    bigint_to_int (bigint_from_int bigint_init (-2147483648)) 7 =
      (bigint_errno.BIGINT_NOERR, 0) := by
  decide

/-- C35 at 1999999999 and 1: with the longer number as destination the sum goes
through `bigint_add_by_int`, which leaves the segments 1000000000 and 1; with the
one-segment number as destination it goes through the general path, which leaves 0
and 2.  Both have the value 2000000000, but `bigint_equal` compares segment by
segment and returns 0. -/
theorem add_by_orders_not_equal :
    well_formed ⟨1, [999999999, 1], 4⟩ ∧ well_formed ⟨1, [1], 4⟩ ∧
    (bigint_add_by ⟨1, [999999999, 1], 4⟩ ⟨1, [1], 4⟩).1 = ⟨1, [1000000000, 1], 4⟩ ∧
    (bigint_add_by ⟨1, [1], 4⟩ ⟨1, [999999999, 1], 4⟩).1 = ⟨1, [0, 2], 4⟩ ∧
    bigint_equal (bigint_add_by ⟨1, [999999999, 1], 4⟩ ⟨1, [1], 4⟩).1
      (bigint_add_by ⟨1, [1], 4⟩ ⟨1, [999999999, 1], 4⟩).1 = 0 ∧
    value (bigint_add_by ⟨1, [999999999, 1], 4⟩ ⟨1, [1], 4⟩).1 =
      value (bigint_add_by ⟨1, [1], 4⟩ ⟨1, [999999999, 1], 4⟩).1 := by
  decide

/-- C38 at the exponent 9 on negative numbers: `bigint_div_by_pow_10` removes the low
segment, which rounds toward zero, where `bigint_div_by_int` by 10^9 rounds toward
negative infinity: -5 gives 0 against -1, and -1000000005 gives -1 against -2. -/
theorem div_by_pow_10_nine_truncates :
    well_formed ⟨-1, [5], 4⟩ ∧ well_formed ⟨-1, [5, 1], 4⟩ ∧
    pow10_loop 9 1 = 1000000000 ∧
    bigint_div_by_pow_10 ⟨-1, [5], 4⟩ 9 = ⟨0, [0], 4⟩ ∧
    bigint_div_by_int ⟨-1, [5], 4⟩ 1000000000 = (bigint_errno.BIGINT_NOERR, ⟨-1, [1], 4⟩) ∧
    bigint_div_by_pow_10 ⟨-1, [5, 1], 4⟩ 9 = ⟨-1, [1], 1⟩ ∧
    bigint_div_by_int ⟨-1, [5, 1], 4⟩ 1000000000 =
      (bigint_errno.BIGINT_NOERR, ⟨-1, [2], 4⟩) ∧
    Int.fdiv (value ⟨-1, [5, 1], 4⟩) 1000000000 = -2 := by
  decide

/-! ## The remainder modulo a power of ten -/

/-- Keeping the segments up to index `ks` and reducing segment `ks` modulo a divisor
`r` of the radix gives the segments of the magnitude modulo `RADIX^ks * r`. -/
theorem mod_segments_value (r c : Int) (hr0 : 0 < r) (hc : BIGINT_RADIX = r * c) (l : List Int) :
    ∀ ks : Nat, ks < l.length → (∀ s ∈ l, 0 ≤ s ∧ s < BIGINT_RADIX) →
    seg_value ((l.take (ks + 1)).set ks (Int.tmod ((l.take (ks + 1)).getD ks 0) r)) =
      seg_value l % (BIGINT_RADIX ^ ks * r) ∧
    (∀ s ∈ (l.take (ks + 1)).set ks (Int.tmod ((l.take (ks + 1)).getD ks 0) r),
      0 ≤ s ∧ s < BIGINT_RADIX) ∧
    ((l.take (ks + 1)).set ks (Int.tmod ((l.take (ks + 1)).getD ks 0) r)).length = ks + 1 := by
  have hR : BIGINT_RADIX = 1000000000 := rfl
  have hrR : r ≤ BIGINT_RADIX := by
    have hc0 : 0 < c := by
      by_contra hcon
      have : r * c ≤ 0 := Int.mul_nonpos_of_nonneg_of_nonpos (le_of_lt hr0) (by omega)
      omega
    have : r * 1 ≤ r * c := Int.mul_le_mul_of_nonneg_left (by omega) (le_of_lt hr0)
    omega
  induction l with
  | nil => intro ks h; simp at h
  | cons x xs ih =>
    intro ks hks hl
    have hx := hl x (List.mem_cons_self _ _)
    have hxs : ∀ s ∈ xs, 0 ≤ s ∧ s < BIGINT_RADIX := fun s hs => hl s (List.mem_cons_of_mem _ hs)
    cases ks with
    | zero =>
      have hm0 := Int.emod_nonneg x (by omega : r ≠ 0)
      have hm1 := Int.emod_lt_of_pos x hr0
      simp only [zero_add, List.take_succ_cons, List.take_zero, List.getD_cons_zero,
        List.set_cons_zero, seg_value, pow_zero, Int.one_mul, Int.mul_zero, Int.add_zero,
        List.length_singleton, List.mem_singleton, forall_eq, tmod_of_nonneg x r hx.1]
      refine ⟨?_, ⟨hm0, by omega⟩, trivial⟩
      have e : x + BIGINT_RADIX * seg_value xs = x + r * (c * seg_value xs) := by
        rw [hc]; ring
      rw [e, Int.add_mul_emod_self_left]
    | succ j =>
      have hj : j < xs.length := by
        simp only [List.length_cons] at hks
        omega
      obtain ⟨i1, i2, i3⟩ := ih j hj hxs
      simp only [List.take_succ_cons, List.getD_cons_succ, List.set_cons_succ, seg_value,
        List.length_cons, i3]
      refine ⟨?_, ?_, trivial⟩
      · rw [i1]
        have hM : 0 < BIGINT_RADIX ^ j * r := Int.mul_pos (by positivity) hr0
        have hm0 := Int.emod_nonneg (seg_value xs) (by omega : BIGINT_RADIX ^ j * r ≠ 0)
        have hm1 := Int.emod_lt_of_pos (seg_value xs) hM
        have hdm := Int.emod_add_ediv (seg_value xs) (BIGINT_RADIX ^ j * r)
        have e : x + BIGINT_RADIX * seg_value xs =
            (x + BIGINT_RADIX * (seg_value xs % (BIGINT_RADIX ^ j * r))) +
              (BIGINT_RADIX ^ (j + 1) * r) * (seg_value xs / (BIGINT_RADIX ^ j * r)) := by
          rw [pow_succ]
          linear_combination (-BIGINT_RADIX) * hdm
        rw [e, Int.add_mul_emod_self_left]
        symm
        apply Int.emod_eq_of_lt
        · have : 0 ≤ BIGINT_RADIX * (seg_value xs % (BIGINT_RADIX ^ j * r)) :=
            Int.mul_nonneg (by norm_num) hm0
          omega
        · have h1 : BIGINT_RADIX * (seg_value xs % (BIGINT_RADIX ^ j * r) + 1) ≤
              BIGINT_RADIX * (BIGINT_RADIX ^ j * r) :=
            Int.mul_le_mul_of_nonneg_left (by omega) (by norm_num)
          have e2 : BIGINT_RADIX ^ (j + 1) * r = BIGINT_RADIX * (BIGINT_RADIX ^ j * r) := by
            rw [pow_succ]; ring
          have e3 : BIGINT_RADIX * (seg_value xs % (BIGINT_RADIX ^ j * r) + 1) =
              BIGINT_RADIX * (seg_value xs % (BIGINT_RADIX ^ j * r)) + BIGINT_RADIX := by ring
          rw [e2]
          omega
      · intro s hs
        rcases List.mem_cons.1 hs with h | h
        · rw [h]; exact hx
        · exact i2 s h

/-- The magnitude of a well-formed number is the number its segments denote. -/
theorem abs_value (x : bigint) (hx : well_formed x) : |value x| = seg_value x.data := by
  have hnn := seg_value_nonneg x.data (fun s hs => (hx.2.2.1 s hs).1)
  unfold value
  rcases hx.1 with h | h | h
  · rw [h, abs_of_nonpos (by omega)]; ring
  · have := hx.2.2.2.2.1.1 h
    rw [h, this]
    simp [seg_value]
  · rw [h, abs_of_nonneg (by omega)]; ring

/-- `bigint_mod_by_pow_10` for an exponent `n >= 0`: success, a well-formed result
with the sign of the number on the magnitude modulo `10^n`, and the same sign and
segments when the magnitude is below `10^n`. -/
theorem mod_by_pow_10_nat (x : bigint) (n : Nat) (hx : well_formed x) :
    (bigint_mod_by_pow_10 x n).1 = bigint_errno.BIGINT_NOERR ∧
    well_formed (bigint_mod_by_pow_10 x n).2 ∧
    value (bigint_mod_by_pow_10 x n).2 = x.sign * (|value x| % 10 ^ n) ∧
    (|value x| < 10 ^ n → (bigint_mod_by_pow_10 x n).2.sign = x.sign ∧
      (bigint_mod_by_pow_10 x n).2.data = x.data) := by
  have hab := abs_value x hx
  have hrange := hx.2.2.1
  have hsv := seg_value_lt_pow x.data hrange
  have e1 : (((n : Int) / 9).toNat) = n / 9 := by omega
  have e2 : (((n : Int) % 9).toNat) = n % 9 := by omega
  have hsplit := pow_split n
  have key : ∀ res : bigint, well_formed res → value res = x.sign * (|value x| % 10 ^ n) →
      (|value x| < 10 ^ n → res.sign = x.sign ∧ res.data = x.data) := by
    intro res hw hv hlt
    apply well_formed_unique res x hw hx
    rw [hv, Int.emod_eq_of_lt (abs_nonneg _) hlt, hab]
    rfl
  unfold bigint_mod_by_pow_10
  rw [if_neg (by omega)]
  simp only [e1, e2, pow10_loop_eq, Int.one_mul]
  by_cases hks : n / 9 < x.data_len
  · rw [if_pos hks]
    have hj : n % 9 < 9 := Nat.mod_lt _ (by norm_num)
    have hr0 : (0 : Int) < 10 ^ (n % 9) := by positivity
    have hc : BIGINT_RADIX = 10 ^ (n % 9) * 10 ^ (9 - n % 9) := by
      rw [← pow_add]
      have : n % 9 + (9 - n % 9) = 9 := by omega
      rw [this]
      norm_num
    obtain ⟨v1, v2, v3⟩ := mod_segments_value (10 ^ (n % 9)) (10 ^ (9 - n % 9)) hr0 hc x.data
      (n / 9) hks hrange
    have hmod : BIGINT_RADIX ^ (n / 9) * 10 ^ (n % 9) = (10 : Int) ^ n := by
      rw [← hsplit]; ring
    rw [hmod] at v1
    have hw : well_formed (bigint_pack_memory ⟨x.sign,
        (x.data.take (n / 9 + 1)).set (n / 9)
          (Int.tmod ((x.data.take (n / 9 + 1)).getD (n / 9) 0) (10 ^ (n % 9))), x.mem_size⟩) := by
      apply pack_memory_well_formed
      · exact hx.1
      · intro h
        have := congrArg List.length h
        simp only [v3, List.length_nil] at this
        omega
      · exact v2
      · intro h0
        have hd0 := hx.2.2.2.2.1.1 h0
        apply all_zero_of_seg_value_zero _ (fun s hs => (v2 s hs).1)
        show seg_value ((x.data.take (n / 9 + 1)).set (n / 9)
          (Int.tmod ((x.data.take (n / 9 + 1)).getD (n / 9) 0) (10 ^ (n % 9)))) = 0
        rw [v1, hd0]
        simp [seg_value]
      · simp only [v3]
        have := hx.2.2.2.2.2
        unfold bigint.data_len at hks
        omega
    have hv : value (bigint_pack_memory ⟨x.sign,
        (x.data.take (n / 9 + 1)).set (n / 9)
          (Int.tmod ((x.data.take (n / 9 + 1)).getD (n / 9) 0) (10 ^ (n % 9))), x.mem_size⟩) =
        x.sign * (|value x| % 10 ^ n) := by
      rw [pack_memory_value, hab]
      unfold value
      simp only
      rw [v1]
    exact ⟨rfl, hw, hv, key _ hw hv⟩
  · rw [if_neg hks]
    have hlt : seg_value x.data < 10 ^ n := by
      have h1 : BIGINT_RADIX ^ x.data.length ≤ BIGINT_RADIX ^ (n / 9) :=
        pow_le_pow_right₀ (by norm_num) (by unfold bigint.data_len at hks; omega)
      have h2 : BIGINT_RADIX ^ (n / 9) ≤ (10 : Int) ^ n := by
        rw [← hsplit]
        have h3 : (1 : Int) ≤ 10 ^ (n % 9) := one_le_pow₀ (by norm_num)
        have h4 : (0 : Int) ≤ BIGINT_RADIX ^ (n / 9) := by positivity
        nlinarith
      omega
    have hv : value x = x.sign * (|value x| % 10 ^ n) := by
      rw [hab, Int.emod_eq_of_lt hsv.1 hlt]
      rfl
    exact ⟨rfl, hx, hv, fun _ => ⟨rfl, rfl⟩⟩

/-- C39: for a well-formed `x` and `k >= 0`, `bigint_mod_by_pow_10` returns success
and leaves a well-formed number of value `sign(x) * (|x| mod 10^k)`, with the sign and
segments of `x` when `|x| < 10^k`; for `k < 0` it returns the illegal-parameter error
and leaves `x` as it was. -/
theorem mod_by_pow_10_remainder (x : bigint) (k : Int) (hx : well_formed x) :
    (0 ≤ k →
      (bigint_mod_by_pow_10 x k).1 = bigint_errno.BIGINT_NOERR ∧
      well_formed (bigint_mod_by_pow_10 x k).2 ∧
      value (bigint_mod_by_pow_10 x k).2 = x.sign * (|value x| % 10 ^ k.toNat) ∧
      (|value x| < 10 ^ k.toNat → (bigint_mod_by_pow_10 x k).2.sign = x.sign ∧
        (bigint_mod_by_pow_10 x k).2.data = x.data)) ∧
    (k < 0 → bigint_mod_by_pow_10 x k = (bigint_errno.BIGINT_ILLEGAL_PARAM, x)) := by
  constructor
  · intro hk
    obtain ⟨n, rfl⟩ := Int.eq_ofNat_of_zero_le hk
    exact mod_by_pow_10_nat x n hx
  · intro hk
    unfold bigint_mod_by_pow_10
    rw [if_pos hk]

/-- C39 at -987654321123456789 and the exponent 12: the remainder is -321123456789;
and the exponent -1 is refused. -/
theorem mod_by_pow_10_remainder_witness :
    well_formed ⟨-1, [123456789, 987654321], 4⟩ ∧
    value (bigint_mod_by_pow_10 ⟨-1, [123456789, 987654321], 4⟩ 12).2 =
      (⟨-1, [123456789, 987654321], 4⟩ : bigint).sign *
        (|value ⟨-1, [123456789, 987654321], 4⟩| % 10 ^ (12 : Int).toNat) ∧
    bigint_mod_by_pow_10 ⟨-1, [123456789, 987654321], 4⟩ 12 =
      (bigint_errno.BIGINT_NOERR, ⟨-1, [123456789, 321], 4⟩) ∧
    bigint_mod_by_pow_10 ⟨-1, [123456789, 987654321], 4⟩ (-1) =
      (bigint_errno.BIGINT_ILLEGAL_PARAM, ⟨-1, [123456789, 987654321], 4⟩) :=
  ⟨by decide,
    ((mod_by_pow_10_remainder ⟨-1, [123456789, 987654321], 4⟩ 12 (by decide)).1
      (by decide)).2.2.1,
    by decide,
    (mod_by_pow_10_remainder ⟨-1, [123456789, 987654321], 4⟩ (-1) (by decide)).2 (by decide)⟩

/-! ## Division by a power of ten -/

/-- Dropping the `n` low segments divides the magnitude by `RADIX^n`, rounding
down. -/
theorem seg_value_drop_div (l : List Int) (n : Nat) (hn : n ≤ l.length)
    (hr : ∀ s ∈ l, 0 ≤ s ∧ s < BIGINT_RADIX) :
    seg_value (l.drop n) = seg_value l / BIGINT_RADIX ^ n := by
  have ht := seg_value_lt_pow (l.take n) (fun s hs => hr s (List.mem_of_mem_take hs))
  have hlen : (l.take n).length = n := by
    rw [List.length_take]; omega
  rw [hlen] at ht
  have e : seg_value l = seg_value (l.take n) + BIGINT_RADIX ^ n * seg_value (l.drop n) := by
    have := seg_value_append (l.take n) (l.drop n)
    rw [List.take_append_drop, hlen] at this
    exact this
  have hpos : (0 : Int) < BIGINT_RADIX ^ n := by positivity
  rw [e, Int.add_mul_ediv_left _ _ (by omega), Int.ediv_eq_zero_of_lt ht.1 ht.2]
  ring

/-- The number `bigint_div_by_pow_10` builds from the segments above the `ts` low
ones, with a capacity equal to its length, is well-formed. -/
theorem drop_segments_well_formed (x : bigint) (ts : Nat) (hx : well_formed x)
    (hts : ts < x.data_len) :
    well_formed ⟨x.sign, x.data.drop ts, x.data_len - ts⟩ := by
  obtain ⟨hs, hlen, hr, htop, hz, hm⟩ := hx
  unfold bigint.data_len at hts ⊢
  have hne : x.data.drop ts ≠ [] := by
    intro h
    have := congrArg List.length h
    simp only [List.length_drop, List.length_nil] at this
    omega
  have hlast : (x.data.drop ts).getLast? = x.data.getLast? := by
    have h1 := getLast_append_ne_nil (x.data.take ts) (x.data.drop ts) hne
    rw [List.take_append_drop] at h1
    exact h1.symm
  refine ⟨hs, ?_, fun s h => hr s (List.mem_of_mem_drop h), ?_, ?_, ?_⟩
  · simp only [List.length_drop]; omega
  · intro h1
    simp only [List.length_drop] at h1
    show (x.data.drop ts).getLast? ≠ some 0
    rw [hlast]
    exact htop (by omega)
  · constructor
    · intro h0
      have hd := hz.1 h0
      show x.data.drop ts = [0]
      rw [hd] at hts ⊢
      simp only [List.length_singleton] at hts
      have : ts = 0 := by omega
      rw [this]
      rfl
    · intro hd
      have hd' : x.data.drop ts = [0] := hd
      rw [hd'] at hlast
      by_cases h1 : 1 < x.data.length
      · exact absurd hlast.symm (htop h1)
      · have hl1 : x.data.length = 1 := by omega
        obtain ⟨d0, hd0⟩ := List.length_eq_one.1 hl1
        rw [hd0] at hlast
        simp only [List.getLast?_singleton, Option.some.injEq] at hlast
        exact hz.2 (by rw [hd0, ← hlast])
  · simp only [List.length_drop]
    exact le_refl _

/-- `bigint_div_by_int` by a positive divisor leaves a well-formed number when the
number divided is not negative (the final adjustment is not made). -/
theorem div_by_int_nonneg_well_formed (p : bigint) (d : Int) (hp : well_formed p) (hd : 0 < d)
    (hs : 0 ≤ p.sign) : well_formed (bigint_div_by_int p d).2 := by
  unfold bigint_div_by_int
  rw [if_neg (by omega)]
  simp only [if_neg (by omega : ¬ d < 0)]
  by_cases hd1 : d ≠ 1
  · rw [if_pos hd1]
    obtain ⟨Q, -, -, -, -, hwf, -⟩ := div_int_core p d hp hd
    have hc : ¬ ((div_int_loop d 0 0 p.data.reverse).2 ≠ 0 ∧
        ((d < 0 ∧ p.sign > 0) ∨ (¬ d < 0 ∧ p.sign < 0))) := by
      intro h
      omega
    rw [if_neg hc]
    exact hwf
  · rw [if_neg hd1]
    exact hp

/-- Dividing in two steps by positive divisors, rounding down each time, divides by
the product. -/
theorem ediv_ediv_pos (v a b : Int) (ha : 0 < a) (hb : 0 < b) : v / a / b = v / (a * b) := by
  have h1 := Int.emod_add_ediv v a
  have h2 := Int.emod_add_ediv (v / a) b
  have r1 := Int.emod_nonneg v (by omega : a ≠ 0)
  have r2 := Int.emod_lt_of_pos v ha
  have s1 := Int.emod_nonneg (v / a) (by omega : b ≠ 0)
  have s2 := Int.emod_lt_of_pos (v / a) hb
  symm
  refine ((Int.ediv_emod_unique (Int.mul_pos ha hb)).2
    ⟨(?_ : (a * (v / a % b) + v % a) + a * b * (v / a / b) = v), ?_, ?_⟩).1
  · linear_combination h1 + a * h2
  · have : 0 ≤ a * (v / a % b) := Int.mul_nonneg (le_of_lt ha) s1
    omega
  · have h3 : a * (v / a % b + 1) ≤ a * b := Int.mul_le_mul_of_nonneg_left (by omega) (le_of_lt ha)
    have e : a * (v / a % b + 1) = a * (v / a % b) + a := by ring
    omega

/-- `bigint_div_by_pow_10` of a well-formed number that is not negative, for an
exponent `n >= 0`: a well-formed number, the value divided by `10^n` rounded down. -/
theorem div_by_pow_10_nat (x : bigint) (n : Nat) (hx : well_formed x) (h0 : 0 ≤ value x) :
    well_formed (bigint_div_by_pow_10 x n) ∧
    value (bigint_div_by_pow_10 x n) = value x / 10 ^ n ∧
    (9 * x.data_len ≤ n → bigint_div_by_pow_10 x n = bigint_set_zero x) := by
  have hab := abs_value x hx
  rw [abs_of_nonneg h0] at hab
  have hrange := hx.2.2.1
  have hsv := seg_value_lt_pow x.data hrange
  have hsg : 0 ≤ x.sign := by
    have := loose_value_sign 0 x (loose_of_well_formed x hx)
    have := hx.1
    omega
  have hlen1 : 1 ≤ x.data_len := hx.2.1
  by_cases hn : n = 0
  · subst hn
    refine ⟨hx, ?_, fun h => by omega⟩
    show value x = _
    simp
  · have e1 : (((n : Int) / 9).toNat) = n / 9 := by omega
    have e2 : (((n : Int) % 9).toNat) = n % 9 := by omega
    have hsplit := pow_split n
    unfold bigint_div_by_pow_10 div_by_pow_10_pos
    rw [if_neg (by omega), if_pos (by omega)]
    simp only [e1, e2, pow10_loop_eq, Int.one_mul]
    by_cases hts : x.data_len ≤ n / 9
    · rw [if_pos hts]
      obtain ⟨z1, z2, -⟩ := set_zero_spec x (mem_size_pos x hx)
      refine ⟨z1, ?_, fun _ => rfl⟩
      rw [z2]
      symm
      apply Int.ediv_eq_zero_of_lt h0
      have h1 : BIGINT_RADIX ^ x.data.length ≤ BIGINT_RADIX ^ (n / 9) :=
        pow_le_pow_right₀ (by norm_num) hts
      have h2 : BIGINT_RADIX ^ (n / 9) ≤ (10 : Int) ^ n := by
        rw [← hsplit]
        have h3 : (1 : Int) ≤ 10 ^ (n % 9) := one_le_pow₀ (by norm_num)
        have h4 : (0 : Int) ≤ BIGINT_RADIX ^ (n / 9) := by positivity
        nlinarith
      omega
    · rw [if_neg hts]
      have hp1 := drop_segments_well_formed x (n / 9) hx (by omega)
      have hd0 : (0 : Int) < 10 ^ (n % 9) := by positivity
      obtain ⟨-, dv⟩ := div_by_int_spec _ (10 ^ (n % 9)) hp1 (by omega)
      refine ⟨div_by_int_nonneg_well_formed _ _ hp1 hd0 hsg, ?_, fun h => by omega⟩
      rw [dv, Int.fdiv_eq_ediv _ (le_of_lt hd0)]
      have hv1 : value (⟨x.sign, x.data.drop (n / 9), x.data_len - n / 9⟩ : bigint) =
          value x / BIGINT_RADIX ^ (n / 9) := by
        have hdrop := seg_value_drop_div x.data (n / 9)
          (by unfold bigint.data_len at hts; omega) hrange
        rw [hab]
        unfold value
        simp only
        rw [hdrop]
        rcases hx.1 with h | h | h
        · omega
        · have := hx.2.2.2.2.1.1 h
          rw [h, this]
          simp [seg_value]
        · rw [h]; ring
      rw [hv1, ediv_ediv_pos _ _ _ (by positivity) hd0, ← hsplit, Int.mul_comm]

/-- C34: for a well-formed `x` that is not negative and `k >= 0`,
`bigint_div_by_pow_10` leaves a well-formed number whose value is the floor of
`value(x) / 10^k`; when `k` is at least 9 times the length the number is set to zero;
and for a negative exponent (above `INT_MIN`, whose negation is not an `int`) the
function is `bigint_mul_by_pow_10` of the negated exponent. -/
theorem div_by_pow_10_floor (x : bigint) (k : Int) (hx : well_formed x) (h0 : 0 ≤ value x)
    (hk : 0 ≤ k) :
    well_formed (bigint_div_by_pow_10 x k) ∧
    value (bigint_div_by_pow_10 x k) = Int.fdiv (value x) (10 ^ k.toNat) ∧
    (9 * (x.data_len : Int) ≤ k →
      bigint_div_by_pow_10 x k = bigint_set_zero x ∧ value (bigint_div_by_pow_10 x k) = 0) ∧
    (∀ j : Int, -2147483648 < j → j < 0 →
      bigint_div_by_pow_10 x j = bigint_mul_by_pow_10 x (-j)) := by
  obtain ⟨n, rfl⟩ := Int.eq_ofNat_of_zero_le hk
  obtain ⟨h1, h2, h3⟩ := div_by_pow_10_nat x n hx h0
  refine ⟨h1, ?_, ?_, ?_⟩
  · rw [h2, Int.fdiv_eq_ediv _ (by positivity)]
    rfl
  · intro h
    have h4 := h3 (by omega)
    refine ⟨h4, ?_⟩
    rw [h4]
    exact (set_zero_spec x (mem_size_pos x hx)).2.1
  · intro j _ hj
    unfold bigint_div_by_pow_10 bigint_mul_by_pow_10
    rw [if_pos hj, if_neg (by omega), if_pos (by omega)]

/-- C34 at 5987654321123456789 and the exponent 12: the quotient is 5987654. -/
theorem div_by_pow_10_floor_witness :
    well_formed ⟨1, [123456789, 987654321, 5], 4⟩ ∧
    0 ≤ value ⟨1, [123456789, 987654321, 5], 4⟩ ∧
    value (bigint_div_by_pow_10 ⟨1, [123456789, 987654321, 5], 4⟩ 12) =
      Int.fdiv (value ⟨1, [123456789, 987654321, 5], 4⟩) (10 ^ (12 : Int).toNat) ∧
    bigint_div_by_pow_10 ⟨1, [123456789, 987654321, 5], 4⟩ 12 = ⟨1, [5987654], 2⟩ ∧
    bigint_div_by_pow_10 ⟨1, [123456789, 987654321, 5], 4⟩ 27 = ⟨0, [0], 4⟩ ∧
    bigint_div_by_pow_10 ⟨1, [123456789, 987654321, 5], 4⟩ (-3) =
      bigint_mul_by_pow_10 ⟨1, [123456789, 987654321, 5], 4⟩ 3 :=
  ⟨by decide, by decide,
    (div_by_pow_10_floor ⟨1, [123456789, 987654321, 5], 4⟩ 12 (by decide) (by decide)
      (by decide)).2.1,
    by decide, by decide,
    (div_by_pow_10_floor ⟨1, [123456789, 987654321, 5], 4⟩ 12 (by decide) (by decide)
      (by decide)).2.2.2 (-3) (by decide) (by decide)⟩

/-- For an exponent from 1 to 8 no segment is removed, and `bigint_div_by_pow_10`
and `bigint_div_by_int` by the same power of ten leave the same value, the floor of
the quotient, whatever the sign of the number. -/
theorem div_by_pow_10_below_segment (x : bigint) (n : Nat) (hx : well_formed x)
    (h1 : 1 ≤ n) (h8 : n ≤ 8) :
    value (bigint_div_by_pow_10 x n) = Int.fdiv (value x) (10 ^ n) ∧
    value (bigint_div_by_int x (10 ^ n)).2 = Int.fdiv (value x) (10 ^ n) := by
  have hd0 : (0 : Int) < 10 ^ n := by positivity
  have e1 : (((n : Int) / 9).toNat) = 0 := by omega
  have e2 : (((n : Int) % 9).toNat) = n := by omega
  have hlen1 : 1 ≤ x.data_len := hx.2.1
  refine ⟨?_, (div_by_int_spec x _ hx (by omega)).2⟩
  unfold bigint_div_by_pow_10 div_by_pow_10_pos
  rw [if_neg (by omega), if_pos (by omega)]
  simp only [e1, e2, pow10_loop_eq, Int.one_mul]
  rw [if_neg (by omega)]
  have hp1 := drop_segments_well_formed x 0 hx (by omega)
  rw [(div_by_int_spec _ (10 ^ n) hp1 (by omega)).2]
  rfl

/-! ## The frame of `bigint_divmod` -/

/-- C36: for well-formed `a` and `b`, every call of `bigint_divmod` that returns
hands back `a` and `b` with the sign, the segments and the capacity they had,
whatever `q` and `r` hold and for every reciprocal estimate: on the paths that negate
`b` or `a` the sign changes come in pairs, and the checks before the returns leave
well-formed numbers alone. -/
theorem divmod_inputs_unchanged (newton : bigint → Int → bigint × Int) (a b q r : bigint)
    (ha : well_formed a) (hb : well_formed b) :
    ∀ res, bigint_divmod newton a b q r = some res → res.2.1 = a ∧ res.2.2.1 = b :=
  fun res h => divmod_frame newton a b q r ha hb res h

/-- C36 at -7000000005 and -9000000003, where both signs are flipped on the way: the
call returns, with the two inputs as they were. -/
theorem divmod_inputs_unchanged_witness :
    well_formed ⟨-1, [5, 7], 4⟩ ∧ well_formed ⟨-1, [3, 9], 4⟩ ∧
    bigint_divmod (fun _ _ => (bigint_init, 0)) ⟨-1, [5, 7], 4⟩ ⟨-1, [3, 9], 4⟩
        bigint_init bigint_init =
      some (bigint_errno.BIGINT_NOERR, ⟨-1, [5, 7], 4⟩, ⟨-1, [3, 9], 4⟩, ⟨0, [0], 4⟩,
        ⟨-1, [5, 7], 4⟩) ∧
    ((bigint_errno.BIGINT_NOERR, (⟨-1, [5, 7], 4⟩ : bigint), (⟨-1, [3, 9], 4⟩ : bigint),
        (⟨0, [0], 4⟩ : bigint), (⟨-1, [5, 7], 4⟩ : bigint)) :
        bigint_errno × bigint × bigint × bigint × bigint).2.1 = ⟨-1, [5, 7], 4⟩ ∧
    ((bigint_errno.BIGINT_NOERR, (⟨-1, [5, 7], 4⟩ : bigint), (⟨-1, [3, 9], 4⟩ : bigint),
        (⟨0, [0], 4⟩ : bigint), (⟨-1, [5, 7], 4⟩ : bigint)) :
        bigint_errno × bigint × bigint × bigint × bigint).2.2.1 = ⟨-1, [3, 9], 4⟩ :=
  ⟨by decide, by decide, by decide,
    divmod_inputs_unchanged (fun _ _ => (bigint_init, 0)) ⟨-1, [5, 7], 4⟩ ⟨-1, [3, 9], 4⟩
      bigint_init bigint_init (by decide) (by decide) _ (by decide)⟩

end Bigint
